import Mathlib

/-!
The substring enumeration engine of `substrings.cc` (substring-frequencies).

A shallow embedding of `CommonSubstringFinder` (suffix filter, LCP builder,
LCP-interval enumerator, B-corpus lookup, top-K accumulator, unique and cover
post-selection) together with the properties stated about it.

Conventions of the embedding.

* A buffer (`const char *` plus size) is a `List Nat` of byte values; a pointer
  into a buffer is a `Nat` offset from its base.  Reading a byte outside the
  buffer has no defined result in C++; functions that read memory return
  `Option`, and `none` stands for such a read.  Forming a pointer past the end
  without reading through it is not treated as a fault.
* `saidx_t` offsets and `size_t` values are `Nat`; the one `size_t` operation
  that can wrap (the double `--length` of colour mode) is taken modulo `2 ^ 64`.
* The sentinel `(size_t)-1` of the inverse array is `none : Option Nat`.
* `double` values are IEEE 754 binary64 numbers: the finite ones are rational
  numbers, and every conversion, sum and quotient of the posterior is rounded
  to the nearest one, ties to even.  The score fields of the records hold finite
  values; a run that has to store an infinity or NaN there yields `none`.
* Loops are structural recursions on a bound of their iteration count; a loop
  whose bound is used up yields `none`.
* `divsufsort` is an external primitive: its result (a lexicographically sorted
  permutation of `[0, size)`) is an argument of `FindSubstringFrequencies`.
* `std::sort`, `std::push_heap` and `std::pop_heap` are the algorithms of
  libstdc++ (`bits/stl_algo.h`, `bits/stl_heap.h`), followed statement by
  statement: they are run whatever the comparator answers, and an iterator
  that is dereferenced outside the array makes the run yield `none`.
* A stack (`std::vector` used with `push_back`/`pop_back`) is a list whose head
  is `back()`.
-/

namespace SubstringFrequencies

/-! ## Bytes and buffers -/

/-- The document delimiter, `#define DELIMITER '\0'`. -/
def DELIMITER : Nat := 0

/-- The `n` bytes at `text + off`, when they all lie inside the buffer. -/
def bytesAt (text : List Nat) (off n : Nat) : Option (List Nat) :=
  if off + n ≤ text.length then some ((text.drop off).take n) else none

/-- The byte string of an ASCII string literal (used for concrete inputs). -/
def ascii (s : String) : List Nat := s.toList.map Char.toNat

/-! ## FilterSuffixes (substrings.cc 470-494) -/

/-- The loop `for (; i != end; ++i)` of `FilterSuffixes`.  `arr` is the array
being compacted in place, `i` the read index, `output` the write index and the
first argument the number of iterations left (`end - i`). -/
def FilterSuffixes.loop (do_color : Bool) (text : List Nat) :
    Nat → Nat → Nat → List Nat → Option (List Nat × Nat)
  | 0, _, output, arr => some (arr, output)
  | n + 1, i, output, arr =>
    match arr[i]? with
    | none => none
    | some o =>
      if do_color && (o &&& 1 != 0) then FilterSuffixes.loop do_color text n (i + 1) output arr
      else
        match text[o]? with
        | none => none
        | some ch =>
          if ch == DELIMITER then FilterSuffixes.loop do_color text n (i + 1) output arr
          else if (ch &&& 0xc0) == 0x80 then
            FilterSuffixes.loop do_color text n (i + 1) output arr
          else FilterSuffixes.loop do_color text n (i + 1) (output + 1) (arr.set output o)

/-- The function `FilterSuffixes(input, text, count)`: returns the array after the in-place
compaction and the returned count `output - input`. -/
def FilterSuffixes (do_color : Bool) (input text : List Nat) (count : Nat) :
    Option (List Nat × Nat) :=
  FilterSuffixes.loop do_color text count 0 0 input

/-! ## BuildLCPArray (substrings.cc 129-168) -/

/-- The loop `for (i = 0; i < suffix_count; ++i) inverse[suffixes[i]] = i`. -/
def BuildLCPArray.fillInverse (suffixes : List Nat) :
    Nat → Nat → List (Option Nat) → Option (List (Option Nat))
  | 0, _, inverse => some inverse
  | n + 1, i, inverse =>
    match suffixes[i]? with
    | none => none
    | some o =>
      if o < inverse.length then
        BuildLCPArray.fillInverse suffixes n (i + 1) (inverse.set o (some i))
      else none

/-- The loop
`while (p1 != end && p0 != end && (*p1 != DELIMITER) && *p1++ == *p0++) ++h;`
with `p1`, `p0` as offsets from `text`.  The conditions are evaluated in the
source's order, so `*p0` is read only after `*p1` proved not to be the
delimiter.  The first argument bounds the number of iterations. -/
def BuildLCPArray.extend (text : List Nat) : Nat → Nat → Nat → Nat → Option Nat
  | 0, _, _, _ => none
  | fuel + 1, p1, p0, h =>
    if p1 = text.length then some h
    else if p0 = text.length then some h
    else
      match text[p1]? with
      | none => none
      | some c1 =>
        if c1 = DELIMITER then some h
        else
          match text[p0]? with
          | none => none
          | some c0 =>
            if c1 = c0 then BuildLCPArray.extend text fuel (p1 + 1) (p0 + 1) (h + 1)
            else some h

/-- The loop `for (i = 0; i < text_length; ++i)` of `BuildLCPArray`; the first
argument is the number of iterations left. -/
def BuildLCPArray.loop (text suffixes : List Nat) (inverse : List (Option Nat)) :
    Nat → Nat → Nat → List Nat → Option (List Nat)
  | 0, _, _, result => some result
  | n + 1, i, h, result =>
    match inverse[i]? with
    | none => none
    | some none => BuildLCPArray.loop text suffixes inverse n (i + 1) (h - 1) result
    | some (some x) =>
      match suffixes[x + 1]? with
      | none => none
      | some j =>
        match BuildLCPArray.extend text (text.length + 1) (i + h) (j + h) h with
        | none => none
        | some h1 =>
          if x < result.length then
            BuildLCPArray.loop text suffixes inverse n (i + 1) (h1 - 1) (result.set x h1)
          else none

/-- The call `v.resize(n)` on a `std::vector<size_t>`: new slots are zero. -/
def resize (v : List Nat) (n : Nat) : List Nat :=
  v.take n ++ List.replicate (n - v.length) 0

/-- The function `BuildLCPArray(result, text, text_length, suffixes, suffix_count)`;
`text_length` is `text.length` and `suffixes` is the whole allocated array (the
entries past `suffix_count` included). -/
def BuildLCPArray (result text suffixes : List Nat) (suffix_count : Nat) : Option (List Nat) :=
  match BuildLCPArray.fillInverse suffixes suffix_count 0 (List.replicate text.length none) with
  | none => none
  | some inverse =>
    BuildLCPArray.loop text suffixes inverse text.length 0 0 (resize result suffix_count)

/-! ## Library primitives used by the finder -/

/-- The result of `memcmp` on two byte strings of the same length: negative, zero or
positive as the first differing byte (compared as `unsigned char`) decides. -/
def memcmp : List Nat → List Nat → Int
  | a :: l, b :: r => if a < b then -1 else if b < a then 1 else memcmp l r
  | _, _ => 0

/-- The call `memcmp(buf1 + off1, buf2 + off2, n)`; both ranges must lie inside their
buffers. -/
def memcmpAt (buf1 : List Nat) (off1 : Nat) (buf2 : List Nat) (off2 n : Nat) : Option Int :=
  match bytesAt buf1 off1 n, bytesAt buf2 off2 n with
  | some a, some b => some (memcmp a b)
  | _, _ => none

/-- The result of `memmem(haystack, needle) != nullptr` on byte strings: the needle occurs as a
contiguous block of the haystack (the empty needle always does). -/
def memmem (haystack needle : List Nat) : Bool :=
  haystack.tails.any (fun t => needle.isPrefixOf t)

/-- The test `isspace(c)` in the C locale on a byte value. -/
def isspace (c : Nat) : Bool :=
  c == 32 || (9 ≤ c && c ≤ 13)

/-- The binary search shared by `std::lower_bound` and `std::upper_bound` over the index range
`[first, first + len)`: `goRight middle` says whether the search continues to the right of
`middle` (`comp(*middle, val)` for `lower_bound`, `!comp(val, *middle)` for `upper_bound`).
The first argument bounds the number of halvings; `len` is enough. -/
def boundSearch (goRight : Nat → Option Bool) : Nat → Nat → Nat → Option Nat
  | 0, first, _ => some first
  | fuel + 1, first, len =>
    if len = 0 then some first
    else
      let half := len / 2
      let middle := first + half
      match goRight middle with
      | none => none
      | some true => boundSearch goRight fuel (middle + 1) (len - half - 1)
      | some false => boundSearch goRight fuel first half

/-- The call `std::lower_bound(base + first, base + last, val, comp)` as an index from `base`;
`comp i` is `comp(base[i], val)`. -/
def lower_bound (comp : Nat → Option Bool) (first last : Nat) : Option Nat :=
  boundSearch comp (last - first) first (last - first)

/-- The call `std::upper_bound(base + first, base + last, val, comp)` as an index from `base`;
`comp i` is `comp(val, base[i])`. -/
def upper_bound (comp : Nat → Option Bool) (first last : Nat) : Option Nat :=
  boundSearch (fun i => (comp i).map (fun b => !b)) (last - first) first (last - first)

/-! ## Records and comparators (substrings.cc 21-112) -/

/-- The record `struct Match`: `string` is the offset of the match from `input0`; `score` is the
`double` score, a finite binary64 value and so a rational number. -/
structure Match where
  string : Nat
  string_length : Nat
  score : ℚ
  deriving DecidableEq

/-- The record `struct Substring`: `text` is the offset of the candidate from `input0`. -/
structure Substring where
  text : Nat
  length : Nat
  count : Nat
  deriving DecidableEq

/-- The comparator `struct CompareInBlock` with its two private members. -/
structure CompareInBlock where
  data_ : List Nat
  size_ : Nat

/-- The constructor `CompareInBlock(length, data, size) : data_(data), size_(size) {}`: the
first parameter initialises no member. -/
def CompareInBlock.new (_length : Nat) (data : List Nat) (size : Nat) : CompareInBlock :=
  { data_ := data, size_ := size }

/-- The call `operator()(const saidx_t &lhs, const char *rhs)` (used by `lower_bound`); `rhs` is
the offset `rhs` inside the buffer `rhsBuf`. -/
def CompareInBlock.less (c : CompareInBlock) (lhs : Nat) (rhsBuf : List Nat) (rhs : Nat) :
    Option Bool :=
  let lhs_length := c.size_ - lhs
  match memcmpAt c.data_ lhs rhsBuf rhs (min c.size_ lhs_length) with
  | none => none
  | some cmp => some (decide (cmp < 0) || (decide (cmp = 0) && decide (lhs_length < c.size_)))

/-- The call `operator()(const char *lhs, const saidx_t &rhs)` (used by `upper_bound`); `lhs` is
the offset `lhs` inside the buffer `lhsBuf`. -/
def CompareInBlock.greater (c : CompareInBlock) (lhsBuf : List Nat) (lhs : Nat) (rhs : Nat) :
    Option Bool :=
  let rhs_length := c.size_ - rhs
  if rhs_length < c.size_ then some true
  else
    match memcmpAt lhsBuf lhs c.data_ rhs c.size_ with
    | none => none
    | some cmp => some (decide (0 ≠ cmp))

/-- The bytes a match views, `[string, string + string_length)` of `input0` (cut at the end of
the buffer when the match runs past it). -/
def Match.bytes (input0 : List Nat) (m : Match) : List Nat :=
  (input0.drop m.string).take m.string_length

/-- The comparator `CompareScore::operator()`. The call `memcmp(lhs.string, rhs.string,
rhs.string_length)` is made only when both lengths are equal. -/
def CompareScore (input0 : List Nat) (lhs rhs : Match) : Bool :=
  if lhs.score ≠ rhs.score then decide (lhs.score > rhs.score)
  else if lhs.string_length ≠ rhs.string_length then
    decide (lhs.string_length > rhs.string_length)
  else decide (0 ≥ memcmp (lhs.bytes input0) (rhs.bytes input0))

/-- The predicate `CompareSuperstrings(base)(rhs)`: `rhs` occurs inside `base`. -/
def CompareSuperstrings (input0 : List Nat) (base rhs : Match) : Bool :=
  memmem (base.bytes input0) (rhs.bytes input0)

/-- The comparator `CompareLength::operator()`. -/
def CompareLength (input0 : List Nat) (lhs rhs : Match) : Bool :=
  if lhs.string_length ≠ rhs.string_length then
    decide (lhs.string_length < rhs.string_length)
  else decide (0 ≥ memcmp (lhs.bytes input0) (rhs.bytes input0))

/-- The comparator `StringComparator::operator()`. -/
def StringComparator (input0 : List Nat) (lhs rhs : Match) : Bool :=
  let n := min lhs.string_length rhs.string_length
  let ret := memcmp ((lhs.bytes input0).take n) ((rhs.bytes input0).take n)
  if ret = 0 then decide (lhs.string_length < rhs.string_length) else decide (ret < 0)

/-! ## Heap primitives (`std::push_heap`, `std::pop_heap`) -/

/-- The sift-up loop of `std::push_heap`: move the hole towards `topIndex` while the parent
compares before `value`, then store `value` in the hole.  The first argument bounds the number
of steps. -/
def pushHeapLoop {α : Type} (comp : α → α → Bool) (value : α) :
    Nat → List α → Nat → Nat → List α
  | 0, a, holeIndex, _ => a.set holeIndex value
  | fuel + 1, a, holeIndex, topIndex =>
    let parent := (holeIndex - 1) / 2
    if holeIndex > topIndex then
      match a[parent]? with
      | some p =>
        if comp p value then pushHeapLoop comp value fuel (a.set holeIndex p) parent topIndex
        else a.set holeIndex value
      | none => a.set holeIndex value
    else a.set holeIndex value

/-- The call `std::push_heap(a.begin(), a.end(), comp)`. -/
def push_heap {α : Type} (comp : α → α → Bool) (a : List α) : List α :=
  match a.getLast? with
  | none => a
  | some value => pushHeapLoop comp value a.length a (a.length - 1) 0

/-- The sift-down loop of `std::pop_heap`: move the hole at `holeIndex` down to a leaf of the
heap `[0, len)`, every time towards the child that does not compare before its sibling; returns
the array and the final hole.  The first argument bounds the number of steps. -/
def adjustHeapLoop {α : Type} (comp : α → α → Bool) (len : Nat) :
    Nat → List α → Nat → List α × Nat
  | 0, a, holeIndex => (a, holeIndex)
  | fuel + 1, a, holeIndex =>
    if holeIndex < (len - 1) / 2 then
      let right := 2 * (holeIndex + 1)
      match a[right]?, a[right - 1]? with
      | some r, some l =>
        let child := if comp r l then right - 1 else right
        let c := if comp r l then l else r
        adjustHeapLoop comp len fuel (a.set holeIndex c) child
      | _, _ => (a, holeIndex)
    else if len % 2 = 0 ∧ holeIndex = (len - 2) / 2 then
      let right := 2 * (holeIndex + 1)
      match a[right - 1]? with
      | some l => (a.set holeIndex l, right - 1)
      | none => (a, holeIndex)
    else (a, holeIndex)

/-- The calls `std::pop_heap(a.begin(), a.end(), comp); a.pop_back();`: the front leaves the
array and the remaining elements are a heap again. -/
def pop_heap_pop_back {α : Type} (comp : α → α → Bool) (a : List α) : List α :=
  match a.getLast? with
  | none => a
  | some value =>
    if a.length > 1 then
      let len := a.length - 1
      let r := adjustHeapLoop comp len len a.dropLast 0
      pushHeapLoop comp value len r.1 r.2 0
    else a.dropLast

/-! ## `std::sort` as libstdc++ implements it (`bits/stl_algo.h`, `bits/stl_heap.h`) -/

/-- The call `std::iter_swap(a + i, a + j)`. -/
def iter_swap {α : Type} (a : List α) (i j : Nat) : Option (List α) :=
  match a[i]?, a[j]? with
  | some x, some y => some ((a.set i y).set j x)
  | _, _ => none

/-- The loop `while (comp(val, next)) { *last = *next; last = next; --next; }` of
`__unguarded_linear_insert`, walking the slots before `last` from right to left (the argument
is that part of the array, reversed): the slots passed move one place to the right and `val`
is stored before them.  `none` when `next` leaves the array at its front. -/
def unguarded_linear_insert.walk {α : Type} (comp : α → α → Bool) (val : α) :
    List α → Option (List α)
  | [] => none
  | y :: rest =>
    if comp val y then (unguarded_linear_insert.walk comp val rest).map (fun r => y :: r)
    else some (val :: y :: rest)

/-- The call `std::__unguarded_linear_insert(a + last, comp)`. -/
def unguarded_linear_insert {α : Type} (comp : α → α → Bool) (a : List α) (last : Nat) :
    Option (List α) :=
  match a[last]? with
  | none => none
  | some val =>
    (unguarded_linear_insert.walk comp val (a.take last).reverse).map
      (fun r => r.reverse ++ a.drop (last + 1))

/-- The loop `for (i = first + 1; i != last; ++i)` of `__insertion_sort` with `first` the front
of the array; the first argument is the number of iterations left. -/
def insertion_sort.loop {α : Type} (comp : α → α → Bool) : Nat → Nat → List α → Option (List α)
  | 0, _, a => some a
  | k + 1, i, a =>
    match a[i]?, a[0]? with
    | some val, some front =>
      if comp val front then
        insertion_sort.loop comp k (i + 1) (val :: a.take i ++ a.drop (i + 1))
      else
        match unguarded_linear_insert comp a i with
        | none => none
        | some a1 => insertion_sort.loop comp k (i + 1) a1
    | _, _ => none

/-- The call `std::__insertion_sort(a, a + last, comp)`. -/
def insertion_sort {α : Type} (comp : α → α → Bool) (a : List α) (last : Nat) :
    Option (List α) :=
  if last = 0 then some a else insertion_sort.loop comp (last - 1) 1 a

/-- The call `std::__unguarded_insertion_sort(a + i, a + i + k, comp)`. -/
def unguarded_insertion_sort {α : Type} (comp : α → α → Bool) :
    Nat → Nat → List α → Option (List α)
  | 0, _, a => some a
  | k + 1, i, a =>
    match unguarded_linear_insert comp a i with
    | none => none
    | some a1 => unguarded_insertion_sort comp k (i + 1) a1

/-- The constant `_S_threshold`. -/
def S_threshold : Nat := 16

/-- The call `std::__final_insertion_sort(a, a + size, comp)`. -/
def final_insertion_sort {α : Type} (comp : α → α → Bool) (a : List α) : Option (List α) :=
  if a.length > S_threshold then
    match insertion_sort comp a S_threshold with
    | none => none
    | some a1 => unguarded_insertion_sort comp (a.length - S_threshold) S_threshold a1
  else insertion_sort comp a a.length

/-- The call `std::__move_median_to_first(a + result, a + ia, a + ib, a + ic, comp)`. -/
def move_median_to_first {α : Type} (comp : α → α → Bool) (a : List α)
    (result ia ib ic : Nat) : Option (List α) :=
  match a[ia]?, a[ib]?, a[ic]? with
  | some x, some y, some z =>
    if comp x y then
      if comp y z then iter_swap a result ib
      else if comp x z then iter_swap a result ic
      else iter_swap a result ia
    else if comp x z then iter_swap a result ia
    else if comp y z then iter_swap a result ic
    else iter_swap a result ib
  | _, _, _ => none

/-- The loop `while (comp(first, pivot)) ++first;` over the slots from `first` on: the index
where it stops, `none` when `first` leaves the array at its end. -/
def unguarded_partition.up {α : Type} (comp : α → α → Bool) (pivot : α) :
    List α → Nat → Option Nat
  | [], _ => none
  | x :: rest, first =>
    if comp x pivot then unguarded_partition.up comp pivot rest (first + 1) else some first

/-- The loop `while (comp(pivot, last)) --last;` over the slots from `last` down (the list
argument is the array up to `last`, reversed): the index where it stops, `none` when `last`
leaves the array at its front. -/
def unguarded_partition.down {α : Type} (comp : α → α → Bool) (pivot : α) :
    List α → Nat → Option Nat
  | [], _ => none
  | x :: rest, last =>
    if comp pivot x then unguarded_partition.down comp pivot rest (last - 1) else some last

/-- The call `std::__unguarded_partition(a + first, a + last, a + pivot, comp)`: the array and
the returned index.  The first argument bounds the number of rounds; every round moves `first`
up by at least one slot, so a bound of `size + 1 - first` is used up only when `first` has left
the array. -/
def unguarded_partition {α : Type} (comp : α → α → Bool) (pivot : Nat) :
    Nat → List α → Nat → Nat → Option (List α × Nat)
  | 0, _, _, _ => none
  | fuel + 1, a, first, last =>
    match a[pivot]? with
    | none => none
    | some p =>
      match unguarded_partition.up comp p (a.drop first) first with
      | none => none
      | some first1 =>
        match unguarded_partition.down comp p (a.take last).reverse (last - 1) with
        | none => none
        | some last1 =>
          if first1 < last1 then
            match iter_swap a first1 last1 with
            | none => none
            | some a1 => unguarded_partition comp pivot fuel a1 (first1 + 1) last1
          else some (a, first1)

/-- The call `std::__unguarded_partition_pivot(a + first, a + last, comp)`. -/
def unguarded_partition_pivot {α : Type} (comp : α → α → Bool) (a : List α)
    (first last : Nat) : Option (List α × Nat) :=
  let mid := first + (last - first) / 2
  match move_median_to_first comp a first (first + 1) mid (last - 1) with
  | none => none
  | some a1 => unguarded_partition comp first (a1.length + 1) a1 (first + 1) last

/-- The call `std::__adjust_heap(h, holeIndex, len, value, comp)`. -/
def adjust_heap {α : Type} (comp : α → α → Bool) (h : List α) (holeIndex len : Nat)
    (value : α) : List α :=
  let r := adjustHeapLoop comp len len h holeIndex
  pushHeapLoop comp value len r.1 r.2 holeIndex

/-- The loop `while (true)` of `__make_heap`, `parent` counting down to 0. -/
def make_heap.loop {α : Type} (comp : α → α → Bool) (len : Nat) : Nat → List α → List α
  | 0, h =>
    match h[0]? with
    | some value => adjust_heap comp h 0 len value
    | none => h
  | parent + 1, h =>
    match h[parent + 1]? with
    | some value => make_heap.loop comp len parent (adjust_heap comp h (parent + 1) len value)
    | none => h

/-- The call `std::__make_heap(h, h + size, comp)`. -/
def make_heap {α : Type} (comp : α → α → Bool) (h : List α) : List α :=
  if h.length < 2 then h else make_heap.loop comp h.length ((h.length - 2) / 2) h

/-- The loop `while (last - first > 1) { --last; __pop_heap(first, last, last, comp); }` of
`__sort_heap`. -/
def sort_heap.loop {α : Type} (comp : α → α → Bool) : Nat → List α → List α
  | last + 2, h =>
    match h[last + 1]?, h[0]? with
    | some value, some front =>
      sort_heap.loop comp (last + 1) (adjust_heap comp (h.set (last + 1) front) 0 (last + 1) value)
    | _, _ => h
  | _, h => h

/-- The call `std::__partial_sort(a + first, a + last, a + last, comp)`, the heap sort that
`__introsort_loop` falls back on: `__heap_select` is `__make_heap` here (its loop over
`[middle, last)` is empty), followed by `__sort_heap`. -/
def heap_sort_range {α : Type} (comp : α → α → Bool) (a : List α) (first last : Nat) : List α :=
  let h := (a.drop first).take (last - first)
  a.take first ++ sort_heap.loop comp h.length (make_heap comp h) ++ a.drop last

/-- The function `std::__introsort_loop(a + first, a + last, depth_limit, comp)`.  Every round of
its `while` loop lowers `depth_limit`, the recursive call and the rest of the loop both go on
with the lowered value. -/
def introsort_loop {α : Type} (comp : α → α → Bool) : Nat → List α → Nat → Nat → Option (List α)
  | 0, a, first, last =>
    if last > first + S_threshold then some (heap_sort_range comp a first last) else some a
  | depth_limit + 1, a, first, last =>
    if last > first + S_threshold then
      match unguarded_partition_pivot comp a first last with
      | none => none
      | some (a1, cut) =>
        match introsort_loop comp depth_limit a1 cut last with
        | none => none
        | some a2 => introsort_loop comp depth_limit a2 first cut
    else some a

/-- The halving loop behind `std::__lg`; the first argument bounds the number of halvings. -/
def lg.go : Nat → Nat → Nat
  | 0, _ => 0
  | fuel + 1, n => if n ≥ 2 then lg.go fuel (n / 2) + 1 else 0

/-- The call `std::__lg(n)`: the position of the highest set bit of `n`. -/
def lg (n : Nat) : Nat := lg.go n n

/-- The call `std::sort(a.begin(), a.end(), comp)` as libstdc++ runs it, whatever the
comparator: `none` when an iterator is dereferenced outside the array, which happens only for a
comparator that is not a strict weak ordering on the elements. -/
def sort {α : Type} (comp : α → α → Bool) (a : List α) : Option (List α) :=
  if a.isEmpty then some a
  else
    match introsort_loop comp (lg a.length * 2) a 0 a.length with
    | none => none
    | some a1 => final_insertion_sort comp a1

/-! ## `double` arithmetic (IEEE 754 binary64, every operation rounded to nearest, ties to
even) -/

/-- A `double` value: a finite number (the two zeros are not told apart), an infinity or NaN. -/
inductive Double where
  | finite (q : ℚ)
  | inf (negative : Bool)
  | nan
  deriving DecidableEq

/-- The integer nearest to `n / d`, the even one of two equally near. -/
def Double.roundHalfEven (n d : Nat) : Nat :=
  let q := n / d
  let r := n % d
  if 2 * r < d then q else if d < 2 * r then q + 1 else if q % 2 = 0 then q else q + 1

/-- The exponent `e` with `2 ^ e ≤ n / d < 2 ^ (e + 1)`, for positive `n` and `d`. -/
def Double.binade (n d : Nat) : Int :=
  let e : Int := (lg n : Int) - (lg d : Int)
  if (if 0 ≤ e then decide (d * 2 ^ e.toNat ≤ n) else decide (d ≤ n * 2 ^ (-e).toNat)) then e
  else e - 1

/-- The `double` nearest to the positive fraction `n / d`, as a numerator and a denominator:
53 significant bits, exponents down to the subnormal quantum `2 ^ (-1074)`; `none` when the
rounded value is `2 ^ 1024` (overflow). -/
def Double.roundMagnitude (n d : Nat) : Option (Nat × Nat) :=
  let e : Int := max (Double.binade n d - 52) (-1074)
  if 0 ≤ e then
    let m := Double.roundHalfEven n (d * 2 ^ e.toNat)
    if 2 ^ 1024 ≤ m * 2 ^ e.toNat then none else some (m * 2 ^ e.toNat, 1)
  else some (Double.roundHalfEven (n * 2 ^ (-e).toNat) d, 2 ^ (-e).toNat)

/-- The `double` that an operation with the exact result `n / d` (`d > 0`) delivers. -/
def Double.round (n : Int) (d : Nat) : Double :=
  if n = 0 then Double.finite 0
  else
    match Double.roundMagnitude n.natAbs d with
    | none => Double.inf (decide (n < 0))
    | some (m, k) => Double.finite (mkRat (if n < 0 then -(m : Int) else (m : Int)) k)

/-- The conversion of a `size_t` value to `double`. -/
def Double.ofNat (n : Nat) : Double := Double.round (n : Int) 1

/-- The sum of two `double` values. -/
def Double.add : Double → Double → Double
  | Double.finite a, Double.finite b =>
    Double.round (a.num * (b.den : Int) + b.num * (a.den : Int)) (a.den * b.den)
  | Double.finite _, Double.inf s => Double.inf s
  | Double.inf s, Double.finite _ => Double.inf s
  | Double.inf s, Double.inf t => if s = t then Double.inf s else Double.nan
  | _, _ => Double.nan

/-- The quotient of two `double` values; a zero divisor is `+0`, which is the only zero that
the divisors of the posterior can be. -/
def Double.div : Double → Double → Double
  | Double.finite a, Double.finite b =>
    if b.num = 0 then
      if a.num = 0 then Double.nan else Double.inf (decide (a.num < 0))
    else
      Double.round (if b.num < 0 then -(a.num * (b.den : Int)) else a.num * (b.den : Int))
        (a.den * b.num.natAbs)
  | Double.finite _, Double.inf _ => Double.finite 0
  | Double.inf s, Double.finite b => Double.inf (s != decide (b.num < 0))
  | _, _ => Double.nan

/-- The comparison `x < y` of two `double` values; it is false when either is NaN. -/
def Double.lt : Double → Double → Bool
  | Double.finite a, Double.finite b => decide (a < b)
  | Double.finite _, Double.inf t => !t
  | Double.inf s, Double.finite _ => s
  | Double.inf s, Double.inf t => s && !t
  | _, _ => false

/-! ## The finder object -/

/-- The members of `CommonSubstringFinder` that the engine reads (declared in `substrings.h`): the
option flags and thresholds, the two corpora and the arrays derived from them.  The `double`
options `threshold` and `prior_bias` are finite and so rational numbers. -/
structure Finder where
  do_document : Bool := false
  do_color : Bool := false
  do_words : Bool := false
  do_probability : Bool := false
  do_unique : Bool := false
  do_cover : Bool := false
  skip_samecount_prefixes : Bool := false
  threshold : ℚ := 0
  threshold_count : Int := 0
  cover_threshold : Int := 0
  prior_bias : ℚ := 1
  input0_threshold : Nat := 0
  input1_threshold : Nat := 0
  input0 : List Nat := []
  input1 : List Nat := []
  input0_suffixes_ : List Nat := []
  input1_suffixes_ : List Nat := []
  input0_suffix_count_ : Nat := 0
  input1_suffix_count_ : Nat := 0
  input0_document_ends_ : List Nat := []
  input1_document_ends_ : List Nat := []
  input0_n_gram_counts_ : List Nat := []
  input1_n_gram_counts_ : List Nat := []

/-- One line of the streamed output of `FindSubstrings`: the candidate handed to `PrintString`
(`text` is its offset from `input0`) with the numbers printed before it, `count` and `count1`
(`input1_substring_count`) in count mode, `score` (`P_A_Bx`) in probability mode. -/
structure Line where
  text : Nat
  length : Nat
  count : Nat
  count1 : Nat
  score : ℚ
  deriving DecidableEq

/-- The state that `FindSubstrings` carries from candidate to candidate: the B cursor
`input1_offset`, the global accumulator `matches` and the lines printed so far. -/
structure State where
  input1_offset : Nat := 0
  matches_ : List Match := []
  out : List Line := []
  deriving DecidableEq

/-! ## AddDocument (substrings.cc 119-127) -/

/-- The function `AddDocument(documents, document_ends, offset)`: the index of the first document
end not below `offset` joins the set (a `std::set`, kept as a duplicate-free list). -/
def AddDocument (documents document_ends : List Nat) (offset : Nat) : List Nat :=
  match lower_bound (fun i => (document_ends[i]?).map (fun e => decide (e < offset)))
      0 document_ends.length with
  | some i => List.insert i documents
  | none => documents

/-! ## FindSubstrings (substrings.cc 170-353) -/

/-- Width of `size_t`, for the one place where the enumerator can wrap (`--length` twice). -/
def SIZE_BITS : Nat := 64

/-- The forward scan `for (size_t length = prefix; j <= input0_suffix_count_ && length >
previous_prefix;)` at rank `i`; the stack is a list whose head is `stack.back()`.  Returns the
stack after the scan.  The first argument bounds the number of iterations. -/
def FindSubstrings.scan (F : Finder) (shared_prefixes : List Nat) (i previous_prefix : Nat) :
    Nat → Nat → Nat → Nat → List Nat → List Substring → Option (List Substring)
  | 0, _, _, _, _, _ => none
  | fuel + 1, length, j, count, matching_documents, stack =>
    if j ≤ F.input0_suffix_count_ ∧ length > previous_prefix then
      match shared_prefixes[j - 1]? with
      | none => none
      | some p =>
        if p < length then
          let pushed : Option (List Substring) :=
            if stack.isEmpty ||
                (!F.skip_samecount_prefixes ||
                  (stack.head?.map (fun t => t.count)) != some count) then
              match F.input0_suffixes_[i]? with
              | none => none
              | some o =>
                some ({ count := if F.do_document then matching_documents.length else count,
                        length := length, text := o } :: stack)
            else some stack
          match pushed with
          | none => none
          | some stack1 =>
            let dec := if F.do_color then 2 else 1
            FindSubstrings.scan F shared_prefixes i previous_prefix fuel
              ((length + 2 ^ SIZE_BITS - dec) % 2 ^ SIZE_BITS) j count matching_documents stack1
        else if F.do_document then
          match F.input0_suffixes_[j]? with
          | none => none
          | some o =>
            FindSubstrings.scan F shared_prefixes i previous_prefix fuel length (j + 1)
              (count + 1) (AddDocument matching_documents F.input0_document_ends_ o) stack
        else
          FindSubstrings.scan F shared_prefixes i previous_prefix fuel length (j + 1)
            (count + 1) matching_documents stack
    else some stack

/-- The windowed search loop `do ... while (search_result == end && end != input1_suffixes_ +
input1_suffix_count_)`: `search first last` is the bound search over the ranks
`[first, last)`.  The first argument bounds the number of windows. -/
def FindSubstrings.windowed (search : Nat → Nat → Option Nat) (suffix_count : Nat) :
    Nat → Nat → Option Nat
  | 0, _ => none
  | fuel + 1, offset =>
    let end_ := min (offset + 1024) suffix_count
    match search offset end_ with
    | none => none
    | some search_result =>
      if search_result = end_ ∧ end_ ≠ suffix_count then
        FindSubstrings.windowed search suffix_count fuel search_result
      else some search_result

/-- The comparator call made by `lower_bound` on rank `r` of B's suffix array. -/
def FindSubstrings.lowerComp (F : Finder) (s : Substring) (r : Nat) : Option Bool :=
  match F.input1_suffixes_[r]? with
  | none => none
  | some o =>
    (CompareInBlock.new s.length F.input1 F.input1.length).less o F.input0 s.text

/-- The comparator call made by `upper_bound` on rank `r` of B's suffix array. -/
def FindSubstrings.upperComp (F : Finder) (s : Substring) (r : Nat) : Option Bool :=
  match F.input1_suffixes_[r]? with
  | none => none
  | some o =>
    (CompareInBlock.new s.length F.input1 F.input1.length).greater F.input0 s.text o

/-- The two windowed searches of one candidate: the new `input1_offset` and
`input1_match_end`. -/
def FindSubstrings.lookup (F : Finder) (s : Substring) (input1_offset : Nat) :
    Option (Nat × Nat) :=
  match FindSubstrings.windowed (lower_bound (FindSubstrings.lowerComp F s))
      F.input1_suffix_count_ (F.input1_suffix_count_ + 1) input1_offset with
  | none => none
  | some lo =>
    match FindSubstrings.windowed (upper_bound (FindSubstrings.upperComp F s))
        F.input1_suffix_count_ (F.input1_suffix_count_ + 1) lo with
    | none => none
    | some hi => some (lo, hi)

/-- The loop `for (size_t i = input1_offset; i != input1_match_end; ++i) AddDocument(...)`;
the first argument is the number of iterations left. -/
def FindSubstrings.countDocuments (F : Finder) : Nat → Nat → List Nat → Option (List Nat)
  | 0, _, documents => some documents
  | n + 1, i, documents =>
    match F.input1_suffixes_[i]? with
    | none => none
    | some o =>
      FindSubstrings.countDocuments F n (i + 1) (AddDocument documents F.input1_document_ends_ o)

/-- The word-boundary test of `do_words` (substrings.cc 290-296): `some true` when the candidate
passes, `some false` when one of the two `continue`s is taken. -/
def FindSubstrings.wordBoundary (F : Finder) (s : Substring) : Option Bool :=
  let before : Option Bool :=
    if s.text > 0 then (F.input0[s.text - 1]?).map isspace else some true
  match before with
  | none => none
  | some false => some false
  | some true =>
    if s.text + s.length < F.input0.length then (F.input0[s.text + s.length]?).map isspace
    else some true

/-- The posterior `P_A_Bx` of substrings.cc 299-316 as the code computes it, in `double`
arithmetic: `P_A = (double)n_gram_count0 / (n_gram_count0 + n_gram_count1)` and
`P_A_Bx = (double)(s.count + prior_bias) / (s.count + input1_substring_count + prior_bias /
P_A)`, the `size_t` operands converted to `double` and every operation rounded. -/
def FindSubstrings.posterior (F : Finder) (s : Substring) (input1_substring_count : Nat) :
    Double :=
  let n_gram_count0 := if s.length < F.input0_n_gram_counts_.length then
    F.input0_n_gram_counts_.getD s.length 0 else 0
  let n_gram_count1 := if s.length < F.input1_n_gram_counts_.length then
    F.input1_n_gram_counts_.getD s.length 0 else 0
  let P_A := Double.div (Double.ofNat n_gram_count0) (Double.ofNat (n_gram_count0 + n_gram_count1))
  Double.div (Double.add (Double.ofNat s.count) (Double.finite F.prior_bias))
    (Double.add (Double.ofNat (s.count + input1_substring_count))
      (Double.div (Double.finite F.prior_bias) P_A))

/-- The top-K accumulator of `do_unique` (substrings.cc 329-344): the new value of `matches`
after the candidate `m` arrives. -/
def FindSubstrings.accumulate (F : Finder) (ms : List Match) (m : Match) : List Match :=
  if F.threshold_count > 0 ∧ ms.length ≥ F.threshold_count.toNat then
    match ms.head? with
    | some front =>
      if front.score > m.score then ms
      else push_heap (CompareScore F.input0) (pop_heap_pop_back (CompareScore F.input0) ms ++ [m])
    | none => push_heap (CompareScore F.input0) (ms ++ [m])
  else if F.threshold_count > 0 then push_heap (CompareScore F.input0) (ms ++ [m])
  else ms ++ [m]

/-- The body of `while (!stack.empty())` for one popped candidate `s` (substrings.cc 238-347). -/
def FindSubstrings.candidate (F : Finder) (input0_threshold input1_threshold : Nat)
    (st : State) (s : Substring) : Option State :=
  if s.count < input0_threshold then some st
  else
    match FindSubstrings.lookup F s st.input1_offset with
    | none => none
    | some (input1_offset, input1_match_end) =>
      let st1 : State := { st with input1_offset := input1_offset }
      let counted : Option Nat :=
        if F.do_document then
          (FindSubstrings.countDocuments F (input1_match_end - input1_offset) input1_offset []).map
            List.length
        else some (input1_match_end - input1_offset)
      match counted with
      | none => none
      | some input1_substring_count =>
        if input1_substring_count > input1_threshold then some st1
        else
          match (if F.do_words then FindSubstrings.wordBoundary F s else some true) with
          | none => none
          | some false => some st1
          | some true =>
            let scored : Option (Option ℚ) :=
              if F.do_probability ∨ F.threshold ≠ 0 then
                let P_A_Bx := FindSubstrings.posterior F s input1_substring_count
                if Double.lt P_A_Bx (Double.finite F.threshold) then some none
                else if F.do_probability then
                  match P_A_Bx with
                  | Double.finite P => some (some P)
                  | _ => none
                else some (some 0)
              else some (some 0)
            match scored with
            | none => none
            | some none => some st1
            | some (some P) =>
              let P_A_Bx : ℚ := if F.do_probability then P else (s.count : ℚ)
              let m : Match := { string := s.text, string_length := s.length, score := P_A_Bx }
              let line : Line := { text := s.text, length := s.length, count := s.count,
                                   count1 := input1_substring_count, score := P_A_Bx }
              if F.do_unique then
                some { st1 with matches_ := FindSubstrings.accumulate F st1.matches_ m }
              else some { st1 with out := st1.out ++ [line] }

/-- The loop `while (!stack.empty())`: the candidates are taken from the back of the stack. -/
def FindSubstrings.drain (F : Finder) (input0_threshold input1_threshold : Nat) :
    List Substring → State → Option State
  | [], st => some st
  | s :: stack, st =>
    match FindSubstrings.candidate F input0_threshold input1_threshold st s with
    | none => none
    | some st1 => FindSubstrings.drain F input0_threshold input1_threshold stack st1

/-- The document set at the start of a scan (substrings.cc 194-205). -/
def FindSubstrings.firstDocuments (F : Finder) (i : Nat) : Option (List Nat) :=
  if F.do_document then
    match F.input0_suffixes_[i - 1]?, F.input0_suffixes_[i]? with
    | some a, some b =>
      some (AddDocument (AddDocument [] F.input0_document_ends_ a) F.input0_document_ends_ b)
    | _, _ => none
  else some []

/-- The loop `for (size_t i = 1; i < input0_suffix_count_; ++i)`; the first argument is the
number of iterations left. -/
def FindSubstrings.loop (F : Finder) (input0_threshold input1_threshold : Nat)
    (shared_prefixes : List Nat) : Nat → Nat → Nat → State → Option State
  | 0, _, _, st => some st
  | n + 1, i, previous_prefix, st =>
    match shared_prefixes[i - 1]? with
    | none => none
    | some prefix_ =>
      if prefix_ > previous_prefix then
        match FindSubstrings.firstDocuments F i with
        | none => none
        | some matching_documents =>
          match FindSubstrings.scan F shared_prefixes i previous_prefix
              (F.input0_suffix_count_ + prefix_ + 2) prefix_ (i + 1) 2 matching_documents [] with
          | none => none
          | some stack =>
            match FindSubstrings.drain F input0_threshold input1_threshold stack st with
            | none => none
            | some st1 =>
              FindSubstrings.loop F input0_threshold input1_threshold shared_prefixes n (i + 1)
                prefix_ st1
      else
        FindSubstrings.loop F input0_threshold input1_threshold shared_prefixes n (i + 1)
          prefix_ st

/-- The function `FindSubstrings(input0_threshold, input1_threshold)`; `ms` is the value of the
global `matches` on entry.  Returns the final cursor, `matches` and the printed lines. -/
def FindSubstrings (F : Finder) (input0_threshold input1_threshold : Nat) (ms : List Match) :
    Option State :=
  if F.input0_suffix_count_ = 0 then some { matches_ := ms }
  else
    match BuildLCPArray [] F.input0 F.input0_suffixes_ F.input0_suffix_count_ with
    | none => none
    | some shared_prefixes =>
      FindSubstrings.loop F input0_threshold input1_threshold shared_prefixes
        (F.input0_suffix_count_ - 1) 1 0 { matches_ := ms }

/-! ## FindDocumentBounds and CountNGrams (substrings.cc 355-378, 449-468) -/

/-- The call `memchr(text + ch, DELIMITER, text_end - (text + ch))` as an offset from `text`. -/
def memchrDelimiter (text : List Nat) (ch : Nat) : Option Nat :=
  match (text.drop ch).indexOf? DELIMITER with
  | some k => some (ch + k)
  | none => none

/-- The loop `while (ch != text_end)` of `FindDocumentBounds`; the first argument bounds the
number of documents. -/
def FindDocumentBounds.loop (text : List Nat) : Nat → Nat → List Nat → Option (List Nat)
  | 0, _, _ => none
  | fuel + 1, ch, document_ends =>
    if ch = text.length then some document_ends
    else
      let next := (memchrDelimiter text ch).getD text.length
      if next = text.length then some (document_ends ++ [next])
      else FindDocumentBounds.loop text fuel (next + 1) (document_ends ++ [next])

/-- The function `FindDocumentBounds(document_ends, text, text_size)`: the vector after the call,
`none` when `assert(!document_ends.empty())` fails. -/
def FindDocumentBounds (document_ends text : List Nat) : Option (List Nat) :=
  match FindDocumentBounds.loop text (text.length + 1) 0 document_ends with
  | none => none
  | some ends => if ends.isEmpty then none else some ends

/-- The loop `for (size_t i = 1; i <= (size_t)(next - ch); ++i) ++result[i]`; the first
argument is the number of iterations left. -/
def CountNGrams.bump : Nat → Nat → List Nat → List Nat
  | 0, _, result => result
  | n + 1, i, result => CountNGrams.bump n (i + 1) (result.set i (result.getD i 0 + 1))

/-- The loop `while (ch != text_end)` of `CountNGrams`; the first argument bounds the number of
documents. -/
def CountNGrams.loop (text : List Nat) : Nat → Nat → List Nat → Option (List Nat)
  | 0, _, _ => none
  | fuel + 1, ch, result =>
    if ch = text.length then some result
    else
      let next := (memchrDelimiter text ch).getD text.length
      let result1 := if result.length ≤ next - ch then resize result (next - ch + 1) else result
      let result2 := CountNGrams.bump (next - ch) 1 result1
      if next = text.length then some result2
      else CountNGrams.loop text fuel (next + 1) result2

/-- The function `CountNGrams(text, text_size)`. -/
def CountNGrams (text : List Nat) : Option (List Nat) :=
  CountNGrams.loop text (text.length + 1) 0 []

/-! ## FindCover (substrings.cc 380-420) -/

/-- The bytes of a remaining document `(start, length)` of `input0`. -/
def documentBytes (input0 : List Nat) (k : Nat × Nat) : List Nat :=
  (input0.drop k.1).take k.2

/-- The loop `for (i = 0; i < input0_document_ends_.size(); ++i)` that lists the documents as
`(start, end - start)`; the length is a `size_t`, so a bound below `start` wraps. -/
def FindCover.documents : List Nat → Nat → List (Nat × Nat)
  | [], _ => []
  | end_ :: document_ends, start =>
    (start, (end_ + 2 ^ SIZE_BITS - start) % 2 ^ SIZE_BITS) ::
      FindCover.documents document_ends (end_ + 1)

/-- The test `memmem(k->first, k->second, string_begin, string_length) != nullptr`, both byte
ranges being offsets into `input0`; both ranges must lie inside the buffer. -/
def FindCover.contains (input0 : List Nat) (k : Nat × Nat) (m : Match) : Option Bool :=
  match bytesAt input0 k.1 k.2, bytesAt input0 m.string m.string_length with
  | some haystack, some needle => some (memmem haystack needle)
  | _, _ => none

/-- The loop `for (k = remaining_documents.begin(); k != remaining_documents.end();)` for one
match: the documents left in the list and the value of `hits`. -/
def FindCover.sweep (input0 : List Nat) (m : Match) :
    List (Nat × Nat) → Nat → Option (List (Nat × Nat) × Nat)
  | [], hits => some ([], hits)
  | k :: remaining, hits =>
    match FindCover.contains input0 k m with
    | none => none
    | some true => FindCover.sweep input0 m remaining (hits + 1)
    | some false =>
      match FindCover.sweep input0 m remaining hits with
      | none => none
      | some r => some (k :: r.1, r.2)

/-- The loop `for (j = matches.begin(); j != matches.end() && !remaining_documents.empty(); ++j)`:
the lines `hits <TAB> match` printed. -/
def FindCover.loop (F : Finder) : List Match → List (Nat × Nat) → Option (List (Nat × Match))
  | [], _ => some []
  | j :: ms, remaining_documents =>
    if remaining_documents.isEmpty then some []
    else
      match FindCover.sweep F.input0 j remaining_documents 0 with
      | none => none
      | some r =>
        match FindCover.loop F ms r.1 with
        | none => none
        | some lines =>
          if (r.2 : Int) > F.cover_threshold then some ((r.2, j) :: lines) else some lines

/-- The function `FindCover()`: the printed lines, each a `hits` value and the match. -/
def FindCover (F : Finder) (ms : List Match) : Option (List (Nat × Match)) :=
  match sort (CompareScore F.input0) ms with
  | none => none
  | some sorted => FindCover.loop F sorted (FindCover.documents F.input0_document_ends_ 0)

/-! ## PrintUnique (substrings.cc 422-447) -/

/-- The loop `for (i = matches.begin(); i != matches.end(); ++i)` of `PrintUnique`:
`unique_substrings` after the loop. -/
def PrintUnique.loop (input0 : List Nat) : List Match → List Match → List Match
  | [], unique_substrings => unique_substrings
  | i :: ms, unique_substrings =>
    if unique_substrings.any (CompareSuperstrings input0 i) then
      PrintUnique.loop input0 ms unique_substrings
    else PrintUnique.loop input0 ms (unique_substrings ++ [i])

/-- The function `PrintUnique()`: the matches handed to `PrintString`, in printing order. -/
def PrintUnique (F : Finder) (ms : List Match) : Option (List Match) :=
  match sort (CompareLength F.input0) ms with
  | none => none
  | some sorted => sort (StringComparator F.input0) (PrintUnique.loop F.input0 sorted [])

/-! ## FindSubstringFrequencies (substrings.cc 551-584) -/

/-- What a run prints: the streamed lines of `FindSubstrings`, the lines of `FindCover` and the
strings of `PrintUnique`. -/
structure Output where
  lines : List Line := []
  cover : List (Nat × Match) := []
  unique : List Match := []
  deriving DecidableEq

/-- The function `FindSubstringFrequencies()`.  `sa0` and `sa1` are the arrays that `divsufsort`
writes for `input0` and `input1`; `ms` is the global `matches` on entry. -/
def FindSubstringFrequencies (F : Finder) (sa0 sa1 : List Nat) (ms : List Match) : Option Output :=
  let counts : Option (List Nat × List Nat) :=
    if F.do_probability ∨ F.threshold ≠ 0 then
      match CountNGrams F.input0, CountNGrams F.input1 with
      | some c0, some c1 => some (c0, c1)
      | _, _ => none
    else some (F.input0_n_gram_counts_, F.input1_n_gram_counts_)
  let bounds : Option (List Nat × List Nat) :=
    if F.do_document then
      match FindDocumentBounds F.input0_document_ends_ F.input0,
          FindDocumentBounds F.input1_document_ends_ F.input1 with
      | some e0, some e1 => some (e0, e1)
      | _, _ => none
    else some (F.input0_document_ends_, F.input1_document_ends_)
  match counts, bounds, FilterSuffixes F.do_color sa0 F.input0 F.input0.length,
      FilterSuffixes F.do_color sa1 F.input1 F.input1.length with
  | some (c0, c1), some (e0, e1), some (suffixes0, count0), some (suffixes1, count1) =>
    let G : Finder := { F with
      input0_n_gram_counts_ := c0, input1_n_gram_counts_ := c1,
      input0_document_ends_ := e0, input1_document_ends_ := e1,
      input0_suffixes_ := suffixes0, input0_suffix_count_ := count0,
      input1_suffixes_ := suffixes1, input1_suffix_count_ := count1,
      skip_samecount_prefixes := F.do_unique || F.skip_samecount_prefixes }
    match FindSubstrings G G.input0_threshold G.input1_threshold ms with
    | none => none
    | some st =>
      if G.do_cover then
        match FindCover G st.matches_ with
        | none => none
        | some cover => some { lines := st.out, cover := cover }
      else if G.do_unique then
        match PrintUnique G st.matches_ with
        | none => none
        | some unique => some { lines := st.out, unique := unique }
      else some { lines := st.out }
  | _, _, _, _ => none

/-! ## Reference notions used to state the properties -/

/-- Lexicographic order on byte strings, a proper prefix coming first (the order of
`divsufsort`). -/
def lexLt : List Nat → List Nat → Bool
  | [], [] => false
  | [], _ :: _ => true
  | _ :: _, [] => false
  | a :: l, b :: r => decide (a < b) || (decide (a = b) && lexLt l r)

/-- True when consecutive entries of `sa` start lexicographically increasing suffixes of
`text`. -/
def suffixesAscending (text : List Nat) : List Nat → Bool
  | a :: b :: sa => lexLt (text.drop a) (text.drop b) && suffixesAscending text (b :: sa)
  | _ => true

/-- True when `sa` is what `divsufsort` returns for `text`: every offset of `[0, size)` once,
the suffixes in ascending lexicographic order. -/
def isSuffixArray (text : List Nat) (sa : List Nat) : Bool :=
  decide (sa.length = text.length) && (List.range text.length).all (fun o => sa.contains o) &&
    suffixesAscending text sa

/-- Length of the longest common prefix of two byte strings, cut at the first delimiter. -/
def commonPrefix : List Nat → List Nat → Nat
  | a :: l, b :: r => if a ≠ DELIMITER ∧ a = b then commonPrefix l r + 1 else 0
  | _, _ => 0

/-- The true LCP entry of rank `i`: the delimiter-capped common prefix of the suffixes at
ranks `i` and `i + 1` of the filtered suffix array. -/
def trueLCP (text suffixes : List Nat) (i : Nat) : Nat :=
  commonPrefix (text.drop (suffixes.getD i 0)) (text.drop (suffixes.getD (i + 1) 0))

/-- The posterior `P_A_Bx` of substrings.cc 299-316 read in exact rational arithmetic (no
rounding), for comparison with `FindSubstrings.posterior`: `none` where the exact reading has
no finite value (a zero divisor); with `P_A = 0` and a non-zero `prior_bias` the divisor is
infinite and the quotient zero. -/
def FindSubstrings.posteriorExact (F : Finder) (s : Substring) (input1_substring_count : Nat) :
    Option ℚ :=
  let n_gram_count0 := if s.length < F.input0_n_gram_counts_.length then
    F.input0_n_gram_counts_.getD s.length 0 else 0
  let n_gram_count1 := if s.length < F.input1_n_gram_counts_.length then
    F.input1_n_gram_counts_.getD s.length 0 else 0
  if n_gram_count0 + n_gram_count1 = 0 then none
  else if n_gram_count0 = 0 then (if F.prior_bias = 0 then none else some 0)
  else
    let P_A : ℚ := (n_gram_count0 : ℚ) / ((n_gram_count0 + n_gram_count1 : Nat) : ℚ)
    let divisor : ℚ := (s.count : ℚ) + (input1_substring_count : ℚ) + F.prior_bias / P_A
    if divisor = 0 then none else some (((s.count : ℚ) + F.prior_bias) / divisor)

/-- The value `w` lies within `k` roundings of `V`, each with a relative error of at most
`2 ^ (-53)`: `V * (1 - 2 ^ (-53)) ^ k ≤ w` and `w * (1 - 2 ^ (-53)) ^ k ≤ V`. -/
def Double.within (k : Nat) (V w : ℚ) : Prop :=
  V * (1 - 1 / 2 ^ 53) ^ k ≤ w ∧ w * (1 - 1 / 2 ^ 53) ^ k ≤ V

instance Double.within.decidable (k : Nat) (V w : ℚ) : Decidable (Double.within k V w) := by
  unfold Double.within
  infer_instance

/-- Cover mode in the words of its description, for comparison with `FindCover.loop`: for each
match in order, while documents remain, the documents of the remaining list that contain the
match as a substring are removed, `hits` is their number, and the line `hits <TAB> match` is
printed when `hits > cover_threshold`. -/
def FindCover_spec (F : Finder) : List Match → List (Nat × Nat) → List (Nat × Match)
  | [], _ => []
  | j :: ms, remaining =>
    if remaining = [] then []
    else
      let removed := remaining.filter (fun k => memmem (documentBytes F.input0 k) (j.bytes F.input0))
      let kept := remaining.filter (fun k => !memmem (documentBytes F.input0 k) (j.bytes F.input0))
      if (removed.length : Int) > F.cover_threshold then
        (removed.length, j) :: FindCover_spec F ms kept
      else FindCover_spec F ms kept

/-- Index `c` is a child of index `i` in the array layout of a binary heap. -/
def isChild (c i : Nat) : Prop := c = 2 * i + 1 ∨ c = 2 * i + 2

/-- The array `a` is a heap for the order `R` ("may stand above"): every parent is related to
each of its children. -/
def isHeap {α : Type} (R : α → α → Prop) (a : List α) : Prop :=
  ∀ i c x y, isChild c i → a[i]? = some x → a[c]? = some y → R x y

/-- The array `a` is a heap except that the entry at `hole` may be out of place towards the
root: every edge that does not end in `hole` is in order, and the parent of `hole` is related
to the children of `hole`. -/
def heapUpTo {α : Type} (R : α → α → Prop) (a : List α) (hole : Nat) : Prop :=
  (∀ i c x y, isChild c i → c ≠ hole → a[i]? = some x → a[c]? = some y → R x y) ∧
  (∀ g c x y, isChild hole g → isChild c hole → a[g]? = some x → a[c]? = some y → R x y)

/-- The array `a` is a heap except for the edges that leave `hole` (whose entry is vacant): every
edge that does not start in `hole` is in order, and the parent of `hole` is related to the
children of `hole`. -/
def heapDownFrom {α : Type} (R : α → α → Prop) (a : List α) (hole : Nat) : Prop :=
  (∀ i c x y, isChild c i → i ≠ hole → a[i]? = some x → a[c]? = some y → R x y) ∧
  (∀ g c x y, isChild hole g → isChild c hole → a[g]? = some x → a[c]? = some y → R x y)

/-- Node `h` of a binary heap lies in the subtree of node `p` (nodes counted from 0). -/
def isDescendant (p h : Nat) : Prop := ∃ k, (h + 1) / 2 ^ k = p + 1

/-- In the heap range `[0, len)` of `a`, every node from `p` on is related by `H` to each of
its children. -/
def heapFrom {α : Type} (H : α → α → Prop) (a : List α) (len p : Nat) : Prop :=
  ∀ i c x y, p ≤ i → isChild c i → c < len → a[i]? = some x → a[c]? = some y → H x y

/-- As `heapFrom`, except for the edges that leave `hole` (whose entry is vacant); the parent of
`hole`, if it is a node from `p` on, is related to the children of `hole`. -/
def heapFromDown {α : Type} (H : α → α → Prop) (a : List α) (len p hole : Nat) : Prop :=
  (∀ i c x y, p ≤ i → i ≠ hole → isChild c i → c < len → a[i]? = some x → a[c]? = some y →
    H x y) ∧
  (∀ g c x y, p ≤ g → isChild hole g → isChild c hole → c < len → a[g]? = some x →
    a[c]? = some y → H x y)

/-- As `heapFrom`, except for the edge that ends in `hole`; the parent of `hole`, if it is a
node from `p` on, is related to the children of `hole`. -/
def heapFromUp {α : Type} (H : α → α → Prop) (a : List α) (len p hole : Nat) : Prop :=
  (∀ i c x y, p ≤ i → isChild c i → c ≠ hole → c < len → a[i]? = some x → a[c]? = some y →
    H x y) ∧
  (∀ g c x y, p ≤ g → isChild hole g → isChild c hole → c < len → a[g]? = some x →
    a[c]? = some y → H x y)

/-- The accumulator `ms` holds the highest scores of the candidates `seen`, up to `K` of them:
it has `min K |seen|` entries, it and the candidates left out make up `seen`, and no candidate
left out has a score above that of a candidate held. -/
def holdsHighestScores (K : Nat) (seen ms : List Match) : Prop :=
  ms.length = min K seen.length ∧
    ∃ dropped : List Match, (ms ++ dropped).Perm seen ∧
      ∀ d ∈ dropped, ∀ x ∈ ms, d.score ≤ x.score

/-- The start positions of `text` at which the byte string `s` occurs. -/
def occurrences (text s : List Nat) : List Nat :=
  (List.range text.length).filter (fun p => bytesAt text p s.length == some s)

/-- The anchor test of `FilterSuffixes` in the words of its description: the offset `o` is kept
when none of the three removal conditions holds for it. -/
def isAnchor (do_color : Bool) (text : List Nat) (o : Nat) : Bool :=
  !(text.getD o 0 == DELIMITER) && !(text.getD o 0 &&& 0xc0 == 0x80) &&
    !(do_color && o % 2 == 1)

/-- The lengths of the documents met from the middle of a document on: `cur` bytes of the
current document have been read. -/
def documentLengths.go : Nat → List Nat → List Nat
  | cur, [] => [cur]
  | cur, b :: rest =>
    if b = DELIMITER then cur :: (if rest.isEmpty then [] else documentLengths.go 0 rest)
    else documentLengths.go (cur + 1) rest

/-- The lengths of the documents of a buffer, in order: the documents are the
delimiter-separated runs, and a trailing delimiter starts no further document. -/
def documentLengths (text : List Nat) : List Nat :=
  if text.isEmpty then [] else documentLengths.go 0 text

/-- The length of the longest of the documents whose lengths are listed. -/
def longestDocument (lengths : List Nat) : Nat := lengths.foldr max 0

/-- The number of documents of length at least `l`. -/
def documentsAtLeast (lengths : List Nat) (l : Nat) : Nat :=
  (lengths.filter (fun L => decide (l ≤ L))).length

/-- The window `[p, p + l)` lies entirely within one document: it is inside the buffer and
holds no delimiter byte. -/
def windowInDocument (text : List Nat) (p l : Nat) : Bool :=
  match bytesAt text p l with
  | some w => !w.contains DELIMITER
  | none => false

/-- The positions `p` of the buffer whose window `[p, p + l)` lies within one document. -/
def windowPositions (text : List Nat) (l : Nat) : List Nat :=
  (List.range text.length).filter (fun p => windowInDocument text p l)

/-- A document starts at position `p`: at the start of the buffer or right after a
delimiter. -/
def documentStart (text : List Nat) (p : Nat) : Bool :=
  p == 0 || text[p - 1]? == some DELIMITER

/-- The body of the loop of `CountNGrams` for one document of length `L`: the table is
widened when needed and the entries `1 .. L` are incremented. -/
def CountNGrams.step (result : List Nat) (L : Nat) : List Nat :=
  CountNGrams.bump L 1 (if result.length ≤ L then resize result (L + 1) else result)

/-- The positions at which a document starts and whose window `[p, p + l)` lies within that
document. -/
def documentWindowStarts (text : List Nat) (l : Nat) : List Nat :=
  (List.range text.length).filter (fun p => documentStart text p && windowInDocument text p l)

/-- The ranks of the filtered suffix array whose suffix starts with the byte string `w`. -/
def prefixRanks (text suffixes : List Nat) (suffix_count : Nat) (w : List Nat) : List Nat :=
  (List.range suffix_count).filter (fun r =>
    match suffixes[r]? with
    | some a => bytesAt text a w.length == some w
    | none => false)

/-- The property of a candidate `(text, length, count)`: its bytes lie inside the buffer, hold no
delimiter, and `count` is the number of ranks of the filtered suffix array whose suffix starts
with them. -/
def candidateExact (text suffixes : List Nat) (suffix_count : Nat) (s : Substring) : Bool :=
  match bytesAt text s.text s.length with
  | some w => !w.contains DELIMITER && s.count == (prefixRanks text suffixes suffix_count w).length
  | none => false

/-- The offsets of the delimiter bytes of a buffer, in ascending order. -/
def delimiterOffsets (text : List Nat) : List Nat :=
  (List.range text.length).filter (fun p => text[p]? == some DELIMITER)

/-- The document ends of a buffer in the words of the description: the offsets of all delimiter
bytes in ascending order, followed by the size when the buffer does not end on a delimiter. -/
def documentEnds (text : List Nat) : List Nat :=
  delimiterOffsets text ++ (if text.getLast? = some DELIMITER then [] else [text.length])

/-- The document ends met from offset `pos` on, `rem` being the bytes from there. -/
def documentEnds.go : Nat → List Nat → List Nat
  | pos, [] => [pos]
  | pos, b :: rest =>
    if b = DELIMITER then pos :: (if rest.isEmpty then [] else documentEnds.go (pos + 1) rest)
    else documentEnds.go (pos + 1) rest

end SubstringFrequencies

/-! # Properties -/

namespace SubstringFrequencies

/-! ## The LCP array and the enumerator on concrete corpora -/

/-- C1, the code at the failing input: for A = "foofoofoo\0" the sorted suffix array is
`[9,6,3,0,8,5,2,7,4,1]`, `FilterSuffixes` compacts it to nine anchors and leaves the old entry `1`
in slot 9, and `BuildLCPArray` then writes `lcp[5] = 7` (and `lcp[8] = 8` from the slot past the
last rank), while the delimiter-capped common prefixes of ranks 0..7 are `[3,6,0,1,4,1,2,5]`. -/
theorem C1_BuildLCPArray_foofoofoo :
    isSuffixArray (ascii "foofoofoo\x00") [9, 6, 3, 0, 8, 5, 2, 7, 4, 1] = true ∧
    FilterSuffixes false [9, 6, 3, 0, 8, 5, 2, 7, 4, 1] (ascii "foofoofoo\x00") 10
      = some ([6, 3, 0, 8, 5, 2, 7, 4, 1, 1], 9) ∧
    BuildLCPArray [] (ascii "foofoofoo\x00") [6, 3, 0, 8, 5, 2, 7, 4, 1, 1] 9
      = some [3, 6, 0, 1, 4, 7, 2, 5, 8] ∧
    (List.range 8).map (trueLCP (ascii "foofoofoo\x00") [6, 3, 0, 8, 5, 2, 7, 4, 1, 1])
      = [3, 6, 0, 1, 4, 1, 2, 5] := by
  decide

/-- C2, the code at the failing inputs: with B empty and `input0_threshold = 2`, the run on
A = "zab\0" prints exactly one candidate, the two bytes at offset 2, which are `b` and the
delimiter; the run on A = "foofoofoo\0" prints a candidate of length 7 at offset 7 of the
10-byte buffer. -/
theorem C2_reported_candidate_crosses_delimiter :
    isSuffixArray (ascii "zab\x00") [3, 1, 2, 0] = true ∧
    FindSubstringFrequencies { input0 := ascii "zab\x00", input0_threshold := 2 } [3, 1, 2, 0] [] []
      = some { lines := [⟨2, 2, 2, 0, 2⟩] } ∧
    bytesAt (ascii "zab\x00") 2 2 = some [98, DELIMITER] ∧
    (FindSubstringFrequencies { input0 := ascii "foofoofoo\x00", input0_threshold := 2 }
      [9, 6, 3, 0, 8, 5, 2, 7, 4, 1] [] []).map (fun o => o.lines.getLast?)
      = some (some ⟨7, 7, 2, 0, 2⟩) ∧
    bytesAt (ascii "foofoofoo\x00") 7 7 = none := by
  decide

/-- C3, the code at the failing input: in count mode with B empty and `input0_threshold = 2`,
the run on A = "foofoofoo\0" prints the four bytes "ofoo" at offset 2 with count 3, and "ofoo"
occurs at only two start positions of A (2 and 5). -/
theorem C3_reported_count_exceeds_occurrences :
    FindSubstringFrequencies { input0 := ascii "foofoofoo\x00", input0_threshold := 2 }
      [9, 6, 3, 0, 8, 5, 2, 7, 4, 1] [] []
      = some { lines := [⟨3, 1, 3, 0, 3⟩, ⟨3, 2, 3, 0, 3⟩, ⟨3, 3, 3, 0, 3⟩, ⟨0, 4, 2, 0, 2⟩,
          ⟨0, 5, 2, 0, 2⟩, ⟨0, 6, 2, 0, 2⟩, ⟨2, 3, 3, 0, 3⟩, ⟨2, 4, 3, 0, 3⟩, ⟨7, 5, 2, 0, 2⟩,
          ⟨7, 6, 2, 0, 2⟩, ⟨7, 7, 2, 0, 2⟩] } ∧
    bytesAt (ascii "foofoofoo\x00") 2 4 = some (ascii "ofoo") ∧
    occurrences (ascii "foofoofoo\x00") (ascii "ofoo") = [2, 5] := by
  decide

/-- C4, the code at the failing input: for A = "abcabc\0" (count mode, no same-count skipping,
no colour, B empty, `input0_threshold = 2`) the anchors at ranks 4 and 5 (offsets 5 and 2) form
a maximal group whose common prefix is the single byte "c", yet the scan opened at rank 4 ends
with an empty stack and the printed candidates are "a", "ab", "abc", "b", "bc" only; "abc" is
printed with count 2. -/
theorem C4_interval_at_array_end_not_pushed :
    isSuffixArray (ascii "abcabc\x00") [6, 3, 0, 4, 1, 5, 2] = true ∧
    FilterSuffixes false [6, 3, 0, 4, 1, 5, 2] (ascii "abcabc\x00") 7
      = some ([3, 0, 4, 1, 5, 2, 2], 6) ∧
    (List.range 5).map (trueLCP (ascii "abcabc\x00") [3, 0, 4, 1, 5, 2, 2]) = [3, 0, 2, 0, 1] ∧
    bytesAt (ascii "abcabc\x00") 5 1 = some (ascii "c") ∧
    BuildLCPArray [] (ascii "abcabc\x00") [3, 0, 4, 1, 5, 2, 2] 6 = some [3, 0, 2, 0, 1, 4] ∧
    FindSubstrings.scan
      { input0 := ascii "abcabc\x00", input0_suffixes_ := [3, 0, 4, 1, 5, 2, 2],
        input0_suffix_count_ := 6 } [3, 0, 2, 0, 1, 4] 5 0 9 1 6 2 [] [] = some [] ∧
    FindSubstringFrequencies { input0 := ascii "abcabc\x00", input0_threshold := 2 }
      [6, 3, 0, 4, 1, 5, 2] [] []
      = some { lines := [⟨0, 1, 2, 0, 2⟩, ⟨0, 2, 2, 0, 2⟩, ⟨0, 3, 2, 0, 2⟩, ⟨1, 1, 2, 0, 2⟩,
          ⟨1, 2, 2, 0, 2⟩] } := by
  decide

/-- C5, the code at the failing input: with A = "foofoofoo\0", B = "foo\0",
`input0_threshold = 2` and `input1_threshold = 0` the run prints eleven lines; for the candidate
"foo" (offset 3, length 3) the B lookup returns the empty range `[1, 1)` although the suffix at
rank 0 of B's filtered array starts with "foo", and the line "foo" is printed with B count 0. -/
theorem C5_lookup_misses_occurrence_in_B :
    isSuffixArray (ascii "foo\x00") [3, 0, 2, 1] = true ∧
    FilterSuffixes false [3, 0, 2, 1] (ascii "foo\x00") 4 = some ([0, 2, 1, 1], 3) ∧
    FindSubstrings.lookup
      { input0 := ascii "foofoofoo\x00", input1 := ascii "foo\x00",
        input1_suffixes_ := [0, 2, 1, 1], input1_suffix_count_ := 3 } ⟨3, 3, 3⟩ 0 = some (1, 1) ∧
    bytesAt (ascii "foo\x00") 0 3 = bytesAt (ascii "foofoofoo\x00") 3 3 ∧
    (FindSubstringFrequencies
      { input0 := ascii "foofoofoo\x00", input1 := ascii "foo\x00",
        input0_threshold := 2, input1_threshold := 0 } [9, 6, 3, 0, 8, 5, 2, 7, 4, 1] [3, 0, 2, 1]
        []).map (fun o => (o.lines.length, o.lines.get? 2))
      = some (11, some ⟨3, 3, 3, 0, 3⟩) := by
  decide

/-! ## FilterSuffixes -/

theorem take_succ_set {α : Type} (l : List α) (n : Nat) (a : α) (h : n < l.length) :
    (l.set n a).take (n + 1) = l.take n ++ [a] := by
  have hn : (l.take n).length = n := by simp; omega
  rw [List.set_eq_take_append_cons_drop, if_pos h, List.take_append_eq_append_take, hn]
  simp [List.take_of_length_le (le_of_eq hn)]

theorem FilterSuffixes.loop_eq (do_color : Bool) (text : List Nat) :
    ∀ (n i output : Nat) (arr : List Nat), output ≤ i → i + n ≤ arr.length →
      (∀ o ∈ (arr.drop i).take n, o < text.length) →
      FilterSuffixes.loop do_color text n i output arr =
        some (arr.take output ++ ((arr.drop i).take n).filter (isAnchor do_color text) ++
            arr.drop (output + (((arr.drop i).take n).filter (isAnchor do_color text)).length),
          output + (((arr.drop i).take n).filter (isAnchor do_color text)).length) := by
  intro n
  induction n with
  | zero => intro i output arr _ _ _; simp [FilterSuffixes.loop]
  | succ n ih =>
    intro i output arr hoi hlen hrange
    have hi : i < arr.length := by omega
    have hdrop : (arr.drop i).take (n + 1) = arr[i] :: (arr.drop (i + 1)).take n := by
      rw [List.drop_eq_getElem_cons hi, List.take_succ_cons]
    have hx : arr[i] < text.length := hrange _ (by rw [hdrop]; simp)
    have hrest : ∀ o ∈ (arr.drop (i + 1)).take n, o < text.length := fun o ho =>
      hrange o (by rw [hdrop]; exact List.mem_cons_of_mem _ ho)
    have hskip := ih (i + 1) output arr (by omega) (by omega) hrest
    have hget : text.getD arr[i] 0 = text[arr[i]] := by
      simp [List.getD_eq_getElem?_getD, List.getElem?_eq_getElem hx]
    have hA : isAnchor do_color text arr[i] = (!(text[arr[i]] == DELIMITER) &&
        !(text[arr[i]] &&& 0xc0 == 0x80) && !(do_color && arr[i] % 2 == 1)) := by
      unfold isAnchor; rw [hget]
    have hodd : (arr[i] &&& 1 != 0) = (arr[i] % 2 == 1) := by
      rw [Nat.and_one_is_mod]
      rcases Nat.mod_two_eq_zero_or_one arr[i] with h | h <;> simp [h]
    rw [FilterSuffixes.loop, List.getElem?_eq_getElem hi, hdrop]
    simp only [List.getElem?_eq_getElem hx, hodd]
    by_cases hc : (do_color && arr[i] % 2 == 1) = true
    · have hna : isAnchor do_color text arr[i] = false := by rw [hA, hc]; simp
      rw [if_pos hc, hskip, List.filter_cons, hna]; simp
    · rw [if_neg hc]
      by_cases hd : (text[arr[i]] == DELIMITER) = true
      · have hna : isAnchor do_color text arr[i] = false := by rw [hA, hd]; simp
        rw [if_pos hd, hskip, List.filter_cons, hna]; simp
      · rw [if_neg hd]
        by_cases hu : (text[arr[i]] &&& 0xc0 == 0x80) = true
        · have hna : isAnchor do_color text arr[i] = false := by rw [hA, hu]; simp
          rw [if_pos hu, hskip, List.filter_cons, hna]; simp
        · have hna : isAnchor do_color text arr[i] = true := by
            simp only [isAnchor, hget]
            simp [hc, hd, hu]
          have ho : output < arr.length := by omega
          rw [if_neg hu, List.filter_cons, hna]
          have hkeep := ih (i + 1) (output + 1) (arr.set output arr[i]) (by omega)
            (by rw [List.length_set]; omega) (by
              rw [List.drop_set_of_lt _ _ (by omega : output < i + 1)]; exact hrest)
          rw [hkeep, List.drop_set_of_lt _ _ (by omega : output < i + 1),
            List.drop_set_of_lt _ _ (by omega), take_succ_set _ _ _ ho]
          simp [List.length_cons, Nat.add_assoc, Nat.add_comm 1]

/-- C10: for every buffer and every array whose first `count` entries are in-range offsets,
`FilterSuffixes` returns the number `n` of those entries that are anchors (not at a delimiter,
not at a UTF-8 continuation byte, not odd in colour mode), and afterwards the first `n` entries
of the array are exactly the kept offsets in their original relative order (the entries from
`n` on are as they were). -/
theorem C10_FilterSuffixes_keeps_anchors (do_color : Bool) (text input : List Nat) (count : Nat)
    (hcount : count ≤ input.length) (hrange : ∀ o ∈ input.take count, o < text.length) :
    ∃ arr n, FilterSuffixes do_color input text count = some (arr, n) ∧
      n = ((input.take count).filter (isAnchor do_color text)).length ∧
      arr.take n = (input.take count).filter (isAnchor do_color text) ∧
      arr.drop n = input.drop n ∧ arr.length = input.length := by
  have h := FilterSuffixes.loop_eq do_color text count 0 0 input (le_refl 0) (by simpa using hcount)
    (by simpa using hrange)
  have hle : ((input.take count).filter (isAnchor do_color text)).length ≤ input.length :=
    le_trans (List.length_filter_le _ _) (by simp [hcount])
  refine ⟨_, _, h, by simp, ?_, ?_, ?_⟩
  · simp
  · simp
  · simp; omega

/-- C10 at a concrete input: the sorted suffixes of "a\0b" followed by a continuation byte. -/
theorem C10_FilterSuffixes_keeps_anchors_witness :
    ∃ arr n, FilterSuffixes false [1, 3, 0, 2] [97, 0, 98, 0x80] 4 = some (arr, n) ∧
      n = (([1, 3, 0, 2].take 4).filter (isAnchor false [97, 0, 98, 0x80])).length ∧
      arr.take n = ([1, 3, 0, 2].take 4).filter (isAnchor false [97, 0, 98, 0x80]) ∧
      arr.drop n = [1, 3, 0, 2].drop n ∧ arr.length = [1, 3, 0, 2].length :=
  C10_FilterSuffixes_keeps_anchors false [97, 0, 98, 0x80] [1, 3, 0, 2] 4 (by decide) (by decide)

/-! ## The heap primitives -/

theorem swap_perm {α : Type} [DecidableEq α] (V : List α) (h par : Nat) (p v : α)
    (hne : par ≠ h) (hp : V[par]? = some p) (hv : V[h]? = some v) :
    ((V.set h p).set par v).Perm V := by
  obtain ⟨hpl, hpe⟩ := List.getElem?_eq_some.mp hp
  obtain ⟨hvl, hve⟩ := List.getElem?_eq_some.mp hv
  rw [List.perm_iff_count]
  intro b
  rw [List.count_set _ _ _ _ (by simpa using hpl), List.count_set _ _ _ _ hvl,
    List.getElem_set_ne (by omega), hpe, hve]
  have hvm : v ∈ V := hve ▸ List.getElem_mem hvl
  have hpm : p ∈ V := hpe ▸ List.getElem_mem hpl
  by_cases h1 : v = b <;> by_cases h2 : p = b
  · simp [h1, h2]
    have := List.count_pos_iff.mpr (h1 ▸ hvm); omega
  · have := List.count_pos_iff.mpr (h1 ▸ hvm)
    simp [h1, h2]; omega
  · have := List.count_pos_iff.mpr (h2 ▸ hpm)
    simp [h1, h2]
  · simp [h1, h2]

theorem heapUpTo_step {α : Type} (R : α → α → Prop)
    (htrans : ∀ a b c, R a b → R b c → R a c) (V : List α) (h : Nat) (p v : α)
    (hU : heapUpTo R V h) (hpos : 0 < h) (hp : V[(h - 1) / 2]? = some p) (hv : V[h]? = some v)
    (hvp : R v p) : heapUpTo R ((V.set h p).set ((h - 1) / 2) v) ((h - 1) / 2) := by
  obtain ⟨hpl, _⟩ := List.getElem?_eq_some.mp hp
  obtain ⟨hvl, _⟩ := List.getElem?_eq_some.mp hv
  have hpar : isChild h ((h - 1) / 2) := by unfold isChild; omega
  have key : ∀ k, ((V.set h p).set ((h - 1) / 2) v)[k]? =
      if k = (h - 1) / 2 then some v else if k = h then some p else V[k]? := by
    intro k
    rw [List.getElem?_set, List.getElem?_set]
    simp only [List.length_set]
    split_ifs <;> first | rfl | omega
  refine ⟨?_, ?_⟩
  · intro i c x y hc hne hx hy
    rw [key] at hx hy
    rw [if_neg hne] at hy
    by_cases hi : i = (h - 1) / 2
    · rw [if_pos hi] at hx
      cases hx
      by_cases hch : c = h
      · rw [if_pos hch] at hy; cases hy; exact hvp
      · rw [if_neg hch] at hy
        exact htrans _ _ _ hvp (hU.1 i c p y hc hch (hi ▸ hp) hy)
    · rw [if_neg hi] at hx
      by_cases hih : i = h
      · rw [if_pos hih] at hx
        cases hx
        have hch : c ≠ h := by unfold isChild at hc; omega
        rw [if_neg hch] at hy
        exact hU.2 _ c _ y hpar (hih ▸ hc) hp hy
      · rw [if_neg hih] at hx
        have hch : c ≠ h := by unfold isChild at hc hpar; omega
        rw [if_neg hch] at hy
        exact hU.1 i c x y hc hch hx hy
  · intro g c x y hg hc hx hy
    rw [key] at hx hy
    have hg1 : g ≠ (h - 1) / 2 := by unfold isChild at hg; omega
    have hg2 : g ≠ h := by unfold isChild at hg hpar; omega
    have hc1 : c ≠ (h - 1) / 2 := by unfold isChild at hc; omega
    rw [if_neg hg1, if_neg hg2] at hx
    rw [if_neg hc1] at hy
    have hgp : R x p := hU.1 g _ x p hg (by omega) hx hp
    by_cases hch : c = h
    · rw [if_pos hch] at hy; cases hy; exact hgp
    · rw [if_neg hch] at hy
      exact htrans _ _ _ hgp (hU.1 _ c p y hc hch hp hy)

theorem heapUpTo_done {α : Type} (R : α → α → Prop) (V : List α) (h : Nat)
    (hU : heapUpTo R V h)
    (hedge : ∀ x y, 0 < h → V[(h - 1) / 2]? = some x → V[h]? = some y → R x y) :
    isHeap R V := by
  intro i c x y hc hx hy
  by_cases hch : c = h
  · subst hch
    have : i = (c - 1) / 2 := by unfold isChild at hc; omega
    subst this
    exact hedge x y (by unfold isChild at hc; omega) hx hy
  · exact hU.1 i c x y hc hch hx hy

theorem pushHeapLoop_spec {α : Type} [DecidableEq α] (comp : α → α → Bool) (R : α → α → Prop)
    (hc : ∀ a b, comp a b = true → R b a) (hn : ∀ a b, comp a b = false → R a b)
    (htrans : ∀ a b c, R a b → R b c → R a c) (v : α) :
    ∀ (fuel : Nat) (a : List α) (h : Nat), h ≤ fuel → h < a.length →
      heapUpTo R (a.set h v) h →
      isHeap R (pushHeapLoop comp v fuel a h 0) ∧ (pushHeapLoop comp v fuel a h 0).Perm (a.set h v) := by
  intro fuel
  induction fuel with
  | zero =>
    intro a h hf hl hU
    have h0 : h = 0 := by omega
    subst h0
    rw [pushHeapLoop]
    exact ⟨heapUpTo_done R _ 0 hU (fun _ _ hpos => absurd hpos (lt_irrefl 0)), List.Perm.refl _⟩
  | succ fuel ih =>
    intro a h hf hl hU
    have hvh : (a.set h v)[h]? = some v := by simp [hl]
    rw [pushHeapLoop]
    by_cases hpos : h > 0
    · have hpl : (h - 1) / 2 < a.length := by omega
      have hpne : (h - 1) / 2 ≠ h := by omega
      simp only [if_pos hpos, List.getElem?_eq_getElem hpl]
      have hpV : (a.set h v)[(h - 1) / 2]? = some a[(h - 1) / 2] := by
        rw [List.getElem?_set, if_neg (Ne.symm hpne), List.getElem?_eq_getElem hpl]
      by_cases hcmp : comp a[(h - 1) / 2] v = true
      · rw [if_pos hcmp]
        have hstep := heapUpTo_step R htrans (a.set h v) h a[(h - 1) / 2] v hU hpos hpV hvh
          (hc _ _ hcmp)
        rw [List.set_set] at hstep
        have hrec := ih (a.set h a[(h - 1) / 2]) ((h - 1) / 2) (by omega)
          (by rw [List.length_set]; exact hpl) hstep
        refine ⟨hrec.1, hrec.2.trans ?_⟩
        have hsw := swap_perm (a.set h v) h ((h - 1) / 2) a[(h - 1) / 2] v hpne hpV hvh
        rw [List.set_set] at hsw
        exact hsw
      · rw [if_neg hcmp]
        refine ⟨heapUpTo_done R _ h hU ?_, List.Perm.refl _⟩
        intro x y _ hx hy
        rw [hpV] at hx; rw [hvh] at hy
        cases hx; cases hy
        exact hn _ _ (by simpa using hcmp)
    · rw [if_neg hpos]
      exact ⟨heapUpTo_done R _ h hU (fun _ _ hp => absurd hp hpos), List.Perm.refl _⟩

theorem push_heap_spec {α : Type} [DecidableEq α] (comp : α → α → Bool) (R : α → α → Prop)
    (hc : ∀ a b, comp a b = true → R b a) (hn : ∀ a b, comp a b = false → R a b)
    (htrans : ∀ a b c, R a b → R b c → R a c) (a : List α) (hheap : isHeap R a.dropLast) :
    isHeap R (push_heap comp a) ∧ (push_heap comp a).Perm a := by
  unfold push_heap
  cases hlast : a.getLast? with
  | none =>
    have : a = [] := List.getLast?_eq_none_iff.mp hlast
    subst this
    exact ⟨fun i c x y _ hx _ => by simp at hx, List.Perm.refl _⟩
  | some value =>
    have hne : a ≠ [] := by rintro rfl; simp at hlast
    have hlen : 0 < a.length := List.length_pos.mpr hne
    have hval : a[a.length - 1]? = some value := by
      rw [← hlast, List.getLast?_eq_getElem?]
    have hset : a.set (a.length - 1) value = a := by
      apply List.ext_getElem?
      intro k
      rw [List.getElem?_set]
      split_ifs with h1 h2
      · rw [← h1, hval]
      · omega
      · rfl
    have hU : heapUpTo R (a.set (a.length - 1) value) (a.length - 1) := by
      rw [hset]
      refine ⟨?_, ?_⟩
      · intro i c x y hch hcne hx hy
        have hcl : c < a.length := (List.getElem?_eq_some.mp hy).1
        have hc1 : c < a.length - 1 := by omega
        have hi1 : i < a.length - 1 := by unfold isChild at hch; omega
        refine hheap i c x y hch ?_ ?_
        · rw [List.dropLast_eq_take, List.getElem?_take_of_lt hi1]; exact hx
        · rw [List.dropLast_eq_take, List.getElem?_take_of_lt hc1]; exact hy
      · intro g c x y _ hch _ hy
        have hcl : c < a.length := (List.getElem?_eq_some.mp hy).1
        unfold isChild at hch; omega
    have h := pushHeapLoop_spec comp R hc hn htrans value a.length a (a.length - 1) (by omega)
      (by omega) hU
    rw [hset] at h
    exact h

theorem heapDownFrom_step {α : Type} (R : α → α → Prop) (a : List α) (h c : Nat) (x : α)
    (hD : heapDownFrom R a h) (hch : isChild c h) (hx : a[c]? = some x)
    (hbest : ∀ o y, isChild o h → a[o]? = some y → R x y) :
    heapDownFrom R (a.set h x) c := by
  have hcl : c < a.length := (List.getElem?_eq_some.mp hx).1
  have hhl : h < a.length := by unfold isChild at hch; omega
  have key : ∀ k, (a.set h x)[k]? = if k = h then some x else a[k]? := by
    intro k
    rw [List.getElem?_set]
    split_ifs <;> first | rfl | omega
  refine ⟨?_, ?_⟩
  · intro i k X Y hk hic hX hY
    rw [key] at hX hY
    by_cases hih : i = h
    · subst hih
      rw [if_pos rfl] at hX
      cases hX
      have hkh : k ≠ i := by unfold isChild at hk; omega
      rw [if_neg hkh] at hY
      exact hbest k Y hk hY
    · rw [if_neg hih] at hX
      by_cases hkh : k = h
      · subst hkh
        rw [if_pos rfl] at hY
        cases hY
        exact hD.2 i c X _ hk hch hX hx
      · rw [if_neg hkh] at hY
        exact hD.1 i k X Y hk hih hX hY
  · intro g k X Y hg hk hX hY
    rw [key] at hX hY
    have hgh : g = h := by unfold isChild at hg hch; omega
    subst hgh
    rw [if_pos rfl] at hX
    cases hX
    have hkg : k ≠ g := by unfold isChild at hk hch; omega
    rw [if_neg hkg] at hY
    exact hD.1 c k _ Y hk (by unfold isChild at hch; omega) hx hY

theorem adjust_perm {α : Type} [DecidableEq α] (a : List α) (h c : Nat) (x v : α)
    (hne : c ≠ h) (hh : h < a.length) (hx : a[c]? = some x) :
    ((a.set h x).set c v).Perm (a.set h v) := by
  have h1 : (a.set h v)[c]? = some x := by
    rw [List.getElem?_set, if_neg (Ne.symm hne)]; exact hx
  have h2 : (a.set h v)[h]? = some v := by simp [hh]
  have := swap_perm (a.set h v) h c x v hne h1 h2
  rw [List.set_set] at this
  exact this

theorem adjustHeapLoop_spec {α : Type} [DecidableEq α] (comp : α → α → Bool)
    (R : α → α → Prop) (hc : ∀ a b, comp a b = true → R b a)
    (hn : ∀ a b, comp a b = false → R a b) (hrefl : ∀ a, R a a) (len : Nat) :
    ∀ (fuel : Nat) (a : List α) (h : Nat), a.length = len → h < len → len ≤ 2 * h + 1 + fuel →
      heapDownFrom R a h →
      (adjustHeapLoop comp len fuel a h).1.length = len ∧
      (adjustHeapLoop comp len fuel a h).2 < len ∧
      heapDownFrom R (adjustHeapLoop comp len fuel a h).1 (adjustHeapLoop comp len fuel a h).2 ∧
      (∀ c, isChild c (adjustHeapLoop comp len fuel a h).2 → len ≤ c) ∧
      (∀ v, ((adjustHeapLoop comp len fuel a h).1.set (adjustHeapLoop comp len fuel a h).2 v).Perm
        (a.set h v)) := by
  intro fuel
  induction fuel with
  | zero =>
    intro a h hl hh hf hD
    rw [adjustHeapLoop]
    exact ⟨hl, hh, hD, fun c hch => by unfold isChild at hch; omega, fun v => List.Perm.refl _⟩
  | succ fuel ih =>
    intro a h hl hh hf hD
    rw [adjustHeapLoop]
    by_cases hlt : h < (len - 1) / 2
    · have hr : 2 * (h + 1) < a.length := by omega
      have hl1 : 2 * (h + 1) - 1 < a.length := by omega
      simp only [if_pos hlt, List.getElem?_eq_getElem hr, List.getElem?_eq_getElem hl1]
      by_cases hcmp : comp a[2 * (h + 1)] a[2 * (h + 1) - 1] = true
      · simp only [if_pos hcmp]
        have hch : isChild (2 * (h + 1) - 1) h := by unfold isChild; omega
        have hstep := heapDownFrom_step R a h (2 * (h + 1) - 1) a[2 * (h + 1) - 1] hD hch
          (List.getElem?_eq_getElem hl1) (by
            intro o y ho hy
            rcases ho with ho | ho
            · have : o = 2 * (h + 1) - 1 := by omega
              subst this
              rw [List.getElem?_eq_getElem hl1] at hy; cases hy; exact hrefl _
            · have : o = 2 * (h + 1) := by omega
              subst this
              rw [List.getElem?_eq_getElem hr] at hy; cases hy; exact hc _ _ hcmp)
        have hrec := ih (a.set h a[2 * (h + 1) - 1]) (2 * (h + 1) - 1)
          (by rw [List.length_set]; exact hl) (by omega) (by omega) hstep
        refine ⟨hrec.1, hrec.2.1, hrec.2.2.1, hrec.2.2.2.1, fun v => ?_⟩
        exact (hrec.2.2.2.2 v).trans (adjust_perm a h _ _ v (by omega) (by omega)
          (List.getElem?_eq_getElem hl1))
      · simp only [if_neg hcmp]
        have hch : isChild (2 * (h + 1)) h := by unfold isChild; omega
        have hstep := heapDownFrom_step R a h (2 * (h + 1)) a[2 * (h + 1)] hD hch
          (List.getElem?_eq_getElem hr) (by
            intro o y ho hy
            rcases ho with ho | ho
            · have : o = 2 * (h + 1) - 1 := by omega
              subst this
              rw [List.getElem?_eq_getElem hl1] at hy; cases hy
              exact hn _ _ (by simpa using hcmp)
            · have : o = 2 * (h + 1) := by omega
              subst this
              rw [List.getElem?_eq_getElem hr] at hy; cases hy; exact hrefl _)
        have hrec := ih (a.set h a[2 * (h + 1)]) (2 * (h + 1))
          (by rw [List.length_set]; exact hl) (by omega) (by omega) hstep
        refine ⟨hrec.1, hrec.2.1, hrec.2.2.1, hrec.2.2.2.1, fun v => ?_⟩
        exact (hrec.2.2.2.2 v).trans (adjust_perm a h _ _ v (by omega) (by omega)
          (List.getElem?_eq_getElem hr))
    · rw [if_neg hlt]
      by_cases hsp : len % 2 = 0 ∧ h = (len - 2) / 2
      · have hl1 : 2 * (h + 1) - 1 < a.length := by omega
        simp only [if_pos hsp, List.getElem?_eq_getElem hl1]
        have hch : isChild (2 * (h + 1) - 1) h := by unfold isChild; omega
        have hstep := heapDownFrom_step R a h (2 * (h + 1) - 1) a[2 * (h + 1) - 1] hD hch
          (List.getElem?_eq_getElem hl1) (by
            intro o y ho hy
            rcases ho with ho | ho
            · have : o = 2 * (h + 1) - 1 := by omega
              subst this
              rw [List.getElem?_eq_getElem hl1] at hy; cases hy; exact hrefl _
            · have hol : o < a.length := (List.getElem?_eq_some.mp hy).1
              omega)
        refine ⟨by rw [List.length_set]; exact hl, by omega, hstep, ?_, fun v => ?_⟩
        · intro c hcc; unfold isChild at hcc; omega
        · exact adjust_perm a h _ _ v (by omega) (by omega) (List.getElem?_eq_getElem hl1)
      · rw [if_neg hsp]
        refine ⟨hl, hh, hD, ?_, fun v => List.Perm.refl _⟩
        intro c hcc; unfold isChild at hcc; omega

theorem isHeap_dropLast {α : Type} (R : α → α → Prop) (a : List α) (h : isHeap R a) :
    isHeap R a.dropLast := by
  intro i c x y hch hx hy
  rw [List.dropLast_eq_take, List.getElem?_take] at hx hy
  split at hx
  · split at hy
    · exact h i c x y hch hx hy
    · cases hy
  · cases hx

theorem pop_heap_pop_back_spec {α : Type} [DecidableEq α] (comp : α → α → Bool)
    (R : α → α → Prop) (hc : ∀ a b, comp a b = true → R b a)
    (hn : ∀ a b, comp a b = false → R a b) (hrefl : ∀ a, R a a)
    (htrans : ∀ a b c, R a b → R b c → R a c) (a : List α) (hheap : isHeap R a) :
    isHeap R (pop_heap_pop_back comp a) ∧ (pop_heap_pop_back comp a).Perm a.tail := by
  unfold pop_heap_pop_back
  cases hlast : a.getLast? with
  | none =>
    have : a = [] := List.getLast?_eq_none_iff.mp hlast
    subst this
    exact ⟨hheap, List.Perm.refl _⟩
  | some value =>
    by_cases hlen : a.length > 1
    · simp only [if_pos hlen]
      have hl0 : a.dropLast.length = a.length - 1 := by simp
      have hD : heapDownFrom R a.dropLast 0 := by
        refine ⟨fun i c x y hch _ hx hy => isHeap_dropLast R a hheap i c x y hch hx hy, ?_⟩
        intro g c x y hg; unfold isChild at hg; omega
      obtain ⟨h1, h2, h3, h4, h5⟩ := adjustHeapLoop_spec comp R hc hn hrefl (a.length - 1)
        (a.length - 1) a.dropLast 0 hl0 (by omega) (by omega) hD
      generalize adjustHeapLoop comp (a.length - 1) (a.length - 1) a.dropLast 0 = r at h1 h2 h3 h4 h5
      have hU : heapUpTo R (r.1.set r.2 value) r.2 := by
        refine ⟨?_, ?_⟩
        · intro i c x y hch hcne hx hy
          have hcl : c < r.1.length := by
            have := (List.getElem?_eq_some.mp hy).1
            simpa using this
          rw [List.getElem?_set, if_neg (Ne.symm hcne)] at hy
          by_cases hi : i = r.2
          · subst hi
            have := h4 c hch
            omega
          · rw [List.getElem?_set, if_neg (Ne.symm hi)] at hx
            exact h3.1 i c x y hch hi hx hy
        · intro g c x y _ hch _ hy
          have hcl : c < r.1.length := by
            have := (List.getElem?_eq_some.mp hy).1
            simpa using this
          have := h4 c hch
          omega
      have hpush := pushHeapLoop_spec comp R hc hn htrans value (a.length - 1) r.1 r.2
        (by omega) (by omega) hU
      refine ⟨hpush.1, hpush.2.trans ((h5 value).trans ?_)⟩
      match a, hlast, hlen with
      | [], _, hlen => simp at hlen
      | [_], _, hlen => simp at hlen
      | f :: g :: t, hlast, _ =>
        have hlast' : (g :: t).getLast? = some value := by
          simpa [List.getLast?_cons_cons] using hlast
        rw [List.dropLast_cons₂, List.set_cons_zero, List.tail_cons]
        have := List.dropLast_append_getLast? value (by simpa using hlast')
        exact (List.perm_append_singleton value (g :: t).dropLast).symm.trans (by rw [this])
    · simp only [if_neg hlen]
      match a, hlast, hlen with
      | [f], _, _ => exact ⟨fun i c x y _ hx _ => by simp at hx, List.Perm.refl _⟩
      | [], hlast, _ => simp at hlast
      | f :: g :: t, _, hlen => simp at hlen

theorem isHeap_front_le {α : Type} (R : α → α → Prop) (hrefl : ∀ a, R a a)
    (htrans : ∀ a b c, R a b → R b c → R a c) (a : List α) (hheap : isHeap R a) (f : α)
    (hf : a[0]? = some f) : ∀ x ∈ a, R f x := by
  have key : ∀ (n i : Nat) (x : α), i ≤ n → a[i]? = some x → R f x := by
    intro n
    induction n with
    | zero =>
      intro i x hi hx
      have : i = 0 := by omega
      subst this
      rw [hf] at hx; cases hx; exact hrefl _
    | succ n ih =>
      intro i x hi hx
      by_cases h0 : i = 0
      · subst h0
        rw [hf] at hx; cases hx; exact hrefl _
      · have hil : i < a.length := (List.getElem?_eq_some.mp hx).1
        have hpl : (i - 1) / 2 < a.length := by omega
        have hpar := ih ((i - 1) / 2) a[(i - 1) / 2] (by omega) (List.getElem?_eq_getElem hpl)
        exact htrans _ _ _ hpar (hheap ((i - 1) / 2) i _ x (by unfold isChild; omega)
          (List.getElem?_eq_getElem hpl) hx)
  intro x hx
  obtain ⟨i, hi, rfl⟩ := List.getElem_of_mem hx
  exact key i i _ (le_refl i) (List.getElem?_eq_getElem hi)

/-! ## The sort of libstdc++ on arrays of at most 16 entries -/

theorem unguarded_linear_insert.walk_spec {α : Type} (comp : α → α → Bool) (R : α → α → Prop)
    (hc : ∀ a b, comp a b = true → R a b) (hn : ∀ a b, comp a b = false → R b a)
    (htrans : ∀ a b c, R a b → R b c → R a c) (val : α) :
    ∀ rp : List α, (∃ y ∈ rp, comp val y = false) → rp.Pairwise (fun a b => R b a) →
      ∃ r, unguarded_linear_insert.walk comp val rp = some r ∧ r.Perm (val :: rp) ∧
        r.Pairwise (fun a b => R b a) := by
  intro rp
  induction rp with
  | nil => rintro ⟨y, hy, _⟩ _; cases hy
  | cons y rest ih =>
    intro hex hpw
    rw [List.pairwise_cons] at hpw
    rw [unguarded_linear_insert.walk]
    by_cases hvy : comp val y = true
    · rw [if_pos hvy]
      have hex2 : ∃ z ∈ rest, comp val z = false := by
        obtain ⟨z, hz, hzf⟩ := hex
        rcases List.mem_cons.mp hz with rfl | hz
        · rw [hvy] at hzf; cases hzf
        · exact ⟨z, hz, hzf⟩
      obtain ⟨r, hr, hperm, hrpw⟩ := ih hex2 hpw.2
      refine ⟨y :: r, by rw [hr]; rfl, ?_, ?_⟩
      · exact (List.Perm.cons y hperm).trans (List.Perm.swap val y rest)
      · refine List.Pairwise.cons ?_ hrpw
        intro z hz
        rcases List.mem_cons.mp (hperm.mem_iff.mp hz) with rfl | hz
        · exact hc _ _ hvy
        · exact hpw.1 z hz
    · rw [if_neg hvy]
      have hyv : R y val := hn _ _ (by simpa using hvy)
      refine ⟨val :: y :: rest, rfl, List.Perm.refl _, ?_⟩
      refine List.Pairwise.cons ?_ (List.Pairwise.cons hpw.1 hpw.2)
      intro z hz
      rcases List.mem_cons.mp hz with rfl | hz
      · exact hyv
      · exact htrans _ _ _ (hpw.1 z hz) hyv

theorem insertion_sort.loop_spec {α : Type} (comp : α → α → Bool) (R : α → α → Prop)
    (hc : ∀ a b, comp a b = true → R a b) (hn : ∀ a b, comp a b = false → R b a)
    (htrans : ∀ a b c, R a b → R b c → R a c) :
    ∀ (post pre : List α), pre ≠ [] → pre.Pairwise R →
      ∃ s, insertion_sort.loop comp post.length pre.length (pre ++ post) = some s ∧
        s.Perm (pre ++ post) ∧ s.Pairwise R := by
  intro post
  induction post with
  | nil =>
    intro pre _ hpw
    exact ⟨pre, by simp [insertion_sort.loop], by simp, hpw⟩
  | cons val post ih =>
    intro pre hne hpw
    obtain ⟨front, tl, rfl⟩ := List.exists_cons_of_ne_nil hne
    rw [List.length_cons val post, insertion_sort.loop]
    have hval : ((front :: tl) ++ val :: post)[(front :: tl).length]? = some val := by
      rw [List.getElem?_append_right (le_refl _)]; simp
    have hfront : ((front :: tl) ++ val :: post)[0]? = some front := by simp
    have htake : ((front :: tl) ++ val :: post).take (front :: tl).length = front :: tl := by
      rw [List.take_append_of_le_length (le_refl _), List.take_length]
    have hdrop : ((front :: tl) ++ val :: post).drop ((front :: tl).length + 1) = post := by
      rw [show (front :: tl).length + 1 = ((front :: tl) ++ [val]).length by simp,
        show (front :: tl) ++ val :: post = ((front :: tl) ++ [val]) ++ post by simp,
        List.drop_left]
    rw [hval, hfront]
    simp only
    rw [List.pairwise_cons] at hpw
    by_cases hvf : comp val front = true
    · rw [if_pos hvf, htake, hdrop]
      have hpw2 : (val :: front :: tl).Pairwise R := by
        refine List.Pairwise.cons ?_ (List.Pairwise.cons hpw.1 hpw.2)
        intro z hz
        rcases List.mem_cons.mp hz with rfl | hz
        · exact hc _ _ hvf
        · exact htrans _ _ _ (hc _ _ hvf) (hpw.1 z hz)
      obtain ⟨s, hs, hperm, hspw⟩ := ih (val :: front :: tl) (by simp) hpw2
      have hlen : (val :: front :: tl).length = (front :: tl).length + 1 := by simp
      rw [hlen] at hs
      refine ⟨s, by simpa using hs, hperm.trans ?_, hspw⟩
      simp only [List.cons_append]
      exact (@List.perm_middle _ val (front :: tl) post).symm
    · rw [if_neg hvf]
      unfold unguarded_linear_insert
      rw [hval]
      simp only [htake, hdrop]
      obtain ⟨r, hr, hrperm, hrpw⟩ := unguarded_linear_insert.walk_spec comp R hc hn htrans val
        (front :: tl).reverse ⟨front, by simp, by simpa using hvf⟩
        (List.pairwise_reverse.mpr (List.Pairwise.cons hpw.1 hpw.2))
      rw [hr]
      simp only [Option.map_some']
      have hrne : r.reverse ≠ [] := by
        intro h
        have := hrperm.length_eq
        rw [← List.length_reverse, h] at this
        simp at this
      obtain ⟨s, hs, hperm, hspw⟩ := ih r.reverse hrne (List.pairwise_reverse.mp (by simpa using hrpw))
      have hlen : r.reverse.length = (front :: tl).length + 1 := by
        rw [List.length_reverse, hrperm.length_eq]; simp
      rw [hlen] at hs
      refine ⟨s, hs, hperm.trans ?_, hspw⟩
      have h1 : r.reverse.Perm (val :: front :: tl) :=
        (List.reverse_perm r).trans (hrperm.trans (List.Perm.cons val (List.reverse_perm _)))
      exact (List.Perm.append_right post h1).trans
        (by simpa using (@List.perm_middle _ val (front :: tl) post).symm)

/-- On an array of at most 16 entries `std::sort` is `__insertion_sort`: it returns, the result
is a rearrangement of the array, and it is in the order of the comparator whenever the
comparator decides every pair one way or the other along a transitive relation `R` (it may
answer `true` both ways). -/
theorem sort_small {α : Type} (comp : α → α → Bool) (R : α → α → Prop)
    (hc : ∀ a b, comp a b = true → R a b) (hn : ∀ a b, comp a b = false → R b a)
    (htrans : ∀ a b c, R a b → R b c → R a c) (a : List α) (hlen : a.length ≤ 16) :
    ∃ s, sort comp a = some s ∧ s.Perm a ∧ s.Pairwise R := by
  unfold sort
  cases a with
  | nil => exact ⟨[], by simp, List.Perm.refl _, List.Pairwise.nil⟩
  | cons x rest =>
    have hintro : introsort_loop comp (lg (x :: rest).length * 2) (x :: rest) 0
        (x :: rest).length = some (x :: rest) := by
      cases lg (x :: rest).length * 2 with
      | zero => rw [introsort_loop, if_neg (by simp only [S_threshold]; omega)]
      | succ d => rw [introsort_loop, if_neg (by simp only [S_threshold]; omega)]
    simp only [List.isEmpty_cons, Bool.false_eq_true, if_false, hintro]
    unfold final_insertion_sort insertion_sort
    rw [if_neg (by simp only [S_threshold]; omega), if_neg (by simp)]
    have h := insertion_sort.loop_spec comp R hc hn htrans rest [x] (by simp) (by simp)
    simpa using h

/-! ## The sort of libstdc++ on arrays without equal entries -/

theorem unguarded_partition.up_stop {α : Type} (comp : α → α → Bool) (p : α) :
    ∀ (B rest : List α) (x : α) (f : Nat), (∀ z ∈ B, comp z p = true) → comp x p = false →
      unguarded_partition.up comp p (B ++ x :: rest) f = some (f + B.length) := by
  intro B
  induction B with
  | nil =>
    intro rest x f _ hx
    simp [unguarded_partition.up, hx]
  | cons b B ih =>
    intro rest x f hB hx
    rw [List.cons_append, unguarded_partition.up, if_pos (hB b (List.mem_cons_self _ _)),
      ih rest x (f + 1) (fun z hz => hB z (List.mem_cons_of_mem _ hz)) hx]
    simp only [List.length_cons]
    congr 1
    omega

theorem unguarded_partition.down_stop {α : Type} (comp : α → α → Bool) (p : α) :
    ∀ (B rest : List α) (y : α) (l : Nat), (∀ z ∈ B, comp p z = true) → comp p y = false →
      unguarded_partition.down comp p (B ++ y :: rest) l = some (l - B.length) := by
  intro B
  induction B with
  | nil =>
    intro rest y l _ hy
    simp [unguarded_partition.down, hy]
  | cons b B ih =>
    intro rest y l hB hy
    rw [List.cons_append, unguarded_partition.down, if_pos (hB b (List.mem_cons_self _ _)),
      ih rest y (l - 1) (fun z hz => hB z (List.mem_cons_of_mem _ hz)) hy]
    simp only [List.length_cons]
    congr 1
    omega

theorem iter_swap_append {α : Type} (X Y Z : List α) (x y : α) :
    iter_swap (X ++ x :: Y ++ y :: Z) X.length (X.length + 1 + Y.length) =
      some (X ++ y :: Y ++ x :: Z) := by
  unfold iter_swap
  have h1 : (X ++ x :: Y ++ y :: Z)[X.length]? = some x := by
    rw [List.append_assoc, List.getElem?_append_right (le_refl _)]
    simp
  have h2 : (X ++ x :: Y ++ y :: Z)[X.length + 1 + Y.length]? = some y := by
    rw [show X ++ x :: Y ++ y :: Z = (X ++ x :: Y) ++ y :: Z by simp,
      List.getElem?_append_right (by simp; omega)]
    simp
    rw [show X.length + 1 + Y.length - (X.length + (Y.length + 1)) = 0 by omega]
    simp
  rw [h1, h2]
  simp only [Option.some.injEq]
  rw [List.append_assoc, List.set_append_right _ _ (le_refl _)]
  simp only [Nat.sub_self, List.cons_append, List.set_cons_zero]
  rw [show X ++ y :: (Y ++ y :: Z) = (X ++ y :: Y) ++ y :: Z by simp,
    List.set_append_right _ _ (by simp; omega)]
  simp
  rw [show X.length + 1 + Y.length - (X.length + (Y.length + 1)) = 0 by omega]
  simp

theorem split_first {α : Type} (P Q : α → Prop) :
    ∀ B : List α, (∀ z ∈ B, P z ∨ Q z) →
      ∃ B1 rest, B = B1 ++ rest ∧ (∀ z ∈ B1, P z) ∧ (rest = [] ∨ ∃ x r, rest = x :: r ∧ Q x) := by
  intro B
  induction B with
  | nil => intro _; exact ⟨[], [], rfl, by simp, Or.inl rfl⟩
  | cons b B ih =>
    intro h
    rcases h b (List.mem_cons_self _ _) with hb | hb
    · obtain ⟨B1, rest, h1, h2, h3⟩ := ih (fun z hz => h z (List.mem_cons_of_mem _ hz))
      refine ⟨b :: B1, rest, by rw [h1]; rfl, ?_, h3⟩
      intro z hz
      rcases List.mem_cons.mp hz with rfl | hz
      · exact hb
      · exact h2 z hz
    · exact ⟨[], b :: B, rfl, by simp, Or.inr ⟨b, B, rfl, hb⟩⟩

theorem split_last {α : Type} (P Q : α → Prop) (B : List α) (h : ∀ z ∈ B, P z ∨ Q z) :
    ∃ pre B4, B = pre ++ B4 ∧ (∀ z ∈ B4, Q z) ∧ (pre = [] ∨ ∃ r y, pre = r ++ [y] ∧ P y) := by
  obtain ⟨B1, rest, h1, h2, h3⟩ := split_first Q P B.reverse
    (fun z hz => (h z (List.mem_reverse.mp hz)).symm)
  refine ⟨rest.reverse, B1.reverse, ?_, fun z hz => h2 z (List.mem_reverse.mp hz), ?_⟩
  · rw [← List.reverse_append, ← h1, List.reverse_reverse]
  · rcases h3 with h3 | ⟨x, r, h3, hx⟩
    · left; rw [h3]; rfl
    · right; exact ⟨r.reverse, x, by rw [h3]; simp, hx⟩

/-- The shape of the unscanned part `B` of a partition range whose entries all lie strictly on
one side of the pivot: a run of entries below the pivot, then either a run of entries above it,
or an entry above, a middle part, an entry below and a run of entries above. -/
theorem partition_shape {α : Type} (comp : α → α → Bool) (p : α) (B : List α)
    (hB : ∀ z ∈ B, (comp z p = true ∧ comp p z = false) ∨ (comp z p = false ∧ comp p z = true)) :
    ∃ B1 B4, (∀ z ∈ B1, comp z p = true ∧ comp p z = false) ∧
      (∀ z ∈ B4, comp z p = false ∧ comp p z = true) ∧
      (B = B1 ++ B4 ∨ ∃ x Bm y, B = B1 ++ x :: Bm ++ y :: B4 ∧
        (comp x p = false ∧ comp p x = true) ∧ (comp y p = true ∧ comp p y = false)) := by
  obtain ⟨B1, rest, h1, h2, h3⟩ := split_first _ _ B hB
  rcases h3 with h3 | ⟨x, r, h3, hx⟩
  · exact ⟨B1, [], h2, by simp, Or.inl (by rw [h1, h3])⟩
  · have hrest : ∀ z ∈ rest, (comp z p = true ∧ comp p z = false) ∨
        (comp z p = false ∧ comp p z = true) :=
      fun z hz => hB z (by rw [h1]; exact List.mem_append_right _ hz)
    obtain ⟨pre, B4, g1, g2, g3⟩ := split_last _ _ rest hrest
    rcases g3 with g3 | ⟨r2, y, g3, hy⟩
    · exact ⟨B1, B4, h2, g2, Or.inl (by rw [h1, g1, g3]; rfl)⟩
    · refine ⟨B1, B4, h2, g2, Or.inr ?_⟩
      cases r2 with
      | nil =>
        exfalso
        rw [g3, h3] at g1
        simp at g1
        rw [g1.1] at hx
        rw [hx.1] at hy
        exact Bool.noConfusion hy.1
      | cons x2 Bm =>
        rw [g3, h3] at g1
        simp at g1
        refine ⟨x, Bm, y, ?_, hx, hy⟩
        rw [h1, h3, g1.2, g1.1]
        simp

theorem perm_swap_ends {α : Type} (Bm T : List α) (x y : α) :
    (y :: (Bm ++ x :: T)).Perm (x :: (Bm ++ y :: T)) := by
  have h1 : (Bm ++ x :: T).Perm (x :: (Bm ++ T)) := List.perm_middle
  have h2 : (Bm ++ y :: T).Perm (y :: (Bm ++ T)) := List.perm_middle
  exact ((List.Perm.cons y h1).trans (List.Perm.swap x y _)).trans (List.Perm.cons x h2.symm)

/-- The loop of `__unguarded_partition` on a range whose entries all lie strictly on one side
of the pivot `p`, stored in the slot before the range.  `A` and `C` are the parts already
scanned from the left and from the right, `B` is the part in between; an entry below the pivot
is in `A` or `B` and one above it in `B` or `C`.  The scans stay inside the range, and the call
returns the range rearranged into the entries below the pivot followed by the entries above
it, with the index of the first of the latter. -/
theorem unguarded_partition_spec {α : Type} (comp : α → α → Bool) (p : α) (L Rr : List α) :
    ∀ (fuel : Nat) (A B C : List α), B.length < fuel →
      (∀ z ∈ A, comp z p = true ∧ comp p z = false) →
      (∀ z ∈ C, comp z p = false ∧ comp p z = true) →
      (∀ z ∈ B, (comp z p = true ∧ comp p z = false) ∨
        (comp z p = false ∧ comp p z = true)) →
      (A ≠ [] ∨ ∃ z ∈ B, comp z p = true ∧ comp p z = false) →
      (C ≠ [] ∨ ∃ z ∈ B, comp z p = false ∧ comp p z = true) →
      ∃ M1 M2, unguarded_partition comp L.length fuel (L ++ p :: (A ++ (B ++ (C ++ Rr))))
          (L.length + 1 + A.length) (L.length + 1 + A.length + B.length) =
          some (L ++ p :: (M1 ++ (M2 ++ Rr)), L.length + 1 + M1.length) ∧
        (M1 ++ M2).Perm (A ++ (B ++ C)) ∧
        (∀ z ∈ M1, comp z p = true ∧ comp p z = false) ∧
        (∀ z ∈ M2, comp z p = false ∧ comp p z = true) ∧ M1 ≠ [] ∧ M2 ≠ [] := by
  intro fuel
  induction fuel with
  | zero => intro A B C h; omega
  | succ fuel ih =>
    intro A B C hfuel hA hC hB hlo hhi
    have hpiv : (L ++ p :: (A ++ (B ++ (C ++ Rr))))[L.length]? = some p := by
      rw [List.getElem?_append_right (le_refl _)]; simp
    have hdrop : (L ++ p :: (A ++ (B ++ (C ++ Rr)))).drop (L.length + 1 + A.length) =
        B ++ (C ++ Rr) := by
      rw [show L ++ p :: (A ++ (B ++ (C ++ Rr))) = (L ++ p :: A) ++ (B ++ (C ++ Rr)) by simp]
      exact List.drop_left' (by simp; omega)
    have htake : (L ++ p :: (A ++ (B ++ (C ++ Rr)))).take
        (L.length + 1 + A.length + B.length) = L ++ p :: (A ++ B) := by
      rw [show L ++ p :: (A ++ (B ++ (C ++ Rr))) = (L ++ p :: (A ++ B)) ++ (C ++ Rr) by simp]
      exact List.take_left' (by simp; omega)
    rw [unguarded_partition, hpiv]
    simp only [hdrop, htake]
    obtain ⟨B1, B4, hB1, hB4, hshape⟩ := partition_shape comp p B hB
    rcases hshape with hshape | ⟨x, Bm, y, hshape, hx, hy⟩
    · -- the range is partitioned already
      subst hshape
      have hne2 : B4 ++ C ≠ [] := by
        intro h
        have hB0 : B4 = [] := (List.append_eq_nil.mp h).1
        have hC0 : C = [] := (List.append_eq_nil.mp h).2
        rcases hhi with h | ⟨z, hz, hz2⟩
        · exact h hC0
        · rw [hB0, List.append_nil] at hz
          have := hB1 z hz
          rw [this.1] at hz2
          exact Bool.noConfusion hz2.1
      have hne1 : A ++ B1 ≠ [] := by
        intro h
        have hA0 : A = [] := (List.append_eq_nil.mp h).1
        have hB0 : B1 = [] := (List.append_eq_nil.mp h).2
        rcases hlo with h | ⟨z, hz, hz2⟩
        · exact h hA0
        · rw [hB0, List.nil_append] at hz
          have := hB4 z hz
          rw [this.1] at hz2
          exact Bool.noConfusion hz2.1
      have hhigh : ∃ x T, B4 ++ (C ++ Rr) = x :: T ∧ comp x p = false := by
        obtain ⟨x, T, hxT⟩ := List.exists_cons_of_ne_nil hne2
        refine ⟨x, T ++ Rr, by rw [← List.append_assoc, hxT]; rfl, ?_⟩
        have hmem : x ∈ B4 ++ C := by rw [hxT]; exact List.mem_cons_self _ _
        rcases List.mem_append.mp hmem with h | h
        · exact (hB4 x h).1
        · exact (hC x h).1
      have hlow : ∃ y T, (A ++ B1).reverse = y :: T ∧ comp p y = false := by
        have hne : (A ++ B1).reverse ≠ [] := fun h => hne1 (List.reverse_eq_nil_iff.mp h)
        obtain ⟨y, T, hyT⟩ := List.exists_cons_of_ne_nil hne
        refine ⟨y, T, hyT, ?_⟩
        have hmem : y ∈ A ++ B1 := by
          rw [← List.mem_reverse, hyT]; exact List.mem_cons_self _ _
        rcases List.mem_append.mp hmem with h | h
        · exact (hA y h).2
        · exact (hB1 y h).2
      obtain ⟨x, T, hxT, hxp⟩ := hhigh
      obtain ⟨y, T2, hyT, hyp⟩ := hlow
      have hup : unguarded_partition.up comp p ((B1 ++ B4) ++ (C ++ Rr))
          (L.length + 1 + A.length) = some (L.length + 1 + A.length + B1.length) := by
        rw [List.append_assoc, hxT]
        exact unguarded_partition.up_stop comp p B1 T x _ (fun z hz => (hB1 z hz).1) hxp
      have hdown : unguarded_partition.down comp p (L ++ p :: (A ++ (B1 ++ B4))).reverse
          (L.length + 1 + A.length + (B1 ++ B4).length - 1) =
          some (L.length + 1 + A.length + B1.length - 1) := by
        have hrev : (L ++ p :: (A ++ (B1 ++ B4))).reverse =
            B4.reverse ++ y :: (T2 ++ p :: L.reverse) := by
          rw [show L ++ p :: (A ++ (B1 ++ B4)) = (L ++ [p]) ++ ((A ++ B1) ++ B4) by simp,
            List.reverse_append, List.reverse_append, hyT]
          simp
        rw [hrev, unguarded_partition.down_stop comp p B4.reverse _ y _
          (fun z hz => (hB4 z (List.mem_reverse.mp hz)).2) hyp]
        simp only [List.length_reverse, List.length_append]
        congr 1
        omega
      rw [hup, hdown]
      simp only
      rw [if_neg (by omega)]
      refine ⟨A ++ B1, B4 ++ C, ?_, ?_, ?_, ?_, ?_, ?_⟩
      · simp [List.append_assoc]
        omega
      · simp [List.append_assoc]
      · intro z hz
        rcases List.mem_append.mp hz with h | h
        · exact hA z h
        · exact hB1 z h
      · intro z hz
        rcases List.mem_append.mp hz with h | h
        · exact hB4 z h
        · exact hC z h
      · exact hne1
      · exact hne2
    · -- an entry above the pivot stands before an entry below it: they change places
      subst hshape
      have hup : unguarded_partition.up comp p ((B1 ++ x :: Bm ++ y :: B4) ++ (C ++ Rr))
          (L.length + 1 + A.length) = some (L.length + 1 + A.length + B1.length) := by
        rw [show (B1 ++ x :: Bm ++ y :: B4) ++ (C ++ Rr) =
          B1 ++ x :: (Bm ++ y :: (B4 ++ (C ++ Rr))) by simp]
        exact unguarded_partition.up_stop comp p B1 _ x _ (fun z hz => (hB1 z hz).1) hx.1
      have hdown : unguarded_partition.down comp p
          (L ++ p :: (A ++ (B1 ++ x :: Bm ++ y :: B4))).reverse
          (L.length + 1 + A.length + (B1 ++ x :: Bm ++ y :: B4).length - 1) =
          some (L.length + 1 + A.length + B1.length + 1 + Bm.length) := by
        have hrev : (L ++ p :: (A ++ (B1 ++ x :: Bm ++ y :: B4))).reverse =
            B4.reverse ++ y :: (L ++ p :: (A ++ (B1 ++ x :: Bm))).reverse := by
          rw [show L ++ p :: (A ++ (B1 ++ x :: Bm ++ y :: B4)) =
            (L ++ p :: (A ++ (B1 ++ x :: Bm))) ++ y :: B4 by simp]
          rw [List.reverse_append, List.reverse_cons]
          simp
        rw [hrev, unguarded_partition.down_stop comp p B4.reverse _ y _
          (fun z hz => (hB4 z (List.mem_reverse.mp hz)).2) hy.2]
        simp only [List.length_reverse, List.length_append, List.length_cons]
        congr 1
        omega
      rw [hup, hdown]
      simp only
      rw [if_pos (by omega)]
      have hswap : iter_swap (L ++ p :: (A ++ ((B1 ++ x :: Bm ++ y :: B4) ++ (C ++ Rr))))
          (L.length + 1 + A.length + B1.length)
          (L.length + 1 + A.length + B1.length + 1 + Bm.length) =
          some (L ++ p :: ((A ++ (B1 ++ [y])) ++ (Bm ++ ((x :: (B4 ++ C)) ++ Rr)))) := by
        have h := iter_swap_append (L ++ p :: (A ++ B1)) Bm (B4 ++ (C ++ Rr)) x y
        have hlen : (L ++ p :: (A ++ B1)).length = L.length + 1 + A.length + B1.length := by
          simp; omega
        rw [hlen] at h
        have e1 : L ++ p :: (A ++ B1) ++ x :: Bm ++ y :: (B4 ++ (C ++ Rr)) =
            L ++ p :: (A ++ ((B1 ++ x :: Bm ++ y :: B4) ++ (C ++ Rr))) := by simp
        have e2 : L ++ p :: (A ++ B1) ++ y :: Bm ++ x :: (B4 ++ (C ++ Rr)) =
            L ++ p :: ((A ++ (B1 ++ [y])) ++ (Bm ++ ((x :: (B4 ++ C)) ++ Rr))) := by simp
        rw [e1, e2] at h
        exact h
      have hswap2 : iter_swap (L ++ p :: (A ++ (B1 ++ x :: Bm ++ y :: B4 ++ (C ++ Rr))))
          (L.length + 1 + A.length + B1.length)
          (L.length + 1 + A.length + B1.length + 1 + Bm.length) =
          some (L ++ p :: ((A ++ (B1 ++ [y])) ++ (Bm ++ ((x :: (B4 ++ C)) ++ Rr)))) := hswap
      rw [hswap2]
      simp only
      have hA2 : ∀ z ∈ A ++ (B1 ++ [y]), comp z p = true ∧ comp p z = false := by
        intro z hz
        rcases List.mem_append.mp hz with h | h
        · exact hA z h
        · rcases List.mem_append.mp h with h | h
          · exact hB1 z h
          · rw [List.mem_singleton.mp h]; exact hy
      have hC2 : ∀ z ∈ x :: (B4 ++ C), comp z p = false ∧ comp p z = true := by
        intro z hz
        rcases List.mem_cons.mp hz with rfl | h
        · exact hx
        · rcases List.mem_append.mp h with h | h
          · exact hB4 z h
          · exact hC z h
      have hB2 : ∀ z ∈ Bm, (comp z p = true ∧ comp p z = false) ∨
          (comp z p = false ∧ comp p z = true) :=
        fun z hz => hB z (by simp [hz])
      have hf : Bm.length < fuel := by
        simp only [List.length_append, List.length_cons] at hfuel
        omega
      obtain ⟨M1, M2, hrun, hperm, hM1, hM2, hn1, hn2⟩ := ih (A ++ (B1 ++ [y])) Bm
        (x :: (B4 ++ C)) hf hA2 hC2 hB2 (Or.inl (by simp)) (Or.inl (by simp))
      have hidx1 : L.length + 1 + (A ++ (B1 ++ [y])).length =
          L.length + 1 + A.length + B1.length + 1 := by simp; omega
      rw [hidx1] at hrun
      refine ⟨M1, M2, hrun, hperm.trans ?_, hM1, hM2, hn1, hn2⟩
      have h1 := perm_swap_ends Bm (B4 ++ C) x y
      have h2 : (A ++ (B1 ++ [y]) ++ (Bm ++ x :: (B4 ++ C))).Perm
          (A ++ (B1 ++ (y :: (Bm ++ x :: (B4 ++ C))))) := by simp
      have h3 : (A ++ (B1 ++ x :: Bm ++ y :: B4 ++ C)).Perm
          (A ++ (B1 ++ (x :: (Bm ++ y :: (B4 ++ C))))) := by simp
      exact h2.trans (((h1.append_left B1).append_left A).trans h3.symm)

/-- Two entries that the order `R` tells apart: the comparator answers one way on them and the
other way on the swapped pair. -/
theorem comp_swap {α : Type} (comp : α → α → Bool) (R : α → α → Prop)
    (hc : ∀ a b, comp a b = true → R a b) (hn : ∀ a b, comp a b = false → R b a) (x y : α)
    (hxy : ¬ (R x y ∧ R y x)) : comp y x = !comp x y := by
  cases h1 : comp x y with
  | true =>
    cases h2 : comp y x with
    | true => exact absurd ⟨hc _ _ h1, hc _ _ h2⟩ hxy
    | false => rfl
  | false =>
    cases h2 : comp y x with
    | true => rfl
    | false => exact absurd ⟨hn _ _ h2, hn _ _ h1⟩ hxy

theorem swap_to_front {α : Type} (L Rr T : List α) (u v : α) (k : Nat) (hk : T[k]? = some v) :
    iter_swap (L ++ u :: (T ++ Rr)) L.length (L.length + 1 + k) =
        some (L ++ v :: ((T.take k ++ u :: T.drop (k + 1)) ++ Rr)) ∧
      (v :: (T.take k ++ u :: T.drop (k + 1))).Perm (u :: T) ∧
      (T.take k ++ u :: T.drop (k + 1)).length = T.length ∧
      ∀ s w, s ≠ k → T[s]? = some w → w ∈ T.take k ++ u :: T.drop (k + 1) := by
  have hlt : k < T.length := by
    by_contra h
    rw [List.getElem?_eq_none (by omega)] at hk
    cases hk
  have hT : T = T.take k ++ v :: T.drop (k + 1) := by
    have h1 : T.drop k = v :: T.drop (k + 1) := by
      rw [List.drop_eq_getElem_cons hlt]
      congr 1
      rw [List.getElem?_eq_getElem hlt] at hk
      exact Option.some.inj hk
    conv_lhs => rw [← List.take_append_drop k T, h1]
  have hlen : (T.take k).length = k := by rw [List.length_take]; omega
  refine ⟨?_, ?_, ?_, ?_⟩
  · have h := iter_swap_append L (T.take k) (T.drop (k + 1) ++ Rr) u v
    rw [hlen] at h
    have e1 : L ++ u :: T.take k ++ v :: (T.drop (k + 1) ++ Rr) = L ++ u :: (T ++ Rr) := by
      conv_rhs => rw [hT]
      simp
    have e2 : L ++ v :: T.take k ++ u :: (T.drop (k + 1) ++ Rr) =
        L ++ v :: ((T.take k ++ u :: T.drop (k + 1)) ++ Rr) := by simp
    rw [e1, e2] at h
    exact h
  · have h := perm_swap_ends (T.take k) (T.drop (k + 1)) v u
    conv_rhs => rw [hT]
    exact h.symm
  · conv_rhs => rw [hT]
    simp
  · intro s w hs hw
    rcases Nat.lt_or_gt_of_ne hs with h | h
    · apply List.mem_append_left
      exact List.getElem?_mem (by rw [List.getElem?_take_of_lt h]; exact hw)
    · apply List.mem_append_right
      apply List.mem_cons_of_mem
      have h2 : (T.drop (k + 1))[s - (k + 1)]? = some w := by
        rw [List.getElem?_drop, show k + 1 + (s - (k + 1)) = s by omega]
        exact hw
      exact List.getElem?_mem h2

theorem pairwise_getElem? {α : Type} (r : α → α → Prop) (l : List α) (h : l.Pairwise r)
    (i j : Nat) (a b : α) (hi : l[i]? = some a) (hj : l[j]? = some b) (hij : i < j) : r a b := by
  have hjl : j < l.length := by
    by_contra hc
    rw [List.getElem?_eq_none (by omega)] at hj
    cases hj
  have hil : i < l.length := by omega
  rw [List.getElem?_eq_getElem hil] at hi
  rw [List.getElem?_eq_getElem hjl] at hj
  have := (List.pairwise_iff_getElem.mp h) i j hil hjl hij
  rw [Option.some.inj hi, Option.some.inj hj] at this
  exact this

theorem getElem?_inner {α : Type} (L Rr T : List α) (u : α) (s : Nat) (hs : s < T.length) :
    (L ++ u :: (T ++ Rr))[L.length + 1 + s]? = T[s]? := by
  rw [List.getElem?_append_right (by omega)]
  rw [show L.length + 1 + s - L.length = s + 1 by omega, List.getElem?_cons_succ,
    List.getElem?_append_left hs]

/-- The call `__move_median_to_first` on a range of at least six entries that `R` tells apart:
the range starts with the median `p` of the three entries inspected afterwards, the range is
rearranged, and behind `p` it holds an entry on which `comp(·, p)` answers `true` and one on
which it answers `false`. -/
theorem move_median_spec {α : Type} (comp : α → α → Bool) (R : α → α → Prop)
    (hc : ∀ a b, comp a b = true → R a b) (hn : ∀ a b, comp a b = false → R b a)
    (L Rr T : List α) (u : α) (hlen : 5 ≤ T.length)
    (hd : (u :: T).Pairwise (fun x y => ¬ (R x y ∧ R y x))) :
    ∃ p M', move_median_to_first comp (L ++ u :: (T ++ Rr)) L.length (L.length + 1)
        (L.length + (T.length + 1) / 2) (L.length + T.length) = some (L ++ p :: (M' ++ Rr)) ∧
      (p :: M').Perm (u :: T) ∧ M'.length = T.length ∧
      (∃ lo ∈ M', comp lo p = true) ∧ (∃ hi ∈ M', comp hi p = false) := by
  have hdT : T.Pairwise (fun x y => ¬ (R x y ∧ R y x)) := (List.pairwise_cons.mp hd).2
  have hh1 : 0 < (T.length + 1) / 2 - 1 := by omega
  have hh2 : (T.length + 1) / 2 - 1 < T.length - 1 := by omega
  obtain ⟨x, hx⟩ : ∃ x, T[0]? = some x := ⟨_, List.getElem?_eq_getElem (by omega)⟩
  obtain ⟨y, hy⟩ : ∃ y, T[(T.length + 1) / 2 - 1]? = some y :=
    ⟨_, List.getElem?_eq_getElem (by omega)⟩
  obtain ⟨z, hz⟩ : ∃ z, T[T.length - 1]? = some z := ⟨_, List.getElem?_eq_getElem (by omega)⟩
  have hxy : comp y x = !comp x y :=
    comp_swap comp R hc hn x y (pairwise_getElem? _ T hdT _ _ x y hx hy hh1)
  have hxz : comp z x = !comp x z :=
    comp_swap comp R hc hn x z (pairwise_getElem? _ T hdT _ _ x z hx hz (by omega))
  have hyz : comp z y = !comp y z :=
    comp_swap comp R hc hn y z (pairwise_getElem? _ T hdT _ _ y z hy hz hh2)
  have ra : (L ++ u :: (T ++ Rr))[L.length + 1]? = some x := by
    have := getElem?_inner L Rr T u 0 (by omega)
    rw [Nat.add_zero] at this
    rw [this, hx]
  have rb : (L ++ u :: (T ++ Rr))[L.length + (T.length + 1) / 2]? = some y := by
    have := getElem?_inner L Rr T u ((T.length + 1) / 2 - 1) (by omega)
    rw [show L.length + 1 + ((T.length + 1) / 2 - 1) = L.length + (T.length + 1) / 2 by omega]
      at this
    rw [this, hy]
  have rc : (L ++ u :: (T ++ Rr))[L.length + T.length]? = some z := by
    have := getElem?_inner L Rr T u (T.length - 1) (by omega)
    rw [show L.length + 1 + (T.length - 1) = L.length + T.length by omega] at this
    rw [this, hz]
  have sa := swap_to_front L Rr T u x 0 hx
  have sb := swap_to_front L Rr T u y ((T.length + 1) / 2 - 1) hy
  have sc := swap_to_front L Rr T u z (T.length - 1) hz
  rw [Nat.add_zero] at sa
  rw [show L.length + 1 + ((T.length + 1) / 2 - 1) = L.length + (T.length + 1) / 2 by omega] at sb
  rw [show L.length + 1 + (T.length - 1) = L.length + T.length by omega] at sc
  unfold move_median_to_first
  rw [ra, rb, rc]
  simp only
  by_cases c1 : comp x y = true
  · rw [if_pos c1]
    by_cases c2 : comp y z = true
    · rw [if_pos c2]
      exact ⟨y, _, sb.1, sb.2.1, sb.2.2.1, ⟨x, sb.2.2.2 0 x (by omega) hx, c1⟩,
        ⟨z, sb.2.2.2 _ z (by omega) hz, by rw [hyz, c2]; rfl⟩⟩
    · rw [if_neg c2]
      by_cases c3 : comp x z = true
      · rw [if_pos c3]
        exact ⟨z, _, sc.1, sc.2.1, sc.2.2.1, ⟨x, sc.2.2.2 0 x (by omega) hx, c3⟩,
          ⟨y, sc.2.2.2 _ y (by omega) hy, by simpa using c2⟩⟩
      · rw [if_neg c3]
        exact ⟨x, _, sa.1, sa.2.1, sa.2.2.1,
          ⟨z, sa.2.2.2 _ z (by omega) hz, by rw [hxz]; simpa using c3⟩,
          ⟨y, sa.2.2.2 _ y (by omega) hy, by rw [hxy, c1]; rfl⟩⟩
  · rw [if_neg c1]
    by_cases c3 : comp x z = true
    · rw [if_pos c3]
      exact ⟨x, _, sa.1, sa.2.1, sa.2.2.1,
        ⟨y, sa.2.2.2 _ y (by omega) hy, by rw [hxy]; simpa using c1⟩,
        ⟨z, sa.2.2.2 _ z (by omega) hz, by rw [hxz, c3]; rfl⟩⟩
    · rw [if_neg c3]
      by_cases c2 : comp y z = true
      · rw [if_pos c2]
        exact ⟨z, _, sc.1, sc.2.1, sc.2.2.1, ⟨y, sc.2.2.2 _ y (by omega) hy, c2⟩,
          ⟨x, sc.2.2.2 0 x (by omega) hx, by simpa using c3⟩⟩
      · rw [if_neg c2]
        exact ⟨y, _, sb.1, sb.2.1, sb.2.2.1,
          ⟨z, sb.2.2.2 _ z (by omega) hz, by rw [hyz]; simpa using c2⟩,
          ⟨x, sb.2.2.2 0 x (by omega) hx, by simpa using c1⟩⟩

theorem apart_perm {α : Type} (R : α → α → Prop) (l1 l2 : List α) (h : l1.Perm l2)
    (hd : l2.Pairwise (fun x y => ¬ (R x y ∧ R y x))) :
    l1.Pairwise (fun x y => ¬ (R x y ∧ R y x)) :=
  (List.Perm.pairwise_iff (fun hxy hyx => hxy ⟨hyx.2, hyx.1⟩) h).mpr hd

/-- The call `__unguarded_partition_pivot` on a range of more than five entries that `R` tells
apart: it returns, the range is rearranged into a pivot `p`, entries that stand before `p` in
the order and entries that stand behind it, and the returned index is that of the first of the
latter, of which there is at least one. -/
theorem unguarded_partition_pivot_spec {α : Type} (comp : α → α → Bool) (R : α → α → Prop)
    (hc : ∀ a b, comp a b = true → R a b) (hn : ∀ a b, comp a b = false → R b a)
    (L Rr M : List α) (hlen : 6 ≤ M.length)
    (hd : M.Pairwise (fun x y => ¬ (R x y ∧ R y x))) :
    ∃ p M1 M2, unguarded_partition_pivot comp (L ++ (M ++ Rr)) L.length
        (L.length + M.length) =
        some (L ++ p :: (M1 ++ (M2 ++ Rr)), L.length + 1 + M1.length) ∧
      (p :: (M1 ++ M2)).Perm M ∧ (∀ z ∈ M1, R z p) ∧ (∀ z ∈ M2, R p z) ∧ M2 ≠ [] := by
  cases M with
  | nil => simp at hlen
  | cons u T =>
    simp only [List.length_cons] at hlen
    obtain ⟨p, M', hmed, hperm, hlenM, ⟨lo, hlo, hlo2⟩, ⟨hi, hhi, hhi2⟩⟩ :=
      move_median_spec comp R hc hn L Rr T u (by omega) hd
    have hd2 := apart_perm R _ _ hperm hd
    have hside : ∀ z ∈ M', comp p z = !comp z p := fun z hz =>
      comp_swap comp R hc hn z p (fun h => (List.pairwise_cons.mp hd2).1 z hz ⟨h.2, h.1⟩)
    have hB : ∀ z ∈ M', (comp z p = true ∧ comp p z = false) ∨
        (comp z p = false ∧ comp p z = true) := by
      intro z hz
      have := hside z hz
      cases h : comp z p with
      | true => left; rw [h] at this; exact ⟨rfl, this⟩
      | false => right; rw [h] at this; exact ⟨rfl, this⟩
    obtain ⟨M1, M2, hrun, hperm2, hM1, hM2, _, hne2⟩ :=
      unguarded_partition_spec comp p L Rr ((L ++ p :: (M' ++ Rr)).length + 1) [] M' []
        (by simp; omega) (by simp) (by simp) hB
        (Or.inr ⟨lo, hlo, hlo2, by rw [hside lo hlo, hlo2]; rfl⟩)
        (Or.inr ⟨hi, hhi, hhi2, by rw [hside hi hhi, hhi2]; rfl⟩)
    refine ⟨p, M1, M2, ?_, ?_, fun z hz => hc _ _ (hM1 z hz).1, fun z hz => hc _ _ (hM2 z hz).2,
      hne2⟩
    · unfold unguarded_partition_pivot
      simp only
      have e1 : L.length + (L.length + (u :: T).length - L.length) / 2 =
          L.length + (T.length + 1) / 2 := by
        simp only [List.length_cons]
        rw [show L.length + (T.length + 1) - L.length = T.length + 1 by omega]
      have e2 : L.length + (u :: T).length - 1 = L.length + T.length := by
        simp only [List.length_cons]; omega
      have e3 : L ++ (u :: T ++ Rr) = L ++ u :: (T ++ Rr) := by simp
      rw [e1, e2, e3, hmed]
      simp only
      have e4 : L.length + (u :: T).length = L.length + 1 + ([] : List α).length + M'.length := by
        simp only [List.length_cons, List.length_nil, hlenM]; omega
      have e5 : L.length + 1 = L.length + 1 + ([] : List α).length := by simp
      have e6 : L ++ p :: (M' ++ Rr) = L ++ p :: ([] ++ (M' ++ ([] ++ Rr))) := by simp
      rw [e4]
      conv_lhs => arg 5; rw [e5]
      rw [e6]
      exact hrun
    · have : (p :: (M1 ++ M2)).Perm (p :: M') := List.Perm.cons p (by simpa using hperm2)
      exact this.trans hperm

/-- The loop of `__insertion_sort` run over a part of the array only: the slots behind the part
are left as they are. -/
theorem insertion_sort.loop_front_spec {α : Type} (comp : α → α → Bool) (R : α → α → Prop)
    (hc : ∀ a b, comp a b = true → R a b) (hn : ∀ a b, comp a b = false → R b a)
    (htrans : ∀ a b c, R a b → R b c → R a c) (rest : List α) :
    ∀ (post pre : List α), pre ≠ [] → pre.Pairwise R →
      ∃ s, insertion_sort.loop comp post.length pre.length (pre ++ (post ++ rest)) =
          some (s ++ rest) ∧ s.Perm (pre ++ post) ∧ s.Pairwise R := by
  intro post
  induction post with
  | nil =>
    intro pre _ hpw
    exact ⟨pre, by simp [insertion_sort.loop], by simp, hpw⟩
  | cons val post ih =>
    intro pre hne hpw
    obtain ⟨front, tl, rfl⟩ := List.exists_cons_of_ne_nil hne
    rw [List.length_cons val post, insertion_sort.loop]
    have hval : ((front :: tl) ++ (val :: post ++ rest))[(front :: tl).length]? = some val := by
      rw [List.getElem?_append_right (le_refl _)]; simp
    have hfront : ((front :: tl) ++ (val :: post ++ rest))[0]? = some front := by simp
    have htake : ((front :: tl) ++ (val :: post ++ rest)).take (front :: tl).length =
        front :: tl := by
      rw [List.take_append_of_le_length (le_refl _), List.take_length]
    have hdrop : ((front :: tl) ++ (val :: post ++ rest)).drop ((front :: tl).length + 1) =
        post ++ rest := by
      rw [show (front :: tl).length + 1 = ((front :: tl) ++ [val]).length by simp,
        show (front :: tl) ++ (val :: post ++ rest) = ((front :: tl) ++ [val]) ++ (post ++ rest)
          by simp,
        List.drop_left]
    rw [hval, hfront]
    simp only
    rw [List.pairwise_cons] at hpw
    by_cases hvf : comp val front = true
    · rw [if_pos hvf, htake, hdrop]
      have hpw2 : (val :: front :: tl).Pairwise R := by
        refine List.Pairwise.cons ?_ (List.Pairwise.cons hpw.1 hpw.2)
        intro z hz
        rcases List.mem_cons.mp hz with rfl | hz
        · exact hc _ _ hvf
        · exact htrans _ _ _ (hc _ _ hvf) (hpw.1 z hz)
      obtain ⟨s, hs, hperm, hspw⟩ := ih (val :: front :: tl) (by simp) hpw2
      have hlen : (val :: front :: tl).length = (front :: tl).length + 1 := by simp
      rw [hlen] at hs
      refine ⟨s, by simpa using hs, hperm.trans ?_, hspw⟩
      simp only [List.cons_append]
      exact (@List.perm_middle _ val (front :: tl) post).symm
    · rw [if_neg hvf]
      unfold unguarded_linear_insert
      rw [hval]
      simp only [htake, hdrop]
      obtain ⟨r, hr, hrperm, hrpw⟩ := unguarded_linear_insert.walk_spec comp R hc hn htrans val
        (front :: tl).reverse ⟨front, by simp, by simpa using hvf⟩
        (List.pairwise_reverse.mpr (List.Pairwise.cons hpw.1 hpw.2))
      rw [hr]
      simp only [Option.map_some']
      have hrne : r.reverse ≠ [] := by
        intro h
        have := hrperm.length_eq
        rw [← List.length_reverse, h] at this
        simp at this
      obtain ⟨s, hs, hperm, hspw⟩ :=
        ih r.reverse hrne (List.pairwise_reverse.mp (by simpa using hrpw))
      have hlen : r.reverse.length = (front :: tl).length + 1 := by
        rw [List.length_reverse, hrperm.length_eq]; simp
      rw [hlen] at hs
      refine ⟨s, hs, hperm.trans ?_, hspw⟩
      have h1 : r.reverse.Perm (val :: front :: tl) :=
        (List.reverse_perm r).trans (hrperm.trans (List.Perm.cons val (List.reverse_perm _)))
      exact (List.Perm.append_right post h1).trans
        (by simpa using (@List.perm_middle _ val (front :: tl) post).symm)

/-- The loop of `__unguarded_insertion_sort`: it stays inside the array when every entry it
inserts finds, in the sorted part before it, an entry that it does not compare before. -/
theorem unguarded_insertion_sort_spec {α : Type} (comp : α → α → Bool) (R : α → α → Prop)
    (hc : ∀ a b, comp a b = true → R a b) (hn : ∀ a b, comp a b = false → R b a)
    (htrans : ∀ a b c, R a b → R b c → R a c) :
    ∀ (post pre : List α), (∀ v ∈ post, ∃ y ∈ pre, comp v y = false) → pre.Pairwise R →
      ∃ s, unguarded_insertion_sort comp post.length pre.length (pre ++ post) = some s ∧
        s.Perm (pre ++ post) ∧ s.Pairwise R := by
  intro post
  induction post with
  | nil =>
    intro pre _ hpw
    exact ⟨pre, by simp [unguarded_insertion_sort], by simp, hpw⟩
  | cons val post ih =>
    intro pre hs hpw
    rw [List.length_cons, unguarded_insertion_sort]
    unfold unguarded_linear_insert
    have hval : (pre ++ val :: post)[pre.length]? = some val := by
      rw [List.getElem?_append_right (le_refl _)]; simp
    have htake : (pre ++ val :: post).take pre.length = pre := by
      rw [List.take_append_of_le_length (le_refl _), List.take_length]
    have hdrop : (pre ++ val :: post).drop (pre.length + 1) = post := by
      rw [show pre.length + 1 = (pre ++ [val]).length by simp,
        show pre ++ val :: post = (pre ++ [val]) ++ post by simp, List.drop_left]
    rw [hval]
    simp only [htake, hdrop]
    obtain ⟨y, hy, hvy⟩ := hs val (List.mem_cons_self _ _)
    obtain ⟨r, hr, hrperm, hrpw⟩ := unguarded_linear_insert.walk_spec comp R hc hn htrans val
      pre.reverse ⟨y, List.mem_reverse.mpr hy, hvy⟩ (List.pairwise_reverse.mpr hpw)
    rw [hr]
    simp only [Option.map_some']
    have h1 : r.reverse.Perm (val :: pre) :=
      (List.reverse_perm r).trans (hrperm.trans (List.Perm.cons val (List.reverse_perm _)))
    obtain ⟨s, hs2, hperm, hspw⟩ := ih r.reverse
      (fun v hv => by
        obtain ⟨y2, hy2, hvy2⟩ := hs v (List.mem_cons_of_mem _ hv)
        exact ⟨y2, h1.mem_iff.mpr (List.mem_cons_of_mem _ hy2), hvy2⟩)
      (List.pairwise_reverse.mp (by simpa using hrpw))
    have hlen : r.reverse.length = pre.length + 1 := by
      rw [h1.length_eq]; simp
    rw [hlen] at hs2
    refine ⟨s, hs2, hperm.trans ?_, hspw⟩
    exact (List.Perm.append_right post h1).trans
      (by simpa using (@List.perm_middle _ val pre post).symm)

/-- The call `__final_insertion_sort` on an array that `R` tells apart and whose first 16 slots
hold an entry standing before every other in the order: it returns the array sorted. -/
theorem final_insertion_sort_spec {α : Type} (comp : α → α → Bool) (R : α → α → Prop)
    (hc : ∀ a b, comp a b = true → R a b) (hn : ∀ a b, comp a b = false → R b a)
    (htrans : ∀ a b c, R a b → R b c → R a c) (a : List α) (hne : a ≠ [])
    (hd : a.Pairwise (fun x y => ¬ (R x y ∧ R y x)))
    (hmin : ∃ m ∈ a.take S_threshold, ∀ z ∈ a, R m z) :
    ∃ s, final_insertion_sort comp a = some s ∧ s.Perm a ∧ s.Pairwise R := by
  unfold final_insertion_sort
  by_cases hlen : a.length > S_threshold
  · rw [if_pos hlen]
    simp only [S_threshold] at hlen hmin ⊢
    obtain ⟨front, tl, htl⟩ := List.exists_cons_of_ne_nil hne
    have hsplit : a = [front] ++ ((a.take 16).tail ++ a.drop 16) := by
      conv_lhs => rw [← List.take_append_drop 16 a]
      rw [htl]
      simp
    have hpost : (a.take 16).tail.length = 15 := by
      rw [List.length_tail, List.length_take]; omega
    obtain ⟨s, hs, hperm, hpw⟩ := insertion_sort.loop_front_spec comp R hc hn htrans
      (a.drop 16) (a.take 16).tail [front] (by simp) (by simp)
    rw [hpost] at hs
    have hins : insertion_sort comp a 16 = some (s ++ a.drop 16) := by
      unfold insertion_sort
      rw [if_neg (by omega)]
      conv_lhs => rw [hsplit]
      exact hs
    rw [hins]
    simp only
    have hP : ([front] ++ (a.take 16).tail) = a.take 16 := by
      rw [htl]; simp
    rw [hP] at hperm
    have hslen : s.length = 16 := by
      rw [hperm.length_eq, List.length_take]; omega
    obtain ⟨m, hm, hmin2⟩ := hmin
    have hd2 : ∀ x ∈ a.take 16, ∀ y ∈ a.drop 16, ¬ (R x y ∧ R y x) := by
      have := hd
      rw [← List.take_append_drop 16 a, List.pairwise_append] at this
      exact this.2.2
    obtain ⟨s2, hs2, hperm2, hpw2⟩ := unguarded_insertion_sort_spec comp R hc hn htrans
      (a.drop 16) s
      (fun v hv => ⟨m, hperm.mem_iff.mpr hm, by
        cases hcv : comp v m with
        | false => rfl
        | true =>
          exact absurd ⟨hmin2 v (List.mem_of_mem_drop hv), hc _ _ hcv⟩ (hd2 m hm v hv)⟩)
      hpw
    rw [hslen, List.length_drop] at hs2
    refine ⟨s2, hs2, hperm2.trans ?_, hpw2⟩
    have := List.Perm.append_right (a.drop 16) hperm
    rw [List.take_append_drop] at this
    exact this
  · rw [if_neg hlen]
    obtain ⟨front, tl, rfl⟩ := List.exists_cons_of_ne_nil hne
    have h := insertion_sort.loop_spec comp R hc hn htrans tl [front] (by simp) (by simp)
    simp only [List.length_singleton, List.singleton_append] at h
    unfold insertion_sort
    rw [if_neg (by simp)]
    simpa using h

theorem exists_least {α : Type} (R : α → α → Prop) (htot : ∀ a b, R a b ∨ R b a)
    (htrans : ∀ a b c, R a b → R b c → R a c) :
    ∀ l : List α, l ≠ [] → ∃ m ∈ l, ∀ z ∈ l, R m z := by
  intro l
  induction l with
  | nil => intro h; exact absurd rfl h
  | cons x l ih =>
    intro _
    by_cases hl : l = []
    · subst hl
      exact ⟨x, by simp, fun z hz => by
        rw [List.mem_singleton.mp hz]; exact (htot x x).elim id id⟩
    · obtain ⟨m, hm, hmin⟩ := ih hl
      rcases htot x m with h | h
      · refine ⟨x, by simp, fun z hz => ?_⟩
        rcases List.mem_cons.mp hz with rfl | hz
        · exact (htot z z).elim id id
        · exact htrans _ _ _ h (hmin z hz)
      · refine ⟨m, List.mem_cons_of_mem _ hm, fun z hz => ?_⟩
        rcases List.mem_cons.mp hz with rfl | hz
        · exact h
        · exact hmin z hz

/-- The function `__introsort_loop` on a range that `R` tells apart, given that the heap sort
it falls back on sorts: it returns, the range is rearranged, and an entry that stands before
all others of the range is in one of its first 16 slots. -/
theorem introsort_loop_spec {α : Type} (comp : α → α → Bool) (R : α → α → Prop)
    (hc : ∀ a b, comp a b = true → R a b) (hn : ∀ a b, comp a b = false → R b a)
    (htrans : ∀ a b c, R a b → R b c → R a c)
    (hheap : ∀ M : List α, (sort_heap.loop comp M.length (make_heap comp M)).Perm M ∧
      (sort_heap.loop comp M.length (make_heap comp M)).Pairwise R) :
    ∀ (d : Nat) (L M Rr : List α), M.Pairwise (fun x y => ¬ (R x y ∧ R y x)) →
      ∃ M', introsort_loop comp d (L ++ (M ++ Rr)) L.length (L.length + M.length) =
          some (L ++ (M' ++ Rr)) ∧ M'.Perm M ∧
        (M' = [] ∨ ∃ m ∈ M'.take S_threshold, ∀ z ∈ M', R m z) := by
  have htot : ∀ a b, R a b ∨ R b a := by
    intro a b
    cases h : comp a b with
    | true => exact Or.inl (hc _ _ h)
    | false => exact Or.inr (hn _ _ h)
  intro d
  induction d with
  | zero =>
    intro L M Rr hd
    rw [introsort_loop]
    by_cases hlen : L.length + M.length > L.length + S_threshold
    · rw [if_pos hlen]
      refine ⟨sort_heap.loop comp M.length (make_heap comp M), ?_, (hheap M).1, ?_⟩
      · unfold heap_sort_range
        simp only
        have h1 : (L ++ (M ++ Rr)).take L.length = L := List.take_left' rfl
        have h2 : ((L ++ (M ++ Rr)).drop L.length).take (L.length + M.length - L.length) = M := by
          rw [List.drop_left' rfl, show L.length + M.length - L.length = M.length by omega]
          exact List.take_left' rfl
        have h3 : (L ++ (M ++ Rr)).drop (L.length + M.length) = Rr := by
          rw [← List.append_assoc]
          exact List.drop_left' (by simp)
        rw [h1, h2, h3, List.append_assoc]
      · right
        have hne : sort_heap.loop comp M.length (make_heap comp M) ≠ [] := by
          intro h
          have := (hheap M).1.length_eq
          rw [h] at this
          simp only [List.length_nil] at this
          omega
        obtain ⟨m, tl, hm⟩ := List.exists_cons_of_ne_nil hne
        refine ⟨m, by rw [hm]; simp [S_threshold], ?_⟩
        intro z hz
        have hpw := (hheap M).2
        rw [hm] at hpw hz
        rcases List.mem_cons.mp hz with rfl | hz
        · exact (htot z z).elim id id
        · exact (List.pairwise_cons.mp hpw).1 z hz
    · rw [if_neg hlen]
      refine ⟨M, rfl, List.Perm.refl _, ?_⟩
      by_cases hM : M = []
      · exact Or.inl hM
      · right
        obtain ⟨m, hm, hmin⟩ := exists_least R htot htrans M hM
        exact ⟨m, by rw [List.take_of_length_le (by omega)]; exact hm, hmin⟩
  | succ d ih =>
    intro L M Rr hd
    rw [introsort_loop]
    by_cases hlen : L.length + M.length > L.length + S_threshold
    · rw [if_pos hlen]
      simp only [S_threshold] at hlen
      obtain ⟨p, M1, M2, hpart, hperm, hM1, hM2, hne2⟩ :=
        unguarded_partition_pivot_spec comp R hc hn L Rr M (by omega) hd
      rw [hpart]
      simp only
      have hdall := apart_perm R _ _ hperm hd
      have hd1 : (p :: M1).Pairwise (fun x y => ¬ (R x y ∧ R y x)) := by
        have : (p :: (M1 ++ M2)) = (p :: M1) ++ M2 := rfl
        rw [this, List.pairwise_append] at hdall
        exact hdall.1
      have hd2 : M2.Pairwise (fun x y => ¬ (R x y ∧ R y x)) := by
        have : (p :: (M1 ++ M2)) = (p :: M1) ++ M2 := rfl
        rw [this, List.pairwise_append] at hdall
        exact hdall.2.1
      -- the recursive call on the entries behind the pivot
      obtain ⟨M2', hrun2, hperm2, _⟩ := ih (L ++ p :: M1) M2 Rr hd2
      have e1 : L ++ p :: (M1 ++ (M2 ++ Rr)) = (L ++ p :: M1) ++ (M2 ++ Rr) := by simp
      have e2 : L.length + M.length = (L ++ p :: M1).length + M2.length := by
        have := hperm.length_eq
        simp only [List.length_cons, List.length_append] at this ⊢
        omega
      have e3 : L.length + 1 + M1.length = (L ++ p :: M1).length := by
        simp only [List.length_cons, List.length_append]; omega
      rw [e1, e2, e3, hrun2]
      simp only
      -- the loop goes on with the pivot and the entries before it
      obtain ⟨M1', hrun1, hperm1, hmin1⟩ := ih L (p :: M1) (M2' ++ Rr) hd1
      have e4 : (L ++ p :: M1) ++ (M2' ++ Rr) = L ++ ((p :: M1) ++ (M2' ++ Rr)) := by simp
      have e5 : (L ++ p :: M1).length = L.length + (p :: M1).length := by simp
      rw [e4, e5, hrun1]
      refine ⟨M1' ++ M2', by simp, ?_, Or.inr ?_⟩
      · have h1 : (M1' ++ M2').Perm ((p :: M1) ++ M2) := List.Perm.append hperm1 hperm2
        exact h1.trans hperm
      · rcases hmin1 with h | ⟨m, hm, hmin⟩
        · exfalso
          have := hperm1.length_eq
          rw [h] at this
          simp at this
        · refine ⟨m, ?_, ?_⟩
          · rw [List.take_append_eq_append_take]
            exact List.mem_append_left _ hm
          · intro z hz
            rcases List.mem_append.mp hz with hz | hz
            · exact hmin z hz
            · have hmp : R m p := hmin p (hperm1.mem_iff.mpr (List.mem_cons_self _ _))
              exact htrans _ _ _ hmp (hM2 z (hperm2.mem_iff.mp hz))
    · rw [if_neg hlen]
      refine ⟨M, rfl, List.Perm.refl _, ?_⟩
      by_cases hM : M = []
      · exact Or.inl hM
      · right
        obtain ⟨m, hm, hmin⟩ := exists_least R htot htrans M hM
        have hle : M.length ≤ S_threshold := by omega
        exact ⟨m, by rw [List.take_of_length_le hle]; exact hm, hmin⟩

theorem isDescendant_refl (p : Nat) : isDescendant p p := ⟨0, by simp⟩

theorem isDescendant_le (p h : Nat) (hd : isDescendant p h) : p ≤ h := by
  obtain ⟨k, hk⟩ := hd
  have : (h + 1) / 2 ^ k ≤ h + 1 := Nat.div_le_self _ _
  omega

theorem isDescendant_child (p h c : Nat) (hd : isDescendant p h) (hc : isChild c h) :
    isDescendant p c := by
  obtain ⟨k, hk⟩ := hd
  refine ⟨k + 1, ?_⟩
  rw [pow_succ, Nat.mul_comm, ← Nat.div_div_eq_div_mul]
  have : (c + 1) / 2 = h + 1 := by unfold isChild at hc; omega
  rw [this, hk]

theorem isDescendant_parent (p h : Nat) (hd : isDescendant p h) (hne : h ≠ p) :
    isDescendant p ((h - 1) / 2) ∧ 0 < h := by
  obtain ⟨k, hk⟩ := hd
  cases k with
  | zero => simp at hk; omega
  | succ k =>
    rw [pow_succ, Nat.mul_comm, ← Nat.div_div_eq_div_mul] at hk
    have hpos : 0 < h := by
      by_contra h0
      have : h = 0 := by omega
      subst this
      simp at hk
    refine ⟨⟨k, ?_⟩, hpos⟩
    have : (h - 1) / 2 + 1 = (h + 1) / 2 := by omega
    rw [this, hk]

theorem heapFromDown_step {α : Type} (H : α → α → Prop) (a : List α) (len p h c : Nat) (x : α)
    (hD : heapFromDown H a len p h) (hph : p ≤ h) (hch : isChild c h) (hcl : c < len)
    (hx : a[c]? = some x)
    (hbest : ∀ o y, isChild o h → o < len → a[o]? = some y → H x y) :
    heapFromDown H (a.set h x) len p c := by
  have hcl2 : c < a.length := (List.getElem?_eq_some.mp hx).1
  have hhl : h < a.length := by unfold isChild at hch; omega
  have key : ∀ k, (a.set h x)[k]? = if k = h then some x else a[k]? := by
    intro k
    rw [List.getElem?_set]
    split_ifs <;> first | rfl | omega
  refine ⟨?_, ?_⟩
  · intro i k X Y hpi hic hk hkl hX hY
    rw [key] at hX hY
    by_cases hih : i = h
    · subst hih
      rw [if_pos rfl] at hX
      cases hX
      have hkh : k ≠ i := by unfold isChild at hk; omega
      rw [if_neg hkh] at hY
      exact hbest k Y hk hkl hY
    · rw [if_neg hih] at hX
      by_cases hkh : k = h
      · subst hkh
        rw [if_pos rfl] at hY
        cases hY
        exact hD.2 i c X _ hpi hk hch hcl hX hx
      · rw [if_neg hkh] at hY
        exact hD.1 i k X Y hpi hih hk hkl hX hY
  · intro g k X Y hpg hg hk hkl hX hY
    rw [key] at hX hY
    have hgh : g = h := by unfold isChild at hg hch; omega
    subst hgh
    rw [if_pos rfl] at hX
    cases hX
    have hkg : k ≠ g := by unfold isChild at hk hch; omega
    rw [if_neg hkg] at hY
    exact hD.1 c k _ Y (by unfold isChild at hch; omega) (by unfold isChild at hch; omega) hk hkl
      hx hY

theorem adjustHeapLoop_general {α : Type} [DecidableEq α] (comp : α → α → Bool)
    (H : α → α → Prop) (hc : ∀ a b, comp a b = true → H b a)
    (hn : ∀ a b, comp a b = false → H a b) (hrefl : ∀ a, H a a) (len p : Nat) :
    ∀ (fuel : Nat) (a : List α) (h : Nat), len ≤ a.length → h < len → p ≤ h →
      len ≤ 2 * h + 1 + fuel → heapFromDown H a len p h →
      (adjustHeapLoop comp len fuel a h).1.length = a.length ∧
      (adjustHeapLoop comp len fuel a h).2 < len ∧
      heapFromDown H (adjustHeapLoop comp len fuel a h).1 len p
        (adjustHeapLoop comp len fuel a h).2 ∧
      (∀ c, isChild c (adjustHeapLoop comp len fuel a h).2 → len ≤ c) ∧
      (∀ q, isDescendant q h → isDescendant q (adjustHeapLoop comp len fuel a h).2) ∧
      (∀ k, len ≤ k → (adjustHeapLoop comp len fuel a h).1[k]? = a[k]?) ∧
      (∀ v, ((adjustHeapLoop comp len fuel a h).1.set (adjustHeapLoop comp len fuel a h).2 v).Perm
        (a.set h v)) := by
  intro fuel
  induction fuel with
  | zero =>
    intro a h hl hh hph hf hD
    rw [adjustHeapLoop]
    exact ⟨rfl, hh, hD, fun c hch => by unfold isChild at hch; omega, fun q hq => hq,
      fun k _ => rfl, fun v => List.Perm.refl _⟩
  | succ fuel ih =>
    intro a h hl hh hph hf hD
    rw [adjustHeapLoop]
    by_cases hlt : h < (len - 1) / 2
    · have hr : 2 * (h + 1) < a.length := by omega
      have hl1 : 2 * (h + 1) - 1 < a.length := by omega
      simp only [if_pos hlt, List.getElem?_eq_getElem hr, List.getElem?_eq_getElem hl1]
      by_cases hcmp : comp a[2 * (h + 1)] a[2 * (h + 1) - 1] = true
      · simp only [if_pos hcmp]
        have hch : isChild (2 * (h + 1) - 1) h := by unfold isChild; omega
        have hstep := heapFromDown_step H a len p h (2 * (h + 1) - 1) a[2 * (h + 1) - 1] hD hph
          hch (by omega) (List.getElem?_eq_getElem hl1) (by
            intro o y ho _ hy
            rcases ho with ho | ho
            · have : o = 2 * (h + 1) - 1 := by omega
              subst this
              rw [List.getElem?_eq_getElem hl1] at hy; cases hy; exact hrefl _
            · have : o = 2 * (h + 1) := by omega
              subst this
              rw [List.getElem?_eq_getElem hr] at hy; cases hy; exact hc _ _ hcmp)
        have hrec := ih (a.set h a[2 * (h + 1) - 1]) (2 * (h + 1) - 1)
          (by rw [List.length_set]; exact hl) (by omega) (by omega) (by omega) hstep
        refine ⟨by rw [hrec.1, List.length_set], hrec.2.1, hrec.2.2.1, hrec.2.2.2.1,
          fun q hq => hrec.2.2.2.2.1 q (isDescendant_child q h _ hq hch), fun k hk => ?_,
          fun v => ?_⟩
        · rw [hrec.2.2.2.2.2.1 k hk, List.getElem?_set, if_neg (by omega)]
        · exact (hrec.2.2.2.2.2.2 v).trans (adjust_perm a h _ _ v (by omega) (by omega)
            (List.getElem?_eq_getElem hl1))
      · simp only [if_neg hcmp]
        have hch : isChild (2 * (h + 1)) h := by unfold isChild; omega
        have hstep := heapFromDown_step H a len p h (2 * (h + 1)) a[2 * (h + 1)] hD hph hch
          (by omega) (List.getElem?_eq_getElem hr) (by
            intro o y ho _ hy
            rcases ho with ho | ho
            · have : o = 2 * (h + 1) - 1 := by omega
              subst this
              rw [List.getElem?_eq_getElem hl1] at hy; cases hy
              exact hn _ _ (by simpa using hcmp)
            · have : o = 2 * (h + 1) := by omega
              subst this
              rw [List.getElem?_eq_getElem hr] at hy; cases hy; exact hrefl _)
        have hrec := ih (a.set h a[2 * (h + 1)]) (2 * (h + 1))
          (by rw [List.length_set]; exact hl) (by omega) (by omega) (by omega) hstep
        refine ⟨by rw [hrec.1, List.length_set], hrec.2.1, hrec.2.2.1, hrec.2.2.2.1,
          fun q hq => hrec.2.2.2.2.1 q (isDescendant_child q h _ hq hch), fun k hk => ?_,
          fun v => ?_⟩
        · rw [hrec.2.2.2.2.2.1 k hk, List.getElem?_set, if_neg (by omega)]
        · exact (hrec.2.2.2.2.2.2 v).trans (adjust_perm a h _ _ v (by omega) (by omega)
            (List.getElem?_eq_getElem hr))
    · rw [if_neg hlt]
      by_cases hsp : len % 2 = 0 ∧ h = (len - 2) / 2
      · have hl1 : 2 * (h + 1) - 1 < a.length := by omega
        simp only [if_pos hsp, List.getElem?_eq_getElem hl1]
        have hch : isChild (2 * (h + 1) - 1) h := by unfold isChild; omega
        have hstep := heapFromDown_step H a len p h (2 * (h + 1) - 1) a[2 * (h + 1) - 1] hD hph
          hch (by omega) (List.getElem?_eq_getElem hl1) (by
            intro o y ho hol hy
            rcases ho with ho | ho
            · have : o = 2 * (h + 1) - 1 := by omega
              subst this
              rw [List.getElem?_eq_getElem hl1] at hy; cases hy; exact hrefl _
            · omega)
        refine ⟨by rw [List.length_set], by omega, hstep, ?_,
          fun q hq => isDescendant_child q h _ hq hch, fun k hk => ?_, fun v => ?_⟩
        · intro c hcc; unfold isChild at hcc; omega
        · rw [List.getElem?_set, if_neg (by omega)]
        · exact adjust_perm a h _ _ v (by omega) (by omega) (List.getElem?_eq_getElem hl1)
      · rw [if_neg hsp]
        refine ⟨rfl, hh, hD, ?_, fun q hq => hq, fun k _ => rfl, fun v => List.Perm.refl _⟩
        intro c hcc; unfold isChild at hcc; omega

theorem heapFromUp_step {α : Type} (H : α → α → Prop)
    (htrans : ∀ a b c, H a b → H b c → H a c) (V : List α) (len p h : Nat) (pv v : α)
    (hU : heapFromUp H V len p h) (hpos : 0 < h) (hpp : p ≤ (h - 1) / 2) (hhl : h < len)
    (hp : V[(h - 1) / 2]? = some pv) (hv : V[h]? = some v) (hvp : H v pv) :
    heapFromUp H ((V.set h pv).set ((h - 1) / 2) v) len p ((h - 1) / 2) := by
  obtain ⟨hpl, _⟩ := List.getElem?_eq_some.mp hp
  obtain ⟨hvl, _⟩ := List.getElem?_eq_some.mp hv
  have hpar : isChild h ((h - 1) / 2) := by unfold isChild; omega
  have key : ∀ k, ((V.set h pv).set ((h - 1) / 2) v)[k]? =
      if k = (h - 1) / 2 then some v else if k = h then some pv else V[k]? := by
    intro k
    rw [List.getElem?_set, List.getElem?_set]
    simp only [List.length_set]
    split_ifs <;> first | rfl | omega
  refine ⟨?_, ?_⟩
  · intro i c x y hpi hc hne hcl hx hy
    rw [key] at hx hy
    rw [if_neg hne] at hy
    by_cases hi : i = (h - 1) / 2
    · rw [if_pos hi] at hx
      cases hx
      by_cases hch : c = h
      · rw [if_pos hch] at hy; cases hy; exact hvp
      · rw [if_neg hch] at hy
        exact htrans _ _ _ hvp (hU.1 i c pv y hpi hc hch hcl (hi ▸ hp) hy)
    · rw [if_neg hi] at hx
      by_cases hih : i = h
      · rw [if_pos hih] at hx
        cases hx
        have hch : c ≠ h := by unfold isChild at hc; omega
        rw [if_neg hch] at hy
        exact hU.2 _ c _ y hpp hpar (hih ▸ hc) hcl hp hy
      · rw [if_neg hih] at hx
        have hch : c ≠ h := by unfold isChild at hc hpar; omega
        rw [if_neg hch] at hy
        exact hU.1 i c x y hpi hc hch hcl hx hy
  · intro g c x y hpg hg hc hcl hx hy
    rw [key] at hx hy
    have hg1 : g ≠ (h - 1) / 2 := by unfold isChild at hg; omega
    have hg2 : g ≠ h := by unfold isChild at hg hpar; omega
    have hc1 : c ≠ (h - 1) / 2 := by unfold isChild at hc; omega
    rw [if_neg hg1, if_neg hg2] at hx
    rw [if_neg hc1] at hy
    have hgp : H x pv := hU.1 g _ x pv hpg hg (by omega) (by omega) hx hp
    by_cases hch : c = h
    · rw [if_pos hch] at hy; cases hy; exact hgp
    · rw [if_neg hch] at hy
      exact htrans _ _ _ hgp (hU.1 _ c pv y hpp hc hch hcl hp hy)

theorem heapFromUp_done {α : Type} (H : α → α → Prop) (V : List α) (len p h : Nat)
    (hU : heapFromUp H V len p h)
    (hedge : ∀ x y, 0 < h → p ≤ (h - 1) / 2 → V[(h - 1) / 2]? = some x → V[h]? = some y →
      H x y) :
    heapFrom H V len p := by
  intro i c x y hpi hc hcl hx hy
  by_cases hch : c = h
  · subst hch
    have : i = (c - 1) / 2 := by unfold isChild at hc; omega
    subst this
    exact hedge x y (by unfold isChild at hc; omega) hpi hx hy
  · exact hU.1 i c x y hpi hc hch hcl hx hy

theorem pushHeapLoop_general {α : Type} [DecidableEq α] (comp : α → α → Bool)
    (H : α → α → Prop) (hc : ∀ a b, comp a b = true → H b a)
    (hn : ∀ a b, comp a b = false → H a b)
    (htrans : ∀ a b c, H a b → H b c → H a c) (v : α) (len p : Nat) :
    ∀ (fuel : Nat) (a : List α) (h : Nat), h ≤ fuel → h < len → len ≤ a.length →
      isDescendant p h → heapFromUp H (a.set h v) len p h →
      heapFrom H (pushHeapLoop comp v fuel a h p) len p ∧
      (pushHeapLoop comp v fuel a h p).Perm (a.set h v) ∧
      (∀ k, len ≤ k → (pushHeapLoop comp v fuel a h p)[k]? = a[k]?) := by
  intro fuel
  induction fuel with
  | zero =>
    intro a h hf hl hle hdesc hU
    have h0 : h = 0 := by omega
    subst h0
    rw [pushHeapLoop]
    exact ⟨heapFromUp_done H _ len p 0 hU (fun _ _ hpos => absurd hpos (lt_irrefl 0)),
      List.Perm.refl _, fun k hk => by rw [List.getElem?_set, if_neg (by omega)]⟩
  | succ fuel ih =>
    intro a h hf hl hle hdesc hU
    have hal : h < a.length := by omega
    have hvh : (a.set h v)[h]? = some v := by simp [hal]
    have hph : p ≤ h := isDescendant_le p h hdesc
    rw [pushHeapLoop]
    by_cases hpos : h > p
    · obtain ⟨hdpar, h0⟩ := isDescendant_parent p h hdesc (by omega)
      have hpp : p ≤ (h - 1) / 2 := isDescendant_le _ _ hdpar
      have hpl : (h - 1) / 2 < a.length := by omega
      have hpne : (h - 1) / 2 ≠ h := by omega
      simp only [if_pos hpos, List.getElem?_eq_getElem hpl]
      have hpV : (a.set h v)[(h - 1) / 2]? = some a[(h - 1) / 2] := by
        rw [List.getElem?_set, if_neg (Ne.symm hpne), List.getElem?_eq_getElem hpl]
      by_cases hcmp : comp a[(h - 1) / 2] v = true
      · rw [if_pos hcmp]
        have hstep := heapFromUp_step H htrans (a.set h v) len p h a[(h - 1) / 2] v hU h0 hpp hl
          hpV hvh (hc _ _ hcmp)
        rw [List.set_set] at hstep
        have hrec := ih (a.set h a[(h - 1) / 2]) ((h - 1) / 2) (by omega) (by omega)
          (by rw [List.length_set]; exact hle) hdpar hstep
        refine ⟨hrec.1, hrec.2.1.trans ?_, fun k hk => ?_⟩
        · have hsw := swap_perm (a.set h v) h ((h - 1) / 2) a[(h - 1) / 2] v hpne hpV hvh
          rw [List.set_set] at hsw
          exact hsw
        · rw [hrec.2.2 k hk, List.getElem?_set, if_neg (by omega)]
      · rw [if_neg hcmp]
        refine ⟨heapFromUp_done H _ len p h hU ?_, List.Perm.refl _,
          fun k hk => by rw [List.getElem?_set, if_neg (by omega)]⟩
        intro x y _ _ hx hy
        rw [hpV] at hx; rw [hvh] at hy
        cases hx; cases hy
        exact hn _ _ (by simpa using hcmp)
    · rw [if_neg hpos]
      refine ⟨heapFromUp_done H _ len p h hU ?_, List.Perm.refl _,
        fun k hk => by rw [List.getElem?_set, if_neg (by omega)]⟩
      intro x y h0 hpp _ _
      omega

/-- The call `__adjust_heap(a, p, len, v)`: when every node behind `p` is in heap order, it
leaves every node from `p` on in heap order, with `v` in place of the entry of `p`, and does
not touch the slots from `len` on. -/
theorem adjust_heap_spec {α : Type} [DecidableEq α] (comp : α → α → Bool)
    (H : α → α → Prop) (hc : ∀ a b, comp a b = true → H b a)
    (hn : ∀ a b, comp a b = false → H a b) (hrefl : ∀ a, H a a)
    (htrans : ∀ a b c, H a b → H b c → H a c) (a : List α) (len p : Nat) (v : α)
    (hp : p < len) (hle : len ≤ a.length) (hheap : heapFrom H a len (p + 1)) :
    heapFrom H (adjust_heap comp a p len v) len p ∧
    (adjust_heap comp a p len v).Perm (a.set p v) ∧
    (∀ k, len ≤ k → (adjust_heap comp a p len v)[k]? = a[k]?) := by
  have hD0 : heapFromDown H a len p p := by
    refine ⟨?_, ?_⟩
    · intro i c x y hpi hne hch hcl hx hy
      exact hheap i c x y (by omega) hch hcl hx hy
    · intro g c x y hpg hg _ _ _ _
      unfold isChild at hg
      omega
  obtain ⟨r1, r2, r3, r4, r5, r6, r7⟩ := adjustHeapLoop_general comp H hc hn hrefl len p len a p
    hle hp (le_refl p) (by omega) hD0
  have hU : heapFromUp H ((adjustHeapLoop comp len len a p).1.set
      (adjustHeapLoop comp len len a p).2 v) len p (adjustHeapLoop comp len len a p).2 := by
    refine ⟨?_, ?_⟩
    · intro i c x y hpi hch hne hcl hx hy
      by_cases hi : i = (adjustHeapLoop comp len len a p).2
      · have := r4 c (hi ▸ hch)
        omega
      · rw [List.getElem?_set, if_neg (Ne.symm hi)] at hx
        rw [List.getElem?_set, if_neg (Ne.symm hne)] at hy
        exact r3.1 i c x y hpi hi hch hcl hx hy
    · intro g c x y _ _ hch hcl _ _
      have := r4 c hch
      omega
  obtain ⟨s1, s2, s3⟩ := pushHeapLoop_general comp H hc hn htrans v len p len
    (adjustHeapLoop comp len len a p).1 (adjustHeapLoop comp len len a p).2 (by omega) r2
    (by rw [r1]; exact hle) (r5 p (isDescendant_refl p)) hU
  unfold adjust_heap
  exact ⟨s1, s2.trans (r7 v), fun k hk => by rw [s3 k hk, r6 k hk]⟩

theorem set_getElem_same {α : Type} (h : List α) (i : Nat) (hi : i < h.length) :
    h.set i h[i] = h := by
  apply List.ext_getElem?
  intro k
  by_cases h1 : i = k
  · subst h1
    simp [hi]
  · rw [List.getElem?_set, if_neg h1]

theorem make_heap.loop_heap {α : Type} [DecidableEq α] (comp : α → α → Bool)
    (H : α → α → Prop) (hc : ∀ a b, comp a b = true → H b a)
    (hn : ∀ a b, comp a b = false → H a b) (hrefl : ∀ a, H a a)
    (htrans : ∀ a b c, H a b → H b c → H a c) (len : Nat) :
    ∀ (parent : Nat) (h : List α), h.length = len → parent < len →
      heapFrom H h len (parent + 1) →
      heapFrom H (make_heap.loop comp len parent h) len 0 ∧
      (make_heap.loop comp len parent h).Perm h := by
  intro parent
  induction parent with
  | zero =>
    intro h hl hp hheap
    rw [make_heap.loop]
    have h0 : 0 < h.length := by omega
    rw [List.getElem?_eq_getElem h0]
    simp only
    obtain ⟨a1, a2, _⟩ := adjust_heap_spec comp H hc hn hrefl htrans h len 0 h[0] hp
      (by omega) hheap
    refine ⟨a1, a2.trans ?_⟩
    rw [set_getElem_same h 0 h0]
  | succ parent ih =>
    intro h hl hp hheap
    rw [make_heap.loop]
    have h0 : parent + 1 < h.length := by omega
    rw [List.getElem?_eq_getElem h0]
    simp only
    obtain ⟨a1, a2, _⟩ := adjust_heap_spec comp H hc hn hrefl htrans h len (parent + 1)
      h[parent + 1] hp (by omega) hheap
    have a3 : (adjust_heap comp h (parent + 1) len h[parent + 1]).Perm h := by
      refine a2.trans ?_
      rw [set_getElem_same h (parent + 1) h0]
    obtain ⟨b1, b2⟩ := ih (adjust_heap comp h (parent + 1) len h[parent + 1])
      (by rw [a3.length_eq]; exact hl) (by omega) a1
    exact ⟨b1, b2.trans a3⟩

/-- The call `__make_heap`: the array is rearranged into a heap. -/
theorem make_heap_spec {α : Type} [DecidableEq α] (comp : α → α → Bool)
    (H : α → α → Prop) (hc : ∀ a b, comp a b = true → H b a)
    (hn : ∀ a b, comp a b = false → H a b) (hrefl : ∀ a, H a a)
    (htrans : ∀ a b c, H a b → H b c → H a c) (h : List α) :
    heapFrom H (make_heap comp h) h.length 0 ∧ (make_heap comp h).Perm h := by
  unfold make_heap
  by_cases hlen : h.length < 2
  · rw [if_pos hlen]
    refine ⟨?_, List.Perm.refl _⟩
    intro i c x y _ hch hcl _ _
    unfold isChild at hch
    omega
  · rw [if_neg hlen]
    exact make_heap.loop_heap comp H hc hn hrefl htrans h.length ((h.length - 2) / 2) h rfl
      (by omega) (by
        intro i c x y hpi hch hcl _ _
        unfold isChild at hch
        omega)

theorem heapFrom_front {α : Type} (H : α → α → Prop) (hrefl : ∀ a, H a a)
    (htrans : ∀ a b c, H a b → H b c → H a c) (h : List α) (n : Nat) (f : α)
    (hheap : heapFrom H h n 0) (hf : h[0]? = some f) :
    ∀ k, k < n → ∀ x, h[k]? = some x → H f x := by
  intro k
  induction k using Nat.strong_induction_on with
  | _ k ih =>
    intro hk x hx
    by_cases h0 : k = 0
    · subst h0
      rw [hf] at hx
      cases hx
      exact hrefl _
    · have hkl : k < h.length := (List.getElem?_eq_some.mp hx).1
      have hpl : (k - 1) / 2 < h.length := by omega
      have h1 := ih ((k - 1) / 2) (by omega) (by omega) _ (List.getElem?_eq_getElem hpl)
      have h2 := hheap ((k - 1) / 2) k _ x (by omega) (by unfold isChild; omega) hk
        (List.getElem?_eq_getElem hpl) hx
      exact htrans _ _ _ h1 h2

theorem take_perm_of_tail {α : Type} (a b : List α) (m : Nat) (hperm : a.Perm b)
    (htail : ∀ k, m ≤ k → a[k]? = b[k]?) : (a.take m).Perm (b.take m) ∧ a.drop m = b.drop m := by
  have hdrop : a.drop m = b.drop m := by
    apply List.ext_getElem?
    intro k
    rw [List.getElem?_drop, List.getElem?_drop]
    exact htail _ (by omega)
  refine ⟨?_, hdrop⟩
  have h1 : (a.take m ++ a.drop m).Perm (b.take m ++ b.drop m) := by
    rw [List.take_append_drop, List.take_append_drop]
    exact hperm
  rw [hdrop] at h1
  exact (List.perm_append_right_iff _).mp h1

/-- The loop of `__sort_heap` on a heap `[0, n)` followed by entries in ascending order that
all stand above the heap's: the array ends in ascending order. -/
theorem sort_heap.loop_sorted {α : Type} [DecidableEq α] (comp : α → α → Bool)
    (H : α → α → Prop) (hc : ∀ a b, comp a b = true → H b a)
    (hn : ∀ a b, comp a b = false → H a b) (hrefl : ∀ a, H a a)
    (htrans : ∀ a b c, H a b → H b c → H a c) :
    ∀ (n : Nat) (h : List α), n ≤ h.length → heapFrom H h n 0 →
      (h.drop n).Pairwise (fun x y => H y x) →
      (∀ x ∈ h.take n, ∀ y ∈ h.drop n, H y x) →
      (sort_heap.loop comp n h).Pairwise (fun x y => H y x) ∧
      (sort_heap.loop comp n h).Perm h := by
  intro n
  induction n with
  | zero =>
    intro h _ _ hs _
    rw [sort_heap.loop]
    · exact ⟨by simpa using hs, List.Perm.refl _⟩
    · intro last h2; omega
  | succ m ih =>
    intro h hle hheap hs hsep
    cases m with
    | zero =>
      rw [sort_heap.loop]
      · refine ⟨?_, List.Perm.refl _⟩
        rw [← List.take_append_drop 1 h, List.pairwise_append]
        refine ⟨?_, hs, hsep⟩
        cases h with
        | nil => simp
        | cons a t => simp
      · intro last h2; omega
    | succ last =>
      rw [sort_heap.loop]
      have hl1 : last + 1 < h.length := by omega
      have hl0 : 0 < h.length := by omega
      rw [List.getElem?_eq_getElem hl1, List.getElem?_eq_getElem hl0]
      simp only
      have hh1 : heapFrom H (h.set (last + 1) h[0]) (last + 1) 1 := by
        intro i c x y hpi hch hcl hx hy
        have hil : i < last + 1 := by unfold isChild at hch; omega
        rw [List.getElem?_set, if_neg (by omega)] at hx hy
        exact hheap i c x y (by omega) hch (by omega) hx hy
      obtain ⟨a1, a2, a3⟩ := adjust_heap_spec comp H hc hn hrefl htrans
        (h.set (last + 1) h[0]) (last + 1) 0 h[last + 1] (by omega)
        (by rw [List.length_set]; omega) hh1
      have hsw : ((h.set (last + 1) h[0]).set 0 h[last + 1]).Perm h :=
        swap_perm h (last + 1) 0 h[0] h[last + 1] (by omega) (List.getElem?_eq_getElem hl0)
          (List.getElem?_eq_getElem hl1)
      have hperm : (adjust_heap comp (h.set (last + 1) h[0]) 0 (last + 1) h[last + 1]).Perm h :=
        a2.trans hsw
      obtain ⟨p1, p2⟩ := take_perm_of_tail _ _ (last + 1) a2 (fun k hk => by
        rw [a3 k hk]
        symm
        rw [List.getElem?_set, if_neg (by omega)])
      have hdrop : (adjust_heap comp (h.set (last + 1) h[0]) 0 (last + 1) h[last + 1]).drop
          (last + 1) = h[0] :: h.drop (last + 1 + 1) := by
        rw [p2]
        apply List.ext_getElem?
        intro k
        rw [List.getElem?_drop, List.getElem?_set, if_neg (by omega), List.getElem?_set]
        cases k with
        | zero => simp [hl1]
        | succ k =>
          rw [if_neg (by omega), List.getElem?_cons_succ, List.getElem?_drop]
          congr 1
          omega
      have hfront : ∀ x ∈ h.take (last + 1 + 1), H h[0] x := by
        intro x hx
        obtain ⟨k, hk⟩ := List.mem_iff_getElem?.mp hx
        have hkl : k < last + 1 + 1 := by
          by_contra hc2
          rw [List.getElem?_take, if_neg hc2] at hk
          cases hk
        rw [List.getElem?_take_of_lt hkl] at hk
        exact heapFrom_front H hrefl htrans h _ h[0] hheap (List.getElem?_eq_getElem hl0) k hkl
          x hk
      have hsub : ∀ x ∈ (adjust_heap comp (h.set (last + 1) h[0]) 0 (last + 1)
          h[last + 1]).take (last + 1), x ∈ h.take (last + 1 + 1) := by
        intro x hx
        have hx2 := p1.mem_iff.mp hx
        obtain ⟨k, hk⟩ := List.mem_iff_getElem?.mp hx2
        have hkl : k < last + 1 := by
          by_contra hc2
          rw [List.getElem?_take, if_neg hc2] at hk
          cases hk
        rw [List.getElem?_take_of_lt hkl, List.getElem?_set] at hk
        by_cases hk0 : 0 = k
        · rw [if_pos hk0] at hk
          simp only [List.length_set, hl0, ↓reduceIte] at hk
          cases hk
          exact List.getElem?_mem (by
            rw [List.getElem?_take_of_lt (by omega : last + 1 < last + 1 + 1)]
            exact List.getElem?_eq_getElem hl1)
        · rw [if_neg hk0, List.getElem?_set, if_neg (by omega)] at hk
          exact List.getElem?_mem (by
            rw [List.getElem?_take_of_lt (by omega : k < last + 1 + 1)]
            exact hk)
      obtain ⟨r1, r2⟩ := ih (adjust_heap comp (h.set (last + 1) h[0]) 0 (last + 1) h[last + 1])
        (by rw [hperm.length_eq]; omega) a1
        (by
          rw [hdrop]
          refine List.Pairwise.cons ?_ hs
          intro y hy
          exact hsep h[0] (List.getElem?_mem (by
            rw [List.getElem?_take_of_lt (by omega : 0 < last + 1 + 1)]
            exact List.getElem?_eq_getElem hl0)) y hy)
        (by
          intro x hx y hy
          rw [hdrop] at hy
          rcases List.mem_cons.mp hy with rfl | hy
          · exact hfront x (hsub x hx)
          · exact hsep x (hsub x hx) y hy)
      exact ⟨r1, r2.trans hperm⟩

/-- The heap sort that `__introsort_loop` falls back on sorts its range. -/
theorem heap_sort_spec {α : Type} [DecidableEq α] (comp : α → α → Bool) (R : α → α → Prop)
    (hc : ∀ a b, comp a b = true → R a b) (hn : ∀ a b, comp a b = false → R b a)
    (htrans : ∀ a b c, R a b → R b c → R a c) (M : List α) :
    (sort_heap.loop comp M.length (make_heap comp M)).Perm M ∧
    (sort_heap.loop comp M.length (make_heap comp M)).Pairwise R := by
  have hrefl : ∀ a, R a a := by
    intro a
    cases h : comp a a with
    | true => exact hc _ _ h
    | false => exact hn _ _ h
  obtain ⟨m1, m2⟩ := make_heap_spec comp (fun x y => R y x) hc hn hrefl
    (fun a b c hab hbc => htrans _ _ _ hbc hab) M
  obtain ⟨s1, s2⟩ := sort_heap.loop_sorted comp (fun x y => R y x) hc hn hrefl
    (fun a b c hab hbc => htrans _ _ _ hbc hab) M.length (make_heap comp M)
    (by rw [m2.length_eq]) m1
    (by rw [List.drop_of_length_le (by rw [m2.length_eq])]; exact List.Pairwise.nil)
    (by
      intro x _ y hy
      rw [List.drop_of_length_le (by rw [m2.length_eq])] at hy
      cases hy)
  exact ⟨s2.trans m2, s1⟩

/-- On an array whose entries the order `R` tells apart (no two of them stand both before and
behind each other), `std::sort` returns, whatever the number of entries: the result is a
rearrangement of the array in the order of the comparator.  The comparator may answer
anything on an entry compared with itself. -/
theorem sort_distinct {α : Type} [DecidableEq α] (comp : α → α → Bool) (R : α → α → Prop)
    (hc : ∀ a b, comp a b = true → R a b) (hn : ∀ a b, comp a b = false → R b a)
    (htrans : ∀ a b c, R a b → R b c → R a c) (a : List α)
    (hd : a.Pairwise (fun x y => ¬ (R x y ∧ R y x))) :
    ∃ s, sort comp a = some s ∧ s.Perm a ∧ s.Pairwise R := by
  unfold sort
  by_cases hemp : a.isEmpty = true
  · rw [if_pos hemp]
    have : a = [] := List.isEmpty_iff.mp hemp
    subst this
    exact ⟨[], rfl, List.Perm.refl _, List.Pairwise.nil⟩
  · rw [if_neg hemp]
    have hne : a ≠ [] := fun h => hemp (List.isEmpty_iff.mpr h)
    obtain ⟨a1, hrun, hperm, hmin⟩ := introsort_loop_spec comp R hc hn htrans
      (heap_sort_spec comp R hc hn htrans) (lg a.length * 2) [] a [] hd
    simp only [List.nil_append, List.append_nil, List.length_nil, Nat.zero_add] at hrun
    rw [hrun]
    simp only
    have hne1 : a1 ≠ [] := by
      intro h
      have := hperm.length_eq
      rw [h] at this
      exact hne (List.length_eq_zero.mp this.symm)
    rcases hmin with h | hmin
    · exact absurd h hne1
    · obtain ⟨s, hs, hsperm, hspw⟩ := final_insertion_sort_spec comp R hc hn htrans a1 hne1
        (apart_perm R _ _ hperm hd) hmin
      exact ⟨s, hs, hsperm.trans hperm, hspw⟩

theorem iter_swap_map {α β : Type} (f : β → α) (a : List β) (i j : Nat) :
    iter_swap (a.map f) i j = (iter_swap a i j).map (List.map f) := by
  unfold iter_swap
  simp only [List.getElem?_map]
  cases a[i]? <;> cases a[j]? <;> simp [List.map_set]

theorem unguarded_linear_insert.walk_map {α β : Type} (f : β → α) (comp : α → α → Bool)
    (val : β) :
    ∀ rp : List β, unguarded_linear_insert.walk comp (f val) (rp.map f) =
      (unguarded_linear_insert.walk (fun x y => comp (f x) (f y)) val rp).map (List.map f) := by
  intro rp
  induction rp with
  | nil => simp [unguarded_linear_insert.walk]
  | cons y rest ih =>
    simp only [List.map_cons, unguarded_linear_insert.walk]
    split_ifs
    · rw [ih]
      cases unguarded_linear_insert.walk (fun x y => comp (f x) (f y)) val rest <;> simp
    · simp

theorem unguarded_linear_insert_map {α β : Type} (f : β → α) (comp : α → α → Bool)
    (a : List β) (last : Nat) :
    unguarded_linear_insert comp (a.map f) last =
      (unguarded_linear_insert (fun x y => comp (f x) (f y)) a last).map (List.map f) := by
  unfold unguarded_linear_insert
  simp only [List.getElem?_map]
  cases a[last]? with
  | none => simp
  | some val =>
    simp only [Option.map_some']
    rw [← List.map_take, ← List.map_reverse, unguarded_linear_insert.walk_map]
    cases unguarded_linear_insert.walk (fun x y => comp (f x) (f y)) val (a.take last).reverse <;>
      simp [List.map_drop]

theorem insertion_sort.loop_map {α β : Type} (f : β → α) (comp : α → α → Bool) :
    ∀ (k i : Nat) (a : List β), insertion_sort.loop comp k i (a.map f) =
      (insertion_sort.loop (fun x y => comp (f x) (f y)) k i a).map (List.map f) := by
  intro k
  induction k with
  | zero => intro i a; simp [insertion_sort.loop]
  | succ k ih =>
    intro i a
    rw [insertion_sort.loop, insertion_sort.loop]
    simp only [List.getElem?_map]
    cases hi : a[i]? with
    | none => simp
    | some val =>
      cases h0 : a[0]? with
      | none => simp
      | some front =>
        simp only [Option.map_some']
        split_ifs
        · rw [← ih]
          simp [List.map_take, List.map_drop]
        · rw [unguarded_linear_insert_map]
          cases unguarded_linear_insert (fun x y => comp (f x) (f y)) a i with
          | none => simp
          | some a1 => simp only [Option.map_some']; rw [ih]

theorem insertion_sort_map {α β : Type} (f : β → α) (comp : α → α → Bool) (a : List β)
    (last : Nat) :
    insertion_sort comp (a.map f) last =
      (insertion_sort (fun x y => comp (f x) (f y)) a last).map (List.map f) := by
  unfold insertion_sort
  split_ifs
  · simp
  · exact insertion_sort.loop_map f comp _ _ a

theorem unguarded_insertion_sort_map {α β : Type} (f : β → α) (comp : α → α → Bool) :
    ∀ (k i : Nat) (a : List β), unguarded_insertion_sort comp k i (a.map f) =
      (unguarded_insertion_sort (fun x y => comp (f x) (f y)) k i a).map (List.map f) := by
  intro k
  induction k with
  | zero => intro i a; simp [unguarded_insertion_sort]
  | succ k ih =>
    intro i a
    rw [unguarded_insertion_sort, unguarded_insertion_sort, unguarded_linear_insert_map]
    cases unguarded_linear_insert (fun x y => comp (f x) (f y)) a i with
    | none => simp
    | some a1 => simp only [Option.map_some']; rw [ih]

theorem final_insertion_sort_map {α β : Type} (f : β → α) (comp : α → α → Bool) (a : List β) :
    final_insertion_sort comp (a.map f) =
      (final_insertion_sort (fun x y => comp (f x) (f y)) a).map (List.map f) := by
  unfold final_insertion_sort
  simp only [List.length_map]
  split_ifs
  · rw [insertion_sort_map]
    cases insertion_sort (fun x y => comp (f x) (f y)) a S_threshold with
    | none => simp
    | some a1 => simp only [Option.map_some']; rw [unguarded_insertion_sort_map]
  · exact insertion_sort_map f comp a _

theorem move_median_to_first_map {α β : Type} (f : β → α) (comp : α → α → Bool) (a : List β)
    (result ia ib ic : Nat) :
    move_median_to_first comp (a.map f) result ia ib ic =
      (move_median_to_first (fun x y => comp (f x) (f y)) a result ia ib ic).map (List.map f) := by
  unfold move_median_to_first
  simp only [List.getElem?_map]
  cases a[ia]? <;> cases a[ib]? <;> cases a[ic]? <;> simp only [Option.map_some', Option.map_none']
  all_goals first
    | rfl
    | (split_ifs <;> exact iter_swap_map f a _ _)

theorem unguarded_partition.up_map {α β : Type} (f : β → α) (comp : α → α → Bool) (p : β) :
    ∀ (l : List β) (n : Nat), unguarded_partition.up comp (f p) (l.map f) n =
      unguarded_partition.up (fun x y => comp (f x) (f y)) p l n := by
  intro l
  induction l with
  | nil => intro n; rfl
  | cons x rest ih =>
    intro n
    simp only [List.map_cons, unguarded_partition.up]
    split_ifs
    · exact ih _
    · rfl

theorem unguarded_partition.down_map {α β : Type} (f : β → α) (comp : α → α → Bool) (p : β) :
    ∀ (l : List β) (n : Nat), unguarded_partition.down comp (f p) (l.map f) n =
      unguarded_partition.down (fun x y => comp (f x) (f y)) p l n := by
  intro l
  induction l with
  | nil => intro n; rfl
  | cons x rest ih =>
    intro n
    simp only [List.map_cons, unguarded_partition.down]
    split_ifs
    · exact ih _
    · rfl

theorem unguarded_partition_map {α β : Type} (f : β → α) (comp : α → α → Bool) (pivot : Nat) :
    ∀ (fuel : Nat) (a : List β) (first last : Nat),
      unguarded_partition comp pivot fuel (a.map f) first last =
        (unguarded_partition (fun x y => comp (f x) (f y)) pivot fuel a first last).map
          (fun r => (r.1.map f, r.2)) := by
  intro fuel
  induction fuel with
  | zero => intro a first last; simp [unguarded_partition]
  | succ fuel ih =>
    intro a first last
    rw [unguarded_partition, unguarded_partition]
    simp only [List.getElem?_map]
    cases a[pivot]? with
    | none => simp
    | some p =>
      simp only [Option.map_some']
      rw [← List.map_drop, unguarded_partition.up_map, ← List.map_take, ← List.map_reverse,
        unguarded_partition.down_map]
      cases unguarded_partition.up (fun x y => comp (f x) (f y)) p (a.drop first) first with
      | none => simp
      | some first1 =>
        cases unguarded_partition.down (fun x y => comp (f x) (f y)) p (a.take last).reverse
            (last - 1) with
        | none => simp
        | some last1 =>
          simp only
          split_ifs
          · rw [iter_swap_map]
            cases iter_swap a first1 last1 with
            | none => simp
            | some a1 => simp only [Option.map_some']; rw [ih]
          · simp

theorem unguarded_partition_pivot_map {α β : Type} (f : β → α) (comp : α → α → Bool)
    (a : List β) (first last : Nat) :
    unguarded_partition_pivot comp (a.map f) first last =
      (unguarded_partition_pivot (fun x y => comp (f x) (f y)) a first last).map
        (fun r => (r.1.map f, r.2)) := by
  unfold unguarded_partition_pivot
  simp only
  rw [move_median_to_first_map]
  cases move_median_to_first (fun x y => comp (f x) (f y)) a first (first + 1)
      (first + (last - first) / 2) (last - 1) with
  | none => simp
  | some a1 =>
    simp only [Option.map_some', List.length_map]
    rw [unguarded_partition_map]

theorem adjustHeapLoop_map {α β : Type} (f : β → α) (comp : α → α → Bool) (len : Nat) :
    ∀ (fuel : Nat) (a : List β) (h : Nat),
      adjustHeapLoop comp len fuel (a.map f) h =
        (((adjustHeapLoop (fun x y => comp (f x) (f y)) len fuel a h).1).map f,
          (adjustHeapLoop (fun x y => comp (f x) (f y)) len fuel a h).2) := by
  intro fuel
  induction fuel with
  | zero => intro a h; simp [adjustHeapLoop]
  | succ fuel ih =>
    intro a h
    rw [adjustHeapLoop, adjustHeapLoop]
    simp only [List.getElem?_map]
    split_ifs with h1 h2
    · cases a[2 * (h + 1)]? with
      | none => simp
      | some r =>
        cases a[2 * (h + 1) - 1]? with
        | none => simp
        | some l =>
          simp only [Option.map_some']
          split_ifs
          · rw [← List.map_set, ih]
          · rw [← List.map_set, ih]
    · cases a[2 * (h + 1) - 1]? with
      | none => simp
      | some l => simp [List.map_set]
    · simp

theorem pushHeapLoop_map {α β : Type} (f : β → α) (comp : α → α → Bool) (v : β) :
    ∀ (fuel : Nat) (a : List β) (h top : Nat),
      pushHeapLoop comp (f v) fuel (a.map f) h top =
        (pushHeapLoop (fun x y => comp (f x) (f y)) v fuel a h top).map f := by
  intro fuel
  induction fuel with
  | zero => intro a h top; simp [pushHeapLoop, List.map_set]
  | succ fuel ih =>
    intro a h top
    rw [pushHeapLoop, pushHeapLoop]
    simp only [List.getElem?_map]
    split_ifs with h1
    · cases a[(h - 1) / 2]? with
      | none => simp [List.map_set]
      | some p =>
        simp only [Option.map_some']
        split_ifs
        · rw [← List.map_set, ih]
        · simp [List.map_set]
    · simp [List.map_set]

theorem adjust_heap_map {α β : Type} (f : β → α) (comp : α → α → Bool) (a : List β)
    (h len : Nat) (v : β) :
    adjust_heap comp (a.map f) h len (f v) =
      (adjust_heap (fun x y => comp (f x) (f y)) a h len v).map f := by
  unfold adjust_heap
  simp only
  rw [adjustHeapLoop_map, pushHeapLoop_map]

theorem make_heap.loop_commutes {α β : Type} (f : β → α) (comp : α → α → Bool) (len : Nat) :
    ∀ (parent : Nat) (h : List β), make_heap.loop comp len parent (h.map f) =
      (make_heap.loop (fun x y => comp (f x) (f y)) len parent h).map f := by
  intro parent
  induction parent with
  | zero =>
    intro h
    rw [make_heap.loop, make_heap.loop]
    simp only [List.getElem?_map]
    cases h[0]? with
    | none => simp
    | some v => simp only [Option.map_some']; rw [adjust_heap_map]
  | succ parent ih =>
    intro h
    rw [make_heap.loop, make_heap.loop]
    simp only [List.getElem?_map]
    cases h[parent + 1]? with
    | none => simp
    | some v => simp only [Option.map_some']; rw [adjust_heap_map, ih]

theorem make_heap_map {α β : Type} (f : β → α) (comp : α → α → Bool) (h : List β) :
    make_heap comp (h.map f) = (make_heap (fun x y => comp (f x) (f y)) h).map f := by
  unfold make_heap
  simp only [List.length_map]
  split_ifs
  · rfl
  · exact make_heap.loop_commutes f comp _ _ h

theorem sort_heap.loop_natural_map {α β : Type} (f : β → α) (comp : α → α → Bool) :
    ∀ (n : Nat) (h : List β), sort_heap.loop comp n (h.map f) =
      (sort_heap.loop (fun x y => comp (f x) (f y)) n h).map f := by
  intro n
  induction n with
  | zero => intro h; rw [sort_heap.loop, sort_heap.loop] <;> intro last h2 <;> omega
  | succ m ih =>
    intro h
    cases m with
    | zero => rw [sort_heap.loop, sort_heap.loop] <;> intro last h2 <;> omega
    | succ last =>
      rw [sort_heap.loop, sort_heap.loop]
      simp only [List.getElem?_map]
      cases h[last + 1]? with
      | none => simp
      | some v =>
        cases h[0]? with
        | none => simp
        | some fr =>
          simp only [Option.map_some']
          rw [← List.map_set, adjust_heap_map, ih]

theorem heap_sort_range_map {α β : Type} (f : β → α) (comp : α → α → Bool) (a : List β)
    (first last : Nat) :
    heap_sort_range comp (a.map f) first last =
      (heap_sort_range (fun x y => comp (f x) (f y)) a first last).map f := by
  unfold heap_sort_range
  simp only [← List.map_drop, ← List.map_take]
  rw [make_heap_map, List.length_map, sort_heap.loop_natural_map]
  simp

theorem introsort_loop_map {α β : Type} (f : β → α) (comp : α → α → Bool) :
    ∀ (d : Nat) (a : List β) (first last : Nat), introsort_loop comp d (a.map f) first last =
      (introsort_loop (fun x y => comp (f x) (f y)) d a first last).map (List.map f) := by
  intro d
  induction d with
  | zero =>
    intro a first last
    rw [introsort_loop, introsort_loop]
    split_ifs
    · simp [heap_sort_range_map]
    · simp
  | succ d ih =>
    intro a first last
    rw [introsort_loop, introsort_loop]
    split_ifs
    · rw [unguarded_partition_pivot_map]
      cases unguarded_partition_pivot (fun x y => comp (f x) (f y)) a first last with
      | none => simp
      | some r =>
        obtain ⟨a1, cut⟩ := r
        simp only [Option.map_some']
        rw [ih]
        cases introsort_loop (fun x y => comp (f x) (f y)) d a1 cut last with
        | none => simp
        | some a2 => simp only [Option.map_some']; rw [ih]
    · simp

/-- The call `std::sort` commutes with a mapping of the entries along which the comparator is
carried over. -/
theorem sort_map {α β : Type} (f : β → α) (comp : α → α → Bool) (a : List β) :
    sort comp (a.map f) = (sort (fun x y => comp (f x) (f y)) a).map (List.map f) := by
  cases a with
  | nil => simp [sort]
  | cons x t =>
    unfold sort
    rw [if_neg (by simp), if_neg (by simp), List.length_map, introsort_loop_map]
    cases introsort_loop (fun x y => comp (f x) (f y)) (lg (x :: t).length * 2) (x :: t) 0
        (x :: t).length with
    | none => simp
    | some a1 => simp only [Option.map_some']; rw [final_insertion_sort_map]

/-! ## PrintUnique -/

theorem memmem_iff (h n : List Nat) : memmem h n = true ↔ n <:+: h := by
  unfold memmem
  rw [List.any_eq_true, List.infix_iff_prefix_suffix]
  constructor
  · rintro ⟨t, ht, hp⟩
    exact ⟨t, List.isPrefixOf_iff_prefix.mp (by simpa using hp), (List.mem_tails _ _).mp ht⟩
  · rintro ⟨t, hp, ht⟩
    exact ⟨t, (List.mem_tails _ _).mpr ht, by simpa using List.isPrefixOf_iff_prefix.mpr hp⟩

theorem Match.bytes_length (input0 : List Nat) (m : Match)
    (h : m.string + m.string_length ≤ input0.length) :
    (m.bytes input0).length = m.string_length := by
  simp [Match.bytes]; omega

theorem CompareLength_true (input0 : List Nat) (a b : Match)
    (h : CompareLength input0 a b = true) : a.string_length ≤ b.string_length := by
  unfold CompareLength at h
  by_cases hl : a.string_length ≠ b.string_length
  · rw [if_pos hl] at h; exact le_of_lt (by simpa using h)
  · exact le_of_eq (not_not.mp hl)

theorem CompareLength_false (input0 : List Nat) (a b : Match)
    (h : CompareLength input0 a b = false) : b.string_length ≤ a.string_length := by
  unfold CompareLength at h
  by_cases hl : a.string_length ≠ b.string_length
  · rw [if_pos hl] at h; simpa using h
  · exact le_of_eq (not_not.mp hl).symm

theorem PrintUnique.loop_mem (input0 : List Nat) :
    ∀ (ms us : List Match) (x : Match), x ∈ PrintUnique.loop input0 ms us → x ∈ us ∨ x ∈ ms := by
  intro ms
  induction ms with
  | nil => intro us x hx; exact Or.inl hx
  | cons i ms ih =>
    intro us x hx
    rw [PrintUnique.loop] at hx
    split at hx
    · rcases ih us x hx with h | h
      · exact Or.inl h
      · exact Or.inr (List.mem_cons_of_mem _ h)
    · rcases ih _ x hx with h | h
      · rcases List.mem_append.mp h with h | h
        · exact Or.inl h
        · exact Or.inr (by simp at h; simp [h])
      · exact Or.inr (List.mem_cons_of_mem _ h)

theorem PrintUnique.loop_mono (input0 : List Nat) :
    ∀ (ms us : List Match) (x : Match), x ∈ us → x ∈ PrintUnique.loop input0 ms us := by
  intro ms
  induction ms with
  | nil => intro us x hx; exact hx
  | cons i ms ih =>
    intro us x hx
    rw [PrintUnique.loop]
    split
    · exact ih us x hx
    · exact ih _ x (List.mem_append_left _ hx)

theorem PrintUnique.loop_cover (input0 : List Nat) :
    ∀ (ms us : List Match) (d : Match), d ∈ ms →
      ∃ u ∈ PrintUnique.loop input0 ms us, u.bytes input0 <:+: d.bytes input0 := by
  intro ms
  induction ms with
  | nil => intro us d hd; simp at hd
  | cons i ms ih =>
    intro us d hd
    rw [PrintUnique.loop]
    rcases List.mem_cons.mp hd with rfl | hd
    · split
      · rename_i hany
        obtain ⟨u, hu, hm⟩ := List.any_eq_true.mp hany
        exact ⟨u, PrintUnique.loop_mono input0 ms us u hu, (memmem_iff _ _).mp hm⟩
      · exact ⟨d, PrintUnique.loop_mono input0 ms _ d (by simp), List.infix_refl _⟩
    · split
      · exact ih us d hd
      · exact ih _ d hd

theorem PrintUnique.loop_pairwise (input0 : List Nat) :
    ∀ (ms us : List Match),
      us.Pairwise (fun u i => u.string_length ≤ i.string_length ∧
        ¬ u.bytes input0 <:+: i.bytes input0) →
      ms.Pairwise (fun a b => a.string_length ≤ b.string_length) →
      (∀ u ∈ us, ∀ m ∈ ms, u.string_length ≤ m.string_length) →
      (PrintUnique.loop input0 ms us).Pairwise (fun u i => u.string_length ≤ i.string_length ∧
        ¬ u.bytes input0 <:+: i.bytes input0) := by
  intro ms
  induction ms with
  | nil => intro us hus _ _; exact hus
  | cons i ms ih =>
    intro us hus hms hle
    rw [List.pairwise_cons] at hms
    rw [PrintUnique.loop]
    split
    · exact ih us hus hms.2 (fun u hu m hm => hle u hu m (List.mem_cons_of_mem _ hm))
    · rename_i hany
      have hnone : ∀ u ∈ us, ¬ u.bytes input0 <:+: i.bytes input0 := by
        intro u hu hinf
        exact hany (List.any_eq_true.mpr ⟨u, hu, (memmem_iff _ _).mpr hinf⟩)
      refine ih _ ?_ hms.2 ?_
      · rw [List.pairwise_append]
        refine ⟨hus, List.pairwise_singleton _ _, ?_⟩
        intro u hu x hx
        simp at hx; subst hx
        exact ⟨hle u hu _ (List.mem_cons_self _ _), hnone u hu⟩
      · intro u hu m hm
        rcases List.mem_append.mp hu with hu | hu
        · exact hle u hu m (List.mem_cons_of_mem _ hm)
        · simp at hu; subst hu; exact hms.1 m hm

theorem PrintUnique.loop_length (input0 : List Nat) :
    ∀ (ms us : List Match), (PrintUnique.loop input0 ms us).length ≤ us.length + ms.length := by
  intro ms
  induction ms with
  | nil => intro us; simp [PrintUnique.loop]
  | cons i ms ih =>
    intro us
    rw [PrintUnique.loop]
    split
    · have := ih us; simp only [List.length_cons]; omega
    · have := ih (us ++ [i]); simp only [List.length_append, List.length_cons,
        List.length_nil] at this ⊢; omega

/-- Whenever the two `std::sort` calls of `PrintUnique` return their input rearranged, the first
in non-decreasing length, and the matches lie inside A's buffer: in the emitted list no entry
occurs inside an entry at another position, a byte string is emitted if and only if it is the
string of a match and no match has a string that is a proper substring of it, and no string is
emitted twice.  The number of matches is not bounded here. -/
theorem PrintUnique_of_sorted (F : Finder) (ms sorted out : List Match)
    (hin : ∀ m ∈ ms, m.string + m.string_length ≤ F.input0.length)
    (hsort : sort (CompareLength F.input0) ms = some sorted) (hperm : sorted.Perm ms)
    (hpw : sorted.Pairwise (fun a b : Match => a.string_length ≤ b.string_length))
    (hout : sort (StringComparator F.input0) (PrintUnique.loop F.input0 sorted []) = some out)
    (hoperm : out.Perm (PrintUnique.loop F.input0 sorted [])) :
    PrintUnique F ms = some out ∧
    out.Pairwise (fun a b =>
      ¬ a.bytes F.input0 <:+: b.bytes F.input0 ∧ ¬ b.bytes F.input0 <:+: a.bytes F.input0) ∧
    (∀ s : List Nat, s ∈ out.map (Match.bytes F.input0) ↔
      (∃ m ∈ ms, m.bytes F.input0 = s) ∧
        ∀ m ∈ ms, m.bytes F.input0 <:+: s → m.bytes F.input0 = s) ∧
    (out.map (Match.bytes F.input0)).Nodup := by
  have hrun : PrintUnique F ms = some out := by
    unfold PrintUnique
    rw [hsort]
    exact hout
  have hpwout : out.Pairwise (fun a b =>
      ¬ a.bytes F.input0 <:+: b.bytes F.input0 ∧ ¬ b.bytes F.input0 <:+: a.bytes F.input0) := by
    rw [List.Perm.pairwise_iff (fun h => ⟨h.2, h.1⟩) hoperm]
    have hkept := PrintUnique.loop_pairwise F.input0 sorted [] List.Pairwise.nil hpw (by simp)
    have hmem : ∀ x ∈ PrintUnique.loop F.input0 sorted [],
        x.string + x.string_length ≤ F.input0.length := by
      intro x hx
      rcases PrintUnique.loop_mem _ _ _ _ hx with h | h
      · simp at h
      · exact hin x (hperm.mem_iff.mp h)
    refine List.Pairwise.imp_of_mem ?_ hkept
    intro a b ha hb hab
    refine ⟨hab.2, fun hba => hab.2 ?_⟩
    have hlen : (b.bytes F.input0).length = (a.bytes F.input0).length := by
      have h1 := hba.length_le
      rw [Match.bytes_length _ _ (hmem a ha), Match.bytes_length _ _ (hmem b hb)] at *
      omega
    rw [hba.eq_of_length hlen]
  refine ⟨hrun, hpwout, ?_⟩
  have hsub : ∀ x ∈ out, x ∈ ms := by
    intro x hx
    rcases PrintUnique.loop_mem _ _ _ _ (hoperm.mem_iff.mp hx) with h | h
    · simp at h
    · exact hperm.mem_iff.mp h
  have hcov : ∀ d ∈ ms, ∃ u ∈ out, u.bytes F.input0 <:+: d.bytes F.input0 := by
    intro d hd
    obtain ⟨u, hu, hud⟩ := PrintUnique.loop_cover F.input0 sorted [] d (hperm.mem_iff.mpr hd)
    exact ⟨u, hoperm.mem_iff.mpr hu, hud⟩
  refine ⟨fun s => ⟨?_, ?_⟩, ?_⟩
  · intro hs
    obtain ⟨u, hu, rfl⟩ := List.mem_map.mp hs
    refine ⟨⟨u, hsub u hu, rfl⟩, ?_⟩
    intro m hm hmu
    obtain ⟨v, hv, hvm⟩ := hcov m hm
    have hvu : v.bytes F.input0 <:+: u.bytes F.input0 := hvm.trans hmu
    by_cases hne : v = u
    · subst hne
      have hlen : (m.bytes F.input0).length = (v.bytes F.input0).length :=
        le_antisymm hmu.length_le hvm.length_le
      exact hmu.eq_of_length hlen
    · exact absurd hvu (hpwout.forall (fun _ _ h => ⟨h.2, h.1⟩) hv hu hne).1
  · rintro ⟨⟨m, hm, rfl⟩, hmin⟩
    obtain ⟨u, hu, hum⟩ := hcov m hm
    exact List.mem_map.mpr ⟨u, hu, hmin u (hsub u hu) hum⟩
  · refine (List.pairwise_map.mpr (hpwout.imp ?_))
    intro a b hab heq
    exact hab.1 (heq ▸ List.infix_refl _)

/-- On at most 16 matches both `std::sort` calls of `PrintUnique` are insertion sorts: they
return their input rearranged, the first in non-decreasing length. -/
theorem PrintUnique_small (F : Finder) (ms : List Match) (hlen : ms.length ≤ 16) :
    ∃ sorted out, sort (CompareLength F.input0) ms = some sorted ∧ sorted.Perm ms ∧
      sorted.Pairwise (fun a b : Match => a.string_length ≤ b.string_length) ∧
      sort (StringComparator F.input0) (PrintUnique.loop F.input0 sorted []) = some out ∧
      out.Perm (PrintUnique.loop F.input0 sorted []) := by
  obtain ⟨sorted, hsort, hperm, hpw⟩ := sort_small (CompareLength F.input0)
    (fun a b : Match => a.string_length ≤ b.string_length) (CompareLength_true F.input0)
    (CompareLength_false F.input0) (fun a b c h1 h2 => le_trans h1 h2) ms hlen
  have hklen : (PrintUnique.loop F.input0 sorted []).length ≤ 16 := by
    have h1 := PrintUnique.loop_length F.input0 sorted []
    have h2 := hperm.length_eq
    simp only [List.length_nil] at h1
    omega
  obtain ⟨out, hout, hoperm, _⟩ := sort_small (StringComparator F.input0)
    (fun _ _ : Match => True) (fun _ _ _ => trivial) (fun _ _ _ => trivial)
    (fun _ _ _ _ _ => trivial) (PrintUnique.loop F.input0 sorted []) hklen
  exact ⟨sorted, out, hsort, hperm, hpw, hout, hoperm⟩

/-- The sort theorem for a comparator that follows the order `R` on the entries with the
property `P` only (for matches: the ones that lie inside the buffer). -/
theorem sort_distinct_on {α : Type} [DecidableEq α] (comp : α → α → Bool) (R : α → α → Prop)
    (P : α → Prop) (hc : ∀ a b, P a → P b → comp a b = true → R a b)
    (hn : ∀ a b, P a → P b → comp a b = false → R b a)
    (htrans : ∀ a b c, P a → P b → P c → R a b → R b c → R a c) (a : List α)
    (hP : ∀ x ∈ a, P x) (hd : a.Pairwise (fun x y => ¬ (R x y ∧ R y x))) :
    ∃ s, sort comp a = some s ∧ s.Perm a ∧ s.Pairwise R := by
  have hmap : (a.pmap Subtype.mk hP).map Subtype.val = a := by
    rw [List.map_pmap]
    simp
  have hd2 : (a.pmap Subtype.mk hP).Pairwise
      (fun x y : { x // P x } => ¬ (R x.val y.val ∧ R y.val x.val)) := by
    have h := hd
    rw [← hmap, List.pairwise_map] at h
    exact h
  obtain ⟨s, hs, hperm, hpw⟩ := sort_distinct (fun x y : { x // P x } => comp x.val y.val)
    (fun x y => R x.val y.val) (fun x y h => hc _ _ x.property y.property h)
    (fun x y h => hn _ _ x.property y.property h)
    (fun x y z h1 h2 => htrans _ _ _ x.property y.property z.property h1 h2)
    (a.pmap Subtype.mk hP) hd2
  refine ⟨s.map Subtype.val, ?_, ?_, ?_⟩
  · have h := sort_map (Subtype.val : { x // P x } → α) comp (a.pmap Subtype.mk hP)
    rw [hmap, hs] at h
    exact h
  · have := hperm.map Subtype.val
    rw [hmap] at this
    exact this
  · rw [List.pairwise_map]
    exact hpw

theorem memcmp_swap : ∀ a b : List Nat, memcmp b a = -memcmp a b := by
  intro a
  induction a with
  | nil => intro b; cases b <;> simp [memcmp]
  | cons x a ih =>
    intro b
    cases b with
    | nil => simp [memcmp]
    | cons y b =>
      simp only [memcmp]
      by_cases h1 : x < y
      · have h3 : ¬ y < x := by omega
        simp [h1, h3]
      · by_cases h2 : y < x
        · simp [h1, h2]
        · simp only [if_neg h1, if_neg h2]
          exact ih b

theorem memcmp_eq_zero : ∀ a b : List Nat, a.length = b.length → memcmp a b = 0 → a = b := by
  intro a
  induction a with
  | nil => intro b hl _; cases b with
    | nil => rfl
    | cons y b => simp at hl
  | cons x a ih =>
    intro b hl h
    cases b with
    | nil => simp at hl
    | cons y b =>
      simp only [memcmp] at h
      by_cases h1 : x < y
      · rw [if_pos h1] at h; cases h
      · by_cases h2 : y < x
        · rw [if_neg h1, if_pos h2] at h; cases h
        · rw [if_neg h1, if_neg h2] at h
          have : x = y := by omega
          subst this
          rw [ih b (by simpa using hl) h]

theorem memcmp_le_trans : ∀ a b c : List Nat, a.length = b.length → b.length = c.length →
    memcmp a b ≤ 0 → memcmp b c ≤ 0 → memcmp a c ≤ 0 := by
  intro a
  induction a with
  | nil => intro b c _ _ _ _; cases c <;> simp [memcmp]
  | cons x a ih =>
    intro b c hl1 hl2 h1 h2
    cases b with
    | nil => simp at hl1
    | cons y b =>
      cases c with
      | nil => simp at hl2
      | cons z c =>
        simp only [memcmp] at h1 h2 ⊢
        by_cases hxy : x < y
        · by_cases hyz : y < z
          · rw [if_pos (by omega : x < z)]; decide
          · by_cases hzy : z < y
            · rw [if_neg hyz, if_pos hzy] at h2; exact absurd h2 (by decide)
            · rw [if_pos (by omega : x < z)]; decide
        · by_cases hyx : y < x
          · rw [if_neg hxy, if_pos hyx] at h1; exact absurd h1 (by decide)
          · rw [if_neg hxy, if_neg hyx] at h1
            have hxy2 : x = y := by omega
            subst hxy2
            by_cases hxz : x < z
            · rw [if_pos hxz]; decide
            · by_cases hzx : z < x
              · rw [if_neg hxz, if_pos hzx] at h2; exact absurd h2 (by decide)
              · rw [if_neg hxz, if_neg hzx] at h2 ⊢
                exact ih b c (by simpa using hl1) (by simpa using hl2) h1 h2

theorem lexLt_trans : ∀ (x y z : List Nat), lexLt x y = true → lexLt y z = true →
    lexLt x z = true := by
  intro x
  induction x with
  | nil =>
    intro y z h1 h2
    cases y with
    | nil => simp [lexLt] at h1
    | cons b y =>
      cases z with
      | nil => simp [lexLt] at h2
      | cons c z => simp [lexLt]
  | cons a x ih =>
    intro y z h1 h2
    cases y with
    | nil => simp [lexLt] at h1
    | cons b y =>
      cases z with
      | nil => simp [lexLt] at h2
      | cons c z =>
        simp only [lexLt, Bool.or_eq_true, Bool.and_eq_true, decide_eq_true_eq] at h1 h2 ⊢
        rcases h1 with h1 | ⟨h1, h1'⟩
        · rcases h2 with h2 | ⟨h2, _⟩
          · exact Or.inl (by omega)
          · exact Or.inl (by omega)
        · rcases h2 with h2 | ⟨h2, h2'⟩
          · exact Or.inl (by omega)
          · exact Or.inr ⟨by omega, ih y z h1' h2'⟩

theorem lexLt_irrefl : ∀ a : List Nat, lexLt a a = false := by
  intro a
  induction a with
  | nil => rfl
  | cons x a ih => simp [lexLt, ih]

theorem lexLt_connected : ∀ a b : List Nat, lexLt a b = false → lexLt b a = true ∨ a = b := by
  intro a
  induction a with
  | nil =>
    intro b h
    cases b with
    | nil => exact Or.inr rfl
    | cons y b => simp [lexLt] at h
  | cons x a ih =>
    intro b h
    cases b with
    | nil => left; rfl
    | cons y b =>
      simp only [lexLt, Bool.or_eq_false_iff, decide_eq_false_iff_not, Bool.and_eq_false_iff] at h
      obtain ⟨h1, h2⟩ := h
      by_cases hyx : y < x
      · left; simp [lexLt, hyx]
      · have hxy : x = y := by omega
        subst hxy
        rcases h2 with h2 | h2
        · simp at h2
        · rcases ih b h2 with h3 | h3
          · left; simp [lexLt, h3]
          · right; rw [h3]

/-- The comparator `StringComparator` on two byte strings of the lengths recorded for them is
the lexicographic order, a proper initial part coming first. -/
theorem StringComparator_lex : ∀ a b : List Nat,
    (if memcmp (a.take (min a.length b.length)) (b.take (min a.length b.length)) = 0 then
      decide (a.length < b.length)
    else decide (memcmp (a.take (min a.length b.length)) (b.take (min a.length b.length)) < 0)) =
      lexLt a b := by
  intro a
  induction a with
  | nil =>
    intro b
    cases b with
    | nil => simp [memcmp, lexLt]
    | cons y b => simp [memcmp, lexLt]
  | cons x a ih =>
    intro b
    cases b with
    | nil => simp [memcmp, lexLt]
    | cons y b =>
      have hmin : min (x :: a).length (y :: b).length = min a.length b.length + 1 := by
        simp only [List.length_cons]; omega
      rw [hmin]
      simp only [List.take_succ_cons, memcmp, List.length_cons, lexLt]
      by_cases h1 : x < y
      · simp [h1]
      · by_cases h2 : y < x
        · have h3 : ¬ x = y := by omega
          simp [h1, h2, h3]
        · have h3 : x = y := by omega
          subst h3
          simp only [if_neg h1, lt_self_iff_false, decide_False, Bool.false_or, decide_True,
            Bool.true_and, Nat.add_lt_add_iff_right]
          exact ih b

theorem StringComparator_eq_lexLt (input0 : List Nat) (x y : Match)
    (hx : x.string + x.string_length ≤ input0.length)
    (hy : y.string + y.string_length ≤ input0.length) :
    StringComparator input0 x y = lexLt (x.bytes input0) (y.bytes input0) := by
  unfold StringComparator
  simp only
  rw [← Match.bytes_length input0 x hx, ← Match.bytes_length input0 y hy]
  exact StringComparator_lex _ _

/-- The first sort of `PrintUnique` on matches inside A's buffer no two of which have the same
string, whatever their number: it returns the matches in non-decreasing length. -/
theorem sort_CompareLength_distinct (input0 : List Nat) (ms : List Match)
    (hin : ∀ m ∈ ms, m.string + m.string_length ≤ input0.length)
    (hnd : (ms.map (Match.bytes input0)).Nodup) :
    ∃ sorted, sort (CompareLength input0) ms = some sorted ∧ sorted.Perm ms ∧
      sorted.Pairwise (fun a b : Match => a.string_length ≤ b.string_length) := by
  have hne : ms.Pairwise (fun x y => x.bytes input0 ≠ y.bytes input0) := by
    have h := hnd
    unfold List.Nodup at h
    rw [List.pairwise_map] at h
    exact h
  obtain ⟨s, hs, hperm, hpw⟩ := sort_distinct_on (CompareLength input0)
    (fun a b : Match => a.string_length < b.string_length ∨
      (a.string_length = b.string_length ∧ memcmp (a.bytes input0) (b.bytes input0) ≤ 0))
    (fun m => m.string + m.string_length ≤ input0.length)
    (by
      intro a b _ _ h
      unfold CompareLength at h
      by_cases hl : a.string_length ≠ b.string_length
      · rw [if_pos hl] at h; left; simpa using h
      · rw [if_neg hl] at h; right; exact ⟨not_not.mp hl, by simpa using h⟩)
    (by
      intro a b _ _ h
      unfold CompareLength at h
      by_cases hl : a.string_length ≠ b.string_length
      · rw [if_pos hl] at h
        left
        have : ¬ a.string_length < b.string_length := by simpa using h
        omega
      · rw [if_neg hl] at h
        right
        refine ⟨(not_not.mp hl).symm, ?_⟩
        have h1 : 0 < memcmp (a.bytes input0) (b.bytes input0) := by simpa using h
        rw [memcmp_swap]
        omega)
    (by
      intro a b c ha hb hc h1 h2
      rcases h1 with h1 | ⟨h1, m1⟩
      · rcases h2 with h2 | ⟨h2, _⟩
        · left; omega
        · left; omega
      · rcases h2 with h2 | ⟨h2, m2⟩
        · left; omega
        · right
          refine ⟨by omega, memcmp_le_trans _ _ _ ?_ ?_ m1 m2⟩
          · rw [Match.bytes_length _ _ ha, Match.bytes_length _ _ hb, h1]
          · rw [Match.bytes_length _ _ hb, Match.bytes_length _ _ hc, h2])
    ms hin
    (by
      refine List.Pairwise.imp_of_mem ?_ hne
      intro a b ha hb hab hR
      apply hab
      obtain ⟨h1, h2⟩ := hR
      have hl : a.string_length = b.string_length := by
        rcases h1 with h1 | ⟨h1, _⟩
        · rcases h2 with h2 | ⟨h2, _⟩
          · omega
          · omega
        · exact h1
      have m1 : memcmp (a.bytes input0) (b.bytes input0) ≤ 0 := by
        rcases h1 with h1 | ⟨_, m1⟩
        · omega
        · exact m1
      have m2 : memcmp (b.bytes input0) (a.bytes input0) ≤ 0 := by
        rcases h2 with h2 | ⟨_, m2⟩
        · omega
        · exact m2
      rw [memcmp_swap] at m2
      exact memcmp_eq_zero _ _
        (by rw [Match.bytes_length _ _ (hin a ha), Match.bytes_length _ _ (hin b hb), hl])
        (by omega))
  refine ⟨s, hs, hperm, hpw.imp ?_⟩
  intro a b h
  rcases h with h | ⟨h, _⟩
  · omega
  · omega

/-- The second sort of `PrintUnique` on matches inside A's buffer no two of which have the
same string: it returns them rearranged. -/
theorem sort_StringComparator_distinct (input0 : List Nat) (ms : List Match)
    (hin : ∀ m ∈ ms, m.string + m.string_length ≤ input0.length)
    (hne : ms.Pairwise (fun x y => x.bytes input0 ≠ y.bytes input0)) :
    ∃ out, sort (StringComparator input0) ms = some out ∧ out.Perm ms := by
  obtain ⟨s, hs, hperm, _⟩ := sort_distinct_on (StringComparator input0)
    (fun a b : Match => lexLt (a.bytes input0) (b.bytes input0) = true ∨
      a.bytes input0 = b.bytes input0)
    (fun m => m.string + m.string_length ≤ input0.length)
    (by
      intro a b ha hb h
      rw [StringComparator_eq_lexLt input0 a b ha hb] at h
      exact Or.inl h)
    (by
      intro a b ha hb h
      rw [StringComparator_eq_lexLt input0 a b ha hb] at h
      rcases lexLt_connected _ _ h with h1 | h1
      · exact Or.inl h1
      · exact Or.inr h1.symm)
    (by
      intro a b c _ _ _ h1 h2
      rcases h1 with h1 | h1
      · rcases h2 with h2 | h2
        · exact Or.inl (lexLt_trans _ _ _ h1 h2)
        · left; rw [← h2]; exact h1
      · rw [h1]; exact h2)
    ms hin
    (by
      refine hne.imp ?_
      intro a b hab hR
      apply hab
      obtain ⟨h1, h2⟩ := hR
      rcases h1 with h1 | h1
      · rcases h2 with h2 | h2
        · have := lexLt_trans _ _ _ h1 h2
          rw [lexLt_irrefl] at this
          cases this
        · exact h2.symm
      · exact h1)
  exact ⟨s, hs, hperm⟩

/-- On matches inside A's buffer no two of which have the same string, whatever their number,
both `std::sort` calls of `PrintUnique` return their input rearranged, the first in
non-decreasing length. -/
theorem PrintUnique_distinct (F : Finder) (ms : List Match)
    (hin : ∀ m ∈ ms, m.string + m.string_length ≤ F.input0.length)
    (hnd : (ms.map (Match.bytes F.input0)).Nodup) :
    ∃ sorted out, sort (CompareLength F.input0) ms = some sorted ∧ sorted.Perm ms ∧
      sorted.Pairwise (fun a b : Match => a.string_length ≤ b.string_length) ∧
      sort (StringComparator F.input0) (PrintUnique.loop F.input0 sorted []) = some out ∧
      out.Perm (PrintUnique.loop F.input0 sorted []) := by
  obtain ⟨sorted, hsort, hperm, hpw⟩ := sort_CompareLength_distinct F.input0 ms hin hnd
  have hkept := PrintUnique.loop_pairwise F.input0 sorted [] List.Pairwise.nil hpw (by simp)
  have hmem : ∀ x ∈ PrintUnique.loop F.input0 sorted [],
      x.string + x.string_length ≤ F.input0.length := by
    intro x hx
    rcases PrintUnique.loop_mem _ _ _ _ hx with h | h
    · simp at h
    · exact hin x (hperm.mem_iff.mp h)
  obtain ⟨out, hout, hoperm⟩ := sort_StringComparator_distinct F.input0
    (PrintUnique.loop F.input0 sorted []) hmem
    (hkept.imp (by
      intro a b hab heq
      apply hab.2
      rw [heq]))
  exact ⟨sorted, out, hsort, hperm, hpw, hout, hoperm⟩

/-- The sort of `FindCover` on matches inside A's buffer no two of which have the same string,
whatever their number: it returns the matches rearranged. -/
theorem sort_CompareScore_distinct (input0 : List Nat) (ms : List Match)
    (hin : ∀ m ∈ ms, m.string + m.string_length ≤ input0.length)
    (hnd : (ms.map (Match.bytes input0)).Nodup) :
    ∃ sorted, sort (CompareScore input0) ms = some sorted ∧ sorted.Perm ms ∧
      sorted.Pairwise (fun a b : Match => b.score ≤ a.score) := by
  have hne : ms.Pairwise (fun x y => x.bytes input0 ≠ y.bytes input0) := by
    have h := hnd
    unfold List.Nodup at h
    rw [List.pairwise_map] at h
    exact h
  obtain ⟨s, hs, hperm, hpw⟩ := sort_distinct_on (CompareScore input0)
    (fun a b : Match => b.score < a.score ∨ (a.score = b.score ∧
      (b.string_length < a.string_length ∨
        (a.string_length = b.string_length ∧ memcmp (a.bytes input0) (b.bytes input0) ≤ 0))))
    (fun m => m.string + m.string_length ≤ input0.length)
    (by
      intro a b _ _ h
      unfold CompareScore at h
      by_cases hsc : a.score ≠ b.score
      · rw [if_pos hsc] at h; left; simpa using h
      · rw [if_neg hsc] at h
        right
        refine ⟨not_not.mp hsc, ?_⟩
        by_cases hl : a.string_length ≠ b.string_length
        · rw [if_pos hl] at h; left; simpa using h
        · rw [if_neg hl] at h; right; exact ⟨not_not.mp hl, by simpa using h⟩)
    (by
      intro a b _ _ h
      unfold CompareScore at h
      by_cases hsc : a.score ≠ b.score
      · rw [if_pos hsc] at h
        left
        have h1 : ¬ b.score < a.score := by simpa using h
        exact lt_of_le_of_ne (not_lt.mp h1) hsc
      · rw [if_neg hsc] at h
        right
        refine ⟨(not_not.mp hsc).symm, ?_⟩
        by_cases hl : a.string_length ≠ b.string_length
        · rw [if_pos hl] at h
          left
          have : ¬ b.string_length < a.string_length := by simpa using h
          omega
        · rw [if_neg hl] at h
          right
          refine ⟨(not_not.mp hl).symm, ?_⟩
          have h1 : 0 < memcmp (a.bytes input0) (b.bytes input0) := by simpa using h
          rw [memcmp_swap]
          omega)
    (by
      intro a b c ha hb hc h1 h2
      rcases h1 with h1 | ⟨e1, h1⟩
      · rcases h2 with h2 | ⟨e2, _⟩
        · left; exact lt_trans h2 h1
        · left; rw [← e2]; exact h1
      · rcases h2 with h2 | ⟨e2, h2⟩
        · left; rw [e1]; exact h2
        · right
          refine ⟨e1.trans e2, ?_⟩
          rcases h1 with h1 | ⟨h1, m1⟩
          · rcases h2 with h2 | ⟨h2, _⟩
            · left; omega
            · left; omega
          · rcases h2 with h2 | ⟨h2, m2⟩
            · left; omega
            · right
              refine ⟨by omega, memcmp_le_trans _ _ _ ?_ ?_ m1 m2⟩
              · rw [Match.bytes_length _ _ ha, Match.bytes_length _ _ hb, h1]
              · rw [Match.bytes_length _ _ hb, Match.bytes_length _ _ hc, h2])
    ms hin
    (by
      refine List.Pairwise.imp_of_mem ?_ hne
      intro a b ha hb hab hR
      apply hab
      obtain ⟨h1, h2⟩ := hR
      have hsc : a.score = b.score := by
        rcases h1 with h1 | ⟨e1, _⟩
        · rcases h2 with h2 | ⟨e2, _⟩
          · exact absurd (lt_trans h1 h2) (lt_irrefl _)
          · rw [e2] at h1; exact absurd h1 (lt_irrefl _)
        · exact e1
      have h1b : b.string_length < a.string_length ∨
          (a.string_length = b.string_length ∧ memcmp (a.bytes input0) (b.bytes input0) ≤ 0) := by
        rcases h1 with h1 | ⟨_, h1⟩
        · rw [hsc] at h1; exact absurd h1 (lt_irrefl _)
        · exact h1
      have h2b : a.string_length < b.string_length ∨
          (b.string_length = a.string_length ∧ memcmp (b.bytes input0) (a.bytes input0) ≤ 0) := by
        rcases h2 with h2 | ⟨_, h2⟩
        · rw [hsc] at h2; exact absurd h2 (lt_irrefl _)
        · exact h2
      have hl : a.string_length = b.string_length := by
        rcases h1b with h1 | ⟨h1, _⟩
        · rcases h2b with h2 | ⟨h2, _⟩
          · omega
          · omega
        · exact h1
      have m1 : memcmp (a.bytes input0) (b.bytes input0) ≤ 0 := by
        rcases h1b with h1 | ⟨_, m1⟩
        · omega
        · exact m1
      have m2 : memcmp (b.bytes input0) (a.bytes input0) ≤ 0 := by
        rcases h2b with h2 | ⟨_, m2⟩
        · omega
        · exact m2
      rw [memcmp_swap] at m2
      exact memcmp_eq_zero _ _
        (by rw [Match.bytes_length _ _ (hin a ha), Match.bytes_length _ _ (hin b hb), hl])
        (by omega))
  refine ⟨s, hs, hperm, hpw.imp ?_⟩
  intro a b h
  rcases h with h | ⟨h, _⟩
  · exact le_of_lt h
  · exact le_of_eq h.symm

/-- For every list of matches inside A's buffer that has at most 16 entries or no two entries
with the same string, `PrintUnique` returns and in the list it emits no entry occurs as a
contiguous substring of an entry at another position (equal strings included). -/
theorem PrintUnique_no_entry_inside_another (F : Finder) (ms : List Match)
    (hin : ∀ m ∈ ms, m.string + m.string_length ≤ F.input0.length)
    (hdom : ms.length ≤ 16 ∨ (ms.map (Match.bytes F.input0)).Nodup) :
    ∃ out, PrintUnique F ms = some out ∧ out.Pairwise (fun a b =>
      ¬ a.bytes F.input0 <:+: b.bytes F.input0 ∧ ¬ b.bytes F.input0 <:+: a.bytes F.input0) := by
  obtain ⟨sorted, out, hsort, hperm, hpw, hout, hoperm⟩ :
      ∃ sorted out, sort (CompareLength F.input0) ms = some sorted ∧ sorted.Perm ms ∧
        sorted.Pairwise (fun a b : Match => a.string_length ≤ b.string_length) ∧
        sort (StringComparator F.input0) (PrintUnique.loop F.input0 sorted []) = some out ∧
        out.Perm (PrintUnique.loop F.input0 sorted []) := by
    rcases hdom with hlen | hnd
    · exact PrintUnique_small F ms hlen
    · exact PrintUnique_distinct F ms hin hnd
  obtain ⟨hrun, hpwout, _⟩ :=
    PrintUnique_of_sorted F ms sorted out hin hsort hperm hpw hout hoperm
  exact ⟨out, hrun, hpwout⟩

/-- Above 16 entries `std::sort` partitions the array before the insertion sort; on 20 matches
with distinct strings (the letters of A = "tsrqponmlkjihgfedcba\0", one view each) both calls
of `PrintUnique` run inside the array, and the 20 strings are emitted in ascending order. -/
theorem PrintUnique_twenty_distinct :
    sort (CompareLength (ascii "tsrqponmlkjihgfedcba\x00"))
        ((List.range 20).map (fun k => (⟨k, 1, 1⟩ : Match))) =
      some ((List.range 20).map (fun k => (⟨19 - k, 1, 1⟩ : Match))) ∧
    PrintUnique { input0 := ascii "tsrqponmlkjihgfedcba\x00" }
        ((List.range 20).map (fun k => (⟨k, 1, 1⟩ : Match))) =
      some ((List.range 20).map (fun k => (⟨19 - k, 1, 1⟩ : Match))) := by
  refine ⟨by decide, by decide⟩

/-- C8 as stated fails: with the matches "banana", "anana", "nana", "ana", "na", "an", "ba"
(views into A = "banana\0banana\0") `PrintUnique` emits "an", "ba", "na"; "banana", which is a
proper substring of no other match, is not emitted, and "an", a proper substring of "banana",
is. -/
theorem C8_banana_counterexample :
    (PrintUnique { input0 := ascii "banana\x00banana\x00" }
      [⟨0, 6, 2⟩, ⟨1, 5, 2⟩, ⟨2, 4, 2⟩, ⟨3, 3, 2⟩, ⟨4, 2, 2⟩, ⟨1, 2, 2⟩, ⟨0, 2, 2⟩]).map
        (List.map (Match.bytes (ascii "banana\x00banana\x00")))
      = some [ascii "an", ascii "ba", ascii "na"] ∧
    [⟨0, 6, 2⟩, ⟨1, 5, 2⟩, ⟨2, 4, 2⟩, ⟨3, 3, 2⟩, ⟨4, 2, 2⟩, ⟨1, 2, 2⟩, ⟨0, 2, 2⟩].map
        (Match.bytes (ascii "banana\x00banana\x00"))
      = [ascii "banana", ascii "anana", ascii "nana", ascii "ana", ascii "na", ascii "an",
          ascii "ba"] ∧
    ¬ ((PrintUnique { input0 := ascii "banana\x00banana\x00" }
      [⟨0, 6, 2⟩, ⟨1, 5, 2⟩, ⟨2, 4, 2⟩, ⟨3, 3, 2⟩, ⟨4, 2, 2⟩, ⟨1, 2, 2⟩, ⟨0, 2, 2⟩]).map
        (List.map (Match.bytes (ascii "banana\x00banana\x00"))) = some [ascii "banana"]) := by
  decide

/-- C8 amended: `PrintUnique` keeps the shorter string and suppresses the strings that contain
it.  For every list of matches inside A's buffer that has at most 16 entries or no two entries
with the same string, `PrintUnique` returns, and a byte string is emitted if and only if it is
the string of a match of the list and no match of the list has a string that is a proper
substring of it; no string is emitted twice. -/
theorem C8_PrintUnique_emits_minimal_strings (F : Finder) (ms : List Match)
    (hin : ∀ m ∈ ms, m.string + m.string_length ≤ F.input0.length)
    (hdom : ms.length ≤ 16 ∨ (ms.map (Match.bytes F.input0)).Nodup) :
    ∃ out, PrintUnique F ms = some out ∧
      (∀ s : List Nat, s ∈ out.map (Match.bytes F.input0) ↔
        (∃ m ∈ ms, m.bytes F.input0 = s) ∧
          ∀ m ∈ ms, m.bytes F.input0 <:+: s → m.bytes F.input0 = s) ∧
      (out.map (Match.bytes F.input0)).Nodup := by
  obtain ⟨sorted, out, hsort, hperm, hpw, hout, hoperm⟩ :
      ∃ sorted out, sort (CompareLength F.input0) ms = some sorted ∧ sorted.Perm ms ∧
        sorted.Pairwise (fun a b : Match => a.string_length ≤ b.string_length) ∧
        sort (StringComparator F.input0) (PrintUnique.loop F.input0 sorted []) = some out ∧
        out.Perm (PrintUnique.loop F.input0 sorted []) := by
    rcases hdom with hlen | hnd
    · exact PrintUnique_small F ms hlen
    · exact PrintUnique_distinct F ms hin hnd
  obtain ⟨hrun, _, hchar, hnodup⟩ :=
    PrintUnique_of_sorted F ms sorted out hin hsort hperm hpw hout hoperm
  exact ⟨out, hrun, hchar, hnodup⟩

/-- C8 amended, at the "banana" matches. -/
theorem C8_PrintUnique_emits_minimal_strings_witness :
    ∃ out, PrintUnique { input0 := ascii "banana\x00banana\x00" }
        [⟨0, 6, 2⟩, ⟨1, 5, 2⟩, ⟨2, 4, 2⟩, ⟨3, 3, 2⟩, ⟨4, 2, 2⟩, ⟨1, 2, 2⟩, ⟨0, 2, 2⟩] = some out ∧
      (∀ s : List Nat, s ∈ out.map (Match.bytes (ascii "banana\x00banana\x00")) ↔
        (∃ m ∈ ([⟨0, 6, 2⟩, ⟨1, 5, 2⟩, ⟨2, 4, 2⟩, ⟨3, 3, 2⟩, ⟨4, 2, 2⟩, ⟨1, 2, 2⟩, ⟨0, 2, 2⟩] :
            List Match), m.bytes (ascii "banana\x00banana\x00") = s) ∧
          ∀ m ∈ ([⟨0, 6, 2⟩, ⟨1, 5, 2⟩, ⟨2, 4, 2⟩, ⟨3, 3, 2⟩, ⟨4, 2, 2⟩, ⟨1, 2, 2⟩, ⟨0, 2, 2⟩] :
            List Match), m.bytes (ascii "banana\x00banana\x00") <:+: s →
              m.bytes (ascii "banana\x00banana\x00") = s) ∧
      (out.map (Match.bytes (ascii "banana\x00banana\x00"))).Nodup :=
  C8_PrintUnique_emits_minimal_strings { input0 := ascii "banana\x00banana\x00" }
    [⟨0, 6, 2⟩, ⟨1, 5, 2⟩, ⟨2, 4, 2⟩, ⟨3, 3, 2⟩, ⟨4, 2, 2⟩, ⟨1, 2, 2⟩, ⟨0, 2, 2⟩]
    (by decide) (Or.inl (by decide))

/-! ## FindCover -/

theorem CompareScore_true (input0 : List Nat) (x y : Match)
    (h : CompareScore input0 x y = true) : y.score ≤ x.score := by
  unfold CompareScore at h
  by_cases hs : x.score ≠ y.score
  · rw [if_pos hs] at h; exact le_of_lt (by simpa using h)
  · exact le_of_eq (not_not.mp hs).symm

theorem CompareScore_false (input0 : List Nat) (x y : Match)
    (h : CompareScore input0 x y = false) : x.score ≤ y.score := by
  unfold CompareScore at h
  by_cases hs : x.score ≠ y.score
  · rw [if_pos hs] at h; simpa using h
  · exact le_of_eq (not_not.mp hs)

theorem FindCover.contains_eq (input0 : List Nat) (k : Nat × Nat) (m : Match) (b : Bool)
    (h : FindCover.contains input0 k m = some b) :
    b = memmem (documentBytes input0 k) (m.bytes input0) := by
  unfold FindCover.contains bytesAt at h
  unfold documentBytes Match.bytes
  split at h
  · rename_i hay needle h1 h2
    split at h1
    · split at h2
      · cases h1; cases h2; cases h; rfl
      · cases h2
    · cases h1
  · cases h

theorem FindCover.sweep_eq (input0 : List Nat) (m : Match) :
    ∀ (remaining : List (Nat × Nat)) (hits : Nat) (r : List (Nat × Nat) × Nat),
      FindCover.sweep input0 m remaining hits = some r →
      r = (remaining.filter (fun k => !memmem (documentBytes input0 k) (m.bytes input0)),
          hits + (remaining.filter
            (fun k => memmem (documentBytes input0 k) (m.bytes input0))).length) := by
  intro remaining
  induction remaining with
  | nil => intro hits r h; simp [FindCover.sweep] at h; simp [← h]
  | cons k remaining ih =>
    intro hits r h
    rw [FindCover.sweep] at h
    cases hc : FindCover.contains input0 k m with
    | none => simp only [hc] at h; cases h
    | some b =>
      have hb := FindCover.contains_eq input0 k m b hc
      cases b with
      | true =>
        simp only [hc] at h
        rw [ih _ r h, List.filter_cons, List.filter_cons]
        simp [← hb]; omega
      | false =>
        simp only [hc] at h
        cases hs : FindCover.sweep input0 m remaining hits with
        | none => simp only [hs] at h; cases h
        | some r1 =>
          simp only [hs, Option.some.injEq] at h
          rw [← h, ih _ r1 hs, List.filter_cons, List.filter_cons]
          simp [← hb]

theorem FindCover.loop_eq_spec (F : Finder) :
    ∀ (ms : List Match) (remaining : List (Nat × Nat)) (out : List (Nat × Match)),
      FindCover.loop F ms remaining = some out → out = FindCover_spec F ms remaining := by
  intro ms
  induction ms with
  | nil => intro remaining out h; simp [FindCover.loop] at h; simp [FindCover_spec, ← h]
  | cons j ms ih =>
    intro remaining out h
    rw [FindCover.loop] at h
    rw [FindCover_spec]
    by_cases hemp : remaining = []
    · subst hemp
      simp at h
      simp [← h]
    · have hemp2 : remaining.isEmpty = false := by simpa [List.isEmpty_iff] using hemp
      rw [if_neg hemp]
      simp only [hemp2, Bool.false_eq_true, if_false] at h
      cases hs : FindCover.sweep F.input0 j remaining 0 with
      | none => simp only [hs] at h; cases h
      | some r =>
        simp only [hs] at h
        have hr := FindCover.sweep_eq F.input0 j remaining 0 r hs
        cases hl : FindCover.loop F ms r.1 with
        | none => simp only [hl] at h; cases h
        | some lines =>
          simp only [hl] at h
          have hlines := ih r.1 lines hl
          rw [hr] at hlines h
          simp only [Nat.zero_add] at hlines h
          simp only
          split at h
          · rename_i hgt
            rw [if_pos hgt]
            cases h
            rw [hlines]
          · rename_i hgt
            rw [if_neg hgt]
            cases h
            rw [hlines]

theorem FindCover_spec_threshold (F : Finder) :
    ∀ (ms : List Match) (remaining : List (Nat × Nat)),
      ∀ p ∈ FindCover_spec F ms remaining, (p.1 : Int) > F.cover_threshold := by
  intro ms
  induction ms with
  | nil => intro remaining p hp; simp [FindCover_spec] at hp
  | cons j ms ih =>
    intro remaining p hp
    rw [FindCover_spec] at hp
    split at hp
    · simp at hp
    · simp only at hp
      split at hp
      · rename_i hgt
        rcases List.mem_cons.mp hp with rfl | hp
        · exact hgt
        · exact ih _ p hp
      · exact ih _ p hp

theorem FindCover_spec_sum (F : Finder) :
    ∀ (ms : List Match) (remaining : List (Nat × Nat)),
      ((FindCover_spec F ms remaining).map Prod.fst).sum ≤ remaining.length := by
  intro ms
  induction ms with
  | nil => intro remaining; simp [FindCover_spec]
  | cons j ms ih =>
    intro remaining
    have hsplit := List.length_eq_length_filter_add (l := remaining)
      (fun k => memmem (documentBytes F.input0 k) (j.bytes F.input0))
    simp only at hsplit
    have hrest := ih (remaining.filter
      (fun k => !memmem (documentBytes F.input0 k) (j.bytes F.input0)))
    rw [FindCover_spec]
    split
    · simp
    · simp only
      split
      · simp only [List.map_cons, List.sum_cons]; omega
      · omega

theorem FindCover.documents_length :
    ∀ (document_ends : List Nat) (start : Nat),
      (FindCover.documents document_ends start).length = document_ends.length := by
  intro document_ends
  induction document_ends with
  | nil => intro start; rfl
  | cons e document_ends ih => intro start; simp [FindCover.documents, ih]

theorem FindCover.sweep_total (input0 : List Nat) (m : Match)
    (hm : m.string + m.string_length ≤ input0.length) :
    ∀ (remaining : List (Nat × Nat)) (hits : Nat),
      (∀ k ∈ remaining, k.1 + k.2 ≤ input0.length) →
      ∃ r, FindCover.sweep input0 m remaining hits = some r := by
  intro remaining
  induction remaining with
  | nil => intro hits _; exact ⟨([], hits), by simp [FindCover.sweep]⟩
  | cons k remaining ih =>
    intro hits hin
    have hk := hin k (List.mem_cons_self _ _)
    have hrest : ∀ k2 ∈ remaining, k2.1 + k2.2 ≤ input0.length :=
      fun k2 h2 => hin k2 (List.mem_cons_of_mem _ h2)
    have hc : FindCover.contains input0 k m =
        some (memmem ((input0.drop k.1).take k.2) ((input0.drop m.string).take m.string_length)) := by
      unfold FindCover.contains bytesAt
      rw [if_pos hk, if_pos hm]
    rw [FindCover.sweep, hc]
    cases memmem ((input0.drop k.1).take k.2) ((input0.drop m.string).take m.string_length) with
    | true => exact ih (hits + 1) hrest
    | false =>
      obtain ⟨r, hr⟩ := ih hits hrest
      exact ⟨(k :: r.1, r.2), by simp [hr]⟩

theorem FindCover.loop_total (F : Finder) :
    ∀ (ms : List Match) (remaining : List (Nat × Nat)),
      (∀ m ∈ ms, m.string + m.string_length ≤ F.input0.length) →
      (∀ k ∈ remaining, k.1 + k.2 ≤ F.input0.length) →
      ∃ out, FindCover.loop F ms remaining = some out := by
  intro ms
  induction ms with
  | nil => intro remaining _ _; exact ⟨[], by simp [FindCover.loop]⟩
  | cons j ms ih =>
    intro remaining hin hdocs
    rw [FindCover.loop]
    by_cases hemp : remaining.isEmpty = true
    · rw [if_pos hemp]; exact ⟨[], rfl⟩
    · rw [if_neg hemp]
      obtain ⟨r, hr⟩ := FindCover.sweep_total F.input0 j (hin j (List.mem_cons_self _ _))
        remaining 0 hdocs
      have hsub : ∀ k ∈ r.1, k.1 + k.2 ≤ F.input0.length := by
        intro k hk
        rw [FindCover.sweep_eq F.input0 j remaining 0 r hr] at hk
        exact hdocs k (List.mem_of_mem_filter hk)
      obtain ⟨lines, hl⟩ := ih r.1 (fun m hm => hin m (List.mem_cons_of_mem _ hm)) hsub
      simp only [hr, hl]
      split_ifs
      · exact ⟨_, rfl⟩
      · exact ⟨_, rfl⟩

/-- C9: for every list of matches inside A's buffer and every list of A's document bounds,
whenever `std::sort` returns and the cover loop has run through the first `n` matches without
reading outside the buffer (`n` at least the number of matches is the whole call), the lines
printed are the ones cover mode is described to print: each printed `hits` is the number of
documents of the remaining list that contain the match as a substring, which are the documents
removed for that match; every printed value exceeds `cover_threshold`; and the printed values
sum to at most the number of A's documents.  The whole call does return when the documents lie
inside A's buffer and the list has at most 16 matches or no two matches with the same string. -/
theorem C9_FindCover_hits (F : Finder) (ms sorted : List Match) (n : Nat)
    (out : List (Nat × Match))
    (hin : ∀ m ∈ ms, m.string + m.string_length ≤ F.input0.length)
    (hsort : sort (CompareScore F.input0) ms = some sorted)
    (hrun : FindCover.loop F (sorted.take n)
      (FindCover.documents F.input0_document_ends_ 0) = some out) :
    out = FindCover_spec F (sorted.take n) (FindCover.documents F.input0_document_ends_ 0) ∧
    (∀ p ∈ out, (p.1 : Int) > F.cover_threshold) ∧
    (out.map Prod.fst).sum ≤ F.input0_document_ends_.length ∧
    (sorted.length ≤ n → FindCover F ms = some out) ∧
    ((ms.length ≤ 16 ∨ (ms.map (Match.bytes F.input0)).Nodup) →
      (∀ k ∈ FindCover.documents F.input0_document_ends_ 0, k.1 + k.2 ≤ F.input0.length) →
      ∃ full, FindCover F ms = some full) := by
  have hspec := FindCover.loop_eq_spec F _ _ out hrun
  refine ⟨hspec, ?_, ?_, ?_, ?_⟩
  · rw [hspec]; exact FindCover_spec_threshold F _ _
  · rw [hspec]
    have h := FindCover_spec_sum F (sorted.take n)
      (FindCover.documents F.input0_document_ends_ 0)
    rw [FindCover.documents_length] at h
    exact h
  · intro hn
    unfold FindCover
    rw [hsort]
    rw [List.take_of_length_le hn] at hrun
    exact hrun
  · intro hdom hdocs
    obtain ⟨s, hs, hperm, _⟩ :
        ∃ s, sort (CompareScore F.input0) ms = some s ∧ s.Perm ms ∧
          s.Pairwise (fun a b : Match => b.score ≤ a.score) := by
      rcases hdom with hlen | hnd
      · exact sort_small (CompareScore F.input0)
          (fun x y : Match => y.score ≤ x.score) (CompareScore_true F.input0)
          (CompareScore_false F.input0) (fun a b c hab hbc => le_trans hbc hab) ms hlen
      · exact sort_CompareScore_distinct F.input0 ms hin hnd
    obtain ⟨full, hfull⟩ := FindCover.loop_total F s
      (FindCover.documents F.input0_document_ends_ 0)
      (fun m hm => hin m (hperm.mem_iff.1 hm)) hdocs
    exact ⟨full, by unfold FindCover; rw [hs]; exact hfull⟩

/-- C9 at a concrete input: A = "hello world\0hello there\0hello you\0" with its three document
bounds, `cover_threshold = 1` and the matches "world" (score 1) and "hello " (score 3): the
sort puts "hello " first, it removes all three documents, and the one line printed is
`3 <TAB> hello `. -/
theorem C9_FindCover_hits_witness :
    ((∀ m ∈ ([⟨6, 5, 1⟩, ⟨0, 6, 3⟩] : List Match), m.string + m.string_length ≤
        (ascii "hello world\x00hello there\x00hello you\x00").length) ∧
      sort (CompareScore (ascii "hello world\x00hello there\x00hello you\x00"))
        [⟨6, 5, 1⟩, ⟨0, 6, 3⟩] = some [⟨0, 6, 3⟩, ⟨6, 5, 1⟩] ∧
      FindCover.loop
        { input0 := ascii "hello world\x00hello there\x00hello you\x00",
          input0_document_ends_ := [11, 23, 33], do_cover := true, cover_threshold := 1 }
        (([⟨0, 6, 3⟩, ⟨6, 5, 1⟩] : List Match).take 2)
        (FindCover.documents [11, 23, 33] 0) = some [(3, ⟨0, 6, 3⟩)]) ∧
    ([(3, (⟨0, 6, 3⟩ : Match))] =
        FindCover_spec
          { input0 := ascii "hello world\x00hello there\x00hello you\x00",
            input0_document_ends_ := [11, 23, 33], do_cover := true, cover_threshold := 1 }
          (([⟨0, 6, 3⟩, ⟨6, 5, 1⟩] : List Match).take 2)
          (FindCover.documents [11, 23, 33] 0) ∧
      (∀ p ∈ [(3, (⟨0, 6, 3⟩ : Match))], ((p.1 : Nat) : Int) > 1) ∧
      ([(3, (⟨0, 6, 3⟩ : Match))].map Prod.fst).sum ≤ [11, 23, 33].length ∧
      (([⟨0, 6, 3⟩, ⟨6, 5, 1⟩] : List Match).length ≤ 2 →
        FindCover
          { input0 := ascii "hello world\x00hello there\x00hello you\x00",
            input0_document_ends_ := [11, 23, 33], do_cover := true, cover_threshold := 1 }
          [⟨6, 5, 1⟩, ⟨0, 6, 3⟩] = some [(3, ⟨0, 6, 3⟩)]) ∧
      ((([⟨6, 5, 1⟩, ⟨0, 6, 3⟩] : List Match).length ≤ 16 ∨
          (([⟨6, 5, 1⟩, ⟨0, 6, 3⟩] : List Match).map (Match.bytes
            (ascii "hello world\x00hello there\x00hello you\x00"))).Nodup) →
        (∀ k ∈ FindCover.documents [11, 23, 33] 0, k.1 + k.2 ≤
          (ascii "hello world\x00hello there\x00hello you\x00").length) →
        ∃ full, FindCover
          { input0 := ascii "hello world\x00hello there\x00hello you\x00",
            input0_document_ends_ := [11, 23, 33], do_cover := true, cover_threshold := 1 }
          [⟨6, 5, 1⟩, ⟨0, 6, 3⟩] = some full)) :=
  ⟨⟨by decide, by decide, by decide⟩,
    C9_FindCover_hits
      { input0 := ascii "hello world\x00hello there\x00hello you\x00",
        input0_document_ends_ := [11, 23, 33], do_cover := true, cover_threshold := 1 }
      [⟨6, 5, 1⟩, ⟨0, 6, 3⟩] [⟨0, 6, 3⟩, ⟨6, 5, 1⟩] 2 [(3, ⟨0, 6, 3⟩)] (by decide) (by decide)
      (by decide)⟩

/-- The cover loop on matches with equal keys: `CompareScore` answers `true` both ways on two
matches of equal score and string, and on seventeen such matches `std::sort` leaves the array
(as in `PrintUnique`), so `FindCover` has no defined result there; a match that runs past the
buffer makes `memmem` read outside it. -/
theorem FindCover_undefined_runs :
    CompareScore (ascii "ababababababababababababababababab\x00") ⟨0, 2, 1⟩ ⟨2, 2, 1⟩ = true ∧
    CompareScore (ascii "ababababababababababababababababab\x00") ⟨2, 2, 1⟩ ⟨0, 2, 1⟩ = true ∧
    FindCover
        { input0 := ascii "ababababababababababababababababab\x00",
          input0_document_ends_ := [34] }
        ((List.range 17).map (fun k => (⟨2 * k, 2, 1⟩ : Match))) = none ∧
    FindCover { input0 := ascii "ab\x00", input0_document_ends_ := [2] } [⟨1, 5, 1⟩] = none ∧
    FindCover { input0 := ascii "ab\x00", input0_document_ends_ := [2] } [⟨1, 1, 1⟩] =
      some [(1, ⟨1, 1, 1⟩)] := by
  refine ⟨by decide, by decide, by decide, by decide, by decide⟩

/-! ## The top-K accumulator -/

theorem accumulate_below_K (F : Finder) (hK : F.threshold_count > 0) (ms : List Match)
    (m : Match) (hlen : ms.length < F.threshold_count.toNat)
    (hheap : isHeap (fun p c : Match => p.score ≤ c.score) ms) :
    isHeap (fun p c : Match => p.score ≤ c.score) (FindSubstrings.accumulate F ms m) ∧
      (FindSubstrings.accumulate F ms m).Perm (ms ++ [m]) := by
  unfold FindSubstrings.accumulate
  rw [if_neg (by intro h; omega), if_pos hK]
  exact push_heap_spec (CompareScore F.input0) _ (CompareScore_true F.input0)
    (CompareScore_false F.input0) (fun a b c => le_trans) (ms ++ [m]) (by simpa using hheap)

theorem accumulate_at_K (F : Finder) (hK : F.threshold_count > 0) (ms : List Match)
    (m : Match) (hlen : F.threshold_count.toNat ≤ ms.length)
    (hheap : isHeap (fun p c : Match => p.score ≤ c.score) ms) :
    ∃ front, ms.head? = some front ∧ (∀ x ∈ ms, front.score ≤ x.score) ∧
      (front.score > m.score → FindSubstrings.accumulate F ms m = ms) ∧
      (¬ front.score > m.score →
        isHeap (fun p c : Match => p.score ≤ c.score) (FindSubstrings.accumulate F ms m) ∧
        (FindSubstrings.accumulate F ms m).Perm (ms.tail ++ [m])) := by
  have hpos : 0 < ms.length := by omega
  match ms, hpos, hlen, hheap with
  | front :: t, _, hlen, hheap =>
    refine ⟨front, rfl, ?_, ?_, ?_⟩
    · exact isHeap_front_le (fun p c : Match => p.score ≤ c.score) (fun a => le_refl a.score)
        (fun a b c h1 h2 => le_trans h1 h2) (front :: t) hheap front (by simp)
    · intro hgt
      unfold FindSubstrings.accumulate
      rw [if_pos ⟨hK, hlen⟩]
      simp only [List.head?_cons, if_pos hgt]
    · intro hgt
      unfold FindSubstrings.accumulate
      rw [if_pos ⟨hK, hlen⟩]
      simp only [List.head?_cons, if_neg hgt]
      have hpop := pop_heap_pop_back_spec (CompareScore F.input0) _ (CompareScore_true F.input0)
        (CompareScore_false F.input0) (fun a => le_refl _) (fun a b c => le_trans) (front :: t)
        hheap
      have hpush := push_heap_spec (CompareScore F.input0) _ (CompareScore_true F.input0)
        (CompareScore_false F.input0) (fun a b c => le_trans)
        (pop_heap_pop_back (CompareScore F.input0) (front :: t) ++ [m]) (by simpa using hpop.1)
      exact ⟨hpush.1, hpush.2.trans (List.Perm.append_right _ hpop.2)⟩

theorem accumulate_invariant (F : Finder) (hK : F.threshold_count > 0) :
    ∀ seen : List Match,
      isHeap (fun p c : Match => p.score ≤ c.score)
        (seen.foldl (FindSubstrings.accumulate F) []) ∧
      holdsHighestScores F.threshold_count.toNat seen
        (seen.foldl (FindSubstrings.accumulate F) []) := by
  intro seen
  induction seen using List.reverseRecOn with
  | nil =>
    refine ⟨fun i c x y _ hx _ => by simp at hx, by simp, [], by simp, by simp⟩
  | append_singleton seen m ih =>
    rw [List.foldl_append, List.foldl_cons, List.foldl_nil]
    obtain ⟨hheap, hlen, dropped, hperm, hsc⟩ := ih
    generalize seen.foldl (FindSubstrings.accumulate F) [] = ms at hheap hlen hperm hsc
    have hcount : ms.length + dropped.length = seen.length := by
      rw [← List.length_append]; exact hperm.length_eq
    by_cases hfull : F.threshold_count.toNat ≤ ms.length
    · obtain ⟨front, hfront, hmin, hskip, hrepl⟩ := accumulate_at_K F hK ms m hfull hheap
      have hms : ms = front :: ms.tail := by
        cases ms with
        | nil => simp at hfront
        | cons a t => simp at hfront; simp [hfront]
      by_cases hgt : front.score > m.score
      · rw [hskip hgt]
        refine ⟨hheap, by rw [hlen]; simp; omega, dropped ++ [m], ?_, ?_⟩
        · rw [← List.append_assoc]; exact List.Perm.append_right _ hperm
        · intro d hd x hx
          rcases List.mem_append.mp hd with hd | hd
          · exact hsc d hd x hx
          · simp at hd; subst hd; exact le_trans (le_of_lt hgt) (hmin x hx)
      · obtain ⟨hh, hp⟩ := hrepl hgt
        refine ⟨hh, ?_, front :: dropped, ?_, ?_⟩
        · rw [hp.length_eq]
          have : ms.tail.length + 1 = ms.length := by rw [hms]; simp
          simp; omega
        · have h1 : (FindSubstrings.accumulate F ms m ++ front :: dropped).Perm
              ((ms.tail ++ [m]) ++ front :: dropped) := List.Perm.append_right _ hp
          refine h1.trans ?_
          have h2 : ((ms.tail ++ [m]) ++ front :: dropped).Perm
              ((front :: ms.tail ++ dropped) ++ [m]) := by
            refine List.perm_append_comm.trans ?_
            simp only [List.cons_append]
            refine List.Perm.cons front ?_
            rw [← List.append_assoc dropped ms.tail [m]]
            exact List.Perm.append_right _ List.perm_append_comm
          refine h2.trans (List.Perm.append_right _ ?_)
          rw [← hms]; exact hperm
        · intro d hd x hx
          have hx' : x ∈ ms.tail ∨ x = m := by
            have := hp.mem_iff.mp hx
            simpa using this
          have hfm : front.score ≤ m.score := not_lt.mp hgt
          have hfront_mem : front ∈ ms := by rw [hms]; simp
          rcases List.mem_cons.mp hd with hd | hd
          · subst hd
            rcases hx' with hx' | hx'
            · exact hmin x (List.mem_of_mem_tail hx')
            · subst hx'; exact hfm
          · rcases hx' with hx' | hx'
            · exact hsc d hd x (List.mem_of_mem_tail hx')
            · subst hx'; exact le_trans (hsc d hd front hfront_mem) hfm
    · have hlt : ms.length < F.threshold_count.toNat := by omega
      obtain ⟨hh, hp⟩ := accumulate_below_K F hK ms m hlt hheap
      have hd0 : dropped = [] := by
        have : dropped.length = 0 := by
          have := hlen
          simp only [Nat.min_def] at this
          split at this <;> omega
        exact List.length_eq_zero.mp this
      subst hd0
      refine ⟨hh, ?_, [], ?_, by simp⟩
      · rw [hp.length_eq]
        simp only [List.length_append, List.length_singleton, Nat.min_def] at hlen ⊢
        split at hlen <;> split <;> omega
      · simp only [List.append_nil] at hperm ⊢
        exact hp.trans (List.Perm.append_right _ hperm)

/-- C6 as stated fails: with `threshold_count = 1` and the two candidates "a" and "b" of
A = "ab", both of score 2, the accumulator ends holding "b"; "a" ranks higher under
`CompareScore` (same score and length, lexicographically smaller), and "b" took the place of the
front although its score is not strictly greater. -/
theorem C6_equal_score_counterexample :
    [(⟨0, 1, 2⟩ : Match), ⟨1, 1, 2⟩].foldl
        (FindSubstrings.accumulate { input0 := ascii "ab", do_unique := true, threshold_count := 1 })
        [] = [⟨1, 1, 2⟩] ∧
    CompareScore (ascii "ab") ⟨0, 1, 2⟩ ⟨1, 1, 2⟩ = true ∧
    CompareScore (ascii "ab") ⟨1, 1, 2⟩ ⟨0, 1, 2⟩ = false ∧
    (sort (CompareScore (ascii "ab")) [⟨0, 1, 2⟩, ⟨1, 1, 2⟩]).map (List.take 1) =
      some [⟨0, 1, 2⟩] ∧
    ¬ ((⟨1, 1, 2⟩ : Match).score > (⟨0, 1, 2⟩ : Match).score) := by
  decide

/-- C6 amended: in unique mode with `threshold_count = K > 0`, for every sequence of candidates
that pass the filters, when more than K pass, the accumulator `matches` after the whole sequence
holds K of the candidates, and no candidate left out has a score above the score of a candidate
held (the K highest scores).  Once K candidates have arrived, the front of the heap carries the
least score held; a new candidate whose score is strictly below the front's leaves the
accumulator unchanged, and every other new candidate (an equal score included) replaces the
front: the accumulator then holds what it held without the front, and the new candidate. -/
theorem C6_accumulator_holds_highest_scores (F : Finder) (hK : F.threshold_count > 0)
    (cands : List Match) (hmore : F.threshold_count.toNat < cands.length) :
    ((cands.foldl (FindSubstrings.accumulate F) []).length = F.threshold_count.toNat ∧
      ∃ dropped : List Match,
        ((cands.foldl (FindSubstrings.accumulate F) []) ++ dropped).Perm cands ∧
        ∀ d ∈ dropped, ∀ x ∈ cands.foldl (FindSubstrings.accumulate F) [],
          d.score ≤ x.score) ∧
    (∀ (pre : List Match) (m : Match) (post : List Match), cands = pre ++ m :: post →
      F.threshold_count.toNat ≤ pre.length →
      ∃ front, (pre.foldl (FindSubstrings.accumulate F) []).head? = some front ∧
        (∀ x ∈ pre.foldl (FindSubstrings.accumulate F) [], front.score ≤ x.score) ∧
        (front.score > m.score →
          FindSubstrings.accumulate F (pre.foldl (FindSubstrings.accumulate F) []) m =
            pre.foldl (FindSubstrings.accumulate F) []) ∧
        (¬ front.score > m.score →
          (FindSubstrings.accumulate F (pre.foldl (FindSubstrings.accumulate F) []) m).Perm
            ((pre.foldl (FindSubstrings.accumulate F) []).tail ++ [m]))) := by
  refine ⟨?_, ?_⟩
  · obtain ⟨_, hlen, dropped, hperm, hsc⟩ := accumulate_invariant F hK cands
    refine ⟨?_, dropped, hperm, hsc⟩
    rw [hlen]; exact Nat.min_eq_left (le_of_lt hmore)
  · intro pre m post _ hpre
    obtain ⟨hheap, hlen, _⟩ := accumulate_invariant F hK pre
    have hfull : F.threshold_count.toNat ≤ (pre.foldl (FindSubstrings.accumulate F) []).length := by
      rw [hlen]; exact le_min (le_refl _) hpre
    obtain ⟨front, hfront, hmin, hskip, hrepl⟩ :=
      accumulate_at_K F hK (pre.foldl (FindSubstrings.accumulate F) []) m hfull hheap
    exact ⟨front, hfront, hmin, hskip, fun h => (hrepl h).2⟩

/-- C6 amended, at a concrete input: K = 2 and three candidates of A = "abc" with scores 2, 3
and 2. -/
theorem C6_accumulator_holds_highest_scores_witness :
    (([(⟨0, 1, 2⟩ : Match), ⟨1, 1, 3⟩, ⟨2, 1, 2⟩].foldl (FindSubstrings.accumulate
        { input0 := ascii "abc", do_unique := true, threshold_count := 2 }) []).length
        = (2 : Int).toNat ∧
      ∃ dropped : List Match,
        (([(⟨0, 1, 2⟩ : Match), ⟨1, 1, 3⟩, ⟨2, 1, 2⟩].foldl (FindSubstrings.accumulate
          { input0 := ascii "abc", do_unique := true, threshold_count := 2 }) []) ++
            dropped).Perm [(⟨0, 1, 2⟩ : Match), ⟨1, 1, 3⟩, ⟨2, 1, 2⟩] ∧
        ∀ d ∈ dropped, ∀ x ∈ [(⟨0, 1, 2⟩ : Match), ⟨1, 1, 3⟩, ⟨2, 1, 2⟩].foldl
          (FindSubstrings.accumulate
            { input0 := ascii "abc", do_unique := true, threshold_count := 2 }) [],
          d.score ≤ x.score) ∧
    (∀ (pre : List Match) (m : Match) (post : List Match),
      [(⟨0, 1, 2⟩ : Match), ⟨1, 1, 3⟩, ⟨2, 1, 2⟩] = pre ++ m :: post →
      (2 : Int).toNat ≤ pre.length →
      ∃ front, (pre.foldl (FindSubstrings.accumulate
          { input0 := ascii "abc", do_unique := true, threshold_count := 2 }) []).head?
          = some front ∧
        (∀ x ∈ pre.foldl (FindSubstrings.accumulate
          { input0 := ascii "abc", do_unique := true, threshold_count := 2 }) [],
          front.score ≤ x.score) ∧
        (front.score > m.score →
          FindSubstrings.accumulate
            { input0 := ascii "abc", do_unique := true, threshold_count := 2 }
            (pre.foldl (FindSubstrings.accumulate
              { input0 := ascii "abc", do_unique := true, threshold_count := 2 }) []) m =
            pre.foldl (FindSubstrings.accumulate
              { input0 := ascii "abc", do_unique := true, threshold_count := 2 }) []) ∧
        (¬ front.score > m.score →
          (FindSubstrings.accumulate
            { input0 := ascii "abc", do_unique := true, threshold_count := 2 }
            (pre.foldl (FindSubstrings.accumulate
              { input0 := ascii "abc", do_unique := true, threshold_count := 2 }) []) m).Perm
            ((pre.foldl (FindSubstrings.accumulate
              { input0 := ascii "abc", do_unique := true, threshold_count := 2 }) []).tail
              ++ [m]))) :=
  C6_accumulator_holds_highest_scores
    { input0 := ascii "abc", do_unique := true, threshold_count := 2 } (by decide)
    [⟨0, 1, 2⟩, ⟨1, 1, 3⟩, ⟨2, 1, 2⟩] (by decide)

/-! ## The later claims on concrete corpora -/

/-- C11, the code at the failing input: on the empty buffer the loop of `FindDocumentBounds`
ends with `document_ends` empty, so `assert(!document_ends.empty())` fails; on "ab\0c" the
result is `[2, 4]`. -/
theorem C11_FindDocumentBounds_empty_buffer :
    FindDocumentBounds.loop [] 1 0 [] = some [] ∧ FindDocumentBounds [] [] = none ∧
    FindDocumentBounds [] (ascii "ab\x00c") = some [2, 4] := by
  decide

/-- C16, the code at the failing input: for A = "abab\0" in document mode with
`skip_samecount_prefixes` on, the scan opened at rank 0 pushes "ab" and then "a", both with
count 1 (the guard compares the document count 1 on the stack with the suffix count 2), and
both are printed; in count mode the same scan pushes "ab" only. -/
theorem C16_document_mode_pushes_equal_counts :
    isSuffixArray (ascii "abab\x00") [4, 2, 0, 3, 1] = true ∧
    BuildLCPArray [] (ascii "abab\x00") [2, 0, 3, 1, 1] 4 = some [2, 0, 1, 3] ∧
    FindSubstrings.scan
      { input0 := ascii "abab\x00", input0_suffixes_ := [2, 0, 3, 1, 1],
        input0_suffix_count_ := 4, do_document := true, skip_samecount_prefixes := true,
        input0_document_ends_ := [4] } [2, 0, 1, 3] 1 0 8 2 2 2 [0] []
      = some [⟨0, 1, 1⟩, ⟨0, 2, 1⟩] ∧
    FindSubstringFrequencies
      { input0 := ascii "abab\x00", input1 := ascii "x\x00", do_document := true,
        skip_samecount_prefixes := true, input0_threshold := 1 } [4, 2, 0, 3, 1] [1, 0] []
      = some { lines := [⟨0, 1, 1, 0, 1⟩, ⟨0, 2, 1, 0, 1⟩] } ∧
    FindSubstringFrequencies
      { input0 := ascii "abab\x00", input1 := ascii "x\x00", do_document := false,
        skip_samecount_prefixes := true, input0_threshold := 1 } [4, 2, 0, 3, 1] [1, 0] []
      = some { lines := [⟨0, 2, 2, 0, 2⟩] } := by
  decide

/-- C19, the code at the failing input: in colour mode (count mode, `skip_samecount_prefixes`
off) with A = "AxAy\0", the sorted filtered suffix array `[0, 2]` and the LCP array `[1, 0]`
(entry 0 the true value, the last entry arbitrary), the scan opened at rank 0 pushes "A" with
length 1 and count 2, the double `--length` wraps, and the next iteration pushes a candidate of
length `2 ^ 64 - 1`; the loop does not end within its iteration bound. -/
theorem C19_colour_mode_length_wraps :
    isSuffixArray (ascii "AxAy\x00") [4, 0, 2, 1, 3] = true ∧
    FilterSuffixes true [4, 0, 2, 1, 3] (ascii "AxAy\x00") 5 = some ([0, 2, 2, 1, 3], 2) ∧
    trueLCP (ascii "AxAy\x00") [0, 2, 2, 1, 3] 0 = 1 ∧
    (∀ fuel : Nat, FindSubstrings.scan
        { input0 := ascii "AxAy\x00", input0_suffixes_ := [0, 2, 2, 1, 3],
          input0_suffix_count_ := 2, do_color := true } [1, 0] 1 0 (fuel + 2) 1 2 2 [] [] =
      FindSubstrings.scan
        { input0 := ascii "AxAy\x00", input0_suffixes_ := [0, 2, 2, 1, 3],
          input0_suffix_count_ := 2, do_color := true } [1, 0] 1 0 fuel (2 ^ 64 - 3) 2 2 []
        [⟨2, 2 ^ 64 - 1, 2⟩, ⟨2, 1, 2⟩]) ∧
    FindSubstrings.loop
        { input0 := ascii "AxAy\x00", input0_suffixes_ := [0, 2, 2, 1, 3],
          input0_suffix_count_ := 2, do_color := true } 0 0 [1, 0] 1 1 0 {} = none := by
  refine ⟨by decide, by decide, by decide, ?_, by decide⟩
  intro fuel
  rfl

/-- C20, the code at the failing input: for A = "foofoofoo\0" with nine anchors the LCP values
depend on the array slot past the last rank (slot value 1 gives `lcp[5] = 7` and `lcp[8] = 8`,
slot value 9 gives `lcp[5] = 1` and `lcp[8] = 0`); for A = "ab", where nothing is filtered out,
the lookup for the last rank reads past the two-entry array. -/
theorem C20_slot_past_last_rank_is_read :
    BuildLCPArray [] (ascii "foofoofoo\x00") [6, 3, 0, 8, 5, 2, 7, 4, 1, 1] 9
      = some [3, 6, 0, 1, 4, 7, 2, 5, 8] ∧
    BuildLCPArray [] (ascii "foofoofoo\x00") [6, 3, 0, 8, 5, 2, 7, 4, 1, 9] 9
      = some [3, 6, 0, 1, 4, 1, 2, 5, 0] ∧
    isSuffixArray (ascii "ab") [0, 1] = true ∧
    FilterSuffixes false [0, 1] (ascii "ab") 2 = some ([0, 1], 2) ∧
    BuildLCPArray [] (ascii "ab") [0, 1] 2 = none := by
  decide

/-! ## CountNGrams -/

theorem documentLengths.go_none :
    ∀ (rem : List Nat) (cur : Nat), rem.indexOf? DELIMITER = none →
      documentLengths.go cur rem = [cur + rem.length] := by
  intro rem
  induction rem with
  | nil => intro cur _; simp [documentLengths.go]
  | cons b rest ih =>
    intro cur h
    simp only [List.indexOf?, List.findIdx?_cons] at h
    by_cases hb : b = DELIMITER
    · simp [hb] at h
    · have hb' : (b == DELIMITER) = false := by simpa using hb
      rw [hb'] at h
      simp only [Bool.false_eq_true, if_false, Nat.zero_add, List.findIdx?_succ,
        Option.map_eq_none'] at h
      rw [documentLengths.go, if_neg hb, ih (cur + 1) (by simpa [List.indexOf?] using h)]
      simp; omega

theorem documentLengths.go_some :
    ∀ (rem : List Nat) (cur k : Nat), rem.indexOf? DELIMITER = some k →
      k < rem.length ∧
      documentLengths.go cur rem = (cur + k) :: documentLengths (rem.drop (k + 1)) := by
  intro rem
  induction rem with
  | nil => intro cur k h; simp [List.indexOf?] at h
  | cons b rest ih =>
    intro cur k h
    simp only [List.indexOf?, List.findIdx?_cons] at h
    by_cases hb : b = DELIMITER
    · have hb' : (b == DELIMITER) = true := by simpa using hb
      rw [hb'] at h
      simp only [if_true, Option.some.injEq] at h
      subst h
      refine ⟨by simp, ?_⟩
      rw [documentLengths.go, if_pos hb]
      simp [documentLengths]
    · have hb' : (b == DELIMITER) = false := by simpa using hb
      rw [hb'] at h
      simp only [Bool.false_eq_true, if_false, Nat.zero_add, List.findIdx?_succ,
        Option.map_eq_some'] at h
      obtain ⟨k', hk', rfl⟩ := h
      obtain ⟨h1, h2⟩ := ih (cur + 1) k' (by simpa [List.indexOf?] using hk')
      refine ⟨by simp; omega, ?_⟩
      rw [documentLengths.go, if_neg hb, h2]
      simp; omega

theorem resize_length (v : List Nat) (n : Nat) : (resize v n).length = n := by
  simp [resize]; omega

theorem resize_getElem? (v : List Nat) (n l : Nat) (h : v.length ≤ n) :
    (resize v n)[l]?.getD 0 = v[l]?.getD 0 := by
  unfold resize
  rw [List.take_of_length_le h, List.getElem?_append]
  split
  · rfl
  · rename_i hl
    rw [List.getElem?_eq_none (by omega : v.length ≤ l), List.getElem?_replicate]
    split <;> rfl

theorem CountNGrams.bump_spec :
    ∀ (n i : Nat) (result : List Nat), i + n ≤ result.length →
      (CountNGrams.bump n i result).length = result.length ∧
      ∀ l, (CountNGrams.bump n i result)[l]?.getD 0 =
        result[l]?.getD 0 + if i ≤ l ∧ l < i + n then 1 else 0 := by
  intro n
  induction n with
  | zero =>
    intro i result _
    refine ⟨rfl, fun l => ?_⟩
    rw [CountNGrams.bump, if_neg (by omega)]; rfl
  | succ n ih =>
    intro i result h
    have hi : i < result.length := by omega
    obtain ⟨h1, h2⟩ := ih (i + 1) (result.set i (result.getD i 0 + 1))
      (by rw [List.length_set]; omega)
    rw [CountNGrams.bump]
    refine ⟨by rw [h1, List.length_set], fun l => ?_⟩
    rw [h2 l, List.getElem?_set]
    by_cases hil : i = l
    · subst hil
      rw [if_pos rfl, if_pos hi, if_neg (by omega), if_pos (by omega)]
      simp [List.getD_eq_getElem?_getD]
    · rw [if_neg hil]
      by_cases hc : i + 1 ≤ l ∧ l < i + 1 + n
      · rw [if_pos hc, if_pos (by omega)]
      · rw [if_neg hc, if_neg (by omega)]

theorem CountNGrams.step_spec (result : List Nat) (L : Nat) :
    (CountNGrams.step result L).length = max result.length (L + 1) ∧
    ∀ l, (CountNGrams.step result L)[l]?.getD 0 =
      result[l]?.getD 0 + if 1 ≤ l ∧ l ≤ L then 1 else 0 := by
  unfold CountNGrams.step
  by_cases h : result.length ≤ L
  · rw [if_pos h]
    obtain ⟨h1, h2⟩ := CountNGrams.bump_spec L 1 (resize result (L + 1))
      (by rw [resize_length]; omega)
    refine ⟨by rw [h1, resize_length]; omega, fun l => ?_⟩
    rw [h2 l, resize_getElem? _ _ _ (by omega)]
    congr 1
    by_cases hc : 1 ≤ l ∧ l ≤ L
    · rw [if_pos hc, if_pos (by omega)]
    · rw [if_neg hc, if_neg (by omega)]
  · rw [if_neg h]
    obtain ⟨h1, h2⟩ := CountNGrams.bump_spec L 1 result (by omega)
    refine ⟨by rw [h1]; omega, fun l => ?_⟩
    rw [h2 l]
    congr 1
    by_cases hc : 1 ≤ l ∧ l ≤ L
    · rw [if_pos hc, if_pos (by omega)]
    · rw [if_neg hc, if_neg (by omega)]

theorem CountNGrams.loop_eq_fold (text : List Nat) :
    ∀ (fuel ch : Nat) (result : List Nat), ch ≤ text.length → text.length - ch < fuel →
      CountNGrams.loop text fuel ch result =
        some ((documentLengths (text.drop ch)).foldl CountNGrams.step result) := by
  intro fuel
  induction fuel with
  | zero => intro ch result _ h; omega
  | succ fuel ih =>
    intro ch result hch hfuel
    rw [CountNGrams.loop]
    by_cases hend : ch = text.length
    · rw [if_pos hend, hend, List.drop_length]
      simp [documentLengths]
    · rw [if_neg hend]
      have hne : (text.drop ch).isEmpty = false := by
        simp [List.isEmpty_iff]; omega
      have hdl : documentLengths (text.drop ch) = documentLengths.go 0 (text.drop ch) := by
        simp [documentLengths, hne]
      unfold memchrDelimiter
      cases hidx : (text.drop ch).indexOf? DELIMITER with
      | none =>
        have hgo := documentLengths.go_none (text.drop ch) 0 hidx
        simp only [Option.getD_none, if_true]
        rw [hdl, hgo]
        simp [CountNGrams.step]
      | some k =>
        obtain ⟨hk, hgo⟩ := documentLengths.go_some (text.drop ch) 0 k hidx
        have hk' : ch + k < text.length := by simp at hk; omega
        simp only [Option.getD_some]
        rw [if_neg (by omega), ih (ch + k + 1) _ (by omega) (by omega), hdl, hgo]
        simp only [List.drop_drop, Nat.zero_add, List.foldl_cons, Nat.add_sub_cancel_left]
        rfl

theorem longestDocument_append (D : List Nat) (L : Nat) :
    longestDocument (D ++ [L]) = max (longestDocument D) L := by
  unfold longestDocument
  induction D with
  | nil => simp
  | cons a D ih => simp only [List.cons_append, List.foldr_cons, ih]; omega

theorem documentsAtLeast_append (D : List Nat) (L l : Nat) :
    documentsAtLeast (D ++ [L]) l = documentsAtLeast D l + if l ≤ L then 1 else 0 := by
  unfold documentsAtLeast
  rw [List.filter_append, List.length_append]
  by_cases h : l ≤ L <;> simp [List.filter_cons, h]

theorem CountNGrams.fold_spec :
    ∀ (D D0 : List Nat) (T : List Nat),
      (T.length = if D0 = [] then 0 else longestDocument D0 + 1) →
      (∀ l, T[l]?.getD 0 = if l = 0 then 0 else documentsAtLeast D0 l) →
      ((D.foldl CountNGrams.step T).length =
          if D0 ++ D = [] then 0 else longestDocument (D0 ++ D) + 1) ∧
        ∀ l, (D.foldl CountNGrams.step T)[l]?.getD 0 =
          if l = 0 then 0 else documentsAtLeast (D0 ++ D) l := by
  intro D
  induction D with
  | nil => intro D0 T h1 h2; simpa using ⟨h1, h2⟩
  | cons L D ih =>
    intro D0 T h1 h2
    obtain ⟨s1, s2⟩ := CountNGrams.step_spec T L
    have := ih (D0 ++ [L]) (CountNGrams.step T L) (by
        rw [if_neg (by simp), s1, h1, longestDocument_append]
        by_cases h0 : D0 = []
        · subst h0; simp [longestDocument]
        · rw [if_neg h0]; omega) (by
        intro l
        rw [s2 l, h2 l, documentsAtLeast_append]
        by_cases hl : l = 0
        · subst hl; simp
        · rw [if_neg hl, if_neg hl]
          congr 1
          by_cases hc : l ≤ L
          · rw [if_pos hc, if_pos (by omega)]
          · rw [if_neg hc, if_neg (by omega)])
    simpa [List.append_assoc] using this

theorem documentLengths.go_ne_nil : ∀ (rem : List Nat) (cur : Nat),
    documentLengths.go cur rem ≠ [] := by
  intro rem
  induction rem with
  | nil => intro cur; simp [documentLengths.go]
  | cons b rest ih =>
    intro cur
    rw [documentLengths.go]
    split
    · simp
    · exact ih _

/-- The table of `CountNGrams`: the call returns, the table has one more entry than the longest
document is long (none for the empty buffer), entry 0 is zero and entry `l` counts the
documents of length at least `l`. -/
theorem CountNGrams_table (text : List Nat) :
    ∃ T, CountNGrams text = some T ∧
      (T.length = if text = [] then 0 else longestDocument (documentLengths text) + 1) ∧
      ∀ l, T[l]?.getD 0 = if l = 0 then 0 else documentsAtLeast (documentLengths text) l := by
  refine ⟨_, CountNGrams.loop_eq_fold text (text.length + 1) 0 [] (Nat.zero_le _) (by omega), ?_⟩
  have h := CountNGrams.fold_spec (documentLengths text) [] [] (by simp) (by
    intro l; simp [documentsAtLeast])
  simp only [List.nil_append, List.drop_zero] at h ⊢
  refine ⟨?_, h.2⟩
  rw [h.1]
  by_cases ht : text = []
  · subst ht; simp [documentLengths]
  · rw [if_neg ht, if_neg]
    unfold documentLengths
    rw [if_neg (by simpa [List.isEmpty_iff] using ht)]
    exact documentLengths.go_ne_nil _ _

theorem documentLengths.go_free :
    ∀ (pre : List Nat) (cur : Nat), (∀ x ∈ pre, x ≠ DELIMITER) →
      documentLengths.go cur pre = [cur + pre.length] := by
  intro pre
  induction pre with
  | nil => intro cur _; simp [documentLengths.go]
  | cons b pre ih =>
    intro cur h
    rw [documentLengths.go, if_neg (h b (List.mem_cons_self _ _)),
      ih (cur + 1) (fun x hx => h x (List.mem_cons_of_mem _ hx))]
    simp; omega

theorem documentLengths.go_split :
    ∀ (pre : List Nat) (cur : Nat) (rest : List Nat), (∀ x ∈ pre, x ≠ DELIMITER) →
      documentLengths.go cur (pre ++ DELIMITER :: rest) =
        (cur + pre.length) :: documentLengths rest := by
  intro pre
  induction pre with
  | nil => intro cur rest _; simp [documentLengths.go, documentLengths]
  | cons b pre ih =>
    intro cur rest h
    rw [List.cons_append, documentLengths.go, if_neg (h b (List.mem_cons_self _ _)),
      ih (cur + 1) rest (fun x hx => h x (List.mem_cons_of_mem _ hx))]
    simp; omega

theorem split_first_delimiter :
    ∀ text : List Nat, (∀ x ∈ text, x ≠ DELIMITER) ∨
      ∃ pre rest, text = pre ++ DELIMITER :: rest ∧ ∀ x ∈ pre, x ≠ DELIMITER := by
  intro text
  induction text with
  | nil => exact Or.inl (by simp)
  | cons b text ih =>
    by_cases hb : b = DELIMITER
    · exact Or.inr ⟨[], text, by simp [hb], by simp⟩
    · rcases ih with h | ⟨pre, rest, h1, h2⟩
      · exact Or.inl (by
          intro x hx
          rcases List.mem_cons.mp hx with rfl | hx
          · exact hb
          · exact h x hx)
      · refine Or.inr ⟨b :: pre, rest, by simp [h1], ?_⟩
        intro x hx
        rcases List.mem_cons.mp hx with rfl | hx
        · exact hb
        · exact h2 x hx

theorem documentStart_inside (pre tail : List Nat) (p : Nat)
    (hfree : ∀ x ∈ pre, x ≠ DELIMITER) (h1 : 1 ≤ p) (h2 : p ≤ pre.length) :
    documentStart (pre ++ tail) p = false := by
  unfold documentStart
  have hp : p - 1 < pre.length := by omega
  rw [List.getElem?_append_left hp, List.getElem?_eq_getElem hp]
  have := hfree pre[p - 1] (List.getElem_mem hp)
  simp
  exact ⟨by omega, this⟩

theorem windowInDocument_first (pre tail : List Nat) (l : Nat)
    (hfree : ∀ x ∈ pre, x ≠ DELIMITER)
    (htail : tail = [] ∨ ∃ rest, tail = DELIMITER :: rest) :
    windowInDocument (pre ++ tail) 0 l = decide (l ≤ pre.length) := by
  unfold windowInDocument bytesAt
  by_cases hl : l ≤ pre.length
  · have hle : 0 + l ≤ (pre ++ tail).length := by simp; omega
    rw [if_pos hle]
    simp only [List.drop_zero, decide_eq_true hl]
    rw [List.take_append_of_le_length hl]
    simp only [Bool.not_eq_true', List.contains_eq_any_beq, List.any_eq_false, beq_iff_eq]
    intro x hx
    exact fun h => hfree x (List.mem_of_mem_take hx) h.symm
  · rw [decide_eq_false hl]
    rcases htail with rfl | ⟨rest, rfl⟩
    · rw [if_neg (by simp; omega)]
    · by_cases hle : 0 + l ≤ (pre ++ DELIMITER :: rest).length
      · rw [if_pos hle]
        simp only [List.drop_zero, Bool.not_eq_false', List.contains_eq_any_beq,
          List.any_eq_true, beq_iff_eq]
        refine ⟨DELIMITER, ?_, rfl⟩
        rw [List.mem_take_iff_getElem]
        refine ⟨pre.length, ?_, ?_⟩
        · simp only [List.length_append, List.length_cons] at hle ⊢
          omega
        · rw [List.getElem_append_right (le_refl _)]
          simp
      · rw [if_neg hle]

theorem documentStart_shift (pre rest : List Nat) (q : Nat) :
    documentStart (pre ++ DELIMITER :: rest) (pre.length + 1 + q) = documentStart rest q := by
  unfold documentStart
  cases q with
  | zero =>
    rw [show pre.length + 1 + 0 - 1 = pre.length by omega,
      List.getElem?_append_right (le_refl _)]
    simp
  | succ q =>
    have : pre.length + 1 + (q + 1) - 1 = pre.length + (q + 1) := by omega
    rw [this, List.getElem?_append_right (by omega)]
    simp

theorem windowInDocument_shift (pre rest : List Nat) (q l : Nat) :
    windowInDocument (pre ++ DELIMITER :: rest) (pre.length + 1 + q) l =
      windowInDocument rest q l := by
  unfold windowInDocument bytesAt
  have hdrop : List.drop (pre.length + 1 + q) (pre ++ DELIMITER :: rest) = List.drop q rest := by
    rw [show pre.length + 1 + q = pre.length + (1 + q) by omega, List.drop_append]
    simp [Nat.add_comm 1 q]
  rw [hdrop]
  by_cases h : q + l ≤ rest.length
  · rw [if_pos h, if_pos (by simp; omega)]
  · rw [if_neg h, if_neg (by simp; omega)]

theorem documentWindowStarts_head (pre tail : List Nat) (l k : Nat)
    (hfree : ∀ x ∈ pre, x ≠ DELIMITER)
    (htail : tail = [] ∨ ∃ rest, tail = DELIMITER :: rest) (hk : k ≤ pre.length) :
    ((List.range (k + 1)).filter (fun p =>
      documentStart (pre ++ tail) p && windowInDocument (pre ++ tail) p l)).length =
      if l ≤ pre.length then 1 else 0 := by
  rw [List.range_succ_eq_map, List.filter_cons]
  have htl : (List.map Nat.succ (List.range k)).filter (fun p =>
      documentStart (pre ++ tail) p && windowInDocument (pre ++ tail) p l) = [] := by
    rw [List.filter_eq_nil_iff]
    intro p hp
    obtain ⟨q, hq, rfl⟩ := List.mem_map.mp hp
    have hq' : q < k := List.mem_range.mp hq
    rw [documentStart_inside pre tail (q + 1) hfree (by omega) (by omega)]
    simp
  rw [htl, windowInDocument_first pre tail l hfree htail]
  by_cases hl : l ≤ pre.length
  · simp [documentStart, hl]
  · simp [documentStart, hl]

theorem documentWindowStarts_length (l : Nat) :
    ∀ (n : Nat) (text : List Nat), text.length ≤ n →
      (documentWindowStarts text l).length = documentsAtLeast (documentLengths text) l := by
  intro n
  induction n with
  | zero =>
    intro text h
    have : text = [] := List.length_eq_zero.mp (by omega)
    subst this
    rfl
  | succ n ih =>
    intro text h
    by_cases hnil : text = []
    · subst hnil; rfl
    · have hdl : documentLengths text = documentLengths.go 0 text := by
        unfold documentLengths
        rw [if_neg (by simpa [List.isEmpty_iff] using hnil)]
      have hpos : 0 < text.length := List.length_pos.mpr hnil
      rcases split_first_delimiter text with hfree | ⟨pre, rest, rfl, hfree⟩
      · rw [hdl, documentLengths.go_free text 0 hfree]
        unfold documentWindowStarts
        have h0 := documentWindowStarts_head text [] l (text.length - 1) hfree (Or.inl rfl)
          (by omega)
        rw [List.append_nil, show text.length - 1 + 1 = text.length by omega] at h0
        rw [h0]
        by_cases hl : l ≤ text.length <;> simp [documentsAtLeast, hl]
      · rw [hdl, documentLengths.go_split pre 0 rest hfree]
        have hrest := ih rest (by simp at h; omega)
        unfold documentWindowStarts at hrest ⊢
        have hlen : (pre ++ DELIMITER :: rest).length = (pre.length + 1) + rest.length := by
          simp; omega
        rw [hlen, List.range_add, List.filter_append, List.length_append,
          documentWindowStarts_head pre (DELIMITER :: rest) l pre.length hfree
            (Or.inr ⟨rest, rfl⟩) (le_refl _),
          List.filter_map, List.length_map]
        have hfun : ((fun p => documentStart (pre ++ DELIMITER :: rest) p &&
            windowInDocument (pre ++ DELIMITER :: rest) p l) ∘ fun x => pre.length + 1 + x) =
            fun p => documentStart rest p && windowInDocument rest p l := by
          funext q
          simp only [Function.comp, documentStart_shift, windowInDocument_shift]
        rw [hfun, hrest]
        unfold documentsAtLeast
        rw [List.filter_cons]
        by_cases hl : l ≤ pre.length
        · simp [hl]; omega
        · simp [hl]

/-- C12: for every buffer of at least one byte, `CountNGrams` returns a table whose size is the
length of the longest document plus one, whose entry 0 is 0 and whose entry `l`, for
`1 <= l <= longest length`, is the number of documents of length at least `l`; the loop body
for a document of length `L` adds exactly 1 to every entry `1 .. L`. -/
theorem C12_CountNGrams_counts_documents (text : List Nat) (hne : text ≠ []) :
    (∃ T, CountNGrams text = some T ∧
      T.length = longestDocument (documentLengths text) + 1 ∧
      T[0]? = some 0 ∧
      ∀ l, 1 ≤ l → l ≤ longestDocument (documentLengths text) →
        T[l]? = some (documentsAtLeast (documentLengths text) l)) ∧
    (∀ (result : List Nat) (L l : Nat), (CountNGrams.step result L)[l]?.getD 0 =
      result[l]?.getD 0 + if 1 ≤ l ∧ l ≤ L then 1 else 0) := by
  refine ⟨?_, fun result L l => (CountNGrams.step_spec result L).2 l⟩
  obtain ⟨T, hT, hlen, hval⟩ := CountNGrams_table text
  rw [if_neg hne] at hlen
  refine ⟨T, hT, hlen, ?_, ?_⟩
  · have h0 := hval 0
    rw [List.getElem?_eq_getElem (by omega : 0 < T.length)] at h0 ⊢
    simpa using h0
  · intro l h1 h2
    have hl := hval l
    rw [if_neg (by omega), List.getElem?_eq_getElem (by omega : l < T.length)] at hl
    rw [List.getElem?_eq_getElem (by omega : l < T.length)]
    simpa using hl

/-- C12 at a concrete input: the buffer "ab\0c". -/
theorem C12_CountNGrams_counts_documents_witness :
    (∃ T, CountNGrams (ascii "ab\x00c") = some T ∧
      T.length = longestDocument (documentLengths (ascii "ab\x00c")) + 1 ∧
      T[0]? = some 0 ∧
      ∀ l, 1 ≤ l → l ≤ longestDocument (documentLengths (ascii "ab\x00c")) →
        T[l]? = some (documentsAtLeast (documentLengths (ascii "ab\x00c")) l)) ∧
    (∀ (result : List Nat) (L l : Nat), (CountNGrams.step result L)[l]?.getD 0 =
      result[l]?.getD 0 + if 1 ≤ l ∧ l ≤ L then 1 else 0) :=
  C12_CountNGrams_counts_documents (ascii "ab\x00c") (by decide)

/-- C13 as stated fails: for the buffer "ab\0" the table is `[0, 1, 1]`, so entry 1 is 1, while
two positions (0 and 1) have their window of length 1 within the document. -/
theorem C13_window_count_counterexample :
    CountNGrams (ascii "ab\x00") = some [0, 1, 1] ∧
    windowPositions (ascii "ab\x00") 1 = [0, 1] ∧
    documentWindowStarts (ascii "ab\x00") 1 = [0] := by
  decide

/-- C13 amended: for every buffer and every length `l >= 1` inside the table, entry `l` of the
histogram returned by `CountNGrams` equals the number of positions `p` at which a document
starts and whose window `[p, p + l)` lies entirely within that document (one per document of
length at least `l`). -/
theorem C13_CountNGrams_counts_document_starts (text : List Nat) :
    ∃ T, CountNGrams text = some T ∧
      ∀ l, 1 ≤ l → l < T.length →
        T[l]? = some (documentWindowStarts text l).length ∧
        (documentWindowStarts text l).length = documentsAtLeast (documentLengths text) l := by
  obtain ⟨T, hT, _, hval⟩ := CountNGrams_table text
  refine ⟨T, hT, fun l h1 h2 => ?_⟩
  have hw := documentWindowStarts_length l text.length text (le_refl _)
  refine ⟨?_, hw⟩
  have hl := hval l
  rw [if_neg (by omega), List.getElem?_eq_getElem h2] at hl
  rw [List.getElem?_eq_getElem h2, hw]
  simpa using hl

/-! ## The posterior and the probability threshold -/

theorem FindSubstrings.posteriorExact_eq (F : Finder) (s : Substring) (cB n0 n1 : Nat)
    (hn0 : n0 = if s.length < F.input0_n_gram_counts_.length then
      F.input0_n_gram_counts_.getD s.length 0 else 0)
    (hn1 : n1 = if s.length < F.input1_n_gram_counts_.length then
      F.input1_n_gram_counts_.getD s.length 0 else 0)
    (hpos : 0 < n0)
    (hdiv : (s.count : ℚ) + (cB : ℚ) + F.prior_bias * ((n0 : ℚ) + (n1 : ℚ)) / (n0 : ℚ) ≠ 0) :
    FindSubstrings.posteriorExact F s cB =
      some (((s.count : ℚ) + F.prior_bias) /
        ((s.count : ℚ) + (cB : ℚ) + F.prior_bias * ((n0 : ℚ) + (n1 : ℚ)) / (n0 : ℚ))) := by
  unfold FindSubstrings.posteriorExact
  simp only [← hn0, ← hn1]
  have hq : F.prior_bias / ((n0 : ℚ) / ((n0 + n1 : Nat) : ℚ)) =
      F.prior_bias * ((n0 : ℚ) + (n1 : ℚ)) / (n0 : ℚ) := by
    rw [div_div_eq_mul_div]; push_cast; rfl
  rw [if_neg (by omega), if_neg (by omega), hq, if_neg hdiv]

theorem FindSubstrings.posteriorExact_divisor_pos (F : Finder) (s : Substring) (cB n0 n1 : Nat)
    (hpos : 0 < n0) (hcount : 0 < s.count) (hbias : 0 ≤ F.prior_bias) :
    0 < (s.count : ℚ) + (cB : ℚ) + F.prior_bias * ((n0 : ℚ) + (n1 : ℚ)) / (n0 : ℚ) := by
  have h1 : (0 : ℚ) < (s.count : ℚ) := by exact_mod_cast hcount
  have h2 : (0 : ℚ) ≤ (cB : ℚ) := by positivity
  have h3 : (0 : ℚ) < (n0 : ℚ) := by exact_mod_cast hpos
  have h4 : (0 : ℚ) ≤ F.prior_bias * ((n0 : ℚ) + (n1 : ℚ)) / (n0 : ℚ) := by positivity
  linarith

/-- The scoring step of the per-candidate pipeline: a candidate that reaches it with the
computed posterior `W` is dropped exactly when `W` is below `threshold`; otherwise it is
printed or, in unique mode, handed to the accumulator. -/
theorem FindSubstrings.candidate_scored (F : Finder) (s : Substring) (cB : Nat) (W : ℚ)
    (hmode : F.do_probability = true ∨ F.threshold ≠ 0)
    (hW : FindSubstrings.posterior F s cB = Double.finite W)
    (input0_threshold input1_threshold : Nat) (st : State) (lo hi : Nat)
    (hcount : ¬ s.count < input0_threshold)
    (hlook : FindSubstrings.lookup F s st.input1_offset = some (lo, hi))
    (hcB : (if F.do_document then
        (FindSubstrings.countDocuments F (hi - lo) lo []).map List.length
      else some (hi - lo)) = some cB)
    (hcB1 : ¬ cB > input1_threshold)
    (hwords : (if F.do_words then FindSubstrings.wordBoundary F s else some true) = some true) :
    FindSubstrings.candidate F input0_threshold input1_threshold st s =
      some (if W < F.threshold then { st with input1_offset := lo }
        else if F.do_unique then
          { st with
            input1_offset := lo
            matches_ := FindSubstrings.accumulate F st.matches_
              (Match.mk s.text s.length (if F.do_probability then W else (s.count : ℚ))) }
        else
          { st with
            input1_offset := lo
            out := st.out ++ [Line.mk s.text s.length s.count cB
              (if F.do_probability then W else (s.count : ℚ))] }) := by
  unfold FindSubstrings.candidate
  rw [if_neg hcount]
  simp only [hlook, hcB, if_neg hcB1, hwords, if_pos hmode, hW, Double.lt, decide_eq_true_eq]
  split_ifs <;> rfl

/-- The posterior outside the finite range.  With both histogram entries 0 the quotient `P_A`
is `0 / 0`, the posterior is NaN and the test `P_A_Bx < threshold` is false: in threshold mode
the candidate is printed with its count (in probability mode the score to print is NaN, which
the record cannot hold).  With `n0 = 0` and `n1 = 3` the quotient `prior_bias / P_A` is
infinite and the posterior is 0: the candidate is dropped. -/
theorem FindSubstrings.candidate_without_histogram :
    FindSubstrings.posterior
      { threshold := mkRat 1 2, input0 := ascii "aa\x00aa\x00" } ⟨0, 2, 2⟩ 0 = Double.nan ∧
    FindSubstrings.candidate
      { threshold := mkRat 1 2, input0 := ascii "aa\x00aa\x00" } 2 0 {} ⟨0, 2, 2⟩ =
      some { out := [⟨0, 2, 2, 0, 2⟩] } ∧
    FindSubstrings.candidate
      { do_probability := true, threshold := mkRat 1 2, input0 := ascii "aa\x00aa\x00" } 2 0 {}
      ⟨0, 2, 2⟩ = none ∧
    FindSubstrings.posterior
      { threshold := mkRat 1 2, input0 := ascii "aa\x00aa\x00",
        input1_n_gram_counts_ := [0, 3, 3] } ⟨0, 2, 2⟩ 0 = Double.finite 0 ∧
    FindSubstrings.candidate
      { threshold := mkRat 1 2, input0 := ascii "aa\x00aa\x00",
        input1_n_gram_counts_ := [0, 3, 3] } 2 0 {} ⟨0, 2, 2⟩ = some {} := by
  refine ⟨by decide, by decide, by decide, by decide, by decide⟩

theorem lg.go_bounds (fuel n : Nat) (h1 : 1 ≤ n) (h2 : n ≤ fuel) :
    2 ^ lg.go fuel n ≤ n ∧ n < 2 ^ (lg.go fuel n + 1) := by
  induction fuel generalizing n with
  | zero => omega
  | succ fuel ih =>
    unfold lg.go
    split_ifs with h
    · obtain ⟨a, b⟩ := ih (n / 2) (by omega) (by omega)
      constructor
      · rw [pow_succ]; omega
      · rw [pow_succ]; omega
    · simp; omega

/-- The value `lg n` is the position of the highest set bit of a positive `n`. -/
theorem lg_bounds (n : Nat) (h1 : 1 ≤ n) : 2 ^ lg n ≤ n ∧ n < 2 ^ (lg n + 1) :=
  lg.go_bounds n n h1 (le_refl n)

theorem two_zpow_of_nonneg (e : ℤ) (h : 0 ≤ e) : (2 : ℚ) ^ e = ((2 ^ e.toNat : ℕ) : ℚ) := by
  conv_lhs => rw [← Int.toNat_of_nonneg h]
  rw [zpow_natCast]; push_cast; rfl

theorem two_zpow_of_neg (e : ℤ) (h : e < 0) :
    (2 : ℚ) ^ e = 1 / ((2 ^ (-e).toNat : ℕ) : ℚ) := by
  have h1 : e = -((-e).toNat : ℤ) := by rw [Int.toNat_of_nonneg (by omega)]; ring
  conv_lhs => rw [h1]
  rw [zpow_neg, zpow_natCast]; push_cast; rw [one_div]

/-- The exponent `binade n d` brackets the fraction: `2 ^ e ≤ n / d < 2 ^ (e + 1)`. -/
theorem Double.binade_spec (n d : Nat) (hn : 1 ≤ n) (hd : 1 ≤ d) :
    (2 : ℚ) ^ Double.binade n d ≤ (n : ℚ) / d ∧ (n : ℚ) / d < 2 ^ (Double.binade n d + 1) := by
  obtain ⟨hn1, hn2⟩ := lg_bounds n hn
  obtain ⟨hd1, hd2⟩ := lg_bounds d hd
  have hnq : (0 : ℚ) < n := by exact_mod_cast hn
  have hdq : (0 : ℚ) < d := by exact_mod_cast hd
  have a1 : (2 : ℚ) ^ (lg n : ℤ) ≤ n := by rw [zpow_natCast]; exact_mod_cast hn1
  have a2 : (n : ℚ) < 2 ^ ((lg n : ℤ) + 1) := by
    rw [show ((lg n : ℤ) + 1) = ((lg n + 1 : ℕ) : ℤ) by push_cast; rfl, zpow_natCast]
    exact_mod_cast hn2
  have b1 : (2 : ℚ) ^ (lg d : ℤ) ≤ d := by rw [zpow_natCast]; exact_mod_cast hd1
  have b2 : (d : ℚ) < 2 ^ ((lg d : ℤ) + 1) := by
    rw [show ((lg d : ℤ) + 1) = ((lg d + 1 : ℕ) : ℤ) by push_cast; rfl, zpow_natCast]
    exact_mod_cast hd2
  have h2 : (2 : ℚ) ≠ 0 := by norm_num
  have pL : (0 : ℚ) < 2 ^ (lg n : ℤ) := by positivity
  have pM : (0 : ℚ) < 2 ^ (lg d : ℤ) := by positivity
  -- the two bounds that hold whatever the test answers
  have low : (2 : ℚ) ^ ((lg n : ℤ) - (lg d : ℤ) - 1) ≤ (n : ℚ) / d := by
    rw [show ((lg n : ℤ) - (lg d : ℤ) - 1) = (lg n : ℤ) - ((lg d : ℤ) + 1) by ring,
      zpow_sub₀ h2]
    have : (0 : ℚ) < 2 ^ ((lg d : ℤ) + 1) := by positivity
    rw [div_le_div_iff₀ this hdq]
    nlinarith
  have high : (n : ℚ) / d < 2 ^ ((lg n : ℤ) - (lg d : ℤ) + 1) := by
    rw [show ((lg n : ℤ) - (lg d : ℤ) + 1) = ((lg n : ℤ) + 1) - (lg d : ℤ) by ring,
      zpow_sub₀ h2]
    rw [div_lt_div_iff₀ hdq pM]
    nlinarith
  have test : ∀ e : ℤ, (if 0 ≤ e then decide (d * 2 ^ e.toNat ≤ n)
      else decide (d ≤ n * 2 ^ (-e).toNat)) = true ↔ (2 : ℚ) ^ e ≤ (n : ℚ) / d := by
    intro e
    split_ifs with he
    · rw [two_zpow_of_nonneg e he, le_div_iff₀ hdq, decide_eq_true_eq]
      constructor
      · intro h; have : ((2 ^ e.toNat * d : ℕ) : ℚ) ≤ n := by
          exact_mod_cast (by rw [Nat.mul_comm]; exact h : 2 ^ e.toNat * d ≤ n)
        simpa using this
      · intro h
        have : ((2 ^ e.toNat * d : ℕ) : ℚ) ≤ n := by simpa using h
        have := (Nat.cast_le (α := ℚ)).1 this
        rw [Nat.mul_comm]; exact this
    · rw [two_zpow_of_neg e (by omega), decide_eq_true_eq]
      have pk : (0 : ℚ) < ((2 ^ (-e).toNat : ℕ) : ℚ) := by positivity
      rw [div_le_div_iff₀ pk hdq, one_mul]
      constructor
      · intro h; exact_mod_cast h
      · intro h; exact_mod_cast h
  have hb : Double.binade n d =
      if (2 : ℚ) ^ ((lg n : ℤ) - (lg d : ℤ)) ≤ (n : ℚ) / d then (lg n : ℤ) - (lg d : ℤ)
      else (lg n : ℤ) - (lg d : ℤ) - 1 := by
    unfold Double.binade
    simp only [test]
  rw [hb]
  split_ifs with hc
  · exact ⟨hc, high⟩
  · refine ⟨low, ?_⟩
    rw [show ((lg n : ℤ) - (lg d : ℤ) - 1 + 1) = (lg n : ℤ) - (lg d : ℤ) by ring]
    exact lt_of_not_le hc

/-- The rounded quotient is at most one half away from `n / d`. -/
theorem Double.roundHalfEven_spec (n d : Nat) (hd : 0 < d) :
    2 * (d * Double.roundHalfEven n d) ≤ 2 * n + d ∧
    2 * n ≤ 2 * (d * Double.roundHalfEven n d) + d := by
  have h1 : d * (n / d) + n % d = n := Nat.div_add_mod n d
  have h2 : n % d < d := Nat.mod_lt n hd
  have h3 : d * (n / d + 1) = d * (n / d) + d := by ring
  unfold Double.roundHalfEven
  simp only []
  split_ifs
  · omega
  · rw [h3]; omega
  · omega
  · rw [h3]; omega

/-- In the normal range, from `2 ^ (-1022)` up, rounding changes a value by a relative error of at
most `2 ^ (-53)`, and there is no overflow below `2 ^ 1000`. -/
theorem Double.roundMagnitude_spec (n d : Nat) (hn : 1 ≤ n) (hd : 1 ≤ d)
    (hlo : (2 : ℚ) ^ (-1022 : ℤ) ≤ (n : ℚ) / d) (hhi : (n : ℚ) / d ≤ 2 ^ 1000) :
    ∃ m k : Nat, Double.roundMagnitude n d = some (m, k) ∧ 0 < k ∧
      (n : ℚ) / d * (1 - 1 / 2 ^ 53) ≤ (m : ℚ) / k ∧
      (m : ℚ) / k ≤ (n : ℚ) / d * (1 + 1 / 2 ^ 53) := by
  obtain ⟨hb1, hb2⟩ := Double.binade_spec n d hn hd
  have hnq : (0 : ℚ) < n := by exact_mod_cast hn
  have hdq : (0 : ℚ) < d := by exact_mod_cast hd
  have hx : (0 : ℚ) < (n : ℚ) / d := by positivity
  have hb : -1022 ≤ Double.binade n d := by
    by_contra hcon
    have h1 : (2 : ℚ) ^ (Double.binade n d + 1) ≤ 2 ^ (-1022 : ℤ) :=
      zpow_le_zpow_right₀ (by norm_num) (by omega)
    exact absurd (lt_of_lt_of_le hb2 h1) (not_lt.2 hlo)
  have he : max (Double.binade n d - 52) (-1074) = Double.binade n d - 52 :=
    max_eq_left (by omega)
  have hq : (2 : ℚ) ^ (Double.binade n d - 52) * 2 ^ 52 ≤ (n : ℚ) / d := by
    have : (2 : ℚ) ^ (Double.binade n d - 52) * 2 ^ 52 = 2 ^ Double.binade n d := by
      rw [zpow_sub₀ (by norm_num : (2 : ℚ) ≠ 0)]
      norm_num
    rw [this]; exact hb1
  have hxd : (n : ℚ) = (n : ℚ) / d * d := by field_simp
  unfold Double.roundMagnitude
  simp only [he]
  generalize Double.binade n d - 52 = e at hq
  generalize (n : ℚ) / d = x at hq hxd hhi hx
  by_cases h0 : 0 ≤ e
  · rw [if_pos h0]
    have hK : (2 : ℚ) ^ e = ((2 ^ e.toNat : ℕ) : ℚ) := two_zpow_of_nonneg e h0
    have hKpos : 0 < 2 ^ e.toNat := by positivity
    obtain ⟨s1, s2⟩ := Double.roundHalfEven_spec n (d * 2 ^ e.toNat) (by positivity)
    rw [hK] at hq
    generalize 2 ^ e.toNat = K at hq hKpos s1 s2 ⊢
    generalize Double.roundHalfEven n (d * K) = m at s1 s2 ⊢
    have s1q : 2 * ((d : ℚ) * K * m) ≤ 2 * n + d * K := by exact_mod_cast s1
    have s2q : 2 * (n : ℚ) ≤ 2 * ((d : ℚ) * K * m) + d * K := by exact_mod_cast s2
    rw [hxd] at s1q s2q
    have a1 : (K : ℚ) * m ≤ x + K / 2 := by
      have : (d : ℚ) * (K * m) ≤ d * (x + K / 2) := by linarith
      exact le_of_mul_le_mul_left this hdq
    have a2 : x ≤ (K : ℚ) * m + K / 2 := by
      have : (d : ℚ) * x ≤ d * (K * m + K / 2) := by linarith
      exact le_of_mul_le_mul_left this hdq
    have b1 : x * (1 - 1 / 2 ^ 53) ≤ (K : ℚ) * m := by linarith
    have b2 : (K : ℚ) * m ≤ x * (1 + 1 / 2 ^ 53) := by linarith
    have hov : ¬ 2 ^ 1024 ≤ m * K := by
      intro hov
      have key : ∀ T : ℕ, T ≤ m * K → (T : ℚ) ≤ (m : ℚ) * K :=
        fun T h => by exact_mod_cast h
      have h1 := key _ hov
      have e1 : ((2 ^ 1024 : ℕ) : ℚ) = (2 : ℚ) ^ 1024 := by
        rw [Nat.cast_pow]
        congr 1
      rw [e1] at h1
      have h2 : x * (1 + 1 / 2 ^ 53) ≤ 2 ^ 1000 * 2 := by
        apply mul_le_mul hhi (by norm_num) (by norm_num) (by norm_num)
      have h3 : (2 : ℚ) ^ 1000 * 2 < 2 ^ 1024 := by norm_num
      linarith
    simp only [if_neg hov]
    refine ⟨m * K, 1, rfl, by norm_num, ?_, ?_⟩
    · push_cast; rw [div_one]; linarith
    · push_cast; rw [div_one]; linarith
  · rw [if_neg h0]
    have hK : (2 : ℚ) ^ e = 1 / ((2 ^ (-e).toNat : ℕ) : ℚ) := two_zpow_of_neg e (by omega)
    have hKpos : 0 < 2 ^ (-e).toNat := by positivity
    obtain ⟨s1, s2⟩ := Double.roundHalfEven_spec (n * 2 ^ (-e).toNat) d hd
    rw [hK] at hq
    generalize 2 ^ (-e).toNat = K at hq hKpos s1 s2 ⊢
    generalize Double.roundHalfEven (n * K) d = m at s1 s2 ⊢
    have hKq : (0 : ℚ) < K := by exact_mod_cast hKpos
    have s1q : 2 * ((d : ℚ) * m) ≤ 2 * (n * K) + d := by exact_mod_cast s1
    have s2q : 2 * ((n : ℚ) * K) ≤ 2 * ((d : ℚ) * m) + d := by exact_mod_cast s2
    rw [hxd] at s1q s2q
    have a1 : (m : ℚ) ≤ x * K + 1 / 2 := by
      have : (d : ℚ) * m ≤ d * (x * K + 1 / 2) := by linarith
      exact le_of_mul_le_mul_left this hdq
    have a2 : x * K ≤ (m : ℚ) + 1 / 2 := by
      have : (d : ℚ) * (x * K) ≤ d * (m + 1 / 2) := by linarith
      exact le_of_mul_le_mul_left this hdq
    have a3 : (2 : ℚ) ^ 52 ≤ x * K := by
      have : 1 / (K : ℚ) * 2 ^ 52 * K ≤ x * K := mul_le_mul_of_nonneg_right hq hKq.le
      have e1 : 1 / (K : ℚ) * 2 ^ 52 * K = 2 ^ 52 := by field_simp
      rw [e1] at this; exact this
    refine ⟨m, K, rfl, hKpos, ?_, ?_⟩
    · rw [le_div_iff₀ hKq]; linarith
    · rw [div_le_iff₀ hKq]; linarith

theorem Double.round_spec (n : Int) (d : Nat) (hn : 0 < n) (hd : 0 < d)
    (hlo : (2 : ℚ) ^ (-1022 : ℤ) ≤ (n : ℚ) / d) (hhi : (n : ℚ) / d ≤ 2 ^ 1000) :
    ∃ w : ℚ, Double.round n d = Double.finite w ∧
      (n : ℚ) / d * (1 - 1 / 2 ^ 53) ≤ w ∧ w ≤ (n : ℚ) / d * (1 + 1 / 2 ^ 53) := by
  have hcast : ((n.natAbs : ℕ) : ℚ) = (n : ℚ) := by
    rw [← Int.cast_natCast, Int.natAbs_of_nonneg hn.le]
  have h1 : 1 ≤ n.natAbs := by omega
  obtain ⟨m, k, hr, hk, b1, b2⟩ := Double.roundMagnitude_spec n.natAbs d h1 hd
    (by rw [hcast]; exact hlo) (by rw [hcast]; exact hhi)
  rw [hcast] at b1 b2
  refine ⟨(m : ℚ) / k, ?_, b1, b2⟩
  unfold Double.round
  rw [if_neg (by omega), hr]
  simp only [if_neg (not_lt.2 hn.le)]
  rw [Rat.mkRat_eq_div]
  push_cast
  rfl

theorem Double.round_zero (d : Nat) : Double.round 0 d = Double.finite 0 := by
  unfold Double.round
  rw [if_pos rfl]

/-- The conversion of a positive `size_t` value has a relative error of at most `2 ^ (-53)`. -/
theorem Double.ofNat_spec (n : Nat) (hn : 1 ≤ n) (hhi : n < 2 ^ 64) :
    ∃ w : ℚ, Double.ofNat n = Double.finite w ∧
      (n : ℚ) * (1 - 1 / 2 ^ 53) ≤ w ∧ w ≤ (n : ℚ) * (1 + 1 / 2 ^ 53) := by
  have h1 : (1 : ℚ) ≤ n := by exact_mod_cast hn
  have h2 : (n : ℚ) < 2 ^ 64 := by exact_mod_cast hhi
  obtain ⟨w, hw, b1, b2⟩ := Double.round_spec (n : ℤ) 1 (by omega) (by norm_num)
    (by
      have : (2 : ℚ) ^ (-1022 : ℤ) ≤ 1 := zpow_le_one_of_nonpos₀ (by norm_num) (by norm_num)
      simp only [Int.cast_natCast, Nat.cast_one, div_one]
      linarith)
    (by
      simp only [Int.cast_natCast, Nat.cast_one, div_one]
      have : (2 : ℚ) ^ 64 ≤ 2 ^ 1000 := pow_le_pow_right₀ (by norm_num) (by norm_num)
      linarith)
  simp only [Int.cast_natCast, Nat.cast_one, div_one] at b1 b2
  exact ⟨w, hw, b1, b2⟩

/-- A sum in the normal range is the exact sum with a relative error of at most `2 ^ (-53)`. -/
theorem Double.add_spec (a b : ℚ)
    (hlo : (2 : ℚ) ^ (-1022 : ℤ) ≤ a + b) (hhi : a + b ≤ 2 ^ 1000) :
    ∃ w : ℚ, Double.add (Double.finite a) (Double.finite b) = Double.finite w ∧
      (a + b) * (1 - 1 / 2 ^ 53) ≤ w ∧ w ≤ (a + b) * (1 + 1 / 2 ^ 53) := by
  have hval : (((a.num * (b.den : ℤ) + b.num * (a.den : ℤ) : ℤ) : ℚ)) /
      ((a.den * b.den : ℕ) : ℚ) = a + b := by
    have ha0 : (a.den : ℚ) ≠ 0 := by exact_mod_cast a.den_nz
    have hb0 : (b.den : ℚ) ≠ 0 := by exact_mod_cast b.den_nz
    conv_rhs => rw [← Rat.num_div_den a, ← Rat.num_div_den b]
    push_cast
    field_simp
  have hpos : 0 < a + b := lt_of_lt_of_le (by positivity) hlo
  have hd : 0 < a.den * b.den := Nat.mul_pos a.den_pos b.den_pos
  have hn : 0 < a.num * (b.den : ℤ) + b.num * (a.den : ℤ) := by
    have h1 : (0 : ℚ) < ((a.num * (b.den : ℤ) + b.num * (a.den : ℤ) : ℤ) : ℚ) := by
      have hdq : (0 : ℚ) < ((a.den * b.den : ℕ) : ℚ) := by exact_mod_cast hd
      have := mul_pos hpos hdq
      rw [← hval, div_mul_cancel₀ _ hdq.ne'] at this
      exact this
    exact_mod_cast h1
  obtain ⟨w, hw, b1, b2⟩ := Double.round_spec _ _ hn hd (by rw [hval]; exact hlo)
    (by rw [hval]; exact hhi)
  rw [hval] at b1 b2
  exact ⟨w, hw, b1, b2⟩

/-- A quotient in the normal range is the exact quotient with a relative error of at most
`2 ^ (-53)`. -/
theorem Double.div_spec (a b : ℚ) (ha : 0 < a) (hb : 0 < b)
    (hlo : (2 : ℚ) ^ (-1022 : ℤ) ≤ a / b) (hhi : a / b ≤ 2 ^ 1000) :
    ∃ w : ℚ, Double.div (Double.finite a) (Double.finite b) = Double.finite w ∧
      a / b * (1 - 1 / 2 ^ 53) ≤ w ∧ w ≤ a / b * (1 + 1 / 2 ^ 53) := by
  have hbn : 0 < b.num := Rat.num_pos.2 hb
  have han : 0 < a.num := Rat.num_pos.2 ha
  have hval : (((a.num * (b.den : ℤ) : ℤ) : ℚ)) / ((a.den * b.num.natAbs : ℕ) : ℚ) = a / b := by
    have ha0 : (a.den : ℚ) ≠ 0 := by exact_mod_cast a.den_nz
    have hb0 : (b.den : ℚ) ≠ 0 := by exact_mod_cast b.den_nz
    have hbn0 : (b.num : ℚ) ≠ 0 := by exact_mod_cast hbn.ne'
    have hcast : ((b.num.natAbs : ℕ) : ℚ) = (b.num : ℚ) := by
      rw [← Int.cast_natCast, Int.natAbs_of_nonneg hbn.le]
    conv_rhs => rw [← Rat.num_div_den a, ← Rat.num_div_den b]
    push_cast
    rw [hcast]
    field_simp
  have hd : 0 < a.den * b.num.natAbs := Nat.mul_pos a.den_pos (by omega)
  have hn : 0 < a.num * (b.den : ℤ) := mul_pos han (by exact_mod_cast b.den_pos)
  obtain ⟨w, hw, b1, b2⟩ := Double.round_spec _ _ hn hd (by rw [hval]; exact hlo)
    (by rw [hval]; exact hhi)
  rw [hval] at b1 b2
  refine ⟨w, ?_, b1, b2⟩
  rw [← hw]
  show (if b.num = 0 then _ else _) = _
  rw [if_neg hbn.ne', if_neg (not_lt.2 hbn.le)]

theorem Double.div_zero_left (b : ℚ) (hb : 0 < b) :
    Double.div (Double.finite 0) (Double.finite b) = Double.finite 0 := by
  have hbn : 0 < b.num := Rat.num_pos.2 hb
  show (if b.num = 0 then _ else _) = _
  rw [if_neg hbn.ne', if_neg (not_lt.2 hbn.le)]
  simp [Double.round_zero]

theorem Double.smallest_normal : (2 : ℚ) ^ (-1022 : ℤ) = 1 / 2 ^ 1022 := by
  rw [one_div, ← zpow_natCast, ← zpow_neg]; simp

/-- One more rounding: a value within `k` roundings of `V`, rounded, is within `k + 1`. -/
theorem Double.within_round (k : Nat) (V x w : ℚ) (hx : 0 ≤ x) (h : Double.within k V x)
    (b1 : x * (1 - 1 / 2 ^ 53) ≤ w) (b2 : w ≤ x * (1 + 1 / 2 ^ 53)) :
    Double.within (k + 1) V w := by
  obtain ⟨h1, h2⟩ := h
  have hr0 : (0 : ℚ) ≤ 1 - 1 / 2 ^ 53 := by norm_num
  have hrk : (0 : ℚ) ≤ (1 - 1 / 2 ^ 53) ^ k := pow_nonneg hr0 k
  constructor
  · rw [pow_succ, ← mul_assoc]
    exact le_trans (mul_le_mul_of_nonneg_right h1 hr0) b1
  · have c1 : w * (1 - 1 / 2 ^ 53) ≤ x := by
      have c2 := mul_le_mul_of_nonneg_right b2 hr0
      have c3 : x * (1 + 1 / 2 ^ 53) * (1 - 1 / 2 ^ 53) ≤ x := by
        have c4 : (1 + 1 / 2 ^ 53 : ℚ) * (1 - 1 / 2 ^ 53) ≤ 1 := by norm_num
        calc x * (1 + 1 / 2 ^ 53) * (1 - 1 / 2 ^ 53)
            = x * ((1 + 1 / 2 ^ 53) * (1 - 1 / 2 ^ 53)) := by ring
          _ ≤ x * 1 := mul_le_mul_of_nonneg_left c4 hx
          _ = x := mul_one x
      exact le_trans c2 c3
    calc w * (1 - 1 / 2 ^ 53) ^ (k + 1)
        = w * (1 - 1 / 2 ^ 53) * (1 - 1 / 2 ^ 53) ^ k := by rw [pow_succ]; ring
      _ ≤ x * (1 - 1 / 2 ^ 53) ^ k := mul_le_mul_of_nonneg_right c1 hrk
      _ ≤ V := h2

theorem Double.within_mono (k j : Nat) (V w : ℚ) (hk : k ≤ j) (hV : 0 ≤ V) (hw : 0 ≤ w)
    (h : Double.within k V w) : Double.within j V w := by
  obtain ⟨h1, h2⟩ := h
  have hr0 : (0 : ℚ) ≤ 1 - 1 / 2 ^ 53 := by norm_num
  have hr1 : (1 - 1 / 2 ^ 53 : ℚ) ≤ 1 := by norm_num
  have hp : (1 - 1 / 2 ^ 53 : ℚ) ^ j ≤ (1 - 1 / 2 ^ 53) ^ k := pow_le_pow_of_le_one hr0 hr1 hk
  exact ⟨le_trans (mul_le_mul_of_nonneg_left hp hV) h1,
    le_trans (mul_le_mul_of_nonneg_left hp hw) h2⟩

theorem Double.within_add (k : Nat) (V1 V2 a b : ℚ) (h1 : Double.within k V1 a)
    (h2 : Double.within k V2 b) : Double.within k (V1 + V2) (a + b) := by
  obtain ⟨p1, p2⟩ := h1
  obtain ⟨q1, q2⟩ := h2
  constructor
  · rw [add_mul]; linarith
  · rw [add_mul]; linarith

/-- Quotients add the rounding counts of dividend and divisor. -/
theorem Double.within_div (k1 k2 : Nat) (V1 V2 a b : ℚ) (hV1 : 0 ≤ V1) (hV2 : 0 < V2)
    (ha : 0 ≤ a) (hb : 0 < b) (h1 : Double.within k1 V1 a) (h2 : Double.within k2 V2 b) :
    Double.within (k1 + k2) (V1 / V2) (a / b) := by
  obtain ⟨p1, p2⟩ := h1
  obtain ⟨q1, q2⟩ := h2
  have hr0 : (0 : ℚ) ≤ 1 - 1 / 2 ^ 53 := by norm_num
  have hr1 : (0 : ℚ) ≤ (1 - 1 / 2 ^ 53) ^ k1 := pow_nonneg hr0 k1
  have hr2 : (0 : ℚ) ≤ (1 - 1 / 2 ^ 53) ^ k2 := pow_nonneg hr0 k2
  constructor
  · rw [pow_add, div_mul_eq_mul_div, div_le_div_iff₀ hV2 hb]
    have := mul_le_mul p1 q2 (mul_nonneg hb.le hr2) ha
    calc V1 * ((1 - 1 / 2 ^ 53) ^ k1 * (1 - 1 / 2 ^ 53) ^ k2) * b
        = V1 * (1 - 1 / 2 ^ 53) ^ k1 * (b * (1 - 1 / 2 ^ 53) ^ k2) := by ring
      _ ≤ a * V2 := this
  · rw [pow_add, div_mul_eq_mul_div, div_le_div_iff₀ hb hV2]
    have := mul_le_mul p2 q1 (mul_nonneg hV2.le hr2) hV1
    calc a * ((1 - 1 / 2 ^ 53) ^ k1 * (1 - 1 / 2 ^ 53) ^ k2) * V2
        = a * (1 - 1 / 2 ^ 53) ^ k1 * (V2 * (1 - 1 / 2 ^ 53) ^ k2) := by ring
      _ ≤ V1 * b := this

/-- Up to eight roundings keep a value between `V / 2` and `2 * V`. -/
theorem Double.within_bounds (k : Nat) (V w : ℚ) (hk : k ≤ 8) (hV : 0 ≤ V) (hw : 0 ≤ w)
    (h : Double.within k V w) : V / 2 ≤ w ∧ w ≤ 2 * V := by
  obtain ⟨h1, h2⟩ := Double.within_mono k 8 V w hk hV hw h
  have h8 : (1 / 2 : ℚ) ≤ (1 - 1 / 2 ^ 53) ^ 8 := by norm_num
  constructor
  · have := mul_le_mul_of_nonneg_left h8 hV
    linarith
  · have := mul_le_mul_of_nonneg_left h8 hw
    linarith

theorem Double.ofNat_within (n : Nat) (hn : 1 ≤ n) (hhi : n < 2 ^ 64) :
    ∃ w : ℚ, Double.ofNat n = Double.finite w ∧ 0 < w ∧ Double.within 1 (n : ℚ) w := by
  obtain ⟨w, hw, b1, b2⟩ := Double.ofNat_spec n hn hhi
  have h1 : (1 : ℚ) ≤ n := by exact_mod_cast hn
  refine ⟨w, hw, ?_, ?_⟩
  · have : (0 : ℚ) < (n : ℚ) * (1 - 1 / 2 ^ 53) := mul_pos (by linarith) (by norm_num)
    linarith
  · exact Double.within_round 0 n n w (by linarith) ⟨by simp, by simp⟩ b1 b2

theorem Double.add_within (k : Nat) (V1 V2 a b : ℚ)
    (ha : 0 ≤ a) (hb : 0 ≤ b) (h1 : Double.within k V1 a) (h2 : Double.within k V2 b)
    (hk : k ≤ 8) (hlo : 1 / 2 ^ 1021 ≤ V1 + V2) (hhi : V1 + V2 ≤ 2 ^ 999) :
    ∃ w : ℚ, Double.add (Double.finite a) (Double.finite b) = Double.finite w ∧ 0 < w ∧
      Double.within (k + 1) (V1 + V2) w := by
  have hs := Double.within_add k V1 V2 a b h1 h2
  obtain ⟨c1, c2⟩ := Double.within_bounds k (V1 + V2) (a + b) hk (by linarith) (by linarith) hs
  have hz : (2 : ℚ) ^ (-1022 : ℤ) = 1 / 2 ^ 1022 := Double.smallest_normal
  have e1 : (1 : ℚ) / 2 ^ 1022 = 1 / 2 ^ 1021 / 2 := by norm_num
  have e2 : (2 : ℚ) ^ 1000 = 2 * 2 ^ 999 := by norm_num
  have hp : (0 : ℚ) < 1 / 2 ^ 1022 := by positivity
  obtain ⟨w, hw, b1, b2⟩ := Double.add_spec a b (by rw [hz]; linarith) (by linarith)
  refine ⟨w, hw, ?_, Double.within_round k _ _ w (by linarith) hs b1 b2⟩
  have : (0 : ℚ) < (a + b) * (1 - 1 / 2 ^ 53) := mul_pos (by linarith) (by norm_num)
  linarith

theorem Double.div_within (k1 k2 : Nat) (V1 V2 a b : ℚ) (hV1 : 0 < V1) (hV2 : 0 < V2)
    (ha : 0 < a) (hb : 0 < b) (h1 : Double.within k1 V1 a) (h2 : Double.within k2 V2 b)
    (hk : k1 + k2 ≤ 8) (hlo : 1 / 2 ^ 1021 ≤ V1 / V2) (hhi : V1 / V2 ≤ 2 ^ 999) :
    ∃ w : ℚ, Double.div (Double.finite a) (Double.finite b) = Double.finite w ∧ 0 < w ∧
      Double.within (k1 + k2 + 1) (V1 / V2) w := by
  have hs := Double.within_div k1 k2 V1 V2 a b hV1.le hV2 ha.le hb h1 h2
  have hq : 0 < a / b := div_pos ha hb
  obtain ⟨c1, c2⟩ := Double.within_bounds (k1 + k2) (V1 / V2) (a / b) hk
    (div_pos hV1 hV2).le hq.le hs
  have hz : (2 : ℚ) ^ (-1022 : ℤ) = 1 / 2 ^ 1022 := Double.smallest_normal
  have e1 : (1 : ℚ) / 2 ^ 1022 = 1 / 2 ^ 1021 / 2 := by norm_num
  have e2 : (2 : ℚ) ^ 1000 = 2 * 2 ^ 999 := by norm_num
  obtain ⟨w, hw, b1, b2⟩ := Double.div_spec a b ha hb (by rw [hz]; linarith) (by linarith)
  refine ⟨w, hw, ?_, Double.within_round (k1 + k2) _ _ w hq.le hs b1 b2⟩
  have : (0 : ℚ) < a / b * (1 - 1 / 2 ^ 53) := mul_pos hq (by norm_num)
  linarith

/-- The `double` posterior is finite and within eight roundings of the exact value: for counts
below `2 ^ 64`, a positive `n0` and a `prior_bias` that is 0 or between `2 ^ (-900)` and
`2 ^ 900`, no operation of the expression overflows or leaves the normal range. -/
theorem FindSubstrings.posterior_within (F : Finder) (s : Substring) (cB n0 n1 : Nat)
    (hn0 : n0 = if s.length < F.input0_n_gram_counts_.length then
      F.input0_n_gram_counts_.getD s.length 0 else 0)
    (hn1 : n1 = if s.length < F.input1_n_gram_counts_.length then
      F.input1_n_gram_counts_.getD s.length 0 else 0)
    (hpos : 0 < n0) (hcount : 0 < s.count)
    (hsize : s.count + cB < 2 ^ 64) (hgrams : n0 + n1 < 2 ^ 64)
    (hbias : F.prior_bias = 0 ∨ (1 / 2 ^ 900 ≤ F.prior_bias ∧ F.prior_bias ≤ 2 ^ 900)) :
    ∃ W : ℚ, FindSubstrings.posterior F s cB = Double.finite W ∧
      Double.within 8 (((s.count : ℚ) + F.prior_bias) /
        ((s.count : ℚ) + (cB : ℚ) + F.prior_bias * ((n0 : ℚ) + (n1 : ℚ)) / (n0 : ℚ))) W := by
  have hc1 : (1 : ℚ) ≤ s.count := by exact_mod_cast hcount
  have hc2 : ((s.count + cB : ℕ) : ℚ) < 2 ^ 64 := by exact_mod_cast hsize
  have hc3 : (0 : ℚ) ≤ cB := by positivity
  have hm1 : (1 : ℚ) ≤ n0 := by exact_mod_cast hpos
  have hm2 : ((n0 + n1 : ℕ) : ℚ) < 2 ^ 64 := by exact_mod_cast hgrams
  have hm3 : (0 : ℚ) ≤ n1 := by positivity
  push_cast at hc2 hm2
  have hpb0 : 0 ≤ F.prior_bias := by
    rcases hbias with h | h
    · rw [h]
    · exact le_trans (by positivity) h.1
  have hpb1 : F.prior_bias ≤ 2 ^ 900 := by
    rcases hbias with h | h
    · rw [h]; positivity
    · exact h.2
  obtain ⟨wc, ec, pc, kc⟩ := Double.ofNat_within s.count hcount (by omega)
  obtain ⟨wt, et, pt, kt⟩ := Double.ofNat_within (s.count + cB) (by omega) hsize
  obtain ⟨w0, e0, p0, k0⟩ := Double.ofNat_within n0 hpos (by omega)
  obtain ⟨wN, eN, pN, kN⟩ := Double.ofNat_within (n0 + n1) (by omega) hgrams
  push_cast at kt kN
  -- P_A
  have hP1 : (n0 : ℚ) / ((n0 : ℚ) + n1) ≤ 1 := by
    rw [div_le_one (by linarith)]; linarith
  have hP2 : 1 / 2 ^ 64 ≤ (n0 : ℚ) / ((n0 : ℚ) + n1) := by
    rw [div_le_div_iff₀ (by positivity) (by linarith)]
    nlinarith
  have hP0 : 0 < (n0 : ℚ) / ((n0 : ℚ) + n1) := div_pos (by linarith) (by linarith)
  obtain ⟨wP, eP, pP, kP⟩ := Double.div_within 1 1 (n0 : ℚ) ((n0 : ℚ) + n1) w0 wN
    (by linarith) (by linarith) p0 pN k0 kN (by norm_num)
    (le_trans (by norm_num) hP2) (le_trans hP1 (by norm_num))
  -- prior_bias / P_A
  have hQ : ∃ wQ : ℚ, Double.div (Double.finite F.prior_bias) (Double.finite wP) =
      Double.finite wQ ∧ 0 ≤ wQ ∧
      Double.within 4 (F.prior_bias / ((n0 : ℚ) / ((n0 : ℚ) + n1))) wQ := by
    rcases hbias with h | h
    · rw [h]
      exact ⟨0, Double.div_zero_left wP pP, le_refl 0, by simp [Double.within]⟩
    · have hb0 : 0 < F.prior_bias := lt_of_lt_of_le (by positivity) h.1
      have q1 : 1 / 2 ^ 900 ≤ F.prior_bias / ((n0 : ℚ) / ((n0 : ℚ) + n1)) := by
        rw [le_div_iff₀ hP0]
        calc 1 / 2 ^ 900 * ((n0 : ℚ) / ((n0 : ℚ) + n1)) ≤ 1 / 2 ^ 900 * 1 :=
              mul_le_mul_of_nonneg_left hP1 (by positivity)
          _ ≤ F.prior_bias := by rw [mul_one]; exact h.1
      have q2 : F.prior_bias / ((n0 : ℚ) / ((n0 : ℚ) + n1)) ≤ 2 ^ 964 := by
        rw [div_le_iff₀ hP0]
        calc F.prior_bias ≤ 2 ^ 900 := h.2
          _ = 2 ^ 964 * (1 / 2 ^ 64) := by norm_num
          _ ≤ 2 ^ 964 * ((n0 : ℚ) / ((n0 : ℚ) + n1)) :=
              mul_le_mul_of_nonneg_left hP2 (by positivity)
      obtain ⟨wQ, eQ, pQ, kQ⟩ := Double.div_within 0 3 F.prior_bias _ F.prior_bias wP
        hb0 hP0 hb0 pP ⟨by simp, by simp⟩ kP (by norm_num)
        (le_trans (by norm_num) q1) (le_trans q2 (by norm_num))
      exact ⟨wQ, eQ, pQ.le, kQ⟩
  obtain ⟨wQ, eQ, pQ, kQ⟩ := hQ
  have hQ0 : 0 ≤ F.prior_bias / ((n0 : ℚ) / ((n0 : ℚ) + n1)) := div_nonneg hpb0 hP0.le
  have hQ1 : F.prior_bias / ((n0 : ℚ) / ((n0 : ℚ) + n1)) ≤ 2 ^ 964 := by
    rw [div_le_iff₀ hP0]
    calc F.prior_bias ≤ 2 ^ 900 := hpb1
      _ = 2 ^ 964 * (1 / 2 ^ 64) := by norm_num
      _ ≤ 2 ^ 964 * ((n0 : ℚ) / ((n0 : ℚ) + n1)) :=
          mul_le_mul_of_nonneg_left hP2 (by positivity)
  -- the divisor
  obtain ⟨wD, eD, pD, kD⟩ := Double.add_within 4 ((s.count : ℚ) + cB)
    (F.prior_bias / ((n0 : ℚ) / ((n0 : ℚ) + n1))) wt wQ pt.le pQ
    (Double.within_mono 1 4 _ _ (by norm_num) (by linarith) pt.le kt) kQ (by norm_num)
    (le_trans (by norm_num) (by linarith : (1 : ℚ) ≤ (s.count : ℚ) + cB +
      F.prior_bias / ((n0 : ℚ) / ((n0 : ℚ) + n1))))
    (le_trans (by linarith : (s.count : ℚ) + cB +
      F.prior_bias / ((n0 : ℚ) / ((n0 : ℚ) + n1)) ≤ 2 ^ 64 + 2 ^ 964) (by norm_num))
  -- the dividend
  obtain ⟨wU, eU, pU, kU⟩ := Double.add_within 1 (s.count : ℚ) F.prior_bias wc F.prior_bias
    pc.le hpb0 kc (Double.within_mono 0 1 _ _ (by norm_num) hpb0 hpb0 ⟨by simp, by simp⟩)
    (by norm_num) (le_trans (by norm_num) (by linarith : (1 : ℚ) ≤ (s.count : ℚ) + F.prior_bias))
    (le_trans (by linarith : (s.count : ℚ) + F.prior_bias ≤ 2 ^ 64 + 2 ^ 900) (by norm_num))
  -- the quotient
  have hDpos : 0 < (s.count : ℚ) + cB + F.prior_bias / ((n0 : ℚ) / ((n0 : ℚ) + n1)) := by
    linarith
  have hUpos : 0 < (s.count : ℚ) + F.prior_bias := by linarith
  have v1 : 1 / 2 ^ 965 ≤ ((s.count : ℚ) + F.prior_bias) /
      ((s.count : ℚ) + cB + F.prior_bias / ((n0 : ℚ) / ((n0 : ℚ) + n1))) := by
    rw [div_le_div_iff₀ (by positivity) hDpos, one_mul]
    have : (s.count : ℚ) + cB + F.prior_bias / ((n0 : ℚ) / ((n0 : ℚ) + n1)) ≤
        2 ^ 64 + 2 ^ 964 := by linarith
    have h965 : (2 : ℚ) ^ 64 + 2 ^ 964 ≤ 1 * 2 ^ 965 := by norm_num
    have : ((s.count : ℚ) + F.prior_bias) * 2 ^ 965 ≥ 1 * 2 ^ 965 :=
      mul_le_mul_of_nonneg_right (by linarith) (by positivity)
    linarith
  have v2 : ((s.count : ℚ) + F.prior_bias) /
      ((s.count : ℚ) + cB + F.prior_bias / ((n0 : ℚ) / ((n0 : ℚ) + n1))) ≤ 2 ^ 64 + 2 ^ 900 := by
    rw [div_le_iff₀ hDpos]
    have : ((2 : ℚ) ^ 64 + 2 ^ 900) * 1 ≤ (2 ^ 64 + 2 ^ 900) *
        ((s.count : ℚ) + cB + F.prior_bias / ((n0 : ℚ) / ((n0 : ℚ) + n1))) :=
      mul_le_mul_of_nonneg_left (by linarith) (by positivity)
    linarith
  obtain ⟨W, eW, pW, kW⟩ := Double.div_within 2 5 _ _ wU wD hUpos hDpos pU pD kU kD
    (by norm_num) (le_trans (by norm_num) v1) (le_trans v2 (by norm_num))
  refine ⟨W, ?_, ?_⟩
  · unfold FindSubstrings.posterior
    simp only [← hn0, ← hn1, ec, et, e0, eN, eP, eQ, eD, eU, eW]
  · have hform : F.prior_bias * ((n0 : ℚ) + (n1 : ℚ)) / (n0 : ℚ) =
        F.prior_bias / ((n0 : ℚ) / ((n0 : ℚ) + n1)) := by
      rw [div_div_eq_mul_div]
    rw [hform]
    exact kW

/-- C14 as stated fails: for a candidate with `c = 2`, `cB = 0`, `n0 = 7`, `n1 = 3`,
`prior_bias = 1` and `threshold = 0.875` the posterior read in exact arithmetic is 7/8, which is
not below the threshold, but the `double` computation gives `7881299347898367 / 2 ^ 53`
(0.8749999999999999), which is: the candidate is dropped. -/
theorem C14_rounding_counterexample :
    FindSubstrings.posteriorExact
      { do_probability := true, threshold := mkRat 7 8, input0 := ascii "aa\x00aa\x00",
        input0_n_gram_counts_ := [0, 7, 7], input1_n_gram_counts_ := [0, 3, 3] } ⟨0, 2, 2⟩ 0 =
      some (7 / 8) ∧
    (mkRat 7 8 : ℚ) = 7 / 8 ∧ ¬ ((7 / 8 : ℚ) < 7 / 8) ∧
    FindSubstrings.posterior
      { do_probability := true, threshold := mkRat 7 8, input0 := ascii "aa\x00aa\x00",
        input0_n_gram_counts_ := [0, 7, 7], input1_n_gram_counts_ := [0, 3, 3] } ⟨0, 2, 2⟩ 0 =
      Double.finite (mkRat 7881299347898367 (2 ^ 53)) ∧
    (mkRat 7881299347898367 (2 ^ 53) : ℚ) < mkRat 7 8 ∧
    FindSubstrings.candidate
      { do_probability := true, threshold := mkRat 7 8, input0 := ascii "aa\x00aa\x00",
        input0_n_gram_counts_ := [0, 7, 7], input1_n_gram_counts_ := [0, 3, 3] } 2 0 {}
      ⟨0, 2, 2⟩ = some {} ∧
    FindSubstrings.candidate
      { do_probability := true, threshold := mkRat 7 8, input0 := ascii "aa\x00aa\x00",
        input0_n_gram_counts_ := [0, 8, 8], input1_n_gram_counts_ := [0, 0, 0] } 2 0 {}
      ⟨0, 2, 2⟩ = some { out := [⟨0, 2, 2, 0, 1⟩] } := by
  refine ⟨?_, by norm_num [Rat.mkRat_eq_div], by norm_num, by decide, by decide, by decide,
    by decide⟩
  rw [FindSubstrings.posteriorExact_eq _ _ 0 7 3 (by decide) (by decide) (by decide)
    (by norm_num)]
  norm_num

/-- C14 amended: when `do_probability` or `threshold` is set, for every candidate with A-count
`c >= 1`, B-count `cB` (`c + cB < 2^64`), histogram entries `n0 = ngram0[length] > 0` and
`n1 = ngram1[length]` (0 when `length` is outside a table, `n0 + n1 < 2^64`) and `prior_bias`
either 0 or between `2^-900` and `2^900`, the posterior expression of `FindSubstrings` read in
exact rational arithmetic is `V = (c + prior_bias) / (c + cB + prior_bias * (n0 + n1) / n0)`;
the code evaluates it in `double` arithmetic to a finite value `W` that lies within eight
roundings of `V`, `V * (1 - 2^-53)^8 <= W` and `W * (1 - 2^-53)^8 <= V`, and a candidate that
reaches the scoring step is dropped exactly when `W` (not `V`) is below `threshold`: otherwise
it is printed or, in unique mode, handed to the accumulator, with the score `W` in probability
mode. -/
theorem C14_posterior_and_threshold (F : Finder) (s : Substring) (cB n0 n1 : Nat) (V : ℚ)
    (hmode : F.do_probability = true ∨ F.threshold ≠ 0)
    (hn0 : n0 = if s.length < F.input0_n_gram_counts_.length then
      F.input0_n_gram_counts_.getD s.length 0 else 0)
    (hn1 : n1 = if s.length < F.input1_n_gram_counts_.length then
      F.input1_n_gram_counts_.getD s.length 0 else 0)
    (hpos : 0 < n0) (hcount : 0 < s.count)
    (hsize : s.count + cB < 2 ^ 64) (hgrams : n0 + n1 < 2 ^ 64)
    (hbias : F.prior_bias = 0 ∨ (1 / 2 ^ 900 ≤ F.prior_bias ∧ F.prior_bias ≤ 2 ^ 900))
    (hV : V = ((s.count : ℚ) + F.prior_bias) /
      ((s.count : ℚ) + (cB : ℚ) + F.prior_bias * ((n0 : ℚ) + (n1 : ℚ)) / (n0 : ℚ))) :
    FindSubstrings.posteriorExact F s cB = some V ∧
    ∃ W : ℚ, FindSubstrings.posterior F s cB = Double.finite W ∧
      V * (1 - 1 / 2 ^ 53) ^ 8 ≤ W ∧ W * (1 - 1 / 2 ^ 53) ^ 8 ≤ V ∧
      ∀ (input0_threshold input1_threshold : Nat) (st : State) (lo hi : Nat),
        ¬ s.count < input0_threshold →
        FindSubstrings.lookup F s st.input1_offset = some (lo, hi) →
        (if F.do_document then (FindSubstrings.countDocuments F (hi - lo) lo []).map List.length
          else some (hi - lo)) = some cB →
        ¬ cB > input1_threshold →
        (if F.do_words then FindSubstrings.wordBoundary F s else some true) = some true →
        FindSubstrings.candidate F input0_threshold input1_threshold st s =
          some (if W < F.threshold then { st with input1_offset := lo }
            else if F.do_unique then
              { st with
                input1_offset := lo
                matches_ := FindSubstrings.accumulate F st.matches_
                  (Match.mk s.text s.length (if F.do_probability then W else (s.count : ℚ))) }
            else
              { st with
                input1_offset := lo
                out := st.out ++ [Line.mk s.text s.length s.count cB
                  (if F.do_probability then W else (s.count : ℚ))] }) := by
  have hbias0 : 0 ≤ F.prior_bias := by
    rcases hbias with h | h
    · rw [h]
    · exact le_trans (by positivity) h.1
  have hpost := FindSubstrings.posteriorExact_eq F s cB n0 n1 hn0 hn1 hpos
    (ne_of_gt (FindSubstrings.posteriorExact_divisor_pos F s cB n0 n1 hpos hcount hbias0))
  rw [← hV] at hpost
  obtain ⟨W, hW, k1, k2⟩ :=
    FindSubstrings.posterior_within F s cB n0 n1 hn0 hn1 hpos hcount hsize hgrams hbias
  rw [← hV] at k1 k2
  exact ⟨hpost, W, hW, k1, k2, fun t0 t1 st lo hi h1 h2 h3 h4 h5 =>
    FindSubstrings.candidate_scored F s cB W hmode hW t0 t1 st lo hi h1 h2 h3 h4 h5⟩

/-- C14 amended, at concrete inputs.  In document mode the values `c = 1`, `cB = 2`, `n0 = 1`,
`n1 = 2`, `prior_bias = 1` give the exact posterior 2/6 and the computed posterior
`6004799503160661 / 2 ^ 54`, the `double` nearest to 1/3.  In count mode, for
A = "aa\0aa\0" with B empty, the candidate "aa" (count 2, B count 0, `n0 = 2`, `n1 = 0`) has
the posterior 1, exact and computed, and is printed. -/
theorem C14_posterior_and_threshold_witness :
    (FindSubstrings.posterior
        { do_document := true, do_probability := true, prior_bias := 1,
          input0_n_gram_counts_ := [0, 1, 1], input1_n_gram_counts_ := [0, 2, 2] } ⟨0, 2, 1⟩ 2 =
        Double.finite (mkRat 6004799503160661 (2 ^ 54)) ∧
      FindSubstrings.posteriorExact
        { do_document := true, do_probability := true, prior_bias := 1,
          input0_n_gram_counts_ := [0, 1, 1], input1_n_gram_counts_ := [0, 2, 2] } ⟨0, 2, 1⟩ 2 =
        some (2 / 6)) ∧
    (FindSubstrings.posterior
        { do_probability := true, prior_bias := 1, input0 := ascii "aa\x00aa\x00",
          input0_n_gram_counts_ := [0, 2, 2] } ⟨0, 2, 2⟩ 0 = Double.finite 1 ∧
      FindSubstrings.posteriorExact
        { do_probability := true, prior_bias := 1, input0 := ascii "aa\x00aa\x00",
          input0_n_gram_counts_ := [0, 2, 2] } ⟨0, 2, 2⟩ 0 = some 1 ∧
      FindSubstrings.candidate
        { do_probability := true, prior_bias := 1, input0 := ascii "aa\x00aa\x00",
          input0_n_gram_counts_ := [0, 2, 2] } 2 0 {} ⟨0, 2, 2⟩ =
        some { out := [⟨0, 2, 2, 0, 1⟩] }) := by
  have hdoc := C14_posterior_and_threshold
      { do_document := true, do_probability := true, prior_bias := 1,
        input0_n_gram_counts_ := [0, 1, 1], input1_n_gram_counts_ := [0, 2, 2] } ⟨0, 2, 1⟩ 2 1 2
      (2 / 6) (Or.inl rfl) (by decide) (by decide) (by decide) (by decide) (by decide)
      (by decide) (Or.inr ⟨by norm_num, by norm_num⟩) (by norm_num)
  have hcnt := C14_posterior_and_threshold
      { do_probability := true, prior_bias := 1, input0 := ascii "aa\x00aa\x00",
        input0_n_gram_counts_ := [0, 2, 2] } ⟨0, 2, 2⟩ 0 2 0 1 (Or.inl rfl) (by decide)
      (by decide) (by decide) (by decide) (by decide) (by decide)
      (Or.inr ⟨by norm_num, by norm_num⟩) (by norm_num)
  obtain ⟨W, hW, -, -, hstep⟩ := hcnt.2
  have hW1 : W = 1 := by
    have h1 : FindSubstrings.posterior
        { do_probability := true, prior_bias := 1, input0 := ascii "aa\x00aa\x00",
          input0_n_gram_counts_ := [0, 2, 2] } ⟨0, 2, 2⟩ 0 = Double.finite 1 := by decide
    rw [h1] at hW
    exact (Double.finite.inj hW).symm
  refine ⟨⟨by decide, hdoc.1⟩, by decide, hcnt.1, ?_⟩
  rw [hstep 2 0 {} 0 0 (by decide) (by decide) (by decide) (by decide) (by decide), hW1]
  decide

/-! ## The windowed bound search -/

theorem boundSearch_partition (goRight : Nat → Option Bool) (k : Nat) :
    ∀ (fuel first len : Nat), len ≤ fuel → first ≤ k → k ≤ first + len →
      (∀ r, first ≤ r → r < k → goRight r = some true) →
      (∀ r, k ≤ r → r < first + len → goRight r = some false) →
      boundSearch goRight fuel first len = some k := by
  intro fuel
  induction fuel with
  | zero =>
    intro first len hf h1 h2 _ _
    rw [boundSearch]
    congr 1; omega
  | succ fuel ih =>
    intro first len hf h1 h2 ht hfalse
    rw [boundSearch]
    by_cases hlen : len = 0
    · rw [if_pos hlen]; congr 1; omega
    · rw [if_neg hlen]
      by_cases hm : first + len / 2 < k
      · simp only [ht (first + len / 2) (by omega) hm]
        exact ih (first + len / 2 + 1) (len - len / 2 - 1) (by omega) (by omega) (by omega)
          (fun r hr1 hr2 => ht r (by omega) hr2) (fun r hr1 hr2 => hfalse r hr1 (by omega))
      · simp only [hfalse (first + len / 2) (by omega) (by omega)]
        exact ih first (len / 2) (by omega) h1 (by omega)
          (fun r hr1 hr2 => ht r hr1 hr2) (fun r hr1 hr2 => hfalse r hr1 (by omega))

theorem FindSubstrings.windowed_partition (goRight : Nat → Option Bool)
    (suffix_count cursor k : Nat) (hck : cursor ≤ k) (hk : k ≤ suffix_count)
    (ht : ∀ r, cursor ≤ r → r < k → goRight r = some true)
    (hfalse : ∀ r, k ≤ r → r < suffix_count → goRight r = some false) :
    ∀ (fuel offset : Nat), suffix_count - offset < fuel → cursor ≤ offset → offset ≤ k →
      FindSubstrings.windowed
        (fun first last => boundSearch goRight (last - first) first (last - first))
        suffix_count fuel offset = some k := by
  intro fuel
  induction fuel with
  | zero => intro offset h; omega
  | succ fuel ih =>
    intro offset hf hco hok
    rw [FindSubstrings.windowed]
    have hsearch : boundSearch goRight (min (offset + 1024) suffix_count - offset) offset
        (min (offset + 1024) suffix_count - offset) = some (min k (min (offset + 1024) suffix_count)) :=
      boundSearch_partition goRight (min k (min (offset + 1024) suffix_count)) _ offset _
        (le_refl _) (by omega) (by omega)
        (fun r hr1 hr2 => ht r (by omega) (by omega))
        (fun r hr1 hr2 => hfalse r (by omega) (by omega))
    simp only [hsearch]
    by_cases hcont : min k (min (offset + 1024) suffix_count) = min (offset + 1024) suffix_count ∧
        min (offset + 1024) suffix_count ≠ suffix_count
    · rw [if_pos hcont]
      exact ih _ (by omega) (by omega) (by omega)
    · rw [if_neg hcont]
      congr 1; omega

/-- C18: for every B suffix array of `suffix_count` ranks, every starting cursor and every
comparator that is partitioned over the ranks `[cursor, suffix_count)` (for `lower_bound`:
`comp(elem, val)` true on a prefix and false on the rest; for `upper_bound`: `comp(val, elem)`
false on a prefix and true on the rest), the windowed search loop, which widens the window by
1024 ranks at a time, terminates within `suffix_count + 1` windows, does not move the cursor
backward, and leaves it at the rank that a single `lower_bound` (respectively `upper_bound`)
over the whole range `[cursor, suffix_count)` returns. -/
theorem C18_windowed_search_equals_single_search (less greater : Nat → Option Bool)
    (suffix_count cursor : Nat)
    (hless : ∃ k, cursor ≤ k ∧ k ≤ suffix_count ∧
      (∀ r, cursor ≤ r → r < k → less r = some true) ∧
      (∀ r, k ≤ r → r < suffix_count → less r = some false))
    (hgreater : ∃ k, cursor ≤ k ∧ k ≤ suffix_count ∧
      (∀ r, cursor ≤ r → r < k → greater r = some false) ∧
      (∀ r, k ≤ r → r < suffix_count → greater r = some true)) :
    (∃ r, FindSubstrings.windowed (lower_bound less) suffix_count (suffix_count + 1) cursor
          = some r ∧
        lower_bound less cursor suffix_count = some r ∧ cursor ≤ r ∧ r ≤ suffix_count) ∧
    (∃ r, FindSubstrings.windowed (upper_bound greater) suffix_count (suffix_count + 1) cursor
          = some r ∧
        upper_bound greater cursor suffix_count = some r ∧ cursor ≤ r ∧ r ≤ suffix_count) := by
  obtain ⟨k, hk1, hk2, ht, hf⟩ := hless
  obtain ⟨k', hk1', hk2', hf', ht'⟩ := hgreater
  refine ⟨⟨k, ?_, ?_, hk1, hk2⟩, ⟨k', ?_, ?_, hk1', hk2'⟩⟩
  · exact FindSubstrings.windowed_partition less suffix_count cursor k hk1 hk2 ht hf
      (suffix_count + 1) cursor (by omega) (le_refl _) hk1
  · exact boundSearch_partition less k _ cursor _ (le_refl _) hk1 (by omega) ht
      (fun r h1 h2 => hf r h1 (by omega))
  · exact FindSubstrings.windowed_partition (fun i => (greater i).map (fun b => !b))
      suffix_count cursor k' hk1' hk2' (fun r h1 h2 => by simp [hf' r h1 h2])
      (fun r h1 h2 => by simp [ht' r h1 h2]) (suffix_count + 1) cursor (by omega) (le_refl _) hk1'
  · exact boundSearch_partition (fun i => (greater i).map (fun b => !b)) k' _ cursor _
      (le_refl _) hk1' (by omega) (fun r h1 h2 => by simp [hf' r h1 h2])
      (fun r h1 h2 => by simp [ht' r h1 (by omega)])

/-- C18 at a concrete input: 3000 ranks, cursor 5, `lower_bound` partition at rank 2500 and
`upper_bound` partition at rank 2600 (three windows are needed). -/
theorem C18_windowed_search_equals_single_search_witness :
    (∃ r, FindSubstrings.windowed (lower_bound (fun r => some (decide (r < 2500)))) 3000
          (3000 + 1) 5 = some r ∧
        lower_bound (fun r => some (decide (r < 2500))) 5 3000 = some r ∧ 5 ≤ r ∧ r ≤ 3000) ∧
    (∃ r, FindSubstrings.windowed (upper_bound (fun r => some (decide (2600 ≤ r)))) 3000
          (3000 + 1) 5 = some r ∧
        upper_bound (fun r => some (decide (2600 ≤ r))) 5 3000 = some r ∧ 5 ≤ r ∧ r ≤ 3000) :=
  C18_windowed_search_equals_single_search (fun r => some (decide (r < 2500)))
    (fun r => some (decide (2600 ≤ r))) 3000 5
    ⟨2500, by omega, by omega, fun r _ h => by simp [h], fun r h _ => by simp; omega⟩
    ⟨2600, by omega, by omega, fun r _ h => by simp; omega, fun r h _ => by simp [h]⟩

/-! ## The order in which a scan's candidates are processed -/

theorem FindSubstrings.scan_lengths_increase (F : Finder) (hcolor : F.do_color = false)
    (shared_prefixes : List Nat) (i previous_prefix : Nat) :
    ∀ (fuel length j count : Nat) (matching_documents : List Nat) (stack0 stack : List Substring),
      stack0.Pairwise (fun a b => a.length < b.length) →
      (∀ s ∈ stack0, length < s.length) →
      FindSubstrings.scan F shared_prefixes i previous_prefix fuel length j count
        matching_documents stack0 = some stack →
      stack.Pairwise (fun a b => a.length < b.length) := by
  intro fuel
  induction fuel with
  | zero => intro length j count docs stack0 stack _ _ h; simp [FindSubstrings.scan] at h
  | succ fuel ih =>
    intro length j count docs stack0 stack hpw hlt h
    rw [FindSubstrings.scan] at h
    by_cases hcond : j ≤ F.input0_suffix_count_ ∧ length > previous_prefix
    · rw [if_pos hcond] at h
      cases hp : shared_prefixes[j - 1]? with
      | none => simp only [hp] at h; cases h
      | some p =>
        simp only [hp] at h
        by_cases hpl : p < length
        · have hdec : (length + 2 ^ SIZE_BITS - 1) % 2 ^ SIZE_BITS < length := by
            simp only [SIZE_BITS]
            omega
          simp only [if_pos hpl, hcolor, Bool.false_eq_true, if_false] at h
          by_cases hguard : (stack0.isEmpty || (!F.skip_samecount_prefixes ||
              (stack0.head?.map (fun t => t.count)) != some count)) = true
          · simp only [hguard, if_true] at h
            cases hsuf : F.input0_suffixes_[i]? with
            | none => simp only [hsuf] at h; cases h
            | some o =>
              simp only [hsuf] at h
              refine ih _ j count docs _ stack (List.Pairwise.cons (fun s hs => hlt s hs) hpw) ?_ h
              intro s hs
              rcases List.mem_cons.mp hs with rfl | hs
              · exact hdec
              · exact lt_trans hdec (hlt s hs)
          · simp only [hguard, Bool.false_eq_true, if_false] at h
            exact ih _ j count docs stack0 stack hpw (fun s hs => lt_trans hdec (hlt s hs)) h
        · simp only [if_neg hpl] at h
          by_cases hdoc : F.do_document = true
          · simp only [hdoc, if_true] at h
            cases hsuf : F.input0_suffixes_[j]? with
            | none => simp only [hsuf] at h; cases h
            | some o =>
              simp only [hsuf] at h
              exact ih _ _ _ _ stack0 stack hpw hlt h
          · simp only [hdoc, Bool.false_eq_true, if_false] at h
            exact ih _ _ _ _ stack0 stack hpw hlt h
    · rw [if_neg hcond] at h
      cases h; exact hpw

/-- C17 as stated fails: for A = "abab\0" (count mode, B empty, `input0_threshold = 2`) the scan
opened at rank 0 pushes "ab" and then "a"; the stack is popped from the back, so "a" (length 1)
is processed and printed before "ab" (length 2). -/
theorem C17_longest_first_counterexample :
    BuildLCPArray [] (ascii "abab\x00") [2, 0, 3, 1, 1] 4 = some [2, 0, 1, 3] ∧
    FindSubstrings.scan
      { input0 := ascii "abab\x00", input0_suffixes_ := [2, 0, 3, 1, 1],
        input0_suffix_count_ := 4 } [2, 0, 1, 3] 1 0 8 2 2 2 [] []
      = some [⟨0, 1, 2⟩, ⟨0, 2, 2⟩] ∧
    FindSubstringFrequencies { input0 := ascii "abab\x00", input0_threshold := 2 }
      [4, 2, 0, 3, 1] [] []
      = some { lines := [⟨0, 1, 2, 0, 2⟩, ⟨0, 2, 2, 0, 2⟩] } := by
  decide

/-- C17 amended: with colour mode off, for every forward scan of the enumerator the candidates
are popped and run through the per-candidate pipeline in order of strictly increasing length:
the stack that the scan leaves has, from its back on, strictly increasing lengths, and the
draining loop runs the pipeline on the back (the shortest candidate) first. -/
theorem C17_scan_pops_shortest_first (F : Finder) (hcolor : F.do_color = false)
    (shared_prefixes : List Nat) (i previous_prefix fuel length j count : Nat)
    (matching_documents : List Nat) (stack : List Substring)
    (hscan : FindSubstrings.scan F shared_prefixes i previous_prefix fuel length j count
      matching_documents [] = some stack) :
    stack.Pairwise (fun a b => a.length < b.length) ∧
    ∀ (input0_threshold input1_threshold : Nat) (st : State) (s : Substring)
      (rest : List Substring), stack = s :: rest →
      FindSubstrings.drain F input0_threshold input1_threshold stack st =
        (FindSubstrings.candidate F input0_threshold input1_threshold st s).bind
          (FindSubstrings.drain F input0_threshold input1_threshold rest) := by
  refine ⟨FindSubstrings.scan_lengths_increase F hcolor shared_prefixes i previous_prefix fuel
    length j count matching_documents [] stack List.Pairwise.nil (by simp) hscan, ?_⟩
  intro t0 t1 st s rest hs
  subst hs
  rw [FindSubstrings.drain]
  cases FindSubstrings.candidate F t0 t1 st s <;> rfl

/-- C17 amended, at the scan of A = "abab\0" opened at rank 0. -/
theorem C17_scan_pops_shortest_first_witness :
    ([⟨0, 1, 2⟩, ⟨0, 2, 2⟩] : List Substring).Pairwise (fun a b => a.length < b.length) ∧
    ∀ (input0_threshold input1_threshold : Nat) (st : State) (s : Substring)
      (rest : List Substring), ([⟨0, 1, 2⟩, ⟨0, 2, 2⟩] : List Substring) = s :: rest →
      FindSubstrings.drain
          { input0 := ascii "abab\x00", input0_suffixes_ := [2, 0, 3, 1, 1],
            input0_suffix_count_ := 4 } input0_threshold input1_threshold
          [⟨0, 1, 2⟩, ⟨0, 2, 2⟩] st =
        (FindSubstrings.candidate
          { input0 := ascii "abab\x00", input0_suffixes_ := [2, 0, 3, 1, 1],
            input0_suffix_count_ := 4 } input0_threshold input1_threshold st s).bind
          (FindSubstrings.drain
            { input0 := ascii "abab\x00", input0_suffixes_ := [2, 0, 3, 1, 1],
              input0_suffix_count_ := 4 } input0_threshold input1_threshold rest) :=
  C17_scan_pops_shortest_first
    { input0 := ascii "abab\x00", input0_suffixes_ := [2, 0, 3, 1, 1],
      input0_suffix_count_ := 4 } rfl [2, 0, 1, 3] 1 0 8 2 2 2 [] [⟨0, 1, 2⟩, ⟨0, 2, 2⟩]
    (by decide)

/-! ## The values written by BuildLCPArray -/

theorem BuildLCPArray.extend_window (text : List Nat) :
    ∀ (fuel p1 p0 h h1 : Nat), BuildLCPArray.extend text fuel p1 p0 h = some h1 →
      h ≤ h1 ∧ (h < h1 → p1 + (h1 - h) ≤ text.length) ∧
      ∀ k, k < h1 - h → ∃ b, text[p1 + k]? = some b ∧ b ≠ DELIMITER := by
  intro fuel
  induction fuel with
  | zero => intro p1 p0 h h1 hx; simp [BuildLCPArray.extend] at hx
  | succ fuel ih =>
    intro p1 p0 h h1 hx
    rw [BuildLCPArray.extend] at hx
    have hsame : ∀ {a : Nat}, some a = some h1 → a = h →
        h ≤ h1 ∧ (h < h1 → p1 + (h1 - h) ≤ text.length) ∧
        ∀ k, k < h1 - h → ∃ b, text[p1 + k]? = some b ∧ b ≠ DELIMITER := by
      intro a ha hah
      cases ha
      subst hah
      exact ⟨le_refl _, fun hlt => absurd hlt (lt_irrefl _), fun k hk => by omega⟩
    by_cases h1e : p1 = text.length
    · rw [if_pos h1e] at hx; exact hsame hx rfl
    · rw [if_neg h1e] at hx
      by_cases h0e : p0 = text.length
      · rw [if_pos h0e] at hx; exact hsame hx rfl
      · rw [if_neg h0e] at hx
        cases hc1 : text[p1]? with
        | none => simp only [hc1] at hx; cases hx
        | some c1 =>
          simp only [hc1] at hx
          by_cases hd : c1 = DELIMITER
          · rw [if_pos hd] at hx; exact hsame hx rfl
          · rw [if_neg hd] at hx
            cases hc0 : text[p0]? with
            | none => simp only [hc0] at hx; cases hx
            | some c0 =>
              simp only [hc0] at hx
              by_cases heq : c1 = c0
              · rw [if_pos heq] at hx
                obtain ⟨g1, g2, g3⟩ := ih (p1 + 1) (p0 + 1) (h + 1) h1 hx
                have hp1 : p1 < text.length := (List.getElem?_eq_some.mp hc1).1
                refine ⟨by omega, fun _ => ?_, fun k hk => ?_⟩
                · by_cases hlt : h + 1 < h1
                  · have := g2 hlt; omega
                  · omega
                · cases k with
                  | zero => exact ⟨c1, hc1, hd⟩
                  | succ k =>
                    obtain ⟨b, hb1, hb2⟩ := g3 k (by omega)
                    exact ⟨b, by rw [← hb1]; congr 1; omega, hb2⟩
              · rw [if_neg heq] at hx; exact hsame hx rfl

theorem BuildLCPArray.extend_total (text : List Nat) :
    ∀ (fuel p1 p0 h : Nat), p1 ≤ text.length → p0 ≤ text.length → text.length - p1 < fuel →
      ∃ h1, BuildLCPArray.extend text fuel p1 p0 h = some h1 := by
  intro fuel
  induction fuel with
  | zero => intro p1 p0 h _ _ hf; omega
  | succ fuel ih =>
    intro p1 p0 h hp1 hp0 hf
    rw [BuildLCPArray.extend]
    by_cases h1e : p1 = text.length
    · exact ⟨h, by rw [if_pos h1e]⟩
    · rw [if_neg h1e]
      by_cases h0e : p0 = text.length
      · exact ⟨h, by rw [if_pos h0e]⟩
      · rw [if_neg h0e]
        have h1lt : p1 < text.length := by omega
        have h0lt : p0 < text.length := by omega
        simp only [List.getElem?_eq_getElem h1lt, List.getElem?_eq_getElem h0lt]
        by_cases hd : text[p1] = DELIMITER
        · exact ⟨h, by rw [if_pos hd]⟩
        · rw [if_neg hd]
          by_cases heq : text[p1] = text[p0]
          · rw [if_pos heq]; exact ih _ _ _ (by omega) (by omega) (by omega)
          · exact ⟨h, by rw [if_neg heq]⟩

theorem windowInDocument_of_bytes (text : List Nat) (o v : Nat) (hin : o + v ≤ text.length)
    (hfree : ∀ k, k < v → ∃ b, text[o + k]? = some b ∧ b ≠ DELIMITER) :
    windowInDocument text o v = true := by
  unfold windowInDocument bytesAt
  rw [if_pos hin]
  simp only [Bool.not_eq_true', List.contains_eq_any_beq, List.any_eq_false, beq_iff_eq]
  intro x hx hcontra
  rw [List.mem_take_iff_getElem] at hx
  obtain ⟨k, hk, hxk⟩ := hx
  obtain ⟨b, hb1, hb2⟩ := hfree k (by omega)
  have hk2 : k < (List.drop o text).length := by omega
  have : (List.drop o text)[k]? = some b := by rw [List.getElem?_drop]; exact hb1
  rw [List.getElem?_eq_getElem hk2] at this
  cases this
  exact hb2 (hxk.trans hcontra.symm)

theorem BuildLCPArray.fillInverse_spec (suffixes : List Nat) :
    ∀ (n i : Nat) (inv inverse : List (Option Nat)),
      BuildLCPArray.fillInverse suffixes n i inv = some inverse →
      (∀ x : Nat, i ≤ x → x < i + n → ∃ o, suffixes[x]? = some o ∧ o < inv.length) ∧
      (∀ p x : Nat, inverse[p]? = some (some x) →
        inv[p]? = some (some x) ∨ suffixes[x]? = some p) := by
  intro n
  induction n with
  | zero =>
    intro i inv inverse h
    rw [BuildLCPArray.fillInverse] at h
    cases h
    exact ⟨fun x h1 h2 => by omega, fun p x hp => Or.inl hp⟩
  | succ n ih =>
    intro i inv inverse h
    rw [BuildLCPArray.fillInverse] at h
    cases ho : suffixes[i]? with
    | none => simp only [ho] at h; cases h
    | some o =>
      simp only [ho] at h
      by_cases hlt : o < inv.length
      · rw [if_pos hlt] at h
        obtain ⟨g1, g2⟩ := ih (i + 1) (inv.set o (some i)) inverse h
        refine ⟨fun x h1 h2 => ?_, fun p x hp => ?_⟩
        · by_cases hxi : x = i
          · subst hxi; exact ⟨o, ho, hlt⟩
          · obtain ⟨o', ho1, ho2⟩ := g1 x (by omega) (by omega)
            exact ⟨o', ho1, by simpa using ho2⟩
        · rcases g2 p x hp with hset | hsuf
          · rw [List.getElem?_set] at hset
            by_cases hop : o = p
            · rw [if_pos hop, if_pos hlt] at hset
              cases hset
              exact Or.inr (hop ▸ ho)
            · rw [if_neg hop] at hset
              exact Or.inl hset
          · exact Or.inr hsuf
      · rw [if_neg hlt] at h; cases h

theorem BuildLCPArray.loop_windows (text suffixes : List Nat) (inverse : List (Option Nat))
    (hsuf : ∀ p x : Nat, inverse[p]? = some (some x) → suffixes[x]? = some p) :
    ∀ (n i h : Nat) (result lcp : List Nat),
      (h = 0 ∨ (i + h ≤ text.length ∧ ∀ k : Nat, k < h → ∃ b, text[i + k]? = some b ∧ b ≠ DELIMITER)) →
      (∀ x o v : Nat, suffixes[x]? = some o → result[x]? = some v →
        v = 0 ∨ (o + v ≤ text.length ∧
          ∀ k : Nat, k < v → ∃ b, text[o + k]? = some b ∧ b ≠ DELIMITER)) →
      BuildLCPArray.loop text suffixes inverse n i h result = some lcp →
      ∀ x o v : Nat, suffixes[x]? = some o → lcp[x]? = some v →
        v = 0 ∨ (o + v ≤ text.length ∧
          ∀ k : Nat, k < v → ∃ b, text[o + k]? = some b ∧ b ≠ DELIMITER) := by
  intro n
  induction n with
  | zero =>
    intro i h result lcp _ hres hrun
    rw [BuildLCPArray.loop] at hrun
    cases hrun
    exact hres
  | succ n ih =>
    intro i h result lcp hinv hres hrun
    have hnext : ∀ g, (g = 0 ∨ (i + g ≤ text.length ∧
        ∀ k : Nat, k < g → ∃ b, text[i + k]? = some b ∧ b ≠ DELIMITER)) →
        (g - 1 = 0 ∨ (i + 1 + (g - 1) ≤ text.length ∧
          ∀ k : Nat, k < g - 1 → ∃ b, text[i + 1 + k]? = some b ∧ b ≠ DELIMITER)) := by
      intro g hg
      rcases hg with hg | ⟨hg1, hg2⟩
      · exact Or.inl (by omega)
      · by_cases hg0 : g - 1 = 0
        · exact Or.inl hg0
        · refine Or.inr ⟨by omega, fun k hk => ?_⟩
          obtain ⟨b, hb1, hb2⟩ := hg2 (k + 1) (by omega)
          exact ⟨b, by rw [← hb1]; congr 1; omega, hb2⟩
    rw [BuildLCPArray.loop] at hrun
    cases hx : inverse[i]? with
    | none => simp only [hx] at hrun; cases hrun
    | some ox =>
      cases ox with
      | none =>
        simp only [hx] at hrun
        exact ih (i + 1) (h - 1) result lcp (hnext h hinv) hres hrun
      | some x =>
        simp only [hx] at hrun
        cases hj : suffixes[x + 1]? with
        | none => simp only [hj] at hrun; cases hrun
        | some j =>
          simp only [hj] at hrun
          cases hext : BuildLCPArray.extend text (text.length + 1) (i + h) (j + h) h with
          | none => simp only [hext] at hrun; cases hrun
          | some h1 =>
            simp only [hext] at hrun
            by_cases hxl : x < result.length
            · rw [if_pos hxl] at hrun
              obtain ⟨e1, e2, e3⟩ := BuildLCPArray.extend_window text _ _ _ _ _ hext
              have hwin : h1 = 0 ∨ (i + h1 ≤ text.length ∧
                  ∀ k : Nat, k < h1 → ∃ b, text[i + k]? = some b ∧ b ≠ DELIMITER) := by
                by_cases h10 : h1 = 0
                · exact Or.inl h10
                · refine Or.inr ⟨?_, fun k hk => ?_⟩
                  · rcases hinv with h0 | ⟨hi1, _⟩
                    · have := e2 (by omega); omega
                    · by_cases hlt : h < h1
                      · have := e2 hlt; omega
                      · omega
                  · by_cases hkh : k < h
                    · rcases hinv with h0 | ⟨_, hi2⟩
                      · omega
                      · exact hi2 k hkh
                    · obtain ⟨b, hb1, hb2⟩ := e3 (k - h) (by omega)
                      exact ⟨b, by rw [← hb1]; congr 1; omega, hb2⟩
              refine ih (i + 1) (h1 - 1) (result.set x h1) lcp (hnext h1 hwin) ?_ hrun
              intro x' o v ho hv
              rw [List.getElem?_set] at hv
              by_cases hxx : x = x'
              · subst hxx
                rw [if_pos rfl, if_pos hxl] at hv
                cases hv
                have := hsuf i x hx
                rw [this] at ho
                cases ho
                exact hwin
              · rw [if_neg hxx] at hv
                exact hres x' o v ho hv
            · rw [if_neg hxl] at hrun; cases hrun

theorem BuildLCPArray.fillInverse_total (suffixes : List Nat) :
    ∀ (n i : Nat) (inv : List (Option Nat)),
      (∀ x : Nat, i ≤ x → x < i + n → ∃ o, suffixes[x]? = some o ∧ o < inv.length) →
      ∃ inverse, BuildLCPArray.fillInverse suffixes n i inv = some inverse := by
  intro n
  induction n with
  | zero => intro i inv _; exact ⟨inv, by rw [BuildLCPArray.fillInverse]⟩
  | succ n ih =>
    intro i inv h
    obtain ⟨o, ho1, ho2⟩ := h i (le_refl _) (by omega)
    rw [BuildLCPArray.fillInverse]
    simp only [ho1, if_pos ho2]
    apply ih
    intro x hx1 hx2
    obtain ⟨o', h1, h2⟩ := h x (by omega) (by omega)
    exact ⟨o', h1, by simpa using h2⟩

theorem offsets_in_range (text suffixes : List Nat) (suffix_count : Nat)
    (hcount : suffix_count ≤ suffixes.length)
    (hrange : (suffixes.take suffix_count).all (fun o => decide (o < text.length)) = true) :
    ∀ x : Nat, x < suffix_count → ∃ o, suffixes[x]? = some o ∧ o < text.length := by
  intro x hx
  have hx' : x < suffixes.length := by omega
  refine ⟨suffixes[x], List.getElem?_eq_getElem hx', ?_⟩
  rw [List.all_eq_true] at hrange
  have hmem : suffixes[x] ∈ suffixes.take suffix_count := by
    rw [List.mem_iff_getElem?]
    exact ⟨x, by rw [List.getElem?_take_of_lt hx, List.getElem?_eq_getElem hx']⟩
  simpa using hrange _ hmem

/-- Claim C15.  Take any buffer and any array whose first `suffix_count` slots hold offsets
inside the buffer, whatever the slot past the last rank holds.  The inverse-filling loop of
`BuildLCPArray` completes, and after any number `n` of iterations of the main loop that ran
without reading outside the buffer (`n = text.length` is the whole call), every value `lcp[x]`
of a rank `x < suffix_count` is at most the distance from `suffixes[x]` to the next delimiter
or to the end of the buffer: the bytes `text[suffixes[x] .. suffixes[x] + lcp[x])` lie inside
the buffer and hold no delimiter. -/
theorem C15_lcp_values_stay_inside_document (text suffixes : List Nat) (suffix_count : Nat)
    (hcount : suffix_count ≤ suffixes.length)
    (hrange : (suffixes.take suffix_count).all (fun o => decide (o < text.length)) = true) :
    ∃ inverse,
      BuildLCPArray.fillInverse suffixes suffix_count 0 (List.replicate text.length none) =
        some inverse ∧
      ∀ (n : Nat) (lcp : List Nat),
        BuildLCPArray.loop text suffixes inverse n 0 0 (resize [] suffix_count) = some lcp →
        (n = text.length → BuildLCPArray [] text suffixes suffix_count = some lcp) ∧
        ∀ x o v : Nat, x < suffix_count → suffixes[x]? = some o → lcp[x]? = some v →
          windowInDocument text o v = true ∧
          ∃ w, bytesAt text o v = some w ∧ DELIMITER ∉ w := by
  have hoff := offsets_in_range text suffixes suffix_count hcount hrange
  obtain ⟨inverse, hinv⟩ := BuildLCPArray.fillInverse_total suffixes suffix_count 0
    (List.replicate text.length none) (fun x _ hx => by
      obtain ⟨o, h1, h2⟩ := hoff x (by omega)
      exact ⟨o, h1, by simpa using h2⟩)
  refine ⟨inverse, hinv, fun n lcp hrun => ?_⟩
  obtain ⟨_, g2⟩ := BuildLCPArray.fillInverse_spec suffixes _ _ _ _ hinv
  have hsuf : ∀ p x : Nat, inverse[p]? = some (some x) → suffixes[x]? = some p := by
    intro p x hp
    rcases g2 p x hp with h | h
    · rw [List.getElem?_replicate] at h
      split at h <;> cases h
    · exact h
  have hinit : ∀ x o v : Nat, suffixes[x]? = some o → (resize [] suffix_count)[x]? = some v →
      v = 0 ∨ (o + v ≤ text.length ∧
        ∀ k : Nat, k < v → ∃ b, text[o + k]? = some b ∧ b ≠ DELIMITER) := by
    intro x o v _ hv
    left
    unfold resize at hv
    simp only [List.take_nil, List.nil_append, List.length_nil, Nat.sub_zero] at hv
    rw [List.getElem?_replicate] at hv
    split at hv
    · cases hv; rfl
    · cases hv
  have hall := BuildLCPArray.loop_windows text suffixes inverse hsuf n 0 0 _ lcp
    (Or.inl rfl) hinit hrun
  refine ⟨fun hn => ?_, fun x o v hx ho hv => ?_⟩
  · subst hn
    unfold BuildLCPArray
    simp only [hinv]
    exact hrun
  · obtain ⟨o', ho1, ho2⟩ := hoff x hx
    rw [ho] at ho1
    cases ho1
    have hwin : windowInDocument text o v = true := by
      rcases hall x o v ho hv with h0 | ⟨h1, h2⟩
      · subst h0
        exact windowInDocument_of_bytes text o 0 (by omega) (fun k hk => by omega)
      · exact windowInDocument_of_bytes text o v h1 h2
    refine ⟨hwin, ?_⟩
    unfold windowInDocument at hwin
    cases hb : bytesAt text o v with
    | none => simp [hb] at hwin
    | some w =>
      refine ⟨w, rfl, ?_⟩
      simpa [hb] using hwin

/-- Witness for C15: the buffer `foofoofoo` followed by a delimiter, its nine anchors in sorted
order and the stale copy of offset 1 in the slot past the last rank; the whole call returns
`[3, 6, 0, 1, 4, 7, 2, 5, 8]`. -/
theorem C15_lcp_values_stay_inside_document_witness :
    (9 ≤ [6, 3, 0, 8, 5, 2, 7, 4, 1, 1].length ∧
      (([6, 3, 0, 8, 5, 2, 7, 4, 1, 1] : List Nat).take 9).all
        (fun o => decide (o < (ascii "foofoofoo\x00").length)) = true ∧
      BuildLCPArray [] (ascii "foofoofoo\x00") [6, 3, 0, 8, 5, 2, 7, 4, 1, 1] 9 =
        some [3, 6, 0, 1, 4, 7, 2, 5, 8]) ∧
    ∃ inverse,
      BuildLCPArray.fillInverse [6, 3, 0, 8, 5, 2, 7, 4, 1, 1] 9 0
        (List.replicate (ascii "foofoofoo\x00").length none) = some inverse ∧
      ∀ (n : Nat) (lcp : List Nat),
        BuildLCPArray.loop (ascii "foofoofoo\x00") [6, 3, 0, 8, 5, 2, 7, 4, 1, 1] inverse n 0 0
          (resize [] 9) = some lcp →
        (n = (ascii "foofoofoo\x00").length →
          BuildLCPArray [] (ascii "foofoofoo\x00") [6, 3, 0, 8, 5, 2, 7, 4, 1, 1] 9 =
            some lcp) ∧
        ∀ x o v : Nat, x < 9 → [6, 3, 0, 8, 5, 2, 7, 4, 1, 1][x]? = some o →
          lcp[x]? = some v →
          windowInDocument (ascii "foofoofoo\x00") o v = true ∧
          ∃ w, bytesAt (ascii "foofoofoo\x00") o v = some w ∧ DELIMITER ∉ w :=
  ⟨⟨by decide, by decide, by decide⟩,
    C15_lcp_values_stay_inside_document (ascii "foofoofoo\x00")
      [6, 3, 0, 8, 5, 2, 7, 4, 1, 1] 9 (by decide) (by decide)⟩

/-- The call can read outside the buffer when the array is not sorted: with the text `aaaa`,
anchors 0 and 1 and the slot past the last rank holding 3, the step of rank 1 starts with
`h = 2` and dereferences `text + 3 + 2`, past the end of the four bytes.  This is why the
property above is stated for every completed number of iterations. -/
theorem BuildLCPArray_reads_past_buffer :
    BuildLCPArray [] (ascii "aaaa") [0, 1, 3] 2 = none ∧
    BuildLCPArray.loop (ascii "aaaa") [0, 1, 3] [some 0, some 1, none, none] 1 0 0 (resize [] 2) =
      some [3, 0] := by
  decide

/-! ## The enumerator in count mode with colour mode off -/

theorem commonPrefix_ge :
    ∀ (l : Nat) (x y : List Nat), l ≤ commonPrefix x y →
      l ≤ x.length ∧ l ≤ y.length ∧ x.take l = y.take l ∧ DELIMITER ∉ x.take l := by
  intro l
  induction l with
  | zero => intro x y _; simp
  | succ l ih =>
    intro x y h
    cases x with
    | nil => simp [commonPrefix] at h
    | cons a x =>
      cases y with
      | nil => simp [commonPrefix] at h
      | cons b y =>
        rw [commonPrefix] at h
        by_cases hab : a ≠ DELIMITER ∧ a = b
        · rw [if_pos hab] at h
          obtain ⟨h1, h2, h3, h4⟩ := ih x y (by omega)
          obtain ⟨ha, hb⟩ := hab
          subst hb
          refine ⟨by simp; omega, by simp; omega, by simp [h3], ?_⟩
          simp only [List.take_succ_cons, List.mem_cons, not_or]
          exact ⟨fun e => ha e.symm, h4⟩
        · rw [if_neg hab] at h
          omega

theorem commonPrefix_of_eq :
    ∀ (l : Nat) (x y : List Nat), l ≤ x.length → l ≤ y.length → x.take l = y.take l →
      DELIMITER ∉ x.take l → l ≤ commonPrefix x y := by
  intro l
  induction l with
  | zero => intro x y _ _ _ _; exact Nat.zero_le _
  | succ l ih =>
    intro x y hx hy he hd
    cases x with
    | nil => simp at hx
    | cons a x =>
      cases y with
      | nil => simp at hy
      | cons b y =>
        simp only [List.take_succ_cons, List.cons.injEq] at he
        simp only [List.take_succ_cons, List.mem_cons, not_or] at hd
        simp only [List.length_cons] at hx hy
        rw [commonPrefix, if_pos ⟨fun e => hd.1 e.symm, he.1⟩]
        have := ih x y (by omega) (by omega) he.2 hd.2
        omega

theorem lexLt_between :
    ∀ (l : Nat) (x y z : List Nat), lexLt x y = true → lexLt y z = true →
      l ≤ x.length → l ≤ z.length → x.take l = z.take l →
      l ≤ y.length ∧ y.take l = x.take l := by
  intro l
  induction l with
  | zero => intro x y z _ _ _ _ _; simp
  | succ l ih =>
    intro x y z h1 h2 hx hz he
    cases x with
    | nil => simp at hx
    | cons a x =>
      cases z with
      | nil => simp at hz
      | cons c z =>
        cases y with
        | nil => simp [lexLt] at h1
        | cons b y =>
          simp only [List.take_succ_cons, List.cons.injEq] at he
          simp only [List.length_cons] at hx hz
          simp only [lexLt, Bool.or_eq_true, Bool.and_eq_true, decide_eq_true_eq] at h1 h2
          obtain ⟨hac, he2⟩ := he
          have hab : a = b := by
            rcases h1 with h1 | ⟨h1, _⟩
            · rcases h2 with h2 | ⟨h2, _⟩ <;> omega
            · exact h1
          have h1' : lexLt x y = true := by
            rcases h1 with h1 | ⟨_, h1⟩
            · omega
            · exact h1
          have h2' : lexLt y z = true := by
            rcases h2 with h2 | ⟨_, h2⟩
            · omega
            · exact h2
          obtain ⟨g1, g2⟩ := ih x y z h1' h2' (by omega) (by omega) he2
          exact ⟨by simp; omega, by simp [hab, g2]⟩

theorem suffixesAscending_lt (text : List Nat) :
    ∀ (sa : List Nat), suffixesAscending text sa = true →
      ∀ (r d a b : Nat), sa[r]? = some a → sa[r + d + 1]? = some b →
        lexLt (text.drop a) (text.drop b) = true := by
  intro sa
  induction sa with
  | nil => intro _ r d a b h; simp at h
  | cons a0 sa ih =>
    intro hs r d a b ha hb
    cases sa with
    | nil =>
      rw [show r + d + 1 = (r + d) + 1 by omega] at hb
      simp at hb
    | cons b0 sa =>
      simp only [suffixesAscending, Bool.and_eq_true] at hs
      cases r with
      | zero =>
        simp only [List.getElem?_cons_zero, Option.some.injEq] at ha
        subst ha
        simp only [Nat.zero_add, List.getElem?_cons_succ] at hb
        cases d with
        | zero =>
          simp only [List.getElem?_cons_zero, Option.some.injEq] at hb
          subst hb
          exact hs.1
        | succ d =>
          have h2 := ih hs.2 0 d b0 b (by simp) (by simpa using hb)
          exact lexLt_trans _ _ _ hs.1 h2
      | succ r =>
        rw [show r + 1 + d + 1 = (r + d + 1) + 1 by omega] at hb
        rw [List.getElem?_cons_succ] at ha hb
        exact ih hs.2 r d a b ha hb

theorem filter_range_interval (a b : Nat) :
    ∀ (n : Nat) (f : Nat → Bool), (∀ r, r < n → (f r = true ↔ a ≤ r ∧ r ≤ b)) → a ≤ b + 1 →
      ((List.range n).filter f).length = (if n ≤ b + 1 then n else b + 1) - (if n ≤ a then n else a) := by
  intro n
  induction n with
  | zero => intro f _ _; simp
  | succ n ih =>
    intro f hf hab
    rw [List.range_succ, List.filter_append, List.length_append,
      ih f (fun r hr => hf r (by omega)) hab]
    have hn := hf n (by omega)
    by_cases hfn : f n = true
    · have := hn.1 hfn
      have hone : (List.filter f [n]).length = 1 := by simp [hfn]
      rw [hone]
      split_ifs <;> omega
    · have : ¬ (a ≤ n ∧ n ≤ b) := fun h => hfn (hn.2 h)
      have hnone : (List.filter f [n]).length = 0 := by simp [hfn]
      rw [hnone]
      split_ifs <;> omega

theorem bytesAt_eq_iff (text : List Nat) (a l : Nat) (w : List Nat) (hl : 1 ≤ l) :
    bytesAt text a l = some w ↔ l ≤ (text.drop a).length ∧ (text.drop a).take l = w := by
  unfold bytesAt
  rw [List.length_drop]
  constructor
  · intro h
    split at h
    · cases h; exact ⟨by omega, rfl⟩
    · cases h
  · rintro ⟨h1, h2⟩
    rw [if_pos (by omega), h2]

theorem getElem?_take_getD (suf : List Nat) (n r : Nat) (hn : n ≤ suf.length) (hr : r < n) :
    (suf.take n)[r]? = some (suf.getD r 0) ∧ suf[r]? = some (suf.getD r 0) := by
  have h1 : suf[r]? = some (suf.getD r 0) := by
    rw [List.getD_eq_getElem?_getD, List.getElem?_eq_getElem (by omega)]
    rfl
  refine ⟨?_, h1⟩
  rw [List.getElem?_take_of_lt hr, h1]

/-- The facts that hold when the scan at rank `i` pushes a candidate of length `l` with the
interval end at `j` determine the candidate: its bytes lie in the buffer, hold no delimiter, and
the ranks whose suffix starts with them are exactly `i - 1 .. j - 1`. -/
theorem pushed_candidate_exact (text suf : List Nat) (n i j l o previous_prefix : Nat)
    (hn : n ≤ suf.length) (hsorted : suffixesAscending text (suf.take n) = true)
    (hi : 1 ≤ i) (hin : i < n) (hij : i + 1 ≤ j) (hjn : j ≤ n)
    (hprev : 2 ≤ i → trueLCP text suf (i - 2) ≤ previous_prefix)
    (hl : previous_prefix < l)
    (hchain : ∀ k, i - 1 ≤ k → k + 2 ≤ j → l ≤ trueLCP text suf k)
    (hclose : j < n → trueLCP text suf (j - 1) < l)
    (ho : suf[i]? = some o) :
    ∃ w, bytesAt text o l = some w ∧ DELIMITER ∉ w ∧
      (prefixRanks text suf n w).length = j - i + 1 := by
  have hoD : suf.getD i 0 = o := by
    rw [List.getD_eq_getElem?_getD, ho]; rfl
  have hlt : ∀ r r', r < r' → r' < n →
      lexLt (text.drop (suf.getD r 0)) (text.drop (suf.getD r' 0)) = true := by
    intro r r' h1 h2
    have e1 := (getElem?_take_getD suf n r hn (by omega)).1
    have e2 := (getElem?_take_getD suf n r' hn h2).1
    rw [show r' = r + (r' - r - 1) + 1 by omega] at e2
    have := suffixesAscending_lt text _ hsorted r (r' - r - 1) _ _ e1 e2
    rwa [show r + (r' - r - 1) + 1 = r' by omega] at this
  have hk := hchain (i - 1) (le_refl _) (by omega)
  unfold trueLCP at hk
  rw [show i - 1 + 1 = i by omega, hoD] at hk
  obtain ⟨c1, c2, c3, c4⟩ := commonPrefix_ge l _ _ hk
  refine ⟨(text.drop o).take l, (bytesAt_eq_iff text o l _ (by omega)).2 ⟨c2, rfl⟩, ?_, ?_⟩
  · rw [← c3]; exact c4
  have hM1 : l ≤ (text.drop (suf.getD (i - 1) 0)).length ∧
      (text.drop (suf.getD (i - 1) 0)).take l = (text.drop o).take l := ⟨c1, c3⟩
  have hup : ∀ d, i + d + 1 ≤ j → l ≤ (text.drop (suf.getD (i + d) 0)).length ∧
      (text.drop (suf.getD (i + d) 0)).take l = (text.drop o).take l := by
    intro d
    induction d with
    | zero => intro _; rw [Nat.add_zero, hoD]; exact ⟨c2, rfl⟩
    | succ d ih =>
      intro hd
      obtain ⟨m1, m2⟩ := ih (by omega)
      have hk2 := hchain (i + d) (by omega) (by omega)
      unfold trueLCP at hk2
      obtain ⟨_, b2, b3, _⟩ := commonPrefix_ge l _ _ hk2
      exact ⟨b2, b3.symm.trans m2⟩
  have hin_range : ∀ r, i - 1 ≤ r → r + 1 ≤ j → l ≤ (text.drop (suf.getD r 0)).length ∧
      (text.drop (suf.getD r 0)).take l = (text.drop o).take l := by
    intro r h1 h2
    by_cases hr : r = i - 1
    · rw [hr]; exact hM1
    · have := hup (r - i) (by omega)
      rwa [show i + (r - i) = r by omega] at this
  have hfree : DELIMITER ∉ (text.drop o).take l := by rw [← c3]; exact c4
  have hnotj : j < n → ¬ (l ≤ (text.drop (suf.getD j 0)).length ∧
      (text.drop (suf.getD j 0)).take l = (text.drop o).take l) := by
    intro hj hM
    have hc := hclose hj
    obtain ⟨p1, p2⟩ := hin_range (j - 1) (by omega) (by omega)
    have := commonPrefix_of_eq l (text.drop (suf.getD (j - 1) 0)) (text.drop (suf.getD j 0))
      p1 hM.1 (by rw [p2, hM.2]) (by rw [p2]; exact hfree)
    unfold trueLCP at hc
    rw [show j - 1 + 1 = j by omega] at hc
    omega
  have hafter : ∀ r, j ≤ r → r < n → ¬ (l ≤ (text.drop (suf.getD r 0)).length ∧
      (text.drop (suf.getD r 0)).take l = (text.drop o).take l) := by
    intro r h1 h2 hM
    by_cases hr : r = j
    · subst hr; exact hnotj h2 hM
    · obtain ⟨p1, p2⟩ := hin_range (j - 1) (by omega) (by omega)
      have := lexLt_between l _ _ _ (hlt (j - 1) j (by omega) (by omega))
        (hlt j r (by omega) h2) p1 hM.1 (by rw [p2, hM.2])
      exact hnotj (by omega) ⟨this.1, by rw [this.2, p2]⟩
  have hnot2 : 2 ≤ i → ¬ (l ≤ (text.drop (suf.getD (i - 2) 0)).length ∧
      (text.drop (suf.getD (i - 2) 0)).take l = (text.drop o).take l) := by
    intro h2 hM
    have hp := hprev h2
    have := commonPrefix_of_eq l (text.drop (suf.getD (i - 2) 0))
      (text.drop (suf.getD (i - 1) 0)) hM.1 c1 (by rw [hM.2, c3]) (by rw [hM.2]; exact hfree)
    unfold trueLCP at hp
    rw [show i - 2 + 1 = i - 1 by omega] at hp
    omega
  have hbefore : ∀ r, r + 1 < i → ¬ (l ≤ (text.drop (suf.getD r 0)).length ∧
      (text.drop (suf.getD r 0)).take l = (text.drop o).take l) := by
    intro r h1 hM
    by_cases hr : r = i - 2
    · subst hr; exact hnot2 (by omega) hM
    · have := lexLt_between l _ _ _ (hlt r (i - 2) (by omega) (by omega))
        (hlt (i - 2) (i - 1) (by omega) (by omega)) hM.1 c1 (by rw [hM.2, c3])
      exact hnot2 (by omega) ⟨this.1, by rw [this.2, hM.2]⟩
  unfold prefixRanks
  rw [filter_range_interval (i - 1) (j - 1) n _ ?_ (by omega)]
  · split_ifs <;> omega
  · intro r hr
    have hwl : ((text.drop o).take l).length = l := by
      rw [List.length_take]; omega
    rw [(getElem?_take_getD suf n r hn hr).2]
    simp only [hwl, beq_iff_eq]
    rw [bytesAt_eq_iff text _ l _ (by omega)]
    constructor
    · intro hM
      by_contra hcon
      by_cases hlow : r + 1 < i
      · exact hbefore r hlow hM
      · exact hafter r (by omega) hr hM
    · rintro ⟨h1, h2⟩
      exact hin_range r h1 (by omega)

theorem trueLCP_le_length (text suf : List Nat) (k : Nat) :
    trueLCP text suf k ≤ text.length := by
  have := (commonPrefix_ge (trueLCP text suf k) _ _ (le_refl (trueLCP text suf k))).1
  rw [List.length_drop] at this
  omega

theorem candidateExact_of_pushed (text suf : List Nat) (n o l c : Nat)
    (h : ∃ w, bytesAt text o l = some w ∧ DELIMITER ∉ w ∧
      (prefixRanks text suf n w).length = c) :
    candidateExact text suf n { text := o, length := l, count := c } = true := by
  obtain ⟨w, h1, h2, h3⟩ := h
  unfold candidateExact
  simpa [h1, h3] using h2

theorem FindSubstrings.scan_count_mode_exact (F : Finder) (hcolor : F.do_color = false)
    (hdoc : F.do_document = false) (lcp : List Nat) (i previous_prefix : Nat)
    (hn : F.input0_suffix_count_ ≤ F.input0_suffixes_.length)
    (hsorted : suffixesAscending F.input0
      (F.input0_suffixes_.take F.input0_suffix_count_) = true)
    (hlcp : ∀ r, r + 1 < F.input0_suffix_count_ →
      lcp[r]? = some (trueLCP F.input0 F.input0_suffixes_ r))
    (hi : 1 ≤ i) (hin : i < F.input0_suffix_count_)
    (hprev : 2 ≤ i → trueLCP F.input0 F.input0_suffixes_ (i - 2) ≤ previous_prefix) :
    ∀ (fuel length j count : Nat) (docs : List Nat) (stack0 stack : List Substring),
      i + 1 ≤ j → count = j - i + 1 →
      (∀ k, i - 1 ≤ k → k + 2 ≤ j → k + 1 < F.input0_suffix_count_ →
        length ≤ trueLCP F.input0 F.input0_suffixes_ k) →
      (∀ s ∈ stack0,
        candidateExact F.input0 F.input0_suffixes_ F.input0_suffix_count_ s = true) →
      FindSubstrings.scan F lcp i previous_prefix fuel length j count docs stack0 = some stack →
      ∀ s ∈ stack,
        candidateExact F.input0 F.input0_suffixes_ F.input0_suffix_count_ s = true := by
  intro fuel
  induction fuel with
  | zero => intro length j count docs stack0 stack _ _ _ _ h; simp [FindSubstrings.scan] at h
  | succ fuel ih =>
    intro length j count docs stack0 stack hij hcount hchain hstack h
    rw [FindSubstrings.scan] at h
    by_cases hcond : j ≤ F.input0_suffix_count_ ∧ length > previous_prefix
    · rw [if_pos hcond] at h
      cases hp : lcp[j - 1]? with
      | none => simp only [hp] at h; cases h
      | some p =>
        simp only [hp] at h
        by_cases hpl : p < length
        · have hdec : (length + 2 ^ SIZE_BITS - 1) % 2 ^ SIZE_BITS < length := by
            simp only [SIZE_BITS]
            omega
          have hchain1 : ∀ k, i - 1 ≤ k → k + 2 ≤ j → k + 1 < F.input0_suffix_count_ →
              (length + 2 ^ SIZE_BITS - 1) % 2 ^ SIZE_BITS ≤
                trueLCP F.input0 F.input0_suffixes_ k :=
            fun k h1 h2 h3 => le_trans (le_of_lt hdec) (hchain k h1 h2 h3)
          simp only [if_pos hpl, hcolor, Bool.false_eq_true, if_false] at h
          by_cases hguard : (stack0.isEmpty || (!F.skip_samecount_prefixes ||
              (stack0.head?.map (fun t => t.count)) != some count)) = true
          · simp only [hguard, if_true] at h
            cases hsuf : F.input0_suffixes_[i]? with
            | none => simp only [hsuf] at h; cases h
            | some o =>
              simp only [hsuf, hdoc, Bool.false_eq_true, if_false] at h
              refine ih _ j count docs _ stack hij hcount hchain1 ?_ h
              intro s hs
              rcases List.mem_cons.mp hs with rfl | hs
              · apply candidateExact_of_pushed
                rw [hcount]
                refine pushed_candidate_exact F.input0 F.input0_suffixes_ F.input0_suffix_count_
                  i j length o previous_prefix hn hsorted hi hin hij hcond.1 hprev hcond.2
                  (fun k h1 h2 => hchain k h1 h2 (by omega)) ?_ hsuf
                intro hj
                have := hlcp (j - 1) (by omega)
                rw [hp] at this
                cases this
                exact hpl
              · exact hstack s hs
          · simp only [hguard, Bool.false_eq_true, if_false] at h
            exact ih _ j count docs stack0 stack hij hcount hchain1 hstack h
        · simp only [if_neg hpl, hdoc, Bool.false_eq_true, if_false] at h
          refine ih _ (j + 1) (count + 1) docs stack0 stack (by omega) (by omega) ?_ hstack h
          intro k h1 h2 h3
          by_cases hk : k + 2 ≤ j
          · exact hchain k h1 hk h3
          · have hkj : k = j - 1 := by omega
            subst hkj
            have := hlcp (j - 1) h3
            rw [hp] at this
            cases this
            omega
    · rw [if_neg hcond] at h
      cases h; exact hstack

theorem FindSubstrings.scan_count_mode_total (F : Finder) (hcolor : F.do_color = false)
    (hdoc : F.do_document = false) (lcp : List Nat) (i previous_prefix : Nat)
    (hlen : F.input0_suffix_count_ ≤ lcp.length) (hi : i < F.input0_suffixes_.length) :
    ∀ (fuel length j count : Nat) (docs : List Nat) (stack0 : List Substring),
      1 ≤ j → (F.input0_suffix_count_ + 1 - j) + length < fuel →
      ∃ stack, FindSubstrings.scan F lcp i previous_prefix fuel length j count docs stack0 =
        some stack := by
  intro fuel
  induction fuel with
  | zero => intro length j count docs stack0 _ h; omega
  | succ fuel ih =>
    intro length j count docs stack0 hj hfuel
    rw [FindSubstrings.scan]
    by_cases hcond : j ≤ F.input0_suffix_count_ ∧ length > previous_prefix
    · rw [if_pos hcond]
      obtain ⟨p, hp⟩ : ∃ p, lcp[j - 1]? = some p :=
        ⟨_, List.getElem?_eq_getElem (show j - 1 < lcp.length by omega)⟩
      simp only [hp]
      by_cases hpl : p < length
      · have hdec : (length + 2 ^ SIZE_BITS - 1) % 2 ^ SIZE_BITS < length := by
          simp only [SIZE_BITS]
          omega
        simp only [if_pos hpl, hcolor, Bool.false_eq_true, if_false]
        by_cases hguard : (stack0.isEmpty || (!F.skip_samecount_prefixes ||
            (stack0.head?.map (fun t => t.count)) != some count)) = true
        · simp only [hguard, if_true]
          obtain ⟨o, hsuf⟩ : ∃ o, F.input0_suffixes_[i]? = some o :=
            ⟨_, List.getElem?_eq_getElem hi⟩
          simp only [hsuf]
          exact ih _ j count docs _ hj (by omega)
        · simp only [hguard, Bool.false_eq_true, if_false]
          exact ih _ j count docs _ hj (by omega)
      · simp only [if_neg hpl, hdoc, Bool.false_eq_true, if_false]
        exact ih _ (j + 1) (count + 1) docs _ (by omega) (by omega)
    · rw [if_neg hcond]
      exact ⟨stack0, rfl⟩

/-- The enumerator in count mode with colour mode off.  For a sorted filtered suffix array and
an array `lcp` whose entries below the last are the true delimiter-capped LCPs (the last entry
arbitrary), the forward scan that the loop of `FindSubstrings` opens at rank `i - 1` returns,
and every candidate it pushes lies inside the buffer, holds no delimiter and carries as count
the number of ranks whose suffix starts with its bytes. -/
theorem FindSubstrings.scan_count_mode_sound (F : Finder) (hcolor : F.do_color = false)
    (hdoc : F.do_document = false) (lcp : List Nat) (i : Nat) (docs : List Nat)
    (hn : F.input0_suffix_count_ ≤ F.input0_suffixes_.length)
    (hsorted : suffixesAscending F.input0
      (F.input0_suffixes_.take F.input0_suffix_count_) = true)
    (hlen : lcp.length = F.input0_suffix_count_)
    (hlcp : ∀ r, r + 1 < F.input0_suffix_count_ →
      lcp[r]? = some (trueLCP F.input0 F.input0_suffixes_ r))
    (hi : 1 ≤ i) (hin : i < F.input0_suffix_count_) :
    ∃ stack,
      FindSubstrings.scan F lcp i (if i = 1 then 0 else lcp.getD (i - 2) 0)
        (F.input0_suffix_count_ + lcp.getD (i - 1) 0 + 2) (lcp.getD (i - 1) 0) (i + 1) 2
        docs [] = some stack ∧
      ∀ s ∈ stack,
        candidateExact F.input0 F.input0_suffixes_ F.input0_suffix_count_ s = true := by
  obtain ⟨stack, hstack⟩ := FindSubstrings.scan_count_mode_total F hcolor hdoc lcp i
    (if i = 1 then 0 else lcp.getD (i - 2) 0) (by omega) (by omega)
    (F.input0_suffix_count_ + lcp.getD (i - 1) 0 + 2) (lcp.getD (i - 1) 0) (i + 1) 2 docs []
    (by omega) (by omega)
  refine ⟨stack, hstack, ?_⟩
  have h1 : lcp.getD (i - 1) 0 = trueLCP F.input0 F.input0_suffixes_ (i - 1) := by
    rw [List.getD_eq_getElem?_getD, hlcp (i - 1) (by omega)]; rfl
  refine FindSubstrings.scan_count_mode_exact F hcolor hdoc lcp i _ hn hsorted hlcp hi hin ?_
    _ _ _ _ docs [] stack (le_refl _) (by omega) ?_ (fun s hs => by cases hs) hstack
  · intro h2
    rw [if_neg (by omega), List.getD_eq_getElem?_getD, hlcp (i - 2) (by omega)]
    exact le_refl _
  · intro k hk1 hk2 _
    rw [h1, show k = i - 1 by omega]

/-- The scan of A = "abab\0" opened at rank 0, with the true LCP values 2, 0, 1 and the last
entry arbitrary (here 3): both candidates pushed, "ab" and "a", are exact. -/
theorem FindSubstrings.scan_count_mode_sound_abab :
    FindSubstrings.scan
      { input0 := ascii "abab\x00", input0_suffixes_ := [2, 0, 3, 1, 1],
        input0_suffix_count_ := 4 } [2, 0, 1, 3] 1 0 8 2 2 2 [] []
      = some [⟨0, 1, 2⟩, ⟨0, 2, 2⟩] ∧
    prefixRanks (ascii "abab\x00") [2, 0, 3, 1, 1] 4 (ascii "a") = [0, 1] ∧
    prefixRanks (ascii "abab\x00") [2, 0, 3, 1, 1] 4 (ascii "ab") = [0, 1] ∧
    candidateExact (ascii "abab\x00") [2, 0, 3, 1, 1] 4 ⟨0, 1, 2⟩ = true ∧
    candidateExact (ascii "abab\x00") [2, 0, 3, 1, 1] 4 ⟨0, 2, 2⟩ = true ∧
    candidateExact (ascii "abab\x00") [2, 0, 3, 1, 1] 4 ⟨0, 2, 3⟩ = false ∧
    candidateExact (ascii "abab\x00") [2, 0, 3, 1, 1] 4 ⟨1, 4, 1⟩ = false := by
  refine ⟨by decide, by decide, by decide, by decide, by decide, by decide, by decide⟩

/-! ## Same-count suppression in count mode -/

/-- In count mode with `skip_samecount_prefixes` on, the candidates that a forward scan pushes
carry strictly increasing counts in the order of the pushes: no two of them have the same
count, and of the nested candidates with one count only the first pushed (the longest) is on
the stack. -/
theorem FindSubstrings.scan_count_mode_distinct_counts (F : Finder)
    (hdoc : F.do_document = false) (hskip : F.skip_samecount_prefixes = true)
    (shared_prefixes : List Nat) (i previous_prefix : Nat) :
    ∀ (fuel length j count : Nat) (docs : List Nat) (stack0 stack : List Substring),
      stack0.Pairwise (fun a b => b.count < a.count) →
      (∀ s ∈ stack0, s.count ≤ count) →
      FindSubstrings.scan F shared_prefixes i previous_prefix fuel length j count docs stack0 =
        some stack →
      stack.Pairwise (fun a b => b.count < a.count) := by
  intro fuel
  induction fuel with
  | zero => intro length j count docs stack0 stack _ _ h; simp [FindSubstrings.scan] at h
  | succ fuel ih =>
    intro length j count docs stack0 stack hpw hle h
    rw [FindSubstrings.scan] at h
    by_cases hcond : j ≤ F.input0_suffix_count_ ∧ length > previous_prefix
    · rw [if_pos hcond] at h
      cases hp : shared_prefixes[j - 1]? with
      | none => simp only [hp] at h; cases h
      | some p =>
        simp only [hp] at h
        by_cases hpl : p < length
        · simp only [if_pos hpl] at h
          by_cases hguard : (stack0.isEmpty || (!F.skip_samecount_prefixes ||
              (stack0.head?.map (fun t => t.count)) != some count)) = true
          · simp only [hguard, if_true] at h
            cases hsuf : F.input0_suffixes_[i]? with
            | none => simp only [hsuf] at h; cases h
            | some o =>
              simp only [hsuf, hdoc, Bool.false_eq_true, if_false] at h
              have hlt : ∀ s ∈ stack0, s.count < count := by
                cases stack0 with
                | nil => intro s hs; cases hs
                | cons t rest =>
                  have hne : t.count ≠ count := by
                    simpa [hskip] using hguard
                  have ht := hle t (List.mem_cons_self _ _)
                  intro s hs
                  rcases List.mem_cons.mp hs with rfl | hs
                  · omega
                  · have := (List.pairwise_cons.mp hpw).1 s hs
                    omega
              refine ih _ j count docs _ stack (List.Pairwise.cons (fun s hs => hlt s hs) hpw) ?_ h
              intro s hs
              rcases List.mem_cons.mp hs with rfl | hs
              · exact le_refl _
              · exact hle s hs
          · simp only [hguard, Bool.false_eq_true, if_false] at h
            exact ih _ j count docs stack0 stack hpw hle h
        · simp only [if_neg hpl, hdoc, Bool.false_eq_true, if_false] at h
          exact ih _ _ _ _ stack0 stack hpw (fun s hs => Nat.le_succ_of_le (hle s hs)) h
    · rw [if_neg hcond] at h
      cases h; exact hpw

/-! ## FindDocumentBounds on buffers of at least one byte -/

theorem documentEnds.go_without_delimiter :
    ∀ (rem : List Nat) (pos : Nat), rem.indexOf? DELIMITER = none →
      documentEnds.go pos rem = [pos + rem.length] := by
  intro rem
  induction rem with
  | nil => intro pos _; simp [documentEnds.go]
  | cons b rest ih =>
    intro pos h
    simp only [List.indexOf?, List.findIdx?_cons] at h
    by_cases hb : b = DELIMITER
    · simp [hb] at h
    · have hb' : (b == DELIMITER) = false := by simpa using hb
      rw [hb'] at h
      simp only [Bool.false_eq_true, if_false, Nat.zero_add, List.findIdx?_succ,
        Option.map_eq_none'] at h
      rw [documentEnds.go, if_neg hb, ih (pos + 1) (by simpa [List.indexOf?] using h)]
      simp; omega

theorem documentEnds.go_at_delimiter :
    ∀ (rem : List Nat) (pos k : Nat), rem.indexOf? DELIMITER = some k →
      k < rem.length ∧
      documentEnds.go pos rem = (pos + k) ::
        (if (rem.drop (k + 1)).isEmpty then []
          else documentEnds.go (pos + k + 1) (rem.drop (k + 1))) := by
  intro rem
  induction rem with
  | nil => intro pos k h; simp [List.indexOf?] at h
  | cons b rest ih =>
    intro pos k h
    simp only [List.indexOf?, List.findIdx?_cons] at h
    by_cases hb : b = DELIMITER
    · have hb' : (b == DELIMITER) = true := by simpa using hb
      rw [hb'] at h
      simp only [if_true, Option.some.injEq] at h
      subst h
      refine ⟨by simp, ?_⟩
      rw [documentEnds.go, if_pos hb]
      simp
    · have hb' : (b == DELIMITER) = false := by simpa using hb
      rw [hb'] at h
      simp only [Bool.false_eq_true, if_false, Nat.zero_add, List.findIdx?_succ,
        Option.map_eq_some'] at h
      obtain ⟨k', hk', rfl⟩ := h
      obtain ⟨h1, h2⟩ := ih (pos + 1) k' (by simpa [List.indexOf?] using hk')
      refine ⟨by simp; omega, ?_⟩
      rw [documentEnds.go, if_neg hb, h2]
      simp only [List.drop_succ_cons]
      rw [show pos + 1 + k' = pos + (k' + 1) by omega]

theorem FindDocumentBounds.loop_eq_go (text : List Nat) :
    ∀ (fuel ch : Nat) (acc : List Nat), ch ≤ text.length → text.length - ch < fuel →
      FindDocumentBounds.loop text fuel ch acc =
        some (acc ++ if ch = text.length then [] else documentEnds.go ch (text.drop ch)) := by
  intro fuel
  induction fuel with
  | zero => intro ch acc _ h; omega
  | succ fuel ih =>
    intro ch acc hch hfuel
    rw [FindDocumentBounds.loop]
    by_cases hend : ch = text.length
    · rw [if_pos hend, if_pos hend, List.append_nil]
    · rw [if_neg hend, if_neg hend]
      unfold memchrDelimiter
      cases hidx : (text.drop ch).indexOf? DELIMITER with
      | none =>
        have hgo := documentEnds.go_without_delimiter (text.drop ch) ch hidx
        simp only [Option.getD_none, if_true]
        rw [hgo, List.length_drop, show ch + (text.length - ch) = text.length by omega]
      | some k =>
        obtain ⟨hk, hgo⟩ := documentEnds.go_at_delimiter (text.drop ch) ch k hidx
        have hk' : ch + k < text.length := by simp at hk; omega
        simp only [Option.getD_some]
        rw [if_neg (by omega), ih (ch + k + 1) _ (by omega) (by omega), hgo]
        simp only [List.drop_drop, List.append_assoc, List.singleton_append]
        by_cases hlast : ch + k + 1 = text.length
        · rw [if_pos hlast]
          have : (List.drop (ch + (k + 1)) text).isEmpty = true := by
            simp [List.isEmpty_iff]; omega
          rw [this]; rfl
        · rw [if_neg hlast]
          have : (List.drop (ch + (k + 1)) text).isEmpty = false := by
            simp [List.isEmpty_iff]; omega
          rw [this]
          simp only [Bool.false_eq_true, if_false]
          rw [show ch + (k + 1) = ch + k + 1 by omega]

theorem delimiterOffsets_cons (b : Nat) (rest : List Nat) :
    delimiterOffsets (b :: rest) =
      (if b = DELIMITER then [0] else []) ++ (delimiterOffsets rest).map (· + 1) := by
  unfold delimiterOffsets
  rw [List.length_cons, List.range_succ_eq_map, List.filter_cons, List.filter_map]
  by_cases hb : b = DELIMITER
  · simp [hb, Function.comp_def]
  · simp [hb, Function.comp_def]

theorem documentEnds.go_spec :
    ∀ (rem : List Nat) (pos : Nat), rem ≠ [] →
      documentEnds.go pos rem =
        (delimiterOffsets rem).map (· + pos) ++
          (if rem.getLast? = some DELIMITER then [] else [pos + rem.length]) := by
  intro rem
  induction rem with
  | nil => intro pos h; exact absurd rfl h
  | cons b rest ih =>
    intro pos _
    rw [documentEnds.go, delimiterOffsets_cons]
    cases rest with
    | nil =>
      by_cases hb : b = DELIMITER
      · simp [hb, delimiterOffsets]
      · simp [hb, delimiterOffsets, documentEnds.go]
    | cons c rest =>
      have hih := ih (pos + 1) (by simp)
      have hlast : (b :: c :: rest).getLast? = (c :: rest).getLast? := by
        simp [List.getLast?_cons_cons]
      rw [hlast, hih]
      have hmap : List.map (· + pos) (List.map (· + 1) (delimiterOffsets (c :: rest))) =
          List.map (· + (pos + 1)) (delimiterOffsets (c :: rest)) := by
        rw [List.map_map]
        apply List.map_congr_left
        intro a _
        simp only [Function.comp_apply]
        omega
      have hlen : pos + 1 + (c :: rest).length = pos + (b :: c :: rest).length := by
        simp only [List.length_cons]; omega
      by_cases hb : b = DELIMITER
      · simp only [hb, if_true, List.isEmpty_cons, Bool.false_eq_true, if_false,
          List.map_append, List.map_cons, List.map_nil, Nat.zero_add, hmap, hlen,
          List.singleton_append, List.cons_append, List.nil_append]
      · simp only [hb, if_false, List.map_append, List.map_nil, List.nil_append, hmap, hlen]

theorem delimiterOffsets_lt (text : List Nat) :
    (delimiterOffsets text).Pairwise (· < ·) ∧ ∀ p ∈ delimiterOffsets text, p < text.length := by
  unfold delimiterOffsets
  refine ⟨List.Pairwise.filter _ (List.pairwise_lt_range _), fun p hp => ?_⟩
  exact List.mem_range.mp (List.mem_filter.mp hp).1

/-- For every buffer of at least one byte, `FindDocumentBounds` (called with an empty vector)
completes with its assertion holding and returns the offsets of all delimiter bytes in ascending
order, followed by `size` when the buffer does not end on a delimiter; the list has at least one
entry and is strictly increasing. -/
theorem FindDocumentBounds_nonempty_buffer (text : List Nat) (hne : text ≠ []) :
    FindDocumentBounds [] text = some (documentEnds text) ∧
    documentEnds text ≠ [] ∧ (documentEnds text).Pairwise (· < ·) := by
  have hlen : text.length ≠ 0 := fun h => hne (List.length_eq_zero.mp h)
  have hloop := FindDocumentBounds.loop_eq_go text (text.length + 1) 0 [] (Nat.zero_le _)
    (by omega)
  rw [if_neg (fun h => hlen h.symm), List.drop_zero, documentEnds.go_spec text 0 hne] at hloop
  have hspec : List.map (· + 0) (delimiterOffsets text) ++
      (if text.getLast? = some DELIMITER then [] else [0 + text.length]) = documentEnds text := by
    unfold documentEnds
    simp
  rw [List.nil_append, hspec] at hloop
  have hnonempty : documentEnds text ≠ [] := by
    unfold documentEnds
    by_cases hl : text.getLast? = some DELIMITER
    · rw [if_pos hl, List.append_nil]
      intro hnil
      have hmem : text.length - 1 ∈ delimiterOffsets text := by
        unfold delimiterOffsets
        rw [List.mem_filter, List.mem_range]
        refine ⟨by omega, ?_⟩
        rw [List.getLast?_eq_getElem?] at hl
        simp [hl]
      rw [hnil] at hmem
      cases hmem
    · rw [if_neg hl]
      simp
  refine ⟨?_, hnonempty, ?_⟩
  · unfold FindDocumentBounds
    rw [hloop]
    have : (documentEnds text).isEmpty = false := by
      simpa [List.isEmpty_iff] using hnonempty
    simp [this]
  · obtain ⟨h1, h2⟩ := delimiterOffsets_lt text
    unfold documentEnds
    by_cases hl : text.getLast? = some DELIMITER
    · rw [if_pos hl, List.append_nil]; exact h1
    · rw [if_neg hl, List.pairwise_append]
      exact ⟨h1, List.pairwise_singleton _ _, fun a ha b hb => by
        rw [List.mem_singleton] at hb; subst hb; exact h2 a ha⟩

end SubstringFrequencies
